import Mathlib

/-!
# COREM spiking output stage: shallow embedding and verified properties

Source: `src/COREM/src/SpikingOutput.cpp` (class `SpikingOutput`).

Number model.  A C++ `double` is embedded as `Dbl`: a rational, `+inf`, `-inf` or
`NaN`.  Arithmetic and comparisons follow IEEE 754 on the special values
(`inf - inf = NaN`, `0 * inf = NaN`, `x / 0 = ±inf`, every ordered comparison
with `NaN` is false), and every zero is `+0`.

The program is embedded twice.  The first embedding (`inp_pixel_to_period`,
`update_neuron`, `update`, ..) computes on finite values exactly, without
rounding or overflow, and indexes the pixel loop with unbounded offsets; it
carries the properties that do not depend on the values rounded (the setters,
the gate of `feedInput`, the order of the event list, the neuron indices, which
draws are made, sign and finiteness of the period).  The second embedding
(namespace `B64`) follows the same source lines with every arithmetic operation
rounded to binary64 (`Dbl.round64`: round to nearest, ties to even, subnormal
range, overflow to an infinity) and with the iterators of the pixel loop
advancing modulo the 64-bit address space; it carries the properties that
depend on the values computed (spike times, predicted times, number of spikes,
termination).  Theorems marked "Exact arithmetic" show what holds of the first
embedding only.

Control model.  `update()` contains an inner emission loop without a static
bound, so the embedding threads a fuel counter through it: `none` means that the
call did not return a result within the fuel (or touched a state cell outside
the allocated buffers).
-/

namespace COREM

/-! ## Doubles -/

/-- Value of a C++ double: exact rational, the two infinities, or NaN. -/
inductive Dbl where
  | fin (q : ℚ)
  | pinf
  | ninf
  | nan
  deriving DecidableEq

namespace Dbl

/-- Unary minus. -/
def neg : Dbl → Dbl
  | fin q => fin (-q)
  | pinf => ninf
  | ninf => pinf
  | nan => nan

/-- Addition; opposite infinities give NaN. -/
def add : Dbl → Dbl → Dbl
  | fin a, fin b => fin (a + b)
  | fin _, pinf => pinf
  | fin _, ninf => ninf
  | pinf, fin _ => pinf
  | pinf, pinf => pinf
  | ninf, fin _ => ninf
  | ninf, ninf => ninf
  | _, _ => nan

/-- Subtraction. -/
def sub (a b : Dbl) : Dbl := add a (neg b)

/-- Multiplication; zero times infinity gives NaN. -/
def mul : Dbl → Dbl → Dbl
  | fin a, fin b => fin (a * b)
  | fin a, pinf => if a = 0 then nan else if 0 < a then pinf else ninf
  | fin a, ninf => if a = 0 then nan else if 0 < a then ninf else pinf
  | pinf, fin b => if b = 0 then nan else if 0 < b then pinf else ninf
  | ninf, fin b => if b = 0 then nan else if 0 < b then ninf else pinf
  | pinf, pinf => pinf
  | pinf, ninf => ninf
  | ninf, pinf => ninf
  | ninf, ninf => pinf
  | _, _ => nan

/-- Division; a non-zero value over zero is an infinity, `0/0` and `inf/inf` are NaN. -/
def div : Dbl → Dbl → Dbl
  | fin a, fin b =>
    if b = 0 then (if a = 0 then nan else if 0 < a then pinf else ninf) else fin (a / b)
  | fin _, pinf => fin 0
  | fin _, ninf => fin 0
  | pinf, fin b => if 0 ≤ b then pinf else ninf
  | ninf, fin b => if 0 ≤ b then ninf else pinf
  | _, _ => nan

/-- Comparison `a < b` of doubles (false when either side is NaN). -/
def lt : Dbl → Dbl → Bool
  | fin a, fin b => decide (a < b)
  | fin _, pinf => true
  | ninf, fin _ => true
  | ninf, pinf => true
  | _, _ => false

/-- Comparison `a <= b` of doubles (false when either side is NaN). -/
def le : Dbl → Dbl → Bool
  | fin a, fin b => decide (a ≤ b)
  | fin _, pinf => true
  | ninf, fin _ => true
  | ninf, pinf => true
  | pinf, pinf => true
  | ninf, ninf => true
  | _, _ => false

/-- Comparison `a > b`. -/
def gt (a b : Dbl) : Bool := lt b a

/-- Comparison `a >= b`. -/
def ge (a b : Dbl) : Bool := le b a

/-- The C library predicate `isfinite`. -/
def isfinite : Dbl → Bool
  | fin _ => true
  | _ => false

/-- Maximum of two doubles as a number: NaN when either argument is NaN
(the IEEE 754 `maximum` operation), the larger argument otherwise. -/
def max (a b : Dbl) : Dbl :=
  match a, b with
  | nan, _ => nan
  | _, nan => nan
  | a, b => if lt a b then b else a

instance : Add Dbl := ⟨add⟩
instance : Sub Dbl := ⟨sub⟩
instance : Mul Dbl := ⟨mul⟩
instance : Div Dbl := ⟨div⟩
instance : Neg Dbl := ⟨neg⟩

end Dbl

/-! ## Data model -/

/-- One output event, `spike_t`: output neuron index and spike time in seconds. -/
structure spike_t where
  neuron : Nat
  time : Dbl
  deriving DecidableEq

/-- The two diagnostics that `update()` prints on `cout`, with the offending spike time. -/
inductive InternalError where
  | previous_step (time : Dbl)
  | indeterminate (time : Dbl)
  deriving DecidableEq

/-- The twelve user parameters of `SpikingOutput` (periods and times in ms). -/
structure Config where
  Min_period : Dbl
  Longest_sustained_period : Dbl
  Input_threshold : Dbl
  Spk_freq_per_inp : Dbl
  Spike_std_dev : Dbl
  Min_period_std_dev : Dbl
  Start_time : Dbl
  End_time : Dbl
  Random_init : Dbl
  First_inp_ind : Nat
  Inp_ind_inc : Nat
  Total_inputs : Nat
  deriving DecidableEq

/-- Random number source: what `norm_dist(rand_gen)`, `gam_dist(rand_gen)` and
`unif_dist(rand_gen)` return in a given generator state.  `norm_dist g sigma` is a sample of
the zero-mean Gaussian with the given standard deviation, `gam_dist g k theta` a sample of
Gamma(k, theta), `unif_dist g` a sample of the uniform distribution on [0, 1).  Every draw
advances the generator state by one. -/
structure RandSrc where
  norm_dist : Nat → Dbl → Dbl
  gam_dist : Nat → Dbl → Dbl → Dbl
  unif_dist : Nat → Dbl

/-- State of a `SpikingOutput` object.  `sizeX`, `sizeY`, `step` and `simTime` are the members
inherited from the `module` base class; images are flattened in pixel-offset order and the
empty image is the empty list.  `norm_dist_sigma` is the parameter held by `norm_dist`,
`rand_gen` the state of the generator and `cout` the diagnostics printed so far. -/
structure SpikingOutput extends Config where
  sizeX : Nat
  sizeY : Nat
  step : Dbl
  simTime : Dbl
  norm_dist_sigma : Dbl
  rand_gen : Nat
  inputImage : List Dbl
  last_firing_period : List Dbl
  next_spk_time : List Dbl
  out_spks : List spike_t
  cout : List InternalError

/-! ## Rate model -/

/-- The method `SpikingOutput::inp_pixel_to_period`: firing period in seconds for a pixel value,
together with the generator state after the call. -/
def inp_pixel_to_period (R : RandSrc) (c : Config) (norm_dist_sigma : Dbl) (rand_gen : Nat)
    (pixel_value : Dbl) : Dbl × Nat :=
  let max_period_sec := c.Longest_sustained_period / Dbl.fin 1000
  let lim : Dbl × Nat :=
    if Dbl.gt c.Min_period_std_dev (Dbl.fin 0) then
      (c.Min_period / Dbl.fin 1000 + R.norm_dist rand_gen norm_dist_sigma, rand_gen + 1)
    else
      (c.Min_period / Dbl.fin 1000, rand_gen)
  let cur_min_period_sec := lim.1
  let firing_period_sec : Dbl :=
    if Dbl.lt pixel_value c.Input_threshold then Dbl.pinf
    else Dbl.fin 1 / ((pixel_value - c.Input_threshold) * c.Spk_freq_per_inp
                        + Dbl.fin 1 / max_period_sec)
  let drawn : Dbl × Nat :=
    if c.Spike_std_dev ≠ Dbl.fin 0 ∧ firing_period_sec.isfinite = true then
      let spk_variance_sec : Dbl :=
        if Dbl.gt c.Spike_std_dev (Dbl.fin 0) then
          (c.Spike_std_dev / Dbl.fin 1000) * (c.Spike_std_dev / Dbl.fin 1000)
        else firing_period_sec
      let gam_k := firing_period_sec * firing_period_sec / spk_variance_sec
      let gam_theta := spk_variance_sec / firing_period_sec
      (R.gam_dist lim.2 gam_k gam_theta, lim.2 + 1)
    else (firing_period_sec, lim.2)
  (if Dbl.lt drawn.1 cur_min_period_sec then cur_min_period_sec else drawn.1, drawn.2)

/-- The local `cur_min_period_sec` of `inp_pixel_to_period` (lines 291-294), with the generator
state after it: `Min_period/1000`, plus a Gaussian sample when the soft limit is chosen. -/
def cur_min_period_sec (R : RandSrc) (c : Config) (norm_dist_sigma : Dbl) (rand_gen : Nat) :
    Dbl × Nat :=
  if Dbl.gt c.Min_period_std_dev (Dbl.fin 0) then
    (c.Min_period / Dbl.fin 1000 + R.norm_dist rand_gen norm_dist_sigma, rand_gen + 1)
  else
    (c.Min_period / Dbl.fin 1000, rand_gen)

/-- The local `firing_period_sec` of `inp_pixel_to_period` as lines 297-300 compute it, before
jitter and saturation: the deterministic period of the pixel value. -/
def firing_period_sec (c : Config) (pixel_value : Dbl) : Dbl :=
  if Dbl.lt pixel_value c.Input_threshold then Dbl.pinf
  else Dbl.fin 1 / ((pixel_value - c.Input_threshold) * c.Spk_freq_per_inp
                      + Dbl.fin 1 / (c.Longest_sustained_period / Dbl.fin 1000))

/-- The local `spk_variance_sec` of `inp_pixel_to_period` (lines 310-313): variance of the
inter-spike intervals for the deterministic period `firing_period_sec`. -/
def spk_variance_sec (c : Config) (firing_period_sec : Dbl) : Dbl :=
  if Dbl.gt c.Spike_std_dev (Dbl.fin 0) then
    (c.Spike_std_dev / Dbl.fin 1000) * (c.Spike_std_dev / Dbl.fin 1000)
  else firing_period_sec

/-- The local `gam_k` of `inp_pixel_to_period` (line 318): shape of the Gamma distribution. -/
def gam_k (c : Config) (firing_period_sec : Dbl) : Dbl :=
  firing_period_sec * firing_period_sec / spk_variance_sec c firing_period_sec

/-- The local `gam_theta` of `inp_pixel_to_period` (line 319): scale of the Gamma
distribution. -/
def gam_theta (c : Config) (firing_period_sec : Dbl) : Dbl :=
  spk_variance_sec c firing_period_sec / firing_period_sec

/-! ## Event ordering -/

/-- The comparison function `spk_time_comp` handed to `std::sort`. -/
def spk_time_comp (spk1 spk2 : spike_t) : Bool :=
  let time_diff := spk2.time - spk1.time
  if Dbl.gt time_diff (Dbl.fin 0) then true
  else if Dbl.lt time_diff (Dbl.fin 0) then false
  else decide (spk1.neuron < spk2.neuron)

/-- Insertion of one spike into a sorted run: it goes after the leading spikes that compare
before it. -/
def sort_insert (comp : spike_t → spike_t → Bool) (a : spike_t) : List spike_t → List spike_t
  | [] => [a]
  | b :: l => if comp b a then b :: sort_insert comp a l else a :: b :: l

/-- The library call `std::sort(first, last, comp)`, as an insertion sort.  For a comparison
that is a strict total order on the sorted values (as `spk_time_comp` is on spikes whose
times are not NaN) the sorted arrangement is unique, so the algorithm chosen is immaterial. -/
def std_sort (comp : spike_t → spike_t → Bool) : List spike_t → List spike_t
  | [] => []
  | a :: l => sort_insert comp a (std_sort comp l)

/-- Ascending order of events by time with the neuron index as tie-break: `a` may stand
before `b`. -/
def spk_le (a b : spike_t) : Prop :=
  Dbl.lt a.time b.time = true ∨ (a.time = b.time ∧ a.neuron ≤ b.neuron)

instance : DecidableRel spk_le := fun a b => by
  unfold spk_le
  infer_instance

/-! ## Slot event generation -/

/-- What the body of the pixel loop of `update()` works on for the current pixel: the two state
cells under the iterators, the spikes of the slot so far, the generator and the log. -/
structure PixelRun where
  last_firing_period : Dbl
  next_spk_time : Dbl
  slot_spks : List spike_t
  rand_gen : Nat
  cout : List InternalError
  deriving DecidableEq

/-- The emission loop `for(;new_spk.time < tslot_start + slot_len;)` of `update()`. -/
def emit_loop (R : RandSrc) (c : Config) (sigma : Dbl) (tslot_start slot_len pixel : Dbl) :
    Nat → spike_t → PixelRun → Option PixelRun
  | 0, _, _ => none
  | fuel + 1, new_spk, s =>
    if Dbl.lt new_spk.time (tslot_start + slot_len) then
      let p := inp_pixel_to_period R c sigma s.rand_gen pixel
      if p.1.isfinite then
        emit_loop R c sigma tslot_start slot_len pixel fuel
          { neuron := new_spk.neuron, time := new_spk.time + p.1 }
          { last_firing_period := p.1
            next_spk_time := new_spk.time + p.1
            slot_spks := s.slot_spks ++ [new_spk]
            rand_gen := p.2
            cout := s.cout }
      else
        some
          { last_firing_period :=
              if s.last_firing_period = Dbl.fin 0 then (tslot_start + slot_len) - new_spk.time
              else s.last_firing_period
            next_spk_time := tslot_start + slot_len
            slot_spks := s.slot_spks ++ [new_spk]
            rand_gen := p.2
            cout := s.cout }
    else some s

/-- The expression for the first candidate spike time of a slot (line 417 of the source). -/
def first_spk_time (tslot_start told_next_spk inp_pix_per old_per : Dbl) : Dbl :=
  tslot_start + (told_next_spk - tslot_start) * inp_pix_per / old_per

/-- Body of the pixel loop of `update()` for one admitted pixel, from the call of
`inp_pixel_to_period` to the end of the if/else. -/
def update_neuron (R : RandSrc) (c : Config) (sigma : Dbl) (tslot_start slot_len : Dbl)
    (fuel : Nat) (out_neu_idx : Nat) (pixel : Dbl) (s : PixelRun) : Option PixelRun :=
  let p := inp_pixel_to_period R c sigma s.rand_gen pixel
  if p.1.isfinite then
    let old_per := s.last_firing_period
    let told_next_spk := s.next_spk_time
    let nst := first_spk_time tslot_start told_next_spk p.1 old_per
    let new_spk : spike_t := { neuron := out_neu_idx, time := nst }
    let cout1 :=
      if Dbl.lt new_spk.time tslot_start then
        s.cout ++ [InternalError.previous_step new_spk.time]
      else s.cout
    let cout2 :=
      if nst.isfinite then cout1 else cout1 ++ [InternalError.indeterminate new_spk.time]
    emit_loop R c sigma tslot_start slot_len pixel fuel new_spk
      { last_firing_period := p.1
        next_spk_time := nst
        slot_spks := s.slot_spks
        rand_gen := p.2
        cout := cout2 }
  else
    some { s with next_spk_time := s.next_spk_time + slot_len, rand_gen := p.2 }

/-- Control flow of the emission loop: `true` when the run of `emit_loop` from this state
reaches, within the fuel, the `else` branch of the test `isfinite(inp_pix_per)` inside the loop
(the period re-evaluated after a spike is not finite: "period=inf -> spike at infinite time:
exit loop").  The tests and the state carried from one iteration to the next are those of
`emit_loop`. -/
def emit_loop_goes_silent (R : RandSrc) (c : Config) (sigma : Dbl)
    (tslot_start slot_len pixel : Dbl) : Nat → spike_t → PixelRun → Bool
  | 0, _, _ => false
  | fuel + 1, new_spk, s =>
    if Dbl.lt new_spk.time (tslot_start + slot_len) then
      let p := inp_pixel_to_period R c sigma s.rand_gen pixel
      if p.1.isfinite then
        emit_loop_goes_silent R c sigma tslot_start slot_len pixel fuel
          { neuron := new_spk.neuron, time := new_spk.time + p.1 }
          { last_firing_period := p.1
            next_spk_time := new_spk.time + p.1
            slot_spks := s.slot_spks ++ [new_spk]
            rand_gen := p.2
            cout := s.cout }
      else true
    else false

/-- Control flow of the body of the pixel loop: `true` when the run of `update_neuron` from
this state enters the emission loop and that loop reaches its `else` branch. -/
def update_neuron_goes_silent (R : RandSrc) (c : Config) (sigma : Dbl)
    (tslot_start slot_len : Dbl) (fuel : Nat) (out_neu_idx : Nat) (pixel : Dbl)
    (s : PixelRun) : Bool :=
  let p := inp_pixel_to_period R c sigma s.rand_gen pixel
  if p.1.isfinite then
    let old_per := s.last_firing_period
    let told_next_spk := s.next_spk_time
    let nst := first_spk_time tslot_start told_next_spk p.1 old_per
    let new_spk : spike_t := { neuron := out_neu_idx, time := nst }
    let cout1 :=
      if Dbl.lt new_spk.time tslot_start then
        s.cout ++ [InternalError.previous_step new_spk.time]
      else s.cout
    let cout2 :=
      if nst.isfinite then cout1 else cout1 ++ [InternalError.indeterminate new_spk.time]
    emit_loop_goes_silent R c sigma tslot_start slot_len pixel fuel new_spk
      { last_firing_period := p.1
        next_spk_time := nst
        slot_spks := s.slot_spks
        rand_gen := p.2
        cout := cout2 }
  else false

/-- Local state of `update()` while it walks the image: the two state images, the spikes of
the slot, the generator and the log. -/
structure SlotRun where
  last_firing_period : List Dbl
  next_spk_time : List Dbl
  slot_spks : List spike_t
  rand_gen : Nat
  cout : List InternalError
  deriving DecidableEq

/-- One pass through the body of the pixel loop of `update()` with the iterators at offset
`it`: read the pixel and the two state cells, run the body, write the cells back. -/
def update_pixel (R : RandSrc) (c : Config) (sigma : Dbl) (inputImage : List Dbl)
    (simTime step : Dbl) (fuel : Nat) (it out_neu_idx : Nat) (s : SlotRun) : Option SlotRun :=
  match inputImage[it]?, s.last_firing_period[it]?, s.next_spk_time[it]? with
  | some pixel, some old_per, some told_next_spk =>
    match update_neuron R c sigma (simTime / Dbl.fin 1000) (step / Dbl.fin 1000) fuel
        out_neu_idx pixel
        { last_firing_period := old_per
          next_spk_time := told_next_spk
          slot_spks := s.slot_spks
          rand_gen := s.rand_gen
          cout := s.cout } with
    | some r =>
      some
        { last_firing_period := s.last_firing_period.set it r.last_firing_period
          next_spk_time := s.next_spk_time.set it r.next_spk_time
          slot_spks := r.slot_spks
          rand_gen := r.rand_gen
          cout := r.cout }
    | none => none
  | _, _, _ => none

/-- The pixel loop `while(inp_img_it<inputImage->end() && out_neu_idx<Total_inputs)`.
`it` is the common offset of the three iterators, `remaining` is
`Total_inputs - out_neu_idx`, which the loop counts down. -/
def pixel_loop (R : RandSrc) (c : Config) (sigma : Dbl) (inputImage : List Dbl)
    (simTime step : Dbl) (fuel : Nat) : Nat → Nat → Nat → SlotRun → Option SlotRun
  | 0, _, _, s => some s
  | remaining + 1, it, out_neu_idx, s =>
    if it < inputImage.length then
      match update_pixel R c sigma inputImage simTime step fuel it out_neu_idx s with
      | some s1 =>
        pixel_loop R c sigma inputImage simTime step fuel remaining (it + c.Inp_ind_inc)
          (out_neu_idx + 1) s1
      | none => none
    else some s

/-- The pixel loop of `update()` started as the method starts it: iterators at
`First_inp_ind`, `out_neu_idx = 0`, no spike in `slot_spks`. -/
def update_slot (R : RandSrc) (fuel : Nat) (o : SpikingOutput) : Option SlotRun :=
  pixel_loop R o.toConfig o.norm_dist_sigma o.inputImage o.simTime o.step fuel
    o.Total_inputs o.First_inp_ind 0
    { last_firing_period := o.last_firing_period
      next_spk_time := o.next_spk_time
      slot_spks := []
      rand_gen := o.rand_gen
      cout := o.cout }

/-- The method `SpikingOutput::update`. -/
def update (R : RandSrc) (fuel : Nat) (o : SpikingOutput) : Option SpikingOutput :=
  match update_slot R fuel o with
  | some s =>
    some { o with
      last_firing_period := s.last_firing_period
      next_spk_time := s.next_spk_time
      rand_gen := s.rand_gen
      cout := s.cout
      out_spks := o.out_spks ++ std_sort spk_time_comp s.slot_spks }
  | none => none

/-! ## Frame ingress and initialisation -/

/-- The method `SpikingOutput::feedInput`. -/
def feedInput (o : SpikingOutput) (sim_time : Dbl) (new_input : List Dbl) (_isCurrent : Bool)
    (_port : Int) : SpikingOutput :=
  if Dbl.ge o.simTime o.Start_time && Dbl.le (o.simTime + o.step) o.End_time then
    { o with inputImage := new_input, simTime := sim_time }
  else
    { o with inputImage := [], simTime := sim_time }

/-- The loop of `SpikingOutput::randomize_state` over the cells from offset `i` on: cell by
cell, period 1 and a next spike time drawn with `unif_dist`. -/
def randomize_cells (R : RandSrc) (Random_init : Dbl) : Nat → Nat → List Dbl × Nat
  | 0, g => ([], g)
  | n + 1, g =>
    let rest := randomize_cells R Random_init n (g + 1)
    (((Dbl.fin 1 - Random_init * R.unif_dist g) * Dbl.fin 1) :: rest.1, rest.2)

/-- The method `SpikingOutput::randomize_state`. -/
def randomize_state (R : RandSrc) (o : SpikingOutput) : SpikingOutput :=
  let cells := randomize_cells R o.Random_init o.last_firing_period.length o.rand_gen
  { o with
    last_firing_period := List.replicate o.last_firing_period.length (Dbl.fin 1)
    next_spk_time := cells.1
    rand_gen := cells.2 }

/-- The method `SpikingOutput::allocateValues` (with `first_spk_delay = 1`). -/
def allocateValues (R : RandSrc) (o : SpikingOutput) : SpikingOutput :=
  let o1 : SpikingOutput :=
    { o with
      norm_dist_sigma := o.Min_period_std_dev / Dbl.fin 1000
      inputImage := List.replicate (o.sizeY * o.sizeX) (Dbl.fin 0)
      last_firing_period := List.replicate (o.sizeY * o.sizeX) (Dbl.fin 1)
      next_spk_time := List.replicate (o.sizeY * o.sizeX) (Dbl.fin 1) }
  if o.Random_init ≠ Dbl.fin 0 then randomize_state R o1 else o1

/-- The constructor `SpikingOutput(x, y, temporal_step, output_filename)`: default parameters
and initial state; the simulation clock of the base class starts at 0. -/
def SpikingOutput.init (x y : Nat) (temporal_step : Dbl) : SpikingOutput :=
  { Min_period := Dbl.fin 0
    Longest_sustained_period := Dbl.pinf
    Input_threshold := Dbl.fin 0
    Spk_freq_per_inp := Dbl.fin 1
    Spike_std_dev := Dbl.fin 0
    Min_period_std_dev := Dbl.fin 0
    Start_time := Dbl.fin 0
    End_time := Dbl.pinf
    Random_init := Dbl.fin 0
    First_inp_ind := 0
    Inp_ind_inc := 1
    Total_inputs := 2 ^ 64 - 1
    sizeX := x
    sizeY := y
    step := temporal_step
    simTime := Dbl.fin 0
    norm_dist_sigma := Dbl.fin 0 / Dbl.fin 1000
    rand_gen := 0
    inputImage := List.replicate (y * x) (Dbl.fin 0)
    last_firing_period := List.replicate (y * x) Dbl.pinf
    next_spk_time := List.replicate (y * x) (Dbl.fin 0)
    out_spks := []
    cout := [] }

/-! ## Configuration -/

/-- The implicit conversion of a `double` to the unsigned integer type of the fields
`First_inp_ind`, `Inp_ind_inc` and `Total_inputs` (declared in `SpikingOutput.h`): the
fractional part is discarded.  C++ defines no result for a value that does not fit the type
(negative, 2^64 or more, infinite, NaN); the embedding returns 0 there. -/
def Dbl.to_index : Dbl → Nat
  | Dbl.fin q => if 0 ≤ q ∧ q < 2 ^ 64 then (Rat.floor q).toNat else 0
  | _ => 0

/-- The method `SpikingOutput::set_Min_period`: return value and object after the call. -/
def set_Min_period (o : SpikingOutput) (min_spk_per : Dbl) : Bool × SpikingOutput :=
  if Dbl.ge min_spk_per (Dbl.fin 0) then (true, { o with Min_period := min_spk_per })
  else (false, o)

/-- The method `SpikingOutput::set_Longest_sustained_period`. -/
def set_Longest_sustained_period (o : SpikingOutput) (max_spk_per : Dbl) :
    Bool × SpikingOutput :=
  if Dbl.ge max_spk_per (Dbl.fin 0) then
    (true, { o with Longest_sustained_period := max_spk_per })
  else (false, o)

/-- The method `SpikingOutput::set_Input_threshold`. -/
def set_Input_threshold (o : SpikingOutput) (input_threshold : Dbl) : Bool × SpikingOutput :=
  (true, { o with Input_threshold := input_threshold })

/-- The method `SpikingOutput::set_Freq_per_inp`. -/
def set_Freq_per_inp (o : SpikingOutput) (freq_per_inp_unit : Dbl) : Bool × SpikingOutput :=
  (true, { o with Spk_freq_per_inp := freq_per_inp_unit })

/-- The method `SpikingOutput::set_Spike_std_dev`. -/
def set_Spike_std_dev (o : SpikingOutput) (std_dev_val : Dbl) : Bool × SpikingOutput :=
  (true, { o with Spike_std_dev := std_dev_val })

/-- The method `SpikingOutput::set_Min_period_std_dev`. -/
def set_Min_period_std_dev (o : SpikingOutput) (std_dev_val : Dbl) : Bool × SpikingOutput :=
  if Dbl.ge std_dev_val (Dbl.fin 0) then (true, { o with Min_period_std_dev := std_dev_val })
  else (false, o)

/-- The method `SpikingOutput::set_Start_time`. -/
def set_Start_time (o : SpikingOutput) (start_time : Dbl) : Bool × SpikingOutput :=
  if Dbl.ge start_time (Dbl.fin 0) then (true, { o with Start_time := start_time })
  else (false, o)

/-- The method `SpikingOutput::set_End_time`. -/
def set_End_time (o : SpikingOutput) (end_time : Dbl) : Bool × SpikingOutput :=
  if Dbl.ge end_time (Dbl.fin 0) then (true, { o with End_time := end_time })
  else (false, o)

/-- The method `SpikingOutput::set_Random_init`. -/
def set_Random_init (o : SpikingOutput) (rnd_init : Dbl) : Bool × SpikingOutput :=
  (true, { o with Random_init := rnd_init })

/-- The method `SpikingOutput::set_First_inp_ind`. -/
def set_First_inp_ind (o : SpikingOutput) (first_input : Dbl) : Bool × SpikingOutput :=
  if Dbl.ge first_input (Dbl.fin 0) then
    (true, { o with First_inp_ind := Dbl.to_index first_input })
  else (false, o)

/-- The method `SpikingOutput::set_Inp_ind_inc`. -/
def set_Inp_ind_inc (o : SpikingOutput) (input_inc : Dbl) : Bool × SpikingOutput :=
  if Dbl.ge input_inc (Dbl.fin 0) then (true, { o with Inp_ind_inc := Dbl.to_index input_inc })
  else (false, o)

/-- The method `SpikingOutput::set_Total_inputs`. -/
def set_Total_inputs (o : SpikingOutput) (num_inputs : Dbl) : Bool × SpikingOutput :=
  if Dbl.ge num_inputs (Dbl.fin 0) then (true, { o with Total_inputs := Dbl.to_index num_inputs })
  else (false, o)

/-- Body of the loop of `SpikingOutput::setParameters` for one parameter: the chain of
`strcmp` tests on the key and the call of the setter it selects.  Keys are compared as whole
strings (a key holds no NUL character). -/
def setParameters_step (o : SpikingOutput) (s : String) (param : Dbl) : Bool × SpikingOutput :=
  if s = "Min_period" then set_Min_period o param
  else if s = "Longest_sustained_period" then set_Longest_sustained_period o param
  else if s = "Input_threshold" then set_Input_threshold o param
  else if s = "Freq_per_inp" then set_Freq_per_inp o param
  else if s = "Spike_std_dev" then set_Spike_std_dev o param
  else if s = "Min_period_std_dev" then set_Min_period_std_dev o param
  else if s = "Start_time" then set_Start_time o param
  else if s = "End_time" then set_End_time o param
  else if s = "Random_init" then set_Random_init o param
  else if s = "First_inp_ind" then set_First_inp_ind o param
  else if s = "Inp_ind_inc" then set_Inp_ind_inc o param
  else if s = "Total_inputs" then set_Total_inputs o param
  else (false, o)

/-- The method `SpikingOutput::setParameters`: the loop
`for (i = 0; i<params.size() && correct; i++)` over the values, reading `paramID[i]`; `none`
when there are fewer keys than the loop reads. -/
def setParameters : SpikingOutput → List Dbl → List String → Option (Bool × SpikingOutput)
  | o, [], _ => some (true, o)
  | _, _ :: _, [] => none
  | o, param :: params, s :: paramID =>
    if (setParameters_step o s param).1 then
      setParameters (setParameters_step o s param).2 params paramID
    else some (false, (setParameters_step o s param).2)

/-- The twelve parameter names that `setParameters` knows. -/
def known_keys : List String :=
  ["Min_period", "Longest_sustained_period", "Input_threshold", "Freq_per_inp",
    "Spike_std_dev", "Min_period_std_dev", "Start_time", "End_time", "Random_init",
    "First_inp_ind", "Inp_ind_inc", "Total_inputs"]

/-- A list of (key, value) pairs applied in order, each by the setter of its key. -/
def apply_pairs (o : SpikingOutput) (pairs : List (String × Dbl)) : SpikingOutput :=
  pairs.foldl (fun o1 p => (setParameters_step o1 p.1 p.2).2) o

/-- A (key, value) pair that a batch accepts: the key is one of the twelve known names and
the setter of that key accepts the value. -/
def pair_accepted (o : SpikingOutput) (p : String × Dbl) : Prop :=
  p.1 ∈ known_keys ∧ (setParameters_step o p.1 p.2).1 = true

instance (o : SpikingOutput) (p : String × Dbl) : Decidable (pair_accepted o p) := by
  unfold pair_accepted
  infer_instance

/-! ## Binary64 rounding -/

/-- Power of two with an integer exponent. -/
def Dbl.pow2 (k : Int) : ℚ :=
  if 0 ≤ k then ((2 ^ k.toNat : Nat) : ℚ) else 1 / ((2 ^ (-k).toNat : Nat) : ℚ)

/-- Bisection for the binade of a positive rational `a`: keeps `2^lo <= a < 2^hi` while
halving the interval `fuel` times. -/
def Dbl.ilog2_search (a : ℚ) : Nat → Int → Int → Int
  | 0, lo, _ => lo
  | fuel + 1, lo, hi =>
    if Dbl.pow2 ((lo + hi) / 2) ≤ a then Dbl.ilog2_search a fuel ((lo + hi) / 2) hi
    else Dbl.ilog2_search a fuel lo ((lo + hi) / 2)

/-- Binade of a positive rational `a`: the integer `e` with `2^e <= a < 2^(e+1)`, searched
between -2048 and 2048 (a value below `2^(-2048)` gives -2048, one from `2^2048` on gives
2047; both ranges lie outside the binary64 exponents). -/
def Dbl.ilog2 (a : ℚ) : Int :=
  Dbl.ilog2_search a 12 (-2048) 2048

/-- Nearest integer of a rational, a tie going to the even neighbour. -/
def Dbl.rne (x : ℚ) : Int :=
  if x - (Rat.floor x : ℚ) < 1 / 2 then Rat.floor x
  else if 1 / 2 < x - (Rat.floor x : ℚ) then Rat.floor x + 1
  else if Rat.floor x % 2 = 0 then Rat.floor x
  else Rat.floor x + 1

/-- Spacing of the binary64 numbers around a non-zero rational: `2^(e-52)` in the binade `e`
of the value, and `2^(-1074)` below `2^(-1022)` (subnormal range). -/
def Dbl.ulp (q : ℚ) : ℚ :=
  Dbl.pow2 ((if Dbl.ilog2 |q| < -1022 then -1022 else Dbl.ilog2 |q|) - 52)

/-- The binary64 number nearest to a rational (IEEE 754 round to nearest, ties to even): a
multiple of the spacing with a significand of at most 53 bits; a magnitude that rounds to
`2^1024` overflows to an infinity; a magnitude that rounds to zero gives the zero of the
embedding. -/
def Dbl.round64 (q : ℚ) : Dbl :=
  if q = 0 then Dbl.fin 0
  else if Dbl.pow2 1024 ≤ (Dbl.rne (|q| / Dbl.ulp q) : ℚ) * Dbl.ulp q then
    (if 0 < q then Dbl.pinf else Dbl.ninf)
  else
    Dbl.fin (if 0 < q then (Dbl.rne (|q| / Dbl.ulp q) : ℚ) * Dbl.ulp q
      else -((Dbl.rne (|q| / Dbl.ulp q) : ℚ) * Dbl.ulp q))

/-- The result of an arithmetic operation as binary64 stores it: the exact result rounded;
infinities and NaN are kept. -/
def Dbl.r64 : Dbl → Dbl
  | Dbl.fin q => Dbl.round64 q
  | d => d

/-! ## The program in binary64 with 64-bit iterators

The definitions of this section follow the same source lines as the ones above, with every
arithmetic operation on doubles rounded to binary64 (`Dbl.r64` applied to the exact result of
each operation, in the order in which the source evaluates them, without fused
multiply-add), and with the iterators of the pixel loop advancing modulo the 64-bit address
space.  Comparisons are exact in both. -/

namespace B64

/-- The method `SpikingOutput::inp_pixel_to_period` in binary64. -/
def inp_pixel_to_period (R : RandSrc) (c : Config) (norm_dist_sigma : Dbl) (rand_gen : Nat)
    (pixel_value : Dbl) : Dbl × Nat :=
  let max_period_sec := Dbl.r64 (c.Longest_sustained_period / Dbl.fin 1000)
  let lim : Dbl × Nat :=
    if Dbl.gt c.Min_period_std_dev (Dbl.fin 0) then
      (Dbl.r64 (Dbl.r64 (c.Min_period / Dbl.fin 1000) + R.norm_dist rand_gen norm_dist_sigma),
        rand_gen + 1)
    else
      (Dbl.r64 (c.Min_period / Dbl.fin 1000), rand_gen)
  let cur_min_period_sec := lim.1
  let firing_period_sec : Dbl :=
    if Dbl.lt pixel_value c.Input_threshold then Dbl.pinf
    else
      Dbl.r64 (Dbl.fin 1 /
        Dbl.r64 (Dbl.r64 (Dbl.r64 (pixel_value - c.Input_threshold) * c.Spk_freq_per_inp)
                  + Dbl.r64 (Dbl.fin 1 / max_period_sec)))
  let drawn : Dbl × Nat :=
    if c.Spike_std_dev ≠ Dbl.fin 0 ∧ firing_period_sec.isfinite = true then
      let spk_variance_sec : Dbl :=
        if Dbl.gt c.Spike_std_dev (Dbl.fin 0) then
          Dbl.r64 (Dbl.r64 (c.Spike_std_dev / Dbl.fin 1000)
            * Dbl.r64 (c.Spike_std_dev / Dbl.fin 1000))
        else firing_period_sec
      let gam_k := Dbl.r64 (Dbl.r64 (firing_period_sec * firing_period_sec) / spk_variance_sec)
      let gam_theta := Dbl.r64 (spk_variance_sec / firing_period_sec)
      (R.gam_dist lim.2 gam_k gam_theta, lim.2 + 1)
    else (firing_period_sec, lim.2)
  (if Dbl.lt drawn.1 cur_min_period_sec then cur_min_period_sec else drawn.1, drawn.2)

/-- The local `cur_min_period_sec` of `inp_pixel_to_period` (lines 291-294) in binary64, with
the generator state after it. -/
def cur_min_period_sec (R : RandSrc) (c : Config) (norm_dist_sigma : Dbl) (rand_gen : Nat) :
    Dbl × Nat :=
  if Dbl.gt c.Min_period_std_dev (Dbl.fin 0) then
    (Dbl.r64 (Dbl.r64 (c.Min_period / Dbl.fin 1000) + R.norm_dist rand_gen norm_dist_sigma),
      rand_gen + 1)
  else
    (Dbl.r64 (c.Min_period / Dbl.fin 1000), rand_gen)

/-- The local `firing_period_sec` of `inp_pixel_to_period` as lines 297-300 compute it in
binary64, before jitter and saturation. -/
def firing_period_sec (c : Config) (pixel_value : Dbl) : Dbl :=
  if Dbl.lt pixel_value c.Input_threshold then Dbl.pinf
  else
    Dbl.r64 (Dbl.fin 1 /
      Dbl.r64 (Dbl.r64 (Dbl.r64 (pixel_value - c.Input_threshold) * c.Spk_freq_per_inp)
                + Dbl.r64 (Dbl.fin 1 / Dbl.r64 (c.Longest_sustained_period / Dbl.fin 1000))))

/-- The local `spk_variance_sec` of `inp_pixel_to_period` (lines 310-313) in binary64. -/
def spk_variance_sec (c : Config) (firing_period_sec : Dbl) : Dbl :=
  if Dbl.gt c.Spike_std_dev (Dbl.fin 0) then
    Dbl.r64 (Dbl.r64 (c.Spike_std_dev / Dbl.fin 1000)
      * Dbl.r64 (c.Spike_std_dev / Dbl.fin 1000))
  else firing_period_sec

/-- The local `gam_k` of `inp_pixel_to_period` (line 318) in binary64: the product is rounded,
then the quotient. -/
def gam_k (c : Config) (firing_period_sec : Dbl) : Dbl :=
  Dbl.r64 (Dbl.r64 (firing_period_sec * firing_period_sec)
    / spk_variance_sec c firing_period_sec)

/-- The local `gam_theta` of `inp_pixel_to_period` (line 319) in binary64. -/
def gam_theta (c : Config) (firing_period_sec : Dbl) : Dbl :=
  Dbl.r64 (spk_variance_sec c firing_period_sec / firing_period_sec)

/-- The emission loop `for(;new_spk.time < tslot_start + slot_len;)` of `update()` in
binary64: the slot end is the rounded sum, and `new_spk.time += inp_pix_per` rounds. -/
def emit_loop (R : RandSrc) (c : Config) (sigma : Dbl) (tslot_start slot_len pixel : Dbl) :
    Nat → spike_t → PixelRun → Option PixelRun
  | 0, _, _ => none
  | fuel + 1, new_spk, s =>
    if Dbl.lt new_spk.time (Dbl.r64 (tslot_start + slot_len)) then
      let p := inp_pixel_to_period R c sigma s.rand_gen pixel
      if p.1.isfinite then
        emit_loop R c sigma tslot_start slot_len pixel fuel
          { neuron := new_spk.neuron, time := Dbl.r64 (new_spk.time + p.1) }
          { last_firing_period := p.1
            next_spk_time := Dbl.r64 (new_spk.time + p.1)
            slot_spks := s.slot_spks ++ [new_spk]
            rand_gen := p.2
            cout := s.cout }
      else
        some
          { last_firing_period :=
              if s.last_firing_period = Dbl.fin 0 then
                Dbl.r64 (Dbl.r64 (tslot_start + slot_len) - new_spk.time)
              else s.last_firing_period
            next_spk_time := Dbl.r64 (tslot_start + slot_len)
            slot_spks := s.slot_spks ++ [new_spk]
            rand_gen := p.2
            cout := s.cout }
    else some s

/-- The expression for the first candidate spike time of a slot (line 417) in binary64:
`tslot_start + (((told_next_spk - tslot_start) * inp_pix_per) / old_per)`, each operation
rounded. -/
def first_spk_time (tslot_start told_next_spk inp_pix_per old_per : Dbl) : Dbl :=
  Dbl.r64 (tslot_start
    + Dbl.r64 (Dbl.r64 (Dbl.r64 (told_next_spk - tslot_start) * inp_pix_per) / old_per))

/-- Body of the pixel loop of `update()` for one admitted pixel, in binary64. -/
def update_neuron (R : RandSrc) (c : Config) (sigma : Dbl) (tslot_start slot_len : Dbl)
    (fuel : Nat) (out_neu_idx : Nat) (pixel : Dbl) (s : PixelRun) : Option PixelRun :=
  let p := inp_pixel_to_period R c sigma s.rand_gen pixel
  if p.1.isfinite then
    let old_per := s.last_firing_period
    let told_next_spk := s.next_spk_time
    let nst := first_spk_time tslot_start told_next_spk p.1 old_per
    let new_spk : spike_t := { neuron := out_neu_idx, time := nst }
    let cout1 :=
      if Dbl.lt new_spk.time tslot_start then
        s.cout ++ [InternalError.previous_step new_spk.time]
      else s.cout
    let cout2 :=
      if nst.isfinite then cout1 else cout1 ++ [InternalError.indeterminate new_spk.time]
    emit_loop R c sigma tslot_start slot_len pixel fuel new_spk
      { last_firing_period := p.1
        next_spk_time := nst
        slot_spks := s.slot_spks
        rand_gen := p.2
        cout := cout2 }
  else
    some { s with next_spk_time := Dbl.r64 (s.next_spk_time + slot_len), rand_gen := p.2 }

/-- One pass through the body of the pixel loop with the iterators at offset `it`, in
binary64: `tslot_start = simTime / 1000.0` and `slot_len = step / 1000.0` are rounded
quotients. -/
def update_pixel (R : RandSrc) (c : Config) (sigma : Dbl) (inputImage : List Dbl)
    (simTime step : Dbl) (fuel : Nat) (it out_neu_idx : Nat) (s : SlotRun) : Option SlotRun :=
  match inputImage[it]?, s.last_firing_period[it]?, s.next_spk_time[it]? with
  | some pixel, some old_per, some told_next_spk =>
    match update_neuron R c sigma (Dbl.r64 (simTime / Dbl.fin 1000))
        (Dbl.r64 (step / Dbl.fin 1000)) fuel out_neu_idx pixel
        { last_firing_period := old_per
          next_spk_time := told_next_spk
          slot_spks := s.slot_spks
          rand_gen := s.rand_gen
          cout := s.cout } with
    | some r =>
      some
        { last_firing_period := s.last_firing_period.set it r.last_firing_period
          next_spk_time := s.next_spk_time.set it r.next_spk_time
          slot_spks := r.slot_spks
          rand_gen := r.rand_gen
          cout := r.cout }
    | none => none
  | _, _, _ => none

/-- The pixel loop `while(inp_img_it<inputImage->end() && out_neu_idx<Total_inputs)` with
64-bit iterators.  `base` is the address of the first pixel of the input image, counted in
doubles (8 bytes), so that the image occupies the addresses `base .. base + N - 1` below
`2^61`; `it` is the distance of the iterators from the start of their images, which
`it += Inp_ind_inc` advances modulo `2^61` doubles (`2^64` bytes).  An iterator at a
distance of `N` or more that has not wrapped compares at or past `end()` and ends the loop;
one that has wrapped compares below `end()` and is dereferenced outside the image, for which
no result is defined. -/
def pixel_loop (R : RandSrc) (c : Config) (sigma : Dbl) (inputImage : List Dbl)
    (simTime step : Dbl) (fuel : Nat) (base : Nat) : Nat → Nat → Nat → SlotRun → Option SlotRun
  | 0, _, _, s => some s
  | remaining + 1, it, out_neu_idx, s =>
    if it < inputImage.length then
      match update_pixel R c sigma inputImage simTime step fuel it out_neu_idx s with
      | some s1 =>
        pixel_loop R c sigma inputImage simTime step fuel base remaining
          ((it + c.Inp_ind_inc) % 2 ^ 61) (out_neu_idx + 1) s1
      | none => none
    else if base + it < 2 ^ 61 then some s
    else none

/-- The pixel loop of `update()` started as the method starts it, with 64-bit iterators. -/
def update_slot (R : RandSrc) (fuel : Nat) (base : Nat) (o : SpikingOutput) : Option SlotRun :=
  pixel_loop R o.toConfig o.norm_dist_sigma o.inputImage o.simTime o.step fuel base
    o.Total_inputs (o.First_inp_ind % 2 ^ 61) 0
    { last_firing_period := o.last_firing_period
      next_spk_time := o.next_spk_time
      slot_spks := []
      rand_gen := o.rand_gen
      cout := o.cout }

/-- The method `SpikingOutput::update` in binary64 with 64-bit iterators. -/
def update (R : RandSrc) (fuel : Nat) (base : Nat) (o : SpikingOutput) : Option SpikingOutput :=
  match update_slot R fuel base o with
  | some s =>
    some { o with
      last_firing_period := s.last_firing_period
      next_spk_time := s.next_spk_time
      rand_gen := s.rand_gen
      cout := s.cout
      out_spks := o.out_spks ++ std_sort spk_time_comp s.slot_spks }
  | none => none

/-- The method `SpikingOutput::feedInput` in binary64 (the sum `simTime+step` is rounded). -/
def feedInput (o : SpikingOutput) (sim_time : Dbl) (new_input : List Dbl) (_isCurrent : Bool)
    (_port : Int) : SpikingOutput :=
  if Dbl.ge o.simTime o.Start_time && Dbl.le (Dbl.r64 (o.simTime + o.step)) o.End_time then
    { o with inputImage := new_input, simTime := sim_time }
  else
    { o with inputImage := [], simTime := sim_time }

/-- A simulation run in binary64: for each frame (timestamp in ms, image) one `feedInput`
followed by one `update`. -/
def run (R : RandSrc) (fuel : Nat) (base : Nat) :
    SpikingOutput → List (Dbl × List Dbl) → Option SpikingOutput
  | o, [] => some o
  | o, (sim_time, frame) :: rest =>
    match update R fuel base (feedInput o sim_time frame true 0) with
    | some o1 => run R fuel base o1 rest
    | none => none

/-- Successive calls of `update()` seen from one admitted neuron, in binary64: a slot is given
by the timestamp `simTime` and the length `step` in ms and the pixel value of the neuron. -/
def run_neuron (R : RandSrc) (c : Config) (sigma : Dbl) (fuel : Nat) (out_neu_idx : Nat) :
    List (Dbl × Dbl × Dbl) → PixelRun → Option PixelRun
  | [], s => some s
  | sl :: rest, s =>
    match update_neuron R c sigma (Dbl.r64 (sl.1 / Dbl.fin 1000))
        (Dbl.r64 (sl.2.1 / Dbl.fin 1000)) fuel out_neu_idx sl.2.2 s with
    | some s1 => run_neuron R c sigma fuel out_neu_idx rest s1
    | none => none

/-- One step of the running sum of spike times: `t + inp_pix_per` as binary64 stores it. -/
def next_sum (inp_pix_per : Dbl) (t : Dbl) : Dbl :=
  Dbl.r64 (t + inp_pix_per)

end B64

/-! ## Runs -/

/-- One time slot seen from a single neuron: slot start and length in seconds, and the value
of the pixel of that neuron in the frame of the slot. -/
structure NeuronSlot where
  tslot_start : Dbl
  slot_len : Dbl
  pixel : Dbl

/-- Successive calls of `update()` seen from one admitted neuron: the loop body is run once
per slot on the state that the previous slot left. -/
def run_neuron (R : RandSrc) (c : Config) (sigma : Dbl) (fuel : Nat) (out_neu_idx : Nat) :
    List NeuronSlot → PixelRun → Option PixelRun
  | [], s => some s
  | sl :: rest, s =>
    match update_neuron R c sigma sl.tslot_start sl.slot_len fuel out_neu_idx sl.pixel s with
    | some s1 => run_neuron R c sigma fuel out_neu_idx rest s1
    | none => none

/-- Contiguous slots: the first starts at `ts`, each next one where the previous one ended.
A slot is given by its length and the pixel value. -/
def contiguous_slots : ℚ → List (ℚ × Dbl) → List NeuronSlot
  | _, [] => []
  | ts, (dt, x) :: rest =>
    { tslot_start := Dbl.fin ts, slot_len := Dbl.fin dt, pixel := x }
      :: contiguous_slots (ts + dt) rest

/-- A simulation run: for each frame (timestamp in ms, image) one `feedInput` followed by one
`update`. -/
def run (R : RandSrc) (fuel : Nat) : SpikingOutput → List (Dbl × List Dbl) → Option SpikingOutput
  | o, [] => some o
  | o, (sim_time, frame) :: rest =>
    match update R fuel (feedInput o sim_time frame true 0) with
    | some o1 => run R fuel o1 rest
    | none => none

/-- Two events of one neuron at least `m` seconds apart: both times are finite and the second
is not earlier than the first plus `m`. -/
def min_gap (m : ℚ) (a b : spike_t) : Prop :=
  ∃ ta tb : ℚ, a.time = Dbl.fin ta ∧ b.time = Dbl.fin tb ∧ ta + m ≤ tb

/-- Pacing invariant of one neuron at the boundary `e` between two slots, for a minimum period
of `m` seconds: the spikes emitted so far are pairwise at least `m` apart, and, if there is a
last spike, at time `tu`, then `tu < e`, the period cell `l` is positive, the predicted time
`t` is finite and not before `e`, and the share of a period already spent since `tu`, at the
fastest admissible rate, together with the share still to go, makes up at least one period:
`(e - tu) / m + (t - e) / l >= 1`, written without division. -/
def Paced (m e : ℚ) (S : List spike_t) (L T : Dbl) : Prop :=
  List.Chain' (min_gap m) S ∧
  ∀ u ∈ S.getLast?, ∃ tu l t : ℚ, u.time = Dbl.fin tu ∧ L = Dbl.fin l ∧ T = Dbl.fin t ∧
    tu < e ∧ 0 < l ∧ e ≤ t ∧ m * l ≤ (e - tu) * l + (t - e) * m

/-- A random source used for concrete runs: every draw returns zero. -/
def zeroRand : RandSrc :=
  { norm_dist := fun _ _ => Dbl.fin 0
    gam_dist := fun _ _ _ => Dbl.fin 0
    unif_dist := fun _ => Dbl.fin 0 }

/-- A random source used for concrete runs: every draw returns `q`. -/
def constRand (q : ℚ) : RandSrc :=
  { norm_dist := fun _ _ => Dbl.fin q
    gam_dist := fun _ _ _ => Dbl.fin q
    unif_dist := fun _ => Dbl.fin q }

/-! ## Concrete objects -/

/-- One neuron, slots of 1000 ms, default parameters, after `allocateValues`. -/
def grid1 : SpikingOutput :=
  allocateValues zeroRand (SpikingOutput.init 1 1 (Dbl.fin 1000))

/-- Two neurons, slots of 1000 ms, default parameters, after `allocateValues`, with a first
frame of pixel values 2 and 3 fed at time 0. -/
def fed2 : SpikingOutput :=
  feedInput (allocateValues zeroRand (SpikingOutput.init 2 1 (Dbl.fin 1000))) (Dbl.fin 0)
    [Dbl.fin 2, Dbl.fin 3] true 0

/-- One neuron, slots of 1000 ms, recording window starting at 2000 ms, after
`allocateValues`. -/
def gated1 : SpikingOutput :=
  allocateValues zeroRand
    { SpikingOutput.init 1 1 (Dbl.fin 1000) with Start_time := Dbl.fin 2000 }

/-- One neuron, slots of 1000 ms, recording window [0, 2000] ms, after `allocateValues` and
two frames fed at 0 ms and 1000 ms. -/
def windowed1 : SpikingOutput :=
  feedInput
    (feedInput
      (allocateValues zeroRand
        { SpikingOutput.init 1 1 (Dbl.fin 1000) with End_time := Dbl.fin 2000 })
      (Dbl.fin 0) [Dbl.fin 1] true 0)
    (Dbl.fin 1000) [Dbl.fin 1] true 0

/-- One neuron, slots of 1000 ms, recording window starting at 1000 ms, after
`allocateValues` and a first frame fed at 0 ms. -/
def late1 : SpikingOutput :=
  feedInput
    (allocateValues zeroRand
      { SpikingOutput.init 1 1 (Dbl.fin 1000) with Start_time := Dbl.fin 1000 })
    (Dbl.fin 0) [Dbl.fin 1] true 0

/-- The grid of the subsampling example: 20 pixels, `First_inp_ind = 2`, `Inp_ind_inc = 3`,
`Total_inputs = 4`, slots of 1000 ms, after `allocateValues`. -/
def sub20 : SpikingOutput :=
  allocateValues zeroRand
    { SpikingOutput.init 20 1 (Dbl.fin 1000) with
      First_inp_ind := 2, Inp_ind_inc := 3, Total_inputs := 4 }

/-- A frame of 20 pixels in which only the pixel at offset 11 is active (value 2). -/
def frame11 : List Dbl :=
  List.replicate 11 (Dbl.fin 0) ++ [Dbl.fin 2] ++ List.replicate 8 (Dbl.fin 0)

/-- The state cells of one neuron right after `allocateValues` without phase randomisation:
period 1 s, next spike at 1 s, nothing emitted or drawn. -/
def fresh : PixelRun :=
  { last_firing_period := Dbl.fin 1
    next_spk_time := Dbl.fin 1
    slot_spks := []
    rand_gen := 0
    cout := [] }

/-- The default parameters with a hard refractory limit of 100 ms. -/
def refr_cfg : Config :=
  { grid1.toConfig with Min_period := Dbl.fin 100 }

/-- The default parameters with spike jitter of standard deviation 100 ms. -/
def jit_cfg : Config :=
  { grid1.toConfig with Spike_std_dev := Dbl.fin 100 }

/-- The default parameters with spike jitter in the Fano-factor-1 mode (negative
Spike_std_dev). -/
def fano_cfg : Config :=
  { grid1.toConfig with Spike_std_dev := Dbl.fin (-1) }

/-- Two frames of one pixel of value 2, at 0 ms and at 1000 ms. -/
def frames2 : List (Dbl × List Dbl) :=
  [(Dbl.fin 0, [Dbl.fin 2]), (Dbl.fin 1000, [Dbl.fin 2])]

/-- One neuron, slots of 1000 ms, default parameters except `Random_init = 2`, before
`allocateValues`. -/
def wide1 : SpikingOutput :=
  { SpikingOutput.init 1 1 (Dbl.fin 1000) with Random_init := Dbl.fin 2 }

/-- One neuron, slots of 1000 ms, a hard refractory limit of 100 ms, after `allocateValues`
and a first frame of pixel value 50 fed at 0 ms. -/
def refr1 : SpikingOutput :=
  feedInput
    (allocateValues zeroRand
      { SpikingOutput.init 1 1 (Dbl.fin 1000) with Min_period := Dbl.fin 100 })
    (Dbl.fin 0) [Dbl.fin 50] true 0

/-- A random source whose Gamma samples are not finite (zero for the other draws): what
`gam_dist` may return for degenerate parameters. -/
def infGamRand : RandSrc :=
  { norm_dist := fun _ _ => Dbl.fin 0
    gam_dist := fun g _ _ => if g = 0 then Dbl.fin (1 / 4) else Dbl.pinf
    unif_dist := fun _ => Dbl.fin 0 }

/-- One neuron, slots of 100 ms, default parameters, after `allocateValues`. -/
def grid100 : SpikingOutput :=
  allocateValues zeroRand (SpikingOutput.init 1 1 (Dbl.fin 100))

/-- The first `n` frames of a run with slots of 100 ms and one pixel of constant value 10:
timestamps 0, 100, 200, .. ms. -/
def frames10 (n : Nat) : List (Dbl × List Dbl) :=
  (List.range n).map (fun k : Nat => (Dbl.fin (100 * k), [Dbl.fin 10]))

/-- One neuron, slots of 1000 ms, default parameters except a gain of 10 Hz per input unit,
after `allocateValues`. -/
def gain10 : SpikingOutput :=
  allocateValues zeroRand
    { SpikingOutput.init 1 1 (Dbl.fin 1000) with Spk_freq_per_inp := Dbl.fin 10 }

/-- The double nearest to 1e-201. -/
def tiny201 : Dbl :=
  Dbl.round64 (1 / ((10 ^ 201 : Nat) : ℚ))

/-- The double nearest to 1e308. -/
def huge308 : Dbl :=
  Dbl.round64 ((10 ^ 308 : Nat) : ℚ)

/-- One neuron, slots of 1000 ms, default parameters except `Random_init = +inf` and a gain
of -1, before `allocateValues`. -/
def infinit1 : SpikingOutput :=
  { SpikingOutput.init 1 1 (Dbl.fin 1000) with
    Random_init := Dbl.pinf, Spk_freq_per_inp := Dbl.fin (-1) }

/-- Two neurons, slots of 1000 ms, default parameters except `Inp_ind_inc = 2^61` and
`Total_inputs = 3`, after `allocateValues` and a first frame of two pixels of value 0 fed at
0 ms. -/
def wrap2 : SpikingOutput :=
  feedInput
    (allocateValues zeroRand
      { SpikingOutput.init 2 1 (Dbl.fin 1000) with Inp_ind_inc := 2 ^ 61, Total_inputs := 3 })
    (Dbl.fin 0) [Dbl.fin 0, Dbl.fin 0] true 0

/-- One neuron, slots of 1000 ms, a hard refractory limit of 200 ms, after `allocateValues`
(which leaves last_firing_period = 1 and next_spk_time = 1) and a first frame of pixel value 8
fed at 1000 ms. -/
def refr200 : SpikingOutput :=
  feedInput
    (allocateValues zeroRand
      { SpikingOutput.init 1 1 (Dbl.fin 1000) with Min_period := Dbl.fin 200 })
    (Dbl.fin 1000) [Dbl.fin 8] true 0

/-- One neuron, slots of 1000 ms, a hard refractory limit of 1e-13 ms (the double nearest to
it), after `allocateValues` and a first frame of pixel value 1e17 fed at 1000 ms. -/
def refr_tiny : SpikingOutput :=
  feedInput
    (allocateValues zeroRand
      { SpikingOutput.init 1 1 (Dbl.fin 1000) with
        Min_period := Dbl.round64 (1 / ((10 ^ 13 : Nat) : ℚ)) })
    (Dbl.fin 1000) [Dbl.fin ((10 ^ 17 : Nat) : ℚ)] true 0

/-- One neuron, slots of 100 ms, a hard refractory limit of 50 ms, after `allocateValues`. -/
def refr50 : SpikingOutput :=
  allocateValues zeroRand
    { SpikingOutput.init 1 1 (Dbl.fin 100) with Min_period := Dbl.fin 50 }

/-- Nine contiguous frames of 100 ms for one pixel: value 10 in the first eight, value
2^(-46) in the ninth (at 800 ms). -/
def frames_drop : List (Dbl × List Dbl) :=
  frames10 8 ++ [(Dbl.fin 800, [Dbl.fin (1 / 2 ^ 46)])]

/-- One neuron, slots of 1000 ms, a hard refractory limit of 100 ms, after `allocateValues`
and a first frame of pixel value 20 fed at 0 ms. -/
def refr100 : SpikingOutput :=
  feedInput
    (allocateValues zeroRand
      { SpikingOutput.init 1 1 (Dbl.fin 1000) with Min_period := Dbl.fin 100 })
    (Dbl.fin 0) [Dbl.fin 20] true 0

/-- The object that the binary64 run of `grid100` over `n` frames of pixel value 10 leaves
(`grid100` itself if that run did not return). -/
def after10 (n : Nat) : SpikingOutput :=
  (B64.run zeroRand 8 4096 grid100 (frames10 n)).getD grid100

/-- A batch of four pairs whose third value is rejected. -/
def batch4 : List (String × Dbl) :=
  [("Min_period", Dbl.fin 5), ("First_inp_ind", Dbl.fin (5 / 2)), ("End_time", Dbl.fin (-1)),
    ("Start_time", Dbl.fin 7)]

/-! ## Arithmetic on finite doubles -/

@[simp] theorem Dbl.fin_add (a b : ℚ) : Dbl.fin a + Dbl.fin b = Dbl.fin (a + b) := rfl

@[simp] theorem Dbl.fin_sub (a b : ℚ) : Dbl.fin a - Dbl.fin b = Dbl.fin (a - b) := by
  show Dbl.add (Dbl.fin a) (Dbl.neg (Dbl.fin b)) = _
  simp [Dbl.add, Dbl.neg, sub_eq_add_neg]

@[simp] theorem Dbl.fin_mul (a b : ℚ) : Dbl.fin a * Dbl.fin b = Dbl.fin (a * b) := rfl

theorem Dbl.fin_div (a b : ℚ) (hb : b ≠ 0) : Dbl.fin a / Dbl.fin b = Dbl.fin (a / b) := by
  show Dbl.div (Dbl.fin a) (Dbl.fin b) = _
  simp [Dbl.div, hb]

@[simp] theorem Dbl.lt_fin (a b : ℚ) : Dbl.lt (Dbl.fin a) (Dbl.fin b) = decide (a < b) := rfl

@[simp] theorem Dbl.le_fin (a b : ℚ) : Dbl.le (Dbl.fin a) (Dbl.fin b) = decide (a ≤ b) := rfl

@[simp] theorem Dbl.isfinite_fin (a : ℚ) : (Dbl.fin a).isfinite = true := rfl

theorem Dbl.isfinite_iff (a : Dbl) : a.isfinite = true ↔ ∃ q, a = Dbl.fin q := by
  cases a <;> simp [Dbl.isfinite]

theorem Dbl.lt_pinf_left (a : Dbl) : Dbl.lt Dbl.pinf a = false := by
  cases a <;> rfl

/-- The saturation step of the rate model is the maximum, whenever the limit is a number. -/
theorem Dbl.clamp_eq_max (mn fp : Dbl) (h : mn ≠ Dbl.nan) :
    (if Dbl.lt fp mn then mn else fp) = Dbl.max mn fp := by
  cases mn <;> cases fp <;> simp_all [Dbl.max, Dbl.lt]
  rename_i a b
  rcases lt_trichotomy a b with h1 | h1 | h1
  · simp [h1, not_lt.mpr h1.le]
  · simp [h1]
  · simp [h1, not_lt.mpr h1.le]

/-- A period limit of at least zero milliseconds is a number of seconds. -/
theorem Dbl.div_1000_ne_nan (m : Dbl) (h : Dbl.ge m (Dbl.fin 0) = true) :
    m / Dbl.fin 1000 ≠ Dbl.nan := by
  cases m <;> simp_all [Dbl.ge, Dbl.le]
  · rw [Dbl.fin_div _ _ (by norm_num)]; simp
  · show Dbl.div Dbl.pinf (Dbl.fin 1000) ≠ Dbl.nan
    simp [Dbl.div]

/-! ## Rate model without jitter -/

/-- Without jitter the rate model draws nothing and its value does not depend on the
generator. -/
theorem inp_pixel_to_period_no_draw (R : RandSrc) (c : Config) (sigma : Dbl) (g : Nat) (x : Dbl)
    (hs : c.Spike_std_dev = Dbl.fin 0) (hm : c.Min_period_std_dev = Dbl.fin 0) :
    inp_pixel_to_period R c sigma g x =
      (if Dbl.lt (if Dbl.lt x c.Input_threshold then Dbl.pinf
          else Dbl.fin 1 / ((x - c.Input_threshold) * c.Spk_freq_per_inp
                  + Dbl.fin 1 / (c.Longest_sustained_period / Dbl.fin 1000)))
            (c.Min_period / Dbl.fin 1000)
        then c.Min_period / Dbl.fin 1000
        else (if Dbl.lt x c.Input_threshold then Dbl.pinf
          else Dbl.fin 1 / ((x - c.Input_threshold) * c.Spk_freq_per_inp
                  + Dbl.fin 1 / (c.Longest_sustained_period / Dbl.fin 1000))), g) := by
  simp [inp_pixel_to_period, hs, hm, Dbl.gt]

/-- C1: with jitter disabled (Spike_std_dev = 0, Min_period_std_dev = 0) and a validated
minimum period (Min_period >= 0), inp_pixel_to_period returns +infinity for a pixel below
Input_threshold and otherwise the maximum of Min_period/1000 and
1 / ((x - Input_threshold) * Spk_freq_per_inp + 1/(Longest_sustained_period/1000)). -/
theorem inp_pixel_to_period_deterministic (R : RandSrc) (c : Config) (sigma : Dbl) (g : Nat)
    (x : Dbl) (hs : c.Spike_std_dev = Dbl.fin 0) (hm : c.Min_period_std_dev = Dbl.fin 0)
    (hmin : Dbl.ge c.Min_period (Dbl.fin 0) = true) :
    (inp_pixel_to_period R c sigma g x).1 =
      if Dbl.lt x c.Input_threshold then Dbl.pinf
      else Dbl.max (c.Min_period / Dbl.fin 1000)
        (Dbl.fin 1 / ((x - c.Input_threshold) * c.Spk_freq_per_inp
            + Dbl.fin 1 / (c.Longest_sustained_period / Dbl.fin 1000))) := by
  rw [inp_pixel_to_period_no_draw R c sigma g x hs hm]
  by_cases hx : Dbl.lt x c.Input_threshold = true
  · simp [hx, Dbl.lt_pinf_left]
  · simp only [hx]
    exact Dbl.clamp_eq_max _ _ (Dbl.div_1000_ne_nan _ hmin)

/-! ## One neuron, one slot, no jitter -/

/-- Without jitter the rate model is a function of the pixel alone: it returns the same
period in every generator state and leaves the generator where it was. -/
theorem inp_pixel_to_period_const (R : RandSrc) (c : Config) (sigma : Dbl) (x : Dbl)
    (hs : c.Spike_std_dev = Dbl.fin 0) (hm : c.Min_period_std_dev = Dbl.fin 0) (g g0 : Nat) :
    inp_pixel_to_period R c sigma g x = ((inp_pixel_to_period R c sigma g0 x).1, g) := by
  rw [inp_pixel_to_period_no_draw R c sigma g x hs hm,
    inp_pixel_to_period_no_draw R c sigma g0 x hs hm]

/-- An arithmetic progression with a positive step reaches any bound: there is a first term
at or above it. -/
theorem exists_first_term_ge (t e l : ℚ) (hl : 0 < l) :
    ∃ n : Nat, (∀ k : Nat, k < n → t + k * l < e) ∧ e ≤ t + n * l := by
  have hex : ∃ n : Nat, e ≤ t + n * l := by
    obtain ⟨m, hm⟩ := exists_nat_ge ((e - t) / l)
    refine ⟨m, ?_⟩
    have := (div_le_iff₀ hl).mp hm
    linarith
  classical
  refine ⟨Nat.find hex, ?_, Nat.find_spec hex⟩
  intro k hk
  exact not_le.mp (Nat.find_min hex hk)

/-- The emission loop with a constant finite period: from candidate `t` it pushes the terms
of the progression below the slot end and stops at the first term at or above it. -/
theorem emit_loop_progression (R : RandSrc) (c : Config) (sigma : Dbl) (ts dt : ℚ) (x : Dbl)
    (l1 : ℚ) (hdet : ∀ g, inp_pixel_to_period R c sigma g x = (Dbl.fin l1, g)) (idx : Nat) :
    ∀ (n : Nat) (t : ℚ) (spks : List spike_t) (g : Nat) (log : List InternalError) (fuel : Nat),
      (∀ k : Nat, k < n → t + k * l1 < ts + dt) → ts + dt ≤ t + n * l1 → n < fuel →
      emit_loop R c sigma (Dbl.fin ts) (Dbl.fin dt) x fuel { neuron := idx, time := Dbl.fin t }
          { last_firing_period := Dbl.fin l1, next_spk_time := Dbl.fin t, slot_spks := spks,
            rand_gen := g, cout := log }
        = some
          { last_firing_period := Dbl.fin l1, next_spk_time := Dbl.fin (t + n * l1),
            slot_spks := spks ++ (List.range n).map
              (fun k : Nat => ({ neuron := idx, time := Dbl.fin (t + k * l1) } : spike_t)),
            rand_gen := g, cout := log } := by
  intro n
  induction n with
  | zero =>
    intro t spks g log fuel _ hge hf
    obtain ⟨f, rfl⟩ : ∃ f, fuel = f + 1 := ⟨fuel - 1, by omega⟩
    have hnot : ¬ t < ts + dt := by
      simp at hge
      exact not_lt.mpr hge
    simp [emit_loop, hnot]
  | succ n ih =>
    intro t spks g log fuel hlt hge hf
    obtain ⟨f, rfl⟩ : ∃ f, fuel = f + 1 := ⟨fuel - 1, by omega⟩
    have h0 : t < ts + dt := by simpa using hlt 0 (Nat.succ_pos n)
    have hlt2 : ∀ k : Nat, k < n → (t + l1) + k * l1 < ts + dt := by
      intro k hk
      have := hlt (k + 1) (by omega)
      push_cast at this
      linarith
    have hge2 : ts + dt ≤ (t + l1) + n * l1 := by
      push_cast at hge
      linarith
    have := ih (t + l1) (spks ++ [{ neuron := idx, time := Dbl.fin t }]) g log f hlt2 hge2
      (by omega)
    simp only [emit_loop, Dbl.fin_add, Dbl.lt_fin, h0, decide_True, if_true, hdet,
      Dbl.isfinite_fin]
    rw [this]
    simp only [List.range_succ_eq_map, List.map_cons, List.map_map, List.append_assoc,
      List.singleton_append, Option.some.injEq, PixelRun.mk.injEq, and_true, true_and]
    refine ⟨by push_cast; ring_nf, ?_⟩
    congr 2
    · simp
    · apply List.map_congr_left
      intro k _
      simp only [Function.comp, spike_t.mk.injEq, true_and, Dbl.fin.injEq]
      push_cast
      ring

/-- The first candidate spike time is finite when the slot start and the predicted spike are
finite and the previous period is neither zero nor NaN (the documented precondition). -/
theorem first_spk_time_fin (ts T0 l1 : ℚ) (L0 : Dbl) (h0 : L0 ≠ Dbl.fin 0) (hn : L0 ≠ Dbl.nan) :
    ∃ t1 : ℚ, Dbl.fin ts + (Dbl.fin T0 - Dbl.fin ts) * Dbl.fin l1 / L0 = Dbl.fin t1 := by
  cases L0 with
  | fin l0 =>
    have hl0 : l0 ≠ 0 := fun h => h0 (by rw [h])
    exact ⟨ts + (T0 - ts) * l1 / l0, by simp [Dbl.fin_div _ _ hl0]⟩
  | pinf => exact ⟨ts + 0, rfl⟩
  | ninf => exact ⟨ts + 0, rfl⟩
  | nan => exact absurd rfl hn

/-- One slot with a constant finite period, in full: the state and the log that the loop
body leaves when the first candidate is `t1` and `n` terms of the progression lie below the
slot end. -/
theorem update_neuron_const (R : RandSrc) (c : Config) (sigma : Dbl) (ts dt l1 t1 : ℚ) (x : Dbl)
    (idx : Nat) (s : PixelRun) (n fuel : Nat)
    (hdet : ∀ g, inp_pixel_to_period R c sigma g x = (Dbl.fin l1, g))
    (ht1 : first_spk_time (Dbl.fin ts) s.next_spk_time (Dbl.fin l1) s.last_firing_period
      = Dbl.fin t1)
    (hlt : ∀ k : Nat, k < n → t1 + k * l1 < ts + dt) (hge : ts + dt ≤ t1 + n * l1)
    (hf : n < fuel) :
    update_neuron R c sigma (Dbl.fin ts) (Dbl.fin dt) fuel idx x s =
      some
        { last_firing_period := Dbl.fin l1, next_spk_time := Dbl.fin (t1 + n * l1),
          slot_spks := s.slot_spks ++ (List.range n).map
            (fun k : Nat => ({ neuron := idx, time := Dbl.fin (t1 + k * l1) } : spike_t)),
          rand_gen := s.rand_gen,
          cout := if Dbl.lt (Dbl.fin t1) (Dbl.fin ts) then
            s.cout ++ [InternalError.previous_step (Dbl.fin t1)] else s.cout } := by
  have hloop := emit_loop_progression R c sigma ts dt x l1 hdet idx n t1 s.slot_spks
    s.rand_gen
    (if Dbl.lt (Dbl.fin t1) (Dbl.fin ts) then
        s.cout ++ [InternalError.previous_step (Dbl.fin t1)] else s.cout) fuel hlt hge hf
  simp only [update_neuron, hdet, Dbl.isfinite_fin, if_true, ht1]
  exact hloop

/-- Exact arithmetic:
for one admitted neuron with prior state (L0, T0), L0 neither zero nor NaN and T0
finite, a slot [ts, ts+dt) and a pixel whose jitter-free period L1 is finite and positive,
the loop body of update() emits exactly the terms T1, T1+L1, T1+2*L1, ... below ts+dt, in that
order, where T1 = ts + (T0 - ts) * L1 / L0, and leaves last_firing_period = L1 and
next_spk_time = T1 + n*L1, the first term of the progression that is >= ts+dt. -/
theorem update_neuron_emits_progression (R : RandSrc) (c : Config) (sigma : Dbl)
    (ts dt T0 l1 : ℚ) (x : Dbl) (idx : Nat) (s : PixelRun)
    (hs : c.Spike_std_dev = Dbl.fin 0) (hm : c.Min_period_std_dev = Dbl.fin 0)
    (hL1 : (inp_pixel_to_period R c sigma s.rand_gen x).1 = Dbl.fin l1) (hpos : 0 < l1)
    (hT0 : s.next_spk_time = Dbl.fin T0)
    (hL0 : s.last_firing_period ≠ Dbl.fin 0) (hL0n : s.last_firing_period ≠ Dbl.nan) :
    ∃ (t1 : ℚ) (n : Nat),
      Dbl.fin ts + (Dbl.fin T0 - Dbl.fin ts) * Dbl.fin l1 / s.last_firing_period = Dbl.fin t1 ∧
      (∀ k : Nat, k < n → t1 + k * l1 < ts + dt) ∧ ts + dt ≤ t1 + n * l1 ∧
      ∀ fuel : Nat, n < fuel →
        ∃ r, update_neuron R c sigma (Dbl.fin ts) (Dbl.fin dt) fuel idx x s = some r ∧
          r.slot_spks = s.slot_spks ++ (List.range n).map
            (fun k : Nat => ({ neuron := idx, time := Dbl.fin (t1 + k * l1) } : spike_t)) ∧
          r.last_firing_period = Dbl.fin l1 ∧
          r.next_spk_time = Dbl.fin (t1 + n * l1) := by
  obtain ⟨t1, ht1⟩ := first_spk_time_fin ts T0 l1 s.last_firing_period hL0 hL0n
  obtain ⟨n, hlt, hge⟩ := exists_first_term_ge t1 (ts + dt) l1 hpos
  have hdet : ∀ g, inp_pixel_to_period R c sigma g x = (Dbl.fin l1, g) := by
    intro g
    rw [inp_pixel_to_period_const R c sigma x hs hm g s.rand_gen, hL1]
  refine ⟨t1, n, ht1, hlt, hge, ?_⟩
  intro fuel hf
  have ht1f : first_spk_time (Dbl.fin ts) s.next_spk_time (Dbl.fin l1) s.last_firing_period
      = Dbl.fin t1 := by
    rw [hT0]; exact ht1
  exact ⟨_, update_neuron_const R c sigma ts dt l1 t1 x idx s n fuel hdet ht1f hlt hge hf,
    rfl, rfl, rfl⟩

/-! ## One neuron over several slots -/

/-- Below the threshold the rate model returns +infinity, with or without jitter. -/
theorem inp_pixel_to_period_silent (R : RandSrc) (c : Config) (sigma : Dbl) (g : Nat) (x : Dbl)
    (h : Dbl.lt x c.Input_threshold = true) :
    (inp_pixel_to_period R c sigma g x).1 = Dbl.pinf := by
  simp [inp_pixel_to_period, h, Dbl.isfinite, Dbl.lt_pinf_left]

/-- A silent slot: no spike, the period cell untouched, the predicted time moved on by the
slot length. -/
theorem update_neuron_silent (R : RandSrc) (c : Config) (sigma : Dbl) (ts dt : Dbl) (fuel : Nat)
    (idx : Nat) (x : Dbl) (s : PixelRun) (h : Dbl.lt x c.Input_threshold = true) :
    update_neuron R c sigma ts dt fuel idx x s =
      some { s with next_spk_time := s.next_spk_time + dt,
                    rand_gen := (inp_pixel_to_period R c sigma s.rand_gen x).2 } := by
  simp [update_neuron, inp_pixel_to_period_silent R c sigma s.rand_gen x h, Dbl.isfinite]

/-- Exact arithmetic:
over any number of consecutive slots (lengths dt_1..dt_n, first one starting at ts)
in which the pixel of a neuron is below Input_threshold, the loop body of update() emits no
spike for it, leaves last_firing_period unchanged and leaves
next_spk_time = T0 + dt_1 + ... + dt_n; so in the contiguous next slot, starting at
ts + dt_1 + ... + dt_n, the first candidate spike for a period L1 is
(ts + dt_1 + ... + dt_n) + (T0 - ts) * L1 / L0: the phase held before the silence. -/
theorem silent_slots_keep_phase (R : RandSrc) (c : Config) (sigma : Dbl) (fuel idx : Nat)
    (sl : List (ℚ × Dbl)) (ts T0 : ℚ) (s : PixelRun)
    (hsil : ∀ p ∈ sl, Dbl.lt p.2 c.Input_threshold = true)
    (hT0 : s.next_spk_time = Dbl.fin T0) :
    ∃ r, run_neuron R c sigma fuel idx (contiguous_slots ts sl) s = some r ∧
      r.slot_spks = s.slot_spks ∧
      r.last_firing_period = s.last_firing_period ∧
      r.next_spk_time = Dbl.fin (T0 + (sl.map Prod.fst).sum) ∧
      ∀ L1 : Dbl,
        first_spk_time (Dbl.fin (ts + (sl.map Prod.fst).sum)) r.next_spk_time L1
            r.last_firing_period
          = Dbl.fin (ts + (sl.map Prod.fst).sum)
              + (Dbl.fin T0 - Dbl.fin ts) * L1 / s.last_firing_period := by
  induction sl generalizing ts T0 s with
  | nil =>
    refine ⟨s, rfl, rfl, rfl, by simpa using hT0, ?_⟩
    intro L1
    simp [first_spk_time, hT0]
  | cons p rest ih =>
    obtain ⟨dt, x⟩ := p
    have hx : Dbl.lt x c.Input_threshold = true := hsil (dt, x) (List.mem_cons_self _ _)
    have hrest : ∀ q ∈ rest, Dbl.lt q.2 c.Input_threshold = true :=
      fun q hq => hsil q (List.mem_cons_of_mem _ hq)
    obtain ⟨r, hrun, h1, h2, h3, h4⟩ := ih (ts + dt) (T0 + dt)
      { s with next_spk_time := s.next_spk_time + Dbl.fin dt,
               rand_gen := (inp_pixel_to_period R c sigma s.rand_gen x).2 }
      hrest (by simp [hT0])
    refine ⟨r, ?_, h1, h2, ?_, ?_⟩
    · simp only [contiguous_slots, run_neuron, update_neuron_silent R c sigma _ _ fuel idx x s hx]
      exact hrun
    · rw [h3]; simp only [List.map_cons, List.sum_cons]; congr 1; ring
    · intro L1
      have := h4 L1
      simp only [List.map_cons, List.sum_cons]
      have e1 : ts + (dt + (List.map Prod.fst rest).sum)
          = ts + dt + (List.map Prod.fst rest).sum := by ring
      rw [e1, this]
      simp

/-- Contiguous slots with a constant finite period, from a state that already holds that
period and a predicted spike not before the first slot: the spikes of all the slots together
are the terms of one progression below the end of the last slot. -/
theorem run_neuron_steady (R : RandSrc) (c : Config) (sigma : Dbl) (l : ℚ) (x : Dbl)
    (idx : Nat) (hpos : 0 < l)
    (hdet : ∀ g, inp_pixel_to_period R c sigma g x = (Dbl.fin l, g)) :
    ∀ (dts : List ℚ) (ts T : ℚ) (spks : List spike_t) (g : Nat) (log : List InternalError),
      (∀ d ∈ dts, 0 ≤ d) → ts ≤ T →
      ∃ m : Nat, (∀ k : Nat, k < m → T + k * l < ts + dts.sum) ∧ ts + dts.sum ≤ T + m * l ∧
        ∀ fuel : Nat, m < fuel →
          run_neuron R c sigma fuel idx (contiguous_slots ts (dts.map (fun d => (d, x))))
              { last_firing_period := Dbl.fin l, next_spk_time := Dbl.fin T, slot_spks := spks,
                rand_gen := g, cout := log }
            = some
              { last_firing_period := Dbl.fin l, next_spk_time := Dbl.fin (T + m * l),
                slot_spks := spks ++ (List.range m).map
                  (fun k : Nat => ({ neuron := idx, time := Dbl.fin (T + k * l) } : spike_t)),
                rand_gen := g, cout := log } := by
  intro dts
  induction dts with
  | nil =>
    intro ts T spks g log _ hT
    refine ⟨0, by simp, by simpa using hT, ?_⟩
    intro fuel _
    simp [contiguous_slots, run_neuron]
  | cons d rest ih =>
    intro ts T spks g log hnn hT
    have hd : 0 ≤ d := hnn d (List.mem_cons_self _ _)
    have hrest : ∀ e ∈ rest, 0 ≤ e := fun e he => hnn e (List.mem_cons_of_mem _ he)
    have hsum : 0 ≤ rest.sum := List.sum_nonneg hrest
    obtain ⟨n1, hlt1, hge1⟩ := exists_first_term_ge T (ts + d) l hpos
    obtain ⟨m2, hlt2, hge2, hrun2⟩ := ih (ts + d) (T + n1 * l)
      (spks ++ (List.range n1).map
        (fun k : Nat => ({ neuron := idx, time := Dbl.fin (T + k * l) } : spike_t))) g log
      hrest hge1
    refine ⟨n1 + m2, ?_, ?_, ?_⟩
    · intro k hk
      simp only [List.sum_cons]
      by_cases hk1 : k < n1
      · have := hlt1 k hk1
        linarith
      · obtain ⟨j, rfl⟩ : ∃ j, k = n1 + j := ⟨k - n1, by omega⟩
        have := hlt2 j (by omega)
        push_cast
        linarith
    · simp only [List.sum_cons]
      push_cast
      linarith
    · intro fuel hf
      have hl0 : l ≠ 0 := ne_of_gt hpos
      have ht1 : first_spk_time (Dbl.fin ts) (Dbl.fin T) (Dbl.fin l) (Dbl.fin l) = Dbl.fin T := by
        simp only [first_spk_time, Dbl.fin_sub, Dbl.fin_mul, Dbl.fin_div _ _ hl0, Dbl.fin_add]
        congr 1
        field_simp
      have hstep := update_neuron_const R c sigma ts d l T x idx
        { last_firing_period := Dbl.fin l, next_spk_time := Dbl.fin T, slot_spks := spks,
          rand_gen := g, cout := log } n1 fuel hdet ht1 hlt1 hge1 (by omega)
      have hnolog : Dbl.lt (Dbl.fin T) (Dbl.fin ts) = false := by
        simp [not_lt.mpr hT]
      simp only [hnolog, Bool.false_eq_true, if_false] at hstep
      simp only [List.map_cons, contiguous_slots, run_neuron, hstep]
      rw [hrun2 fuel (by omega)]
      simp only [Option.some.injEq, PixelRun.mk.injEq, true_and, and_true, Dbl.fin.injEq,
        List.append_assoc, List.append_cancel_left_eq]
      refine ⟨by push_cast; ring, ?_⟩
      rw [List.range_add, List.map_append, List.map_map]
      congr 1
      apply List.map_congr_left
      intro j _
      simp only [Function.comp, spike_t.mk.injEq, true_and, Dbl.fin.injEq]
      push_cast
      ring

/-- Exact arithmetic:
for a constant input whose jitter-free period L is finite and positive, over any
non-empty sequence of contiguous slots the spikes that the loop body of update() emits for a
neuron in all the slots together are exactly the terms T, T+L, T+2L, ... below the end of the
last slot, in that order, with T = ts_0 + (T0 - ts_0) * L / L0; so every inter-spike
interval, across slot boundaries too, equals L (the value of the rate model), and the state
left is last_firing_period = L and next_spk_time = the first term not below that end. -/
theorem constant_input_progression (R : RandSrc) (c : Config) (sigma : Dbl)
    (ts0 T0 l d0 : ℚ) (dts : List ℚ) (x : Dbl) (idx : Nat) (s : PixelRun)
    (hs : c.Spike_std_dev = Dbl.fin 0) (hm : c.Min_period_std_dev = Dbl.fin 0)
    (hL : (inp_pixel_to_period R c sigma s.rand_gen x).1 = Dbl.fin l) (hpos : 0 < l)
    (hT0 : s.next_spk_time = Dbl.fin T0)
    (hL0 : s.last_firing_period ≠ Dbl.fin 0) (hL0n : s.last_firing_period ≠ Dbl.nan)
    (hdts : ∀ d ∈ dts, 0 ≤ d) :
    ∃ (T : ℚ) (n : Nat),
      Dbl.fin ts0 + (Dbl.fin T0 - Dbl.fin ts0) * Dbl.fin l / s.last_firing_period = Dbl.fin T ∧
      (∀ k : Nat, k < n → T + k * l < ts0 + (d0 :: dts).sum) ∧
      ts0 + (d0 :: dts).sum ≤ T + n * l ∧
      ∀ fuel : Nat, n < fuel →
        ∃ r, run_neuron R c sigma fuel idx
              (contiguous_slots ts0 ((d0 :: dts).map (fun d => (d, x)))) s = some r ∧
          r.slot_spks = s.slot_spks ++ (List.range n).map
            (fun k : Nat => ({ neuron := idx, time := Dbl.fin (T + k * l) } : spike_t)) ∧
          r.last_firing_period = Dbl.fin l ∧
          r.next_spk_time = Dbl.fin (T + n * l) := by
  obtain ⟨T, hT⟩ := first_spk_time_fin ts0 T0 l s.last_firing_period hL0 hL0n
  have hdet : ∀ g, inp_pixel_to_period R c sigma g x = (Dbl.fin l, g) := by
    intro g
    rw [inp_pixel_to_period_const R c sigma x hs hm g s.rand_gen, hL]
  have hsum : 0 ≤ dts.sum := List.sum_nonneg hdts
  obtain ⟨n1, hlt1, hge1⟩ := exists_first_term_ge T (ts0 + d0) l hpos
  obtain ⟨m2, hlt2, hge2, hrun2⟩ := run_neuron_steady R c sigma l x idx hpos hdet dts
    (ts0 + d0) (T + n1 * l)
    (s.slot_spks ++ (List.range n1).map
      (fun k : Nat => ({ neuron := idx, time := Dbl.fin (T + k * l) } : spike_t)))
    s.rand_gen
    (if Dbl.lt (Dbl.fin T) (Dbl.fin ts0) then
      s.cout ++ [InternalError.previous_step (Dbl.fin T)] else s.cout)
    hdts hge1
  refine ⟨T, n1 + m2, hT, ?_, ?_, ?_⟩
  · intro k hk
    simp only [List.sum_cons]
    by_cases hk1 : k < n1
    · have := hlt1 k hk1
      linarith
    · obtain ⟨j, rfl⟩ : ∃ j, k = n1 + j := ⟨k - n1, by omega⟩
      have := hlt2 j (by omega)
      push_cast
      linarith
  · simp only [List.sum_cons]
    push_cast
    linarith
  · intro fuel hf
    have ht1 : first_spk_time (Dbl.fin ts0) s.next_spk_time (Dbl.fin l) s.last_firing_period
        = Dbl.fin T := by
      rw [hT0]; exact hT
    have hstep := update_neuron_const R c sigma ts0 d0 l T x idx s n1 fuel hdet ht1 hlt1 hge1
      (by omega)
    refine ⟨{ last_firing_period := Dbl.fin l,
              next_spk_time := Dbl.fin (T + n1 * l + m2 * l),
              slot_spks := s.slot_spks ++ (List.range n1).map
                  (fun k : Nat => ({ neuron := idx, time := Dbl.fin (T + k * l) } : spike_t))
                ++ (List.range m2).map
                  (fun k : Nat =>
                    ({ neuron := idx, time := Dbl.fin (T + n1 * l + k * l) } : spike_t)),
              rand_gen := s.rand_gen,
              cout := if Dbl.lt (Dbl.fin T) (Dbl.fin ts0) then
                s.cout ++ [InternalError.previous_step (Dbl.fin T)] else s.cout },
      ?_, ?_, rfl, ?_⟩
    · simp only [List.map_cons, contiguous_slots, run_neuron, hstep]
      exact hrun2 fuel (by omega)
    · simp only [List.append_assoc, List.append_cancel_left_eq]
      rw [List.range_add, List.map_append, List.map_map]
      congr 1
      apply List.map_congr_left
      intro j _
      simp only [Function.comp, spike_t.mk.injEq, true_and, Dbl.fin.injEq]
      push_cast
      ring
    · simp only [Dbl.fin.injEq]
      push_cast
      ring

/-! ## Ordering of events -/

/-- What `spk_time_comp` computes on spikes whose times are numbers: strictly earlier time, or
the same time and a strictly smaller neuron index. -/
theorem spk_time_comp_iff (a b : spike_t) (ha : a.time ≠ Dbl.nan) (hb : b.time ≠ Dbl.nan) :
    spk_time_comp a b = true ↔
      (Dbl.lt a.time b.time = true ∨ (a.time = b.time ∧ a.neuron < b.neuron)) := by
  obtain ⟨na, ta⟩ := a
  obtain ⟨nb, tb⟩ := b
  cases ta <;> cases tb <;>
    simp_all [spk_time_comp, Dbl.gt, Dbl.lt, HSub.hSub, Sub.sub, Dbl.sub, Dbl.add, Dbl.neg]
  rename_i x y
  constructor
  · rintro (h | ⟨h1, h2⟩)
    · exact Or.inl h
    · rcases lt_or_eq_of_le h1 with h | h
      · exact Or.inl h
      · exact Or.inr ⟨h, h2⟩
  · rintro (h | ⟨h1, h2⟩)
    · exact Or.inl h
    · exact Or.inr ⟨le_of_eq h1, h2⟩

/-- The order on doubles is transitive. -/
theorem Dbl.lt_transitive (a b c : Dbl) (h1 : Dbl.lt a b = true) (h2 : Dbl.lt b c = true) :
    Dbl.lt a c = true := by
  cases a <;> cases b <;> cases c <;> simp_all [Dbl.lt]
  exact lt_trans h1 h2

/-- Two doubles that are numbers are equal or strictly ordered. -/
theorem Dbl.lt_total (a b : Dbl) (ha : a ≠ Dbl.nan) (hb : b ≠ Dbl.nan) :
    Dbl.lt a b = true ∨ a = b ∨ Dbl.lt b a = true := by
  cases a <;> cases b <;> simp_all [Dbl.lt]
  exact lt_trichotomy _ _

/-- A double that is below another one is a number. -/
theorem Dbl.ne_nan_of_lt (a b : Dbl) (h : Dbl.lt a b = true) : a ≠ Dbl.nan := by
  cases a <;> simp_all [Dbl.lt]

theorem spk_le_trans (a b c : spike_t) (h1 : spk_le a b) (h2 : spk_le b c) : spk_le a c := by
  rcases h1 with h1 | ⟨e1, n1⟩ <;> rcases h2 with h2 | ⟨e2, n2⟩
  · exact Or.inl (Dbl.lt_transitive _ _ _ h1 h2)
  · exact Or.inl (e2 ▸ h1)
  · exact Or.inl (e1 ▸ h2)
  · exact Or.inr ⟨e1.trans e2, le_trans n1 n2⟩

/-- On spikes whose times are numbers, "`b` does not compare before `a`" is the ascending
order by time, then neuron index. -/
theorem spk_time_comp_false_iff (a b : spike_t) (ha : a.time ≠ Dbl.nan)
    (hb : b.time ≠ Dbl.nan) : spk_time_comp b a = false ↔ spk_le a b := by
  rw [← Bool.not_eq_true, spk_time_comp_iff b a hb ha]
  unfold spk_le
  have hirr : ∀ x : Dbl, Dbl.lt x x = false := by
    intro x; cases x <;> simp [Dbl.lt]
  have hasym : Dbl.lt a.time b.time = true → Dbl.lt b.time a.time = false := by
    intro h
    by_contra h2
    have := Dbl.lt_transitive _ _ _ h (by simpa using h2)
    rw [hirr] at this
    exact Bool.false_ne_true this
  constructor
  · intro h
    rcases Dbl.lt_total a.time b.time ha hb with h1 | h1 | h1
    · exact Or.inl h1
    · refine Or.inr ⟨h1, ?_⟩
      by_contra hn
      exact h (Or.inr ⟨h1.symm, by omega⟩)
    · exact absurd (Or.inl h1) h
  · rintro (h | ⟨h1, h2⟩) (h3 | ⟨h3, h4⟩)
    · rw [hasym h] at h3; exact Bool.false_ne_true h3
    · rw [h3, hirr] at h; exact Bool.false_ne_true h
    · rw [h1, hirr] at h3; exact Bool.false_ne_true h3
    · omega

theorem sort_insert_perm (comp : spike_t → spike_t → Bool) (a : spike_t) (l : List spike_t) :
    (sort_insert comp a l).Perm (a :: l) := by
  induction l with
  | nil => exact List.Perm.refl _
  | cons b l ih =>
    unfold sort_insert
    split
    · exact ((List.Perm.cons b ih).trans (List.Perm.swap a b l))
    · exact List.Perm.refl _

/-- The model of `std::sort` returns a permutation of its input. -/
theorem std_sort_perm (comp : spike_t → spike_t → Bool) (l : List spike_t) :
    (std_sort comp l).Perm l := by
  induction l with
  | nil => exact List.Perm.refl _
  | cons a l ih =>
    unfold std_sort
    exact (sort_insert_perm comp a _).trans (List.Perm.cons a ih)

theorem sort_insert_sorted (a : spike_t) (l : List spike_t) (ha : a.time ≠ Dbl.nan)
    (hl : ∀ b ∈ l, b.time ≠ Dbl.nan) (hs : l.Pairwise spk_le) :
    (sort_insert spk_time_comp a l).Pairwise spk_le := by
  induction l with
  | nil => simp [sort_insert]
  | cons b l ih =>
    have hb : b.time ≠ Dbl.nan := hl b (List.mem_cons_self _ _)
    have hl2 : ∀ y ∈ l, y.time ≠ Dbl.nan := fun y hy => hl y (List.mem_cons_of_mem _ hy)
    rw [List.pairwise_cons] at hs
    unfold sort_insert
    by_cases hc : spk_time_comp b a = true
    · simp only [hc, if_true]
      rw [List.pairwise_cons]
      refine ⟨?_, ih hl2 hs.2⟩
      intro y hy
      have hy2 : y ∈ a :: l := (sort_insert_perm spk_time_comp a l).subset hy
      rcases List.mem_cons.mp hy2 with rfl | hy3
      · rcases (spk_time_comp_iff b y hb ha).mp hc with h | ⟨h1, h2⟩
        · exact Or.inl h
        · exact Or.inr ⟨h1, by omega⟩
      · exact hs.1 y hy3
    · simp only [hc, Bool.false_eq_true, if_false]
      have hab : spk_le a b := (spk_time_comp_false_iff a b ha hb).mp (by simpa using hc)
      rw [List.pairwise_cons]
      refine ⟨?_, List.pairwise_cons.mpr hs⟩
      intro y hy
      rcases List.mem_cons.mp hy with rfl | hy3
      · exact hab
      · exact spk_le_trans _ _ _ hab (hs.1 y hy3)

/-- On spikes whose times are numbers the model of `std::sort` with `spk_time_comp` returns
them in ascending order of time, then neuron index. -/
theorem std_sort_sorted (l : List spike_t) (hl : ∀ b ∈ l, b.time ≠ Dbl.nan) :
    (std_sort spk_time_comp l).Pairwise spk_le := by
  induction l with
  | nil => simp [std_sort]
  | cons a l ih =>
    unfold std_sort
    have hl2 : ∀ y ∈ l, y.time ≠ Dbl.nan := fun y hy => hl y (List.mem_cons_of_mem _ hy)
    apply sort_insert_sorted a _ (hl a (List.mem_cons_self _ _)) _ (ih hl2)
    intro b hb
    exact hl2 b ((std_sort_perm spk_time_comp l).subset hb)

/-! ## What a slot emits -/

/-- Every spike that the emission loop pushes carries the neuron index it was started with and
a time below the end of the slot. -/
theorem emit_loop_spks (R : RandSrc) (c : Config) (sigma : Dbl) (ts dt x : Dbl) :
    ∀ (fuel : Nat) (new_spk : spike_t) (s r : PixelRun),
      emit_loop R c sigma ts dt x fuel new_spk s = some r →
      ∃ added, r.slot_spks = s.slot_spks ++ added ∧
        ∀ a ∈ added, a.neuron = new_spk.neuron ∧ Dbl.lt a.time (ts + dt) = true := by
  intro fuel
  induction fuel with
  | zero => intro new_spk s r h; simp [emit_loop] at h
  | succ f ih =>
    intro new_spk s r h
    unfold emit_loop at h
    by_cases hc : Dbl.lt new_spk.time (ts + dt) = true
    · simp only [hc, if_true] at h
      by_cases hfin : (inp_pixel_to_period R c sigma s.rand_gen x).1.isfinite = true
      · simp only [hfin, if_true] at h
        obtain ⟨added, h1, h2⟩ := ih _ _ _ h
        refine ⟨new_spk :: added, by simp [h1], ?_⟩
        intro a ha
        rcases List.mem_cons.mp ha with rfl | ha2
        · exact ⟨rfl, hc⟩
        · exact h2 a ha2
      · simp only [hfin] at h
        simp only [Bool.false_eq_true, if_false, Option.some.injEq] at h
        subst h
        refine ⟨[new_spk], rfl, ?_⟩
        intro a ha
        rw [List.mem_singleton] at ha
        subst ha
        exact ⟨rfl, hc⟩
    · simp only [hc] at h
      simp only [Bool.false_eq_true, if_false, Option.some.injEq] at h
      subst h
      exact ⟨[], by simp, by simp⟩

/-- Every spike that the loop body pushes for a pixel carries `out_neu_idx` and a time below
the end of the slot. -/
theorem update_neuron_spks (R : RandSrc) (c : Config) (sigma : Dbl) (ts dt x : Dbl)
    (fuel idx : Nat) (s r : PixelRun)
    (h : update_neuron R c sigma ts dt fuel idx x s = some r) :
    ∃ added, r.slot_spks = s.slot_spks ++ added ∧
      ∀ a ∈ added, a.neuron = idx ∧ Dbl.lt a.time (ts + dt) = true := by
  unfold update_neuron at h
  by_cases hfin : (inp_pixel_to_period R c sigma s.rand_gen x).1.isfinite = true
  · simp only [hfin, if_true] at h
    exact emit_loop_spks R c sigma ts dt x fuel _ _ _ h
  · simp only [hfin] at h
    simp only [Bool.false_eq_true, if_false, Option.some.injEq] at h
    subst h
    exact ⟨[], by simp, by simp⟩

/-- One pass of the pixel loop: the spikes pushed, and the only state cells written are the
two at the offset of the iterators. -/
theorem update_pixel_effect (R : RandSrc) (c : Config) (sigma : Dbl) (img : List Dbl)
    (simTime step : Dbl) (fuel it idx : Nat) (s s1 : SlotRun)
    (h : update_pixel R c sigma img simTime step fuel it idx s = some s1) :
    (∃ added, s1.slot_spks = s.slot_spks ++ added ∧
      ∀ a ∈ added, a.neuron = idx ∧
        Dbl.lt a.time (simTime / Dbl.fin 1000 + step / Dbl.fin 1000) = true) ∧
    (∃ v, s1.last_firing_period = s.last_firing_period.set it v) ∧
    (∃ v, s1.next_spk_time = s.next_spk_time.set it v) := by
  unfold update_pixel at h
  split at h
  · rename_i pixel old_per told _ _ _
    split at h
    · rename_i r hr
      simp only [Option.some.injEq] at h
      subst h
      exact ⟨update_neuron_spks R c sigma _ _ pixel fuel idx _ r hr, ⟨_, rfl⟩, ⟨_, rfl⟩⟩
    · exact absurd h (by simp)
  · exact absurd h (by simp)

/-- A sequence of passes of the pixel loop at the offsets `off k`, with the indices `idxf k`:
the spikes pushed carry one of those indices and a time below the end of the slot; the state
cells at other offsets keep their values; the state images keep their sizes. -/
theorem fold_pixels_effect (R : RandSrc) (c : Config) (sigma : Dbl) (img : List Dbl)
    (simTime step : Dbl) (fuel : Nat) (off idxf : Nat → Nat) (p : Nat) :
    ∀ (ks : List Nat) (s r : SlotRun),
      ks.foldlM (fun s k => update_pixel R c sigma img simTime step fuel (off k) (idxf k) s) s
        = some r →
      (∃ added, r.slot_spks = s.slot_spks ++ added ∧
        ∀ a ∈ added, (∃ k ∈ ks, a.neuron = idxf k) ∧
          Dbl.lt a.time (simTime / Dbl.fin 1000 + step / Dbl.fin 1000) = true) ∧
      ((∀ k ∈ ks, p ≠ off k) →
        r.last_firing_period[p]? = s.last_firing_period[p]? ∧
        r.next_spk_time[p]? = s.next_spk_time[p]?) ∧
      r.last_firing_period.length = s.last_firing_period.length ∧
      r.next_spk_time.length = s.next_spk_time.length := by
  intro ks
  induction ks with
  | nil =>
    intro s r h
    simp only [List.foldlM_nil, pure, Option.some.injEq] at h
    subst h
    exact ⟨⟨[], by simp, by simp⟩, fun _ => ⟨rfl, rfl⟩, rfl, rfl⟩
  | cons k ks ih =>
    intro s r h
    rw [List.foldlM_cons] at h
    obtain ⟨s1, h1, h2⟩ := Option.bind_eq_some.mp h
    obtain ⟨⟨add1, ha1, hp1⟩, ⟨v1, hv1⟩, ⟨w1, hw1⟩⟩ :=
      update_pixel_effect R c sigma img simTime step fuel (off k) (idxf k) s s1 h1
    obtain ⟨⟨add2, ha2, hp2⟩, hfr, hlen1, hlen2⟩ := ih s1 r h2
    refine ⟨⟨add1 ++ add2, by rw [ha2, ha1, List.append_assoc], ?_⟩, ?_, ?_, ?_⟩
    · intro a ha
      rcases List.mem_append.mp ha with h3 | h3
      · exact ⟨⟨k, List.mem_cons_self _ _, (hp1 a h3).1⟩, (hp1 a h3).2⟩
      · obtain ⟨⟨k2, hk2, e2⟩, hlt⟩ := hp2 a h3
        exact ⟨⟨k2, List.mem_cons_of_mem _ hk2, e2⟩, hlt⟩
    · intro hne
      have hk : p ≠ off k := hne k (List.mem_cons_self _ _)
      obtain ⟨e1, e2⟩ := hfr (fun k2 hk2 => hne k2 (List.mem_cons_of_mem _ hk2))
      rw [e1, e2, hv1, hw1]
      exact ⟨List.getElem?_set_ne (Ne.symm hk), List.getElem?_set_ne (Ne.symm hk)⟩
    · rw [hlen1, hv1, List.length_set]
    · rw [hlen2, hw1, List.length_set]

/-- The pixel loop is the sequence of the passes at the offsets `it + k * Inp_ind_inc` with
the indices `out_neu_idx + k`, for `k` below the number `m` of admitted pixels: `m` is at most
the remaining count, all these offsets are inside the image, and the loop stops short of the
count only at the end of the image. -/
theorem pixel_loop_eq_fold (R : RandSrc) (c : Config) (sigma : Dbl) (img : List Dbl)
    (simTime step : Dbl) (fuel : Nat) :
    ∀ (remaining it idx : Nat),
      ∃ m : Nat, m ≤ remaining ∧
        (∀ k : Nat, k < m → it + k * c.Inp_ind_inc < img.length) ∧
        (m < remaining → img.length ≤ it + m * c.Inp_ind_inc) ∧
        ∀ s : SlotRun,
          pixel_loop R c sigma img simTime step fuel remaining it idx s =
            (List.range m).foldlM
              (fun s k => update_pixel R c sigma img simTime step fuel
                (it + k * c.Inp_ind_inc) (idx + k) s) s := by
  intro remaining
  induction remaining with
  | zero =>
    intro it idx
    exact ⟨0, le_refl _, by simp, by simp, fun s => by simp [pixel_loop, pure]⟩
  | succ n ih =>
    intro it idx
    by_cases hit : it < img.length
    · obtain ⟨m, hm1, hm2, hm3, hm4⟩ := ih (it + c.Inp_ind_inc) (idx + 1)
      refine ⟨m + 1, by omega, ?_, ?_, ?_⟩
      · intro k hk
        cases k with
        | zero => simpa using hit
        | succ j =>
          have := hm2 j (by omega)
          rw [Nat.add_mul, Nat.one_mul]
          omega
      · intro hlt
        have := hm3 (by omega)
        rw [Nat.add_mul, Nat.one_mul]
        omega
      · intro s
        rw [List.range_succ_eq_map, List.foldlM_cons]
        simp only [pixel_loop, hit, if_true, Nat.zero_mul, Nat.add_zero]
        cases hup : update_pixel R c sigma img simTime step fuel it idx s with
        | none => rfl
        | some s1 =>
          show pixel_loop R c sigma img simTime step fuel n (it + c.Inp_ind_inc) (idx + 1) s1
            = List.foldlM _ s1 (List.map Nat.succ (List.range m))
          rw [List.foldlM_map, hm4 s1]
          congr 1
          funext s2 k
          have e1 : it + c.Inp_ind_inc + k * c.Inp_ind_inc = it + (k + 1) * c.Inp_ind_inc := by
            rw [Nat.add_mul, Nat.one_mul]; omega
          have e2 : idx + 1 + k = idx + (k + 1) := by omega
          rw [e1, e2]
    · refine ⟨0, by omega, by simp, ?_, ?_⟩
      · intro _
        simp only [Nat.zero_mul, Nat.add_zero]
        omega
      · intro s
        simp [pixel_loop, hit, pure]

/-! ## The slot as a whole -/

/-- Every spike of a slot has a time below the end of the slot, hence a time that is a
number. -/
theorem update_slot_spks (R : RandSrc) (fuel : Nat) (o : SpikingOutput) (s : SlotRun)
    (h : update_slot R fuel o = some s) :
    ∀ a ∈ s.slot_spks,
      Dbl.lt a.time (o.simTime / Dbl.fin 1000 + o.step / Dbl.fin 1000) = true := by
  obtain ⟨m, _, _, _, hfold⟩ := pixel_loop_eq_fold R o.toConfig o.norm_dist_sigma o.inputImage
    o.simTime o.step fuel o.Total_inputs o.First_inp_ind 0
  unfold update_slot at h
  rw [hfold] at h
  obtain ⟨⟨added, ha, hp⟩, _⟩ := fold_pixels_effect R o.toConfig o.norm_dist_sigma o.inputImage
    o.simTime o.step fuel _ _ 0 _ _ _ h
  intro a hmem
  rw [ha] at hmem
  exact (hp a (by simpa using hmem)).2

/-- What `update()` does to the event list: it appends the spikes of the slot, sorted. -/
theorem update_out_spks (R : RandSrc) (fuel : Nat) (o o1 : SpikingOutput)
    (h : update R fuel o = some o1) :
    ∃ (s : SlotRun) (seg : List spike_t),
      update_slot R fuel o = some s ∧
      o1.out_spks = o.out_spks ++ seg ∧
      seg.Perm s.slot_spks ∧
      seg.Pairwise (fun a b => spk_time_comp b a = false ∧ spk_le a b) := by
  unfold update at h
  cases hs : update_slot R fuel o with
  | none => rw [hs] at h; exact absurd h (by simp)
  | some s =>
    rw [hs] at h
    simp only [Option.some.injEq] at h
    subst h
    have hnum : ∀ a ∈ s.slot_spks, a.time ≠ Dbl.nan := fun a ha =>
      Dbl.ne_nan_of_lt _ _ (update_slot_spks R fuel o s hs a ha)
    have hperm := std_sort_perm spk_time_comp s.slot_spks
    refine ⟨s, std_sort spk_time_comp s.slot_spks, rfl, rfl, hperm, ?_⟩
    have hsorted := std_sort_sorted s.slot_spks hnum
    have hall : ∀ a ∈ std_sort spk_time_comp s.slot_spks, a.time ≠ Dbl.nan :=
      fun a ha => hnum a (hperm.subset ha)
    rw [List.pairwise_iff_forall_sublist] at hsorted ⊢
    intro a b hab
    have ha : a ∈ std_sort spk_time_comp s.slot_spks := hab.subset (by simp)
    have hb : b ∈ std_sort spk_time_comp s.slot_spks := hab.subset (by simp)
    exact ⟨(spk_time_comp_false_iff a b (hall a ha) (hall b hb)).mpr (hsorted hab), hsorted hab⟩

/-- C7: for every call of update() that returns, the new event list is the old event list
followed by a segment that is a permutation of the spikes emitted in this slot and is sorted
by (time, neuron index) ascending under spk_time_comp; the events already in the list are
neither reordered nor changed. -/
theorem update_appends_sorted_slot (R : RandSrc) (fuel : Nat) (o o1 : SpikingOutput)
    (h : update R fuel o = some o1) :
    ∃ (s : SlotRun) (seg : List spike_t),
      update_slot R fuel o = some s ∧
      o1.out_spks = o.out_spks ++ seg ∧
      seg.Perm s.slot_spks ∧
      seg.Pairwise (fun a b => spk_time_comp b a = false ∧ spk_le a b) :=
  update_out_spks R fuel o o1 h

/-- After any sequence of feedInput/update calls that return, the event list is the initial
list followed by one segment per call, each segment sorted by time ascending with the neuron
index as tie-break. -/
theorem run_out_spks_sorted_segments (R : RandSrc) (fuel : Nat) :
    ∀ (frames : List (Dbl × List Dbl)) (o o1 : SpikingOutput),
      run R fuel o frames = some o1 →
      ∃ segs : List (List spike_t),
        segs.length = frames.length ∧
        o1.out_spks = o.out_spks ++ segs.flatten ∧
        (∀ seg ∈ segs, seg.Pairwise spk_le) ∧
        (o.out_spks.Pairwise spk_le →
          (o.out_spks :: segs).Pairwise (fun s1 s2 => ∀ a ∈ s1, ∀ b ∈ s2, spk_le a b) →
          o1.out_spks.Pairwise spk_le) := by
  intro frames
  induction frames with
  | nil =>
    intro o o1 h
    simp only [run, Option.some.injEq] at h
    subst h
    exact ⟨[], rfl, by simp, by simp, fun h _ => h⟩
  | cons fr rest ih =>
    intro o o1 h
    obtain ⟨t, img⟩ := fr
    unfold run at h
    cases hu : update R fuel (feedInput o t img true 0) with
    | none => rw [hu] at h; exact absurd h (by simp)
    | some o2 =>
      rw [hu] at h
      simp only at h
      obtain ⟨s, seg, _, hseg, _, hsorted⟩ := update_out_spks R fuel _ o2 hu
      have hfeed : (feedInput o t img true 0).out_spks = o.out_spks := by
        unfold feedInput; split <;> rfl
      rw [hfeed] at hseg
      obtain ⟨segs, hlen, hout, hsegs, _⟩ := ih o2 o1 h
      have hout2 : o1.out_spks = o.out_spks ++ (seg :: segs).flatten := by
        rw [hout, hseg, List.flatten_cons, List.append_assoc]
      refine ⟨seg :: segs, by simp [hlen], hout2, ?_, ?_⟩
      · intro sg hsg
        rcases List.mem_cons.mp hsg with rfl | hsg2
        · exact hsorted.imp (fun hab => hab.2)
        · exact hsegs sg hsg2
      · intro hinit hcross
        have e : o1.out_spks = (o.out_spks :: seg :: segs).flatten := by
          rw [hout2]; simp
        rw [e, List.pairwise_flatten]
        refine ⟨?_, hcross⟩
        intro l hl
        rcases List.mem_cons.mp hl with rfl | hl2
        · exact hinit
        · rcases List.mem_cons.mp hl2 with rfl | hl3
          · exact hsorted.imp (fun hab => hab.2)
          · exact hsegs l hl3

/-- Exact arithmetic, unbounded iterator offsets:
for a grid of N pixels and Inp_ind_inc >= 1, a call of update() is the sequence of the
loop passes at the pixel offsets First_inp_ind + k*Inp_ind_inc for k = 0..m-1, where m is at
most Total_inputs, every such offset is below N and the sequence stops short of Total_inputs
only at the end of the image; these offsets are pairwise distinct, so each admitted pixel is
processed exactly once; and the state cells at every other offset are the same after the
call as before it. -/
theorem update_visits_admitted_pixels (R : RandSrc) (fuel : Nat) (o o1 : SpikingOutput)
    (hinc : 1 ≤ o.Inp_ind_inc) (h : update R fuel o = some o1) :
    ∃ m : Nat, m ≤ o.Total_inputs ∧
      (∀ k : Nat, k < m → o.First_inp_ind + k * o.Inp_ind_inc < o.inputImage.length) ∧
      (m < o.Total_inputs → o.inputImage.length ≤ o.First_inp_ind + m * o.Inp_ind_inc) ∧
      update_slot R fuel o =
        (List.range m).foldlM
          (fun s k => update_pixel R o.toConfig o.norm_dist_sigma o.inputImage o.simTime o.step
            fuel (o.First_inp_ind + k * o.Inp_ind_inc) (0 + k) s)
          { last_firing_period := o.last_firing_period
            next_spk_time := o.next_spk_time
            slot_spks := []
            rand_gen := o.rand_gen
            cout := o.cout } ∧
      ((List.range m).map (fun k => o.First_inp_ind + k * o.Inp_ind_inc)).Nodup ∧
      ∀ p : Nat, (∀ k : Nat, k < m → p ≠ o.First_inp_ind + k * o.Inp_ind_inc) →
        o1.last_firing_period[p]? = o.last_firing_period[p]? ∧
        o1.next_spk_time[p]? = o.next_spk_time[p]? := by
  obtain ⟨m, hm1, hm2, hm3, hfold⟩ := pixel_loop_eq_fold R o.toConfig o.norm_dist_sigma
    o.inputImage o.simTime o.step fuel o.Total_inputs o.First_inp_ind 0
  refine ⟨m, hm1, hm2, hm3, hfold _, ?_, ?_⟩
  · apply List.Nodup.map_on _ (List.nodup_range m)
    intro a _ b _ hab
    have h1 : a * o.Inp_ind_inc = b * o.Inp_ind_inc := by omega
    exact Nat.eq_of_mul_eq_mul_right (by omega) h1
  · intro p hp
    unfold update at h
    cases hs : update_slot R fuel o with
    | none => rw [hs] at h; exact absurd h (by simp)
    | some s =>
      rw [hs] at h
      simp only [Option.some.injEq] at h
      subst h
      have hs2 := hs
      unfold update_slot at hs2
      rw [hfold] at hs2
      obtain ⟨_, hfr, _⟩ := fold_pixels_effect R o.toConfig o.norm_dist_sigma o.inputImage
        o.simTime o.step fuel _ _ p _ _ _ hs2
      exact hfr (fun k hk => hp k (List.mem_range.mp hk))

/-! ## From the loop body to the whole call -/

/-- A pass of the pixel loop that returns has read the pixel and the two state cells at the
offset of the iterators, run the loop body on them and written the two cells back. -/
theorem update_pixel_some (R : RandSrc) (c : Config) (sigma : Dbl) (img : List Dbl)
    (simTime step : Dbl) (fuel it idx : Nat) (s s1 : SlotRun)
    (h : update_pixel R c sigma img simTime step fuel it idx s = some s1) :
    ∃ (x L0 T0 : Dbl) (u : PixelRun),
      img[it]? = some x ∧ s.last_firing_period[it]? = some L0 ∧
      s.next_spk_time[it]? = some T0 ∧
      update_neuron R c sigma (simTime / Dbl.fin 1000) (step / Dbl.fin 1000) fuel idx x
          { last_firing_period := L0, next_spk_time := T0, slot_spks := s.slot_spks,
            rand_gen := s.rand_gen, cout := s.cout } = some u ∧
      s1.last_firing_period[it]? = some u.last_firing_period ∧
      s1.next_spk_time[it]? = some u.next_spk_time := by
  unfold update_pixel at h
  split at h
  · rename_i pixel old_per told h1 h2 h3
    split at h
    · rename_i u hu
      simp only [Option.some.injEq] at h
      subst h
      have hl1 : it < s.last_firing_period.length := (List.getElem?_eq_some.mp h2).1
      have hl2 : it < s.next_spk_time.length := (List.getElem?_eq_some.mp h3).1
      exact ⟨pixel, old_per, told, u, h1, h2, h3, hu, List.getElem?_set_self hl1,
        List.getElem?_set_self hl2⟩
    · exact absurd h (by simp)
  · exact absurd h (by simp)

/-- In a sequence of passes at pairwise distinct offsets, the two state cells of each visited
offset end up holding what one run of the loop body leaves from the values they had before
the sequence.  With `pixel_loop_eq_fold`, this carries the properties of the loop body
(`update_neuron`) over to each admitted pixel of a call of `update()` with
`Inp_ind_inc >= 1`. -/
theorem fold_pixels_cell (R : RandSrc) (c : Config) (sigma : Dbl) (img : List Dbl)
    (simTime step : Dbl) (fuel : Nat) (off idxf : Nat → Nat) :
    ∀ (ks : List Nat) (s r : SlotRun), (ks.map off).Nodup →
      ks.foldlM (fun s k => update_pixel R c sigma img simTime step fuel (off k) (idxf k) s) s
        = some r →
      ∀ k ∈ ks,
        ∃ (x L0 T0 : Dbl) (spks : List spike_t) (g : Nat) (log : List InternalError)
          (u : PixelRun),
          img[off k]? = some x ∧ s.last_firing_period[off k]? = some L0 ∧
          s.next_spk_time[off k]? = some T0 ∧
          update_neuron R c sigma (simTime / Dbl.fin 1000) (step / Dbl.fin 1000) fuel (idxf k) x
              { last_firing_period := L0, next_spk_time := T0, slot_spks := spks,
                rand_gen := g, cout := log } = some u ∧
          r.last_firing_period[off k]? = some u.last_firing_period ∧
          r.next_spk_time[off k]? = some u.next_spk_time := by
  intro ks
  induction ks with
  | nil => intro s r _ _ k hk; exact absurd hk (List.not_mem_nil k)
  | cons k0 ks ih =>
    intro s r hnd h k hk
    rw [List.map_cons, List.nodup_cons] at hnd
    rw [List.foldlM_cons] at h
    obtain ⟨s1, h1, h2⟩ := Option.bind_eq_some.mp h
    rcases List.mem_cons.mp hk with rfl | hk2
    · obtain ⟨x, L0, T0, u, hx, hL, hT, hu, hs1L, hs1T⟩ :=
        update_pixel_some R c sigma img simTime step fuel (off k) (idxf k) s s1 h1
      have hfr := (fold_pixels_effect R c sigma img simTime step fuel off idxf (off k)
        ks s1 r h2).2.1 (fun k2 hk2 heq => hnd.1 (heq ▸ List.mem_map_of_mem off hk2))
      exact ⟨x, L0, T0, s.slot_spks, s.rand_gen, s.cout, u, hx, hL, hT, hu,
        hfr.1.trans hs1L, hfr.2.trans hs1T⟩
    · have hne : off k0 ≠ off k := fun heq => hnd.1 (heq ▸ List.mem_map_of_mem off hk2)
      obtain ⟨_, ⟨v1, hv1⟩, ⟨w1, hw1⟩⟩ :=
        update_pixel_effect R c sigma img simTime step fuel (off k0) (idxf k0) s s1 h1
      obtain ⟨x, L0, T0, spks, g, log, u, hx, hL, hT, hu, hrL, hrT⟩ := ih s1 r hnd.2 h2 k hk2
      rw [hv1, List.getElem?_set_ne hne] at hL
      rw [hw1, List.getElem?_set_ne hne] at hT
      exact ⟨x, L0, T0, spks, g, log, u, hx, hL, hT, hu, hrL, hrT⟩

/-! ## Gated-out slot -/

/-- C11: when the stored input image is empty (the frame of the slot was gated out),
update() returns at once, for every First_inp_ind, Inp_ind_inc and Total_inputs and every
fuel: no last_firing_period or next_spk_time cell changes and no spike is appended to the
event list (the object is left exactly as it was). -/
theorem update_empty_image (R : RandSrc) (fuel : Nat) (o : SpikingOutput)
    (h : o.inputImage = []) : update R fuel o = some o := by
  have hloop : ∀ (n it idx : Nat) (s : SlotRun),
      pixel_loop R o.toConfig o.norm_dist_sigma [] o.simTime o.step fuel n it idx s = some s := by
    intro n it idx s
    cases n <;> simp [pixel_loop]
  obtain ⟨c, sx, sy, st, t, sg, g, img, lfp, nst, out, log⟩ := o
  simp only at h
  subst h
  simp only [update, update_slot, hloop, std_sort, List.append_nil]

/-! ## Setters -/

theorem Dbl.not_ge_of_lt (a b : Dbl) (h : Dbl.lt a b = true) : Dbl.ge a b = false := by
  cases a <;> cases b <;> simp_all [Dbl.lt, Dbl.ge, Dbl.le]

/-- A natural number below 2^64 converts to itself. -/
theorem Dbl.to_index_nat (n : Nat) (hn : n < 2 ^ 64) : Dbl.to_index (Dbl.fin n) = n := by
  have h1 : (n : ℚ) < 2 ^ 64 := by exact_mod_cast hn
  have h0 : (0 : ℚ) ≤ n := Nat.cast_nonneg n
  have hf : Rat.floor (n : ℚ) = (n : ℤ) := by
    show ⌊(n : ℚ)⌋ = (n : ℤ)
    exact Int.floor_natCast n
  simp [Dbl.to_index, h0, h1, hf]

/-- C12: each validating setter returns false and leaves the object unchanged when given a
negative value, and returns true, stores the value in its own field and leaves every other
field unchanged when given a value >= 0.  The three index fields are unsigned integers: they
receive the value converted to that type, which is the value itself when it is a natural
number below 2^64. -/
theorem validating_setters (o : SpikingOutput) (w v : Dbl)
    (hw : Dbl.lt w (Dbl.fin 0) = true) (hv : Dbl.ge v (Dbl.fin 0) = true) :
    (set_Min_period o w = (false, o) ∧
      set_Min_period o v = (true, { o with Min_period := v })) ∧
    (set_Longest_sustained_period o w = (false, o) ∧
      set_Longest_sustained_period o v = (true, { o with Longest_sustained_period := v })) ∧
    (set_Min_period_std_dev o w = (false, o) ∧
      set_Min_period_std_dev o v = (true, { o with Min_period_std_dev := v })) ∧
    (set_Start_time o w = (false, o) ∧
      set_Start_time o v = (true, { o with Start_time := v })) ∧
    (set_End_time o w = (false, o) ∧
      set_End_time o v = (true, { o with End_time := v })) ∧
    (set_First_inp_ind o w = (false, o) ∧
      set_First_inp_ind o v = (true, { o with First_inp_ind := Dbl.to_index v })) ∧
    (set_Inp_ind_inc o w = (false, o) ∧
      set_Inp_ind_inc o v = (true, { o with Inp_ind_inc := Dbl.to_index v })) ∧
    (set_Total_inputs o w = (false, o) ∧
      set_Total_inputs o v = (true, { o with Total_inputs := Dbl.to_index v })) ∧
    (∀ n : Nat, n < 2 ^ 64 → v = Dbl.fin n → Dbl.to_index v = n) := by
  have hw2 : Dbl.ge w (Dbl.fin 0) = false := Dbl.not_ge_of_lt w (Dbl.fin 0) hw
  refine ⟨?_, ?_, ?_, ?_, ?_, ?_, ?_, ?_, ?_⟩
  · simp [set_Min_period, hw2, hv]
  · simp [set_Longest_sustained_period, hw2, hv]
  · simp [set_Min_period_std_dev, hw2, hv]
  · simp [set_Start_time, hw2, hv]
  · simp [set_End_time, hw2, hv]
  · simp [set_First_inp_ind, hw2, hv]
  · simp [set_Inp_ind_inc, hw2, hv]
  · simp [set_Total_inputs, hw2, hv]
  · intro n hn hvn
    rw [hvn]
    exact Dbl.to_index_nat n hn

/-- C13 (amended): set_Input_threshold accepts every value, negative ones included: it stores
the value in Input_threshold, leaves every other field unchanged and returns true. -/
theorem set_Input_threshold_accepts_all (o : SpikingOutput) (v : Dbl) :
    set_Input_threshold o v = (true, { o with Input_threshold := v }) := by
  unfold set_Input_threshold
  rfl

/-! ## Batch of parameters -/

/-- A setter that tests its argument either rejects it and leaves the object as it was, or
accepts it; which of the two depends on the argument alone. -/
theorem validating_setter_cases (f : Dbl → SpikingOutput → SpikingOutput) (o o1 : SpikingOutput)
    (v : Dbl) :
    ((if Dbl.ge v (Dbl.fin 0) then (true, f v o) else (false, o)) = (false, o) ∨
      (if Dbl.ge v (Dbl.fin 0) then (true, f v o) else (false, o)).1 = true) ∧
    (if Dbl.ge v (Dbl.fin 0) then (true, f v o) else (false, o)).1
      = (if Dbl.ge v (Dbl.fin 0) then (true, f v o1) else (false, o1)).1 := by
  by_cases h : Dbl.ge v (Dbl.fin 0) = true
  · simp [h]
  · simp [h]

/-- One step of `setParameters` either rejects the pair and leaves the object as it was, or
accepts it, and then the key is one of the twelve known names. -/
theorem setParameters_step_cases (o : SpikingOutput) (k : String) (v : Dbl) :
    setParameters_step o k v = (false, o) ∨
      ((setParameters_step o k v).1 = true ∧ k ∈ known_keys) := by
  unfold setParameters_step
  by_cases h0 : k = "Min_period"
  · rw [if_pos h0]
    rcases (validating_setter_cases (fun v o => { o with Min_period := v }) o o v).1 with h | h
    · exact Or.inl h
    · exact Or.inr ⟨h, by rw [h0]; simp [known_keys]⟩
  rw [if_neg h0]
  by_cases h1 : k = "Longest_sustained_period"
  · rw [if_pos h1]
    rcases (validating_setter_cases (fun v o => { o with Longest_sustained_period := v }) o o v).1 with h | h
    · exact Or.inl h
    · exact Or.inr ⟨h, by rw [h1]; simp [known_keys]⟩
  rw [if_neg h1]
  by_cases h2 : k = "Input_threshold"
  · rw [if_pos h2]
    exact Or.inr ⟨rfl, by rw [h2]; simp [known_keys]⟩
  rw [if_neg h2]
  by_cases h3 : k = "Freq_per_inp"
  · rw [if_pos h3]
    exact Or.inr ⟨rfl, by rw [h3]; simp [known_keys]⟩
  rw [if_neg h3]
  by_cases h4 : k = "Spike_std_dev"
  · rw [if_pos h4]
    exact Or.inr ⟨rfl, by rw [h4]; simp [known_keys]⟩
  rw [if_neg h4]
  by_cases h5 : k = "Min_period_std_dev"
  · rw [if_pos h5]
    rcases (validating_setter_cases (fun v o => { o with Min_period_std_dev := v }) o o v).1 with h | h
    · exact Or.inl h
    · exact Or.inr ⟨h, by rw [h5]; simp [known_keys]⟩
  rw [if_neg h5]
  by_cases h6 : k = "Start_time"
  · rw [if_pos h6]
    rcases (validating_setter_cases (fun v o => { o with Start_time := v }) o o v).1 with h | h
    · exact Or.inl h
    · exact Or.inr ⟨h, by rw [h6]; simp [known_keys]⟩
  rw [if_neg h6]
  by_cases h7 : k = "End_time"
  · rw [if_pos h7]
    rcases (validating_setter_cases (fun v o => { o with End_time := v }) o o v).1 with h | h
    · exact Or.inl h
    · exact Or.inr ⟨h, by rw [h7]; simp [known_keys]⟩
  rw [if_neg h7]
  by_cases h8 : k = "Random_init"
  · rw [if_pos h8]
    exact Or.inr ⟨rfl, by rw [h8]; simp [known_keys]⟩
  rw [if_neg h8]
  by_cases h9 : k = "First_inp_ind"
  · rw [if_pos h9]
    rcases (validating_setter_cases (fun v o => { o with First_inp_ind := Dbl.to_index v }) o o v).1 with h | h
    · exact Or.inl h
    · exact Or.inr ⟨h, by rw [h9]; simp [known_keys]⟩
  rw [if_neg h9]
  by_cases h10 : k = "Inp_ind_inc"
  · rw [if_pos h10]
    rcases (validating_setter_cases (fun v o => { o with Inp_ind_inc := Dbl.to_index v }) o o v).1 with h | h
    · exact Or.inl h
    · exact Or.inr ⟨h, by rw [h10]; simp [known_keys]⟩
  rw [if_neg h10]
  by_cases h11 : k = "Total_inputs"
  · rw [if_pos h11]
    rcases (validating_setter_cases (fun v o => { o with Total_inputs := Dbl.to_index v }) o o v).1 with h | h
    · exact Or.inl h
    · exact Or.inr ⟨h, by rw [h11]; simp [known_keys]⟩
  rw [if_neg h11]
  exact Or.inl rfl

/-- Whether a step of `setParameters` accepts a pair depends on the pair alone. -/
theorem setParameters_step_indep (o o1 : SpikingOutput) (k : String) (v : Dbl) :
    (setParameters_step o k v).1 = (setParameters_step o1 k v).1 := by
  unfold setParameters_step
  by_cases h0 : k = "Min_period"
  · rw [if_pos h0, if_pos h0]
    exact (validating_setter_cases (fun v o => { o with Min_period := v }) o o1 v).2
  rw [if_neg h0, if_neg h0]
  by_cases h1 : k = "Longest_sustained_period"
  · rw [if_pos h1, if_pos h1]
    exact (validating_setter_cases (fun v o => { o with Longest_sustained_period := v }) o o1 v).2
  rw [if_neg h1, if_neg h1]
  by_cases h2 : k = "Input_threshold"
  · rw [if_pos h2, if_pos h2]
    rfl
  rw [if_neg h2, if_neg h2]
  by_cases h3 : k = "Freq_per_inp"
  · rw [if_pos h3, if_pos h3]
    rfl
  rw [if_neg h3, if_neg h3]
  by_cases h4 : k = "Spike_std_dev"
  · rw [if_pos h4, if_pos h4]
    rfl
  rw [if_neg h4, if_neg h4]
  by_cases h5 : k = "Min_period_std_dev"
  · rw [if_pos h5, if_pos h5]
    exact (validating_setter_cases (fun v o => { o with Min_period_std_dev := v }) o o1 v).2
  rw [if_neg h5, if_neg h5]
  by_cases h6 : k = "Start_time"
  · rw [if_pos h6, if_pos h6]
    exact (validating_setter_cases (fun v o => { o with Start_time := v }) o o1 v).2
  rw [if_neg h6, if_neg h6]
  by_cases h7 : k = "End_time"
  · rw [if_pos h7, if_pos h7]
    exact (validating_setter_cases (fun v o => { o with End_time := v }) o o1 v).2
  rw [if_neg h7, if_neg h7]
  by_cases h8 : k = "Random_init"
  · rw [if_pos h8, if_pos h8]
    rfl
  rw [if_neg h8, if_neg h8]
  by_cases h9 : k = "First_inp_ind"
  · rw [if_pos h9, if_pos h9]
    exact (validating_setter_cases (fun v o => { o with First_inp_ind := Dbl.to_index v }) o o1 v).2
  rw [if_neg h9, if_neg h9]
  by_cases h10 : k = "Inp_ind_inc"
  · rw [if_pos h10, if_pos h10]
    exact (validating_setter_cases (fun v o => { o with Inp_ind_inc := Dbl.to_index v }) o o1 v).2
  rw [if_neg h10, if_neg h10]
  by_cases h11 : k = "Total_inputs"
  · rw [if_pos h11, if_pos h11]
    exact (validating_setter_cases (fun v o => { o with Total_inputs := Dbl.to_index v }) o o1 v).2
  rw [if_neg h11, if_neg h11]

theorem pair_accepted_indep (o o1 : SpikingOutput) (p : String × Dbl) :
    pair_accepted o p ↔ pair_accepted o1 p := by
  unfold pair_accepted
  rw [setParameters_step_indep o o1]

/-- A batch whose pairs are all accepted returns true with all of them applied in order. -/
theorem setParameters_all_accepted :
    ∀ (pairs : List (String × Dbl)) (o : SpikingOutput),
      (∀ p ∈ pairs, pair_accepted o p) →
      setParameters o (pairs.map Prod.snd) (pairs.map Prod.fst)
        = some (true, apply_pairs o pairs) := by
  intro pairs
  induction pairs with
  | nil => intro o _; rfl
  | cons p rest ih =>
    intro o h
    have hp := (h p (List.mem_cons_self _ _)).2
    have hrest : ∀ q ∈ rest, pair_accepted (setParameters_step o p.1 p.2).2 q :=
      fun q hq => (pair_accepted_indep o _ q).mp (h q (List.mem_cons_of_mem _ hq))
    simp only [List.map_cons, setParameters, hp, if_true, apply_pairs, List.foldl_cons]
    exact ih _ hrest

/-- A batch stops at its first rejected pair: it returns false with exactly the pairs before
it applied. -/
theorem setParameters_first_rejected :
    ∀ (pre : List (String × Dbl)) (o : SpikingOutput) (k : String) (v : Dbl)
      (post : List (String × Dbl)),
      (∀ p ∈ pre, pair_accepted o p) → ¬ pair_accepted o (k, v) →
      setParameters o ((pre ++ (k, v) :: post).map Prod.snd)
          ((pre ++ (k, v) :: post).map Prod.fst)
        = some (false, apply_pairs o pre) := by
  intro pre
  induction pre with
  | nil =>
    intro o k v post _ hrej
    rcases setParameters_step_cases o k v with h1 | h1
    · simp [setParameters, h1, apply_pairs]
    · exact absurd ⟨h1.2, h1.1⟩ hrej
  | cons p rest ih =>
    intro o k v post h hrej
    have hp := (h p (List.mem_cons_self _ _)).2
    have hrest : ∀ q ∈ rest, pair_accepted (setParameters_step o p.1 p.2).2 q :=
      fun q hq => (pair_accepted_indep o _ q).mp (h q (List.mem_cons_of_mem _ hq))
    have hrej2 : ¬ pair_accepted (setParameters_step o p.1 p.2).2 (k, v) :=
      fun hc => hrej ((pair_accepted_indep o _ (k, v)).mpr hc)
    simp only [List.cons_append, List.map_cons, setParameters, hp, if_true, apply_pairs,
      List.foldl_cons]
    exact ih _ k v post hrest hrej2

/-- A batch is accepted as a whole or has a first rejected pair. -/
theorem first_rejected_or_all (o : SpikingOutput) :
    ∀ pairs : List (String × Dbl),
      (∀ p ∈ pairs, pair_accepted o p) ∨
      ∃ pre k v post, pairs = pre ++ (k, v) :: post ∧ (∀ p ∈ pre, pair_accepted o p) ∧
        ¬ pair_accepted o (k, v) := by
  intro pairs
  induction pairs with
  | nil => left; intro p hp; exact absurd hp (List.not_mem_nil p)
  | cons p rest ih =>
    by_cases hp : pair_accepted o p
    · rcases ih with hall | ⟨pre, k, v, post, he, hpre, hrej⟩
      · left
        intro q hq
        rcases List.mem_cons.mp hq with rfl | hq2
        · exact hp
        · exact hall q hq2
      · right
        refine ⟨p :: pre, k, v, post, by rw [he]; rfl, ?_, hrej⟩
        intro q hq
        rcases List.mem_cons.mp hq with rfl | hq2
        · exact hp
        · exact hpre q hq2
    · right
      exact ⟨[], p.1, p.2, rest, rfl, by simp, hp⟩

/-- C14: for every batch of (key, value) pairs, setParameters returns true iff every key is one
of the twelve known names and every value is accepted by the setter of its key, and then all
pairs have been applied in order; otherwise, with (k, v) the first pair whose key is unknown
or whose value is rejected, it returns false, the pairs before it have been applied in order
and remain applied, and the pairs from it on have changed nothing.  The empty batch returns
true and changes nothing. -/
theorem setParameters_batch (o : SpikingOutput) (pairs : List (String × Dbl)) :
    ((setParameters o (pairs.map Prod.snd) (pairs.map Prod.fst)).map Prod.fst = some true ↔
      ∀ p ∈ pairs, pair_accepted o p) ∧
    ((∀ p ∈ pairs, pair_accepted o p) →
      setParameters o (pairs.map Prod.snd) (pairs.map Prod.fst)
        = some (true, apply_pairs o pairs)) ∧
    (∀ pre k v post, pairs = pre ++ (k, v) :: post → (∀ p ∈ pre, pair_accepted o p) →
      ¬ pair_accepted o (k, v) →
      setParameters o (pairs.map Prod.snd) (pairs.map Prod.fst)
        = some (false, apply_pairs o pre)) ∧
    setParameters o [] [] = some (true, o) := by
  refine ⟨⟨?_, ?_⟩, setParameters_all_accepted pairs o, ?_, rfl⟩
  · intro h
    rcases first_rejected_or_all o pairs with hall | ⟨pre, k, v, post, he, hpre, hrej⟩
    · exact hall
    · rw [he, setParameters_first_rejected pre o k v post hpre hrej] at h
      simp at h
  · intro hall
    rw [setParameters_all_accepted pairs o hall]
    rfl
  · intro pre k v post he hpre hrej
    rw [he]
    exact setParameters_first_rejected pre o k v post hpre hrej

/-! ## Initial state and the clamp of the rate model -/

/-- C15: with Random_init = 0, allocateValues() sets every neuron's state to
last_firing_period = 1 s and next_spk_time = 1 s; hence for a slot starting at time 0 and a
finite period L1 the first candidate spike time, computed from that state, is L1: the first
spike is delayed by one firing period of the first input. -/
theorem allocateValues_first_spike (R : RandSrc) (o : SpikingOutput)
    (h : o.Random_init = Dbl.fin 0) :
    (allocateValues R o).last_firing_period = List.replicate (o.sizeY * o.sizeX) (Dbl.fin 1) ∧
    (allocateValues R o).next_spk_time = List.replicate (o.sizeY * o.sizeX) (Dbl.fin 1) ∧
    ∀ (L0 T0 : Dbl) (l1 : ℚ),
      L0 ∈ (allocateValues R o).last_firing_period →
      T0 ∈ (allocateValues R o).next_spk_time →
      first_spk_time (Dbl.fin 0) T0 (Dbl.fin l1) L0 = Dbl.fin l1 := by
  have e1 : (allocateValues R o).last_firing_period
      = List.replicate (o.sizeY * o.sizeX) (Dbl.fin 1) := by
    simp [allocateValues, h]
  have e2 : (allocateValues R o).next_spk_time
      = List.replicate (o.sizeY * o.sizeX) (Dbl.fin 1) := by
    simp [allocateValues, h]
  refine ⟨e1, e2, ?_⟩
  intro L0 T0 l1 hL hT
  rw [e1] at hL
  rw [e2] at hT
  rw [(List.mem_replicate.mp hL).2, (List.mem_replicate.mp hT).2]
  simp [first_spk_time, Dbl.fin_div]

/-- Two doubles that are numbers are ordered one way or the other. -/
theorem Dbl.ge_of_not_lt (a b : Dbl) (ha : a ≠ Dbl.nan) (hb : b ≠ Dbl.nan)
    (h : Dbl.lt a b = false) : Dbl.ge a b = true := by
  cases a <;> cases b <;> simp_all [Dbl.lt, Dbl.ge, Dbl.le]

/-- The saturation step never leaves a value below the limit. -/
theorem Dbl.clamp_not_lt (fp mn : Dbl) :
    Dbl.lt (if Dbl.lt fp mn then mn else fp) mn = false := by
  by_cases h : Dbl.lt fp mn = true
  · simp only [h, if_true]
    cases mn <;> simp [Dbl.lt]
  · simp only [h, Bool.false_eq_true, if_false]

/-- C17: for every pixel value, every configuration and every outcome of the random draws,
the period returned by inp_pixel_to_period is not below the effective minimum period of that
call (Min_period/1000 plus the Gaussian sample when Min_period_std_dev > 0, Min_period/1000
otherwise); in particular with a hard limit a returned period that is a number is
>= Min_period/1000. -/
theorem period_not_below_minimum (R : RandSrc) (c : Config) (sigma : Dbl) (g : Nat) (x : Dbl) :
    Dbl.lt (inp_pixel_to_period R c sigma g x).1
      (if Dbl.gt c.Min_period_std_dev (Dbl.fin 0) then
        c.Min_period / Dbl.fin 1000 + R.norm_dist g sigma
      else c.Min_period / Dbl.fin 1000) = false ∧
    (Dbl.gt c.Min_period_std_dev (Dbl.fin 0) = false →
      Dbl.ge c.Min_period (Dbl.fin 0) = true →
      (inp_pixel_to_period R c sigma g x).1 ≠ Dbl.nan →
      Dbl.ge (inp_pixel_to_period R c sigma g x).1 (c.Min_period / Dbl.fin 1000) = true) := by
  have h1 : Dbl.lt (inp_pixel_to_period R c sigma g x).1
      (if Dbl.gt c.Min_period_std_dev (Dbl.fin 0) then
        c.Min_period / Dbl.fin 1000 + R.norm_dist g sigma
      else c.Min_period / Dbl.fin 1000) = false := by
    by_cases hg : Dbl.gt c.Min_period_std_dev (Dbl.fin 0) = true
    · simp only [inp_pixel_to_period, hg, if_true]
      exact Dbl.clamp_not_lt _ _
    · simp only [inp_pixel_to_period, hg, Bool.false_eq_true, if_false]
      exact Dbl.clamp_not_lt _ _
  refine ⟨h1, ?_⟩
  intro hhard hmin hnum
  rw [hhard] at h1
  simp only [Bool.false_eq_true, if_false] at h1
  exact Dbl.ge_of_not_lt _ _ hnum (Dbl.div_1000_ne_nan _ hmin) h1

/-! ## The period cell never becomes zero -/

/-- With a period of zero the first candidate spike is the slot start itself. -/
theorem first_spk_time_zero (ts T0 : ℚ) (L0 : Dbl) (h0 : L0 ≠ Dbl.fin 0) (hn : L0 ≠ Dbl.nan) :
    first_spk_time (Dbl.fin ts) (Dbl.fin T0) (Dbl.fin 0) L0 = Dbl.fin ts := by
  cases L0 with
  | fin l0 =>
    have hl0 : l0 ≠ 0 := fun h => h0 (by rw [h])
    simp [first_spk_time, Dbl.fin_div _ _ hl0]
  | pinf => simp only [first_spk_time, Dbl.fin_sub, Dbl.fin_mul]; show Dbl.fin (ts + 0) = _; simp
  | ninf => simp only [first_spk_time, Dbl.fin_sub, Dbl.fin_mul]; show Dbl.fin (ts + 0) = _; simp
  | nan => exact absurd rfl hn

/-- The emission loop leaves a period cell that is a number other than zero and a finite
predicted time, when it is entered with a finite candidate and a finite period that is not
zero unless the candidate is still inside the slot. -/
theorem emit_loop_keeps_period (R : RandSrc) (c : Config) (sigma : Dbl) (ts dt : ℚ) (px : Dbl)
    (idx : Nat) :
    ∀ (fuel : Nat) (x q : ℚ) (S : List spike_t) (g : Nat) (log : List InternalError)
      (r : PixelRun),
      emit_loop R c sigma (Dbl.fin ts) (Dbl.fin dt) px fuel { neuron := idx, time := Dbl.fin x }
          { last_firing_period := Dbl.fin q, next_spk_time := Dbl.fin x, slot_spks := S,
            rand_gen := g, cout := log } = some r →
      (ts + dt ≤ x → q ≠ 0) →
      r.last_firing_period ≠ Dbl.fin 0 ∧ r.last_firing_period ≠ Dbl.nan ∧
        r.next_spk_time.isfinite = true := by
  intro fuel
  induction fuel with
  | zero => intro x q S g log r h; simp [emit_loop] at h
  | succ f ih =>
    intro x q S g log r h hq
    unfold emit_loop at h
    by_cases hc : x < ts + dt
    · simp only [Dbl.fin_add, Dbl.lt_fin, hc, decide_True, if_true] at h
      cases hp : (inp_pixel_to_period R c sigma g px).1 with
      | fin q1 =>
        simp only [hp, Dbl.isfinite_fin, if_true, Dbl.fin_add] at h
        exact ih _ _ _ _ _ _ h (fun hge => by
          have : 0 < q1 := by linarith
          exact ne_of_gt this)
      | pinf =>
        simp only [hp, Dbl.isfinite, Bool.false_eq_true, if_false, Option.some.injEq] at h
        subst h
        by_cases hq0 : q = 0
        · subst hq0
          simp only [if_true, Dbl.fin_sub]
          refine ⟨?_, by simp, rfl⟩
          intro he
          simp only [Dbl.fin.injEq] at he
          linarith
        · have hne : Dbl.fin q ≠ Dbl.fin 0 := fun he => hq0 (by simpa using he)
          simp only [hne, if_false]
          exact ⟨hne, by simp, rfl⟩
      | ninf =>
        simp only [hp, Dbl.isfinite, Bool.false_eq_true, if_false, Option.some.injEq] at h
        subst h
        by_cases hq0 : q = 0
        · subst hq0
          simp only [if_true, Dbl.fin_sub]
          refine ⟨?_, by simp, rfl⟩
          intro he
          simp only [Dbl.fin.injEq] at he
          linarith
        · have hne : Dbl.fin q ≠ Dbl.fin 0 := fun he => hq0 (by simpa using he)
          simp only [hne, if_false]
          exact ⟨hne, by simp, rfl⟩
      | nan =>
        simp only [hp, Dbl.isfinite, Bool.false_eq_true, if_false, Option.some.injEq] at h
        subst h
        by_cases hq0 : q = 0
        · subst hq0
          simp only [if_true, Dbl.fin_sub]
          refine ⟨?_, by simp, rfl⟩
          intro he
          simp only [Dbl.fin.injEq] at he
          linarith
        · have hne : Dbl.fin q ≠ Dbl.fin 0 := fun he => hq0 (by simpa using he)
          simp only [hne, if_false]
          exact ⟨hne, by simp, rfl⟩
    · simp only [Dbl.fin_add, Dbl.lt_fin, hc, decide_False, Bool.false_eq_true, if_false,
        Option.some.injEq] at h
      subst h
      have hq2 : q ≠ 0 := hq (not_lt.mp hc)
      exact ⟨fun he => hq2 (by simpa using he), by simp, rfl⟩

/-- The loop body keeps the documented precondition of `update()` on the state cells: from a
period that is a number other than zero and a finite predicted time, in a slot of positive
finite length, it leaves a period that is a number other than zero and a finite predicted
time, whatever the pixel, the parameters and the random draws. -/
theorem update_neuron_keeps_period (R : RandSrc) (c : Config) (sigma : Dbl) (ts dt : ℚ)
    (hdt : 0 < dt) (fuel idx : Nat) (px : Dbl) (s r : PixelRun)
    (hL0 : s.last_firing_period ≠ Dbl.fin 0) (hLn : s.last_firing_period ≠ Dbl.nan)
    (hT : s.next_spk_time.isfinite = true)
    (h : update_neuron R c sigma (Dbl.fin ts) (Dbl.fin dt) fuel idx px s = some r) :
    r.last_firing_period ≠ Dbl.fin 0 ∧ r.last_firing_period ≠ Dbl.nan ∧
      r.next_spk_time.isfinite = true := by
  obtain ⟨T0, hT0⟩ := (Dbl.isfinite_iff _).mp hT
  unfold update_neuron at h
  cases hp : (inp_pixel_to_period R c sigma s.rand_gen px).1 with
  | fin q =>
    simp only [hp, Dbl.isfinite_fin, if_true] at h
    obtain ⟨t1, ht1⟩ := first_spk_time_fin ts T0 q s.last_firing_period hL0 hLn
    have ht1f : first_spk_time (Dbl.fin ts) s.next_spk_time (Dbl.fin q) s.last_firing_period
        = Dbl.fin t1 := by
      rw [hT0]; exact ht1
    rw [ht1f] at h
    refine emit_loop_keeps_period R c sigma ts dt px idx fuel t1 q _ _ _ r h ?_
    intro hge hq0
    subst hq0
    rw [hT0, first_spk_time_zero ts T0 _ hL0 hLn] at ht1f
    simp only [Dbl.fin.injEq] at ht1f
    linarith
  | pinf =>
    simp only [hp, Dbl.isfinite, Bool.false_eq_true, if_false, Option.some.injEq] at h
    subst h
    exact ⟨hL0, hLn, by simp [hT0]⟩
  | ninf =>
    simp only [hp, Dbl.isfinite, Bool.false_eq_true, if_false, Option.some.injEq] at h
    subst h
    exact ⟨hL0, hLn, by simp [hT0]⟩
  | nan =>
    simp only [hp, Dbl.isfinite, Bool.false_eq_true, if_false, Option.some.injEq] at h
    subst h
    exact ⟨hL0, hLn, by simp [hT0]⟩

/-- One pass of the pixel loop keeps every period cell a number other than zero and every
predicted time finite. -/
theorem update_pixel_keeps_period (R : RandSrc) (c : Config) (sigma : Dbl) (img : List Dbl)
    (st sp : ℚ) (hsp : 0 < sp) (fuel it idx : Nat) (s s1 : SlotRun)
    (hL : ∀ L ∈ s.last_firing_period, L ≠ Dbl.fin 0 ∧ L ≠ Dbl.nan)
    (hT : ∀ T ∈ s.next_spk_time, T.isfinite = true)
    (h : update_pixel R c sigma img (Dbl.fin st) (Dbl.fin sp) fuel it idx s = some s1) :
    (∀ L ∈ s1.last_firing_period, L ≠ Dbl.fin 0 ∧ L ≠ Dbl.nan) ∧
    (∀ T ∈ s1.next_spk_time, T.isfinite = true) := by
  obtain ⟨x, L0, T0, u, _, hL0, hT0, hu, hs1L, hs1T⟩ :=
    update_pixel_some R c sigma img (Dbl.fin st) (Dbl.fin sp) fuel it idx s s1 h
  obtain ⟨_, ⟨v, hv⟩, ⟨w, hw⟩⟩ :=
    update_pixel_effect R c sigma img (Dbl.fin st) (Dbl.fin sp) fuel it idx s s1 h
  have hlen1 : it < s.last_firing_period.length := (List.getElem?_eq_some.mp hL0).1
  have hlen2 : it < s.next_spk_time.length := (List.getElem?_eq_some.mp hT0).1
  have hv2 : v = u.last_firing_period := by
    rw [hv, List.getElem?_set_self hlen1] at hs1L
    exact Option.some.inj hs1L
  have hw2 : w = u.next_spk_time := by
    rw [hw, List.getElem?_set_self hlen2] at hs1T
    exact Option.some.inj hs1T
  have e1 : Dbl.fin st / Dbl.fin 1000 = Dbl.fin (st / 1000) := Dbl.fin_div _ _ (by norm_num)
  have e2 : Dbl.fin sp / Dbl.fin 1000 = Dbl.fin (sp / 1000) := Dbl.fin_div _ _ (by norm_num)
  rw [e1, e2] at hu
  have hgood := update_neuron_keeps_period R c sigma (st / 1000) (sp / 1000) (by positivity)
    fuel idx x _ u (hL L0 (List.getElem?_mem hL0)).1 (hL L0 (List.getElem?_mem hL0)).2
    (hT T0 (List.getElem?_mem hT0)) hu
  constructor
  · intro L hmem
    rw [hv] at hmem
    rcases List.mem_or_eq_of_mem_set hmem with h1 | h1
    · exact hL L h1
    · rw [h1, hv2]; exact ⟨hgood.1, hgood.2.1⟩
  · intro T hmem
    rw [hw] at hmem
    rcases List.mem_or_eq_of_mem_set hmem with h1 | h1
    · exact hT T h1
    · rw [h1, hw2]; exact hgood.2.2

/-- Exact arithmetic:
when update() returns, no neuron's last_firing_period is exactly 0 (nor NaN) and
every next_spk_time is finite, for every configuration, every input frame (any pixel values)
and every outcome of the random draws, provided that before the call the state satisfies the
documented precondition (no period cell is 0 or NaN, every predicted time is finite) and the
slot has a finite start and a positive finite length.  The precondition is thereby kept from
slot to slot, so the recurrence never reads a zero divisor. -/
theorem update_keeps_period_nonzero (R : RandSrc) (fuel : Nat) (o o1 : SpikingOutput)
    (st sp : ℚ) (hst : o.simTime = Dbl.fin st) (hstep : o.step = Dbl.fin sp) (hsp : 0 < sp)
    (hL : ∀ L ∈ o.last_firing_period, L ≠ Dbl.fin 0 ∧ L ≠ Dbl.nan)
    (hT : ∀ T ∈ o.next_spk_time, T.isfinite = true)
    (h : update R fuel o = some o1) :
    (∀ L ∈ o1.last_firing_period, L ≠ Dbl.fin 0 ∧ L ≠ Dbl.nan) ∧
    (∀ T ∈ o1.next_spk_time, T.isfinite = true) := by
  have hfold : ∀ (ks : List Nat) (off idxf : Nat → Nat) (s r : SlotRun),
      (∀ L ∈ s.last_firing_period, L ≠ Dbl.fin 0 ∧ L ≠ Dbl.nan) →
      (∀ T ∈ s.next_spk_time, T.isfinite = true) →
      ks.foldlM (fun s k => update_pixel R o.toConfig o.norm_dist_sigma o.inputImage
          (Dbl.fin st) (Dbl.fin sp) fuel (off k) (idxf k) s) s = some r →
      (∀ L ∈ r.last_firing_period, L ≠ Dbl.fin 0 ∧ L ≠ Dbl.nan) ∧
      (∀ T ∈ r.next_spk_time, T.isfinite = true) := by
    intro ks off idxf
    induction ks with
    | nil =>
      intro s r h1 h2 hr
      simp only [List.foldlM_nil, pure, Option.some.injEq] at hr
      subst hr
      exact ⟨h1, h2⟩
    | cons k ks ih =>
      intro s r h1 h2 hr
      rw [List.foldlM_cons] at hr
      obtain ⟨s1, hs1, hs2⟩ := Option.bind_eq_some.mp hr
      obtain ⟨g1, g2⟩ := update_pixel_keeps_period R o.toConfig o.norm_dist_sigma o.inputImage
        st sp hsp fuel (off k) (idxf k) s s1 h1 h2 hs1
      exact ih s1 r g1 g2 hs2
  unfold update at h
  cases hs : update_slot R fuel o with
  | none => rw [hs] at h; exact absurd h (by simp)
  | some s =>
    rw [hs] at h
    simp only [Option.some.injEq] at h
    subst h
    obtain ⟨m, _, _, _, hpl⟩ := pixel_loop_eq_fold R o.toConfig o.norm_dist_sigma o.inputImage
      o.simTime o.step fuel o.Total_inputs o.First_inp_ind 0
    unfold update_slot at hs
    rw [hpl, hst, hstep] at hs
    exact hfold _ _ _ _ s hL hT hs

/-! ## Independence from slot boundaries -/

/-- With a constant finite period that is zero or negative the emission loop, once entered,
never leaves: no fuel is enough. -/
theorem emit_loop_diverges (R : RandSrc) (c : Config) (sigma : Dbl) (ts dt : ℚ) (px : Dbl)
    (q : ℚ) (hq : q ≤ 0) (hdet : ∀ g, inp_pixel_to_period R c sigma g px = (Dbl.fin q, g)) :
    ∀ (fuel : Nat) (x : ℚ) (idx : Nat) (s : PixelRun), x < ts + dt →
      emit_loop R c sigma (Dbl.fin ts) (Dbl.fin dt) px fuel { neuron := idx, time := Dbl.fin x } s
        = none := by
  intro fuel
  induction fuel with
  | zero => intro x idx s _; rfl
  | succ f ih =>
    intro x idx s hx
    simp only [emit_loop, Dbl.fin_add, Dbl.lt_fin, hx, decide_True, if_true, hdet,
      Dbl.isfinite_fin]
    exact ih (x + q) idx _ (by linarith)

/-- A slot in which the rate model returns no finite period: no spike, the period cell
untouched, the predicted time moved on by the slot length. -/
theorem update_neuron_not_finite (R : RandSrc) (c : Config) (sigma : Dbl) (ts dt : Dbl)
    (fuel idx : Nat) (x : Dbl) (s : PixelRun)
    (h : (inp_pixel_to_period R c sigma s.rand_gen x).1.isfinite = false) :
    update_neuron R c sigma ts dt fuel idx x s =
      some { s with next_spk_time := s.next_spk_time + dt,
                    rand_gen := (inp_pixel_to_period R c sigma s.rand_gen x).2 } := by
  simp [update_neuron, h]

/-- Exact arithmetic:
for a constant pixel value without jitter and any d1 with 0 < d1 < dt, from any
prior state with last_firing_period > 0 and next_spk_time >= ts, the loop body of update()
run once over the slot [ts, ts+dt) and run over [ts, ts+d1) and then over [ts+d1, ts+dt)
give the same result for every fuel from some bound on: the same emitted spikes in the same
order and the same final state (and log).  Both return a result when the period is not a
finite number <= 0; with such a period neither returns. -/
theorem split_slot_equiv (R : RandSrc) (c : Config) (sigma : Dbl) (ts dt d1 T0 : ℚ) (x : Dbl)
    (idx : Nat) (s : PixelRun)
    (hs : c.Spike_std_dev = Dbl.fin 0) (hm : c.Min_period_std_dev = Dbl.fin 0)
    (hd1 : 0 < d1) (hd : d1 < dt)
    (hL : Dbl.lt (Dbl.fin 0) s.last_firing_period = true)
    (hT0 : s.next_spk_time = Dbl.fin T0) (hge : ts ≤ T0) :
    ∃ N : Nat, ∀ fuel : Nat, N ≤ fuel →
      run_neuron R c sigma fuel idx (contiguous_slots ts [(d1, x), (dt - d1, x)]) s
        = update_neuron R c sigma (Dbl.fin ts) (Dbl.fin dt) fuel idx x s ∧
      ((∀ q : ℚ, (inp_pixel_to_period R c sigma s.rand_gen x).1 = Dbl.fin q → 0 < q) →
        (update_neuron R c sigma (Dbl.fin ts) (Dbl.fin dt) fuel idx x s).isSome = true) := by
  have hL0 : s.last_firing_period ≠ Dbl.fin 0 := by
    intro he; rw [he] at hL; simp at hL
  have hLn : s.last_firing_period ≠ Dbl.nan := by
    intro he; rw [he] at hL; simp [Dbl.lt] at hL
  have hconst : ∀ g, inp_pixel_to_period R c sigma g x
      = ((inp_pixel_to_period R c sigma s.rand_gen x).1, g) :=
    fun g => inp_pixel_to_period_const R c sigma x hs hm g s.rand_gen
  cases hp : (inp_pixel_to_period R c sigma s.rand_gen x).1 with
  | fin q =>
    have hdet : ∀ g, inp_pixel_to_period R c sigma g x = (Dbl.fin q, g) := by
      intro g; rw [hconst g, hp]
    obtain ⟨t1, ht1⟩ := first_spk_time_fin ts T0 q s.last_firing_period hL0 hLn
    have ht1f : first_spk_time (Dbl.fin ts) s.next_spk_time (Dbl.fin q) s.last_firing_period
        = Dbl.fin t1 := by
      rw [hT0]; exact ht1
    by_cases hq : 0 < q
    · obtain ⟨n1, hlt1, hge1⟩ := exists_first_term_ge t1 (ts + d1) q hq
      obtain ⟨m2, hlt2, hge2, hrun2⟩ := run_neuron_steady R c sigma q x idx hq hdet [dt - d1]
        (ts + d1) (t1 + n1 * q)
        (s.slot_spks ++ (List.range n1).map
          (fun k : Nat => ({ neuron := idx, time := Dbl.fin (t1 + k * q) } : spike_t)))
        s.rand_gen
        (if Dbl.lt (Dbl.fin t1) (Dbl.fin ts) then
          s.cout ++ [InternalError.previous_step (Dbl.fin t1)] else s.cout)
        (by intro d hdm; rw [List.mem_singleton] at hdm; rw [hdm]; linarith) hge1
      simp only [List.sum_cons, List.sum_nil, add_zero] at hlt2 hge2
      have hltn : ∀ k : Nat, k < n1 + m2 → t1 + k * q < ts + dt := by
        intro k hk
        by_cases hk1 : k < n1
        · have := hlt1 k hk1
          linarith
        · obtain ⟨j, rfl⟩ : ∃ j, k = n1 + j := ⟨k - n1, by omega⟩
          have := hlt2 j (by omega)
          push_cast
          linarith
      have hgen : ts + dt ≤ t1 + ((n1 + m2 : Nat) : ℚ) * q := by
        push_cast
        linarith
      refine ⟨n1 + m2 + 1, ?_⟩
      intro fuel hf
      have hsingle := update_neuron_const R c sigma ts dt q t1 x idx s (n1 + m2) fuel hdet ht1f
        hltn hgen (by omega)
      have hfirst := update_neuron_const R c sigma ts d1 q t1 x idx s n1 fuel hdet ht1f
        hlt1 hge1 (by omega)
      refine ⟨?_, fun _ => by rw [hsingle]; rfl⟩
      rw [hsingle]
      have e : run_neuron R c sigma fuel idx (contiguous_slots ts [(d1, x), (dt - d1, x)]) s
          = run_neuron R c sigma fuel idx
              (contiguous_slots (ts + d1) (List.map (fun d => (d, x)) [dt - d1]))
              { last_firing_period := Dbl.fin q, next_spk_time := Dbl.fin (t1 + n1 * q),
                slot_spks := s.slot_spks ++ (List.range n1).map
                  (fun k : Nat => ({ neuron := idx, time := Dbl.fin (t1 + k * q) } : spike_t)),
                rand_gen := s.rand_gen,
                cout := if Dbl.lt (Dbl.fin t1) (Dbl.fin ts) then
                  s.cout ++ [InternalError.previous_step (Dbl.fin t1)] else s.cout } := by
        simp only [contiguous_slots, run_neuron, hfirst, List.map_cons, List.map_nil]
      rw [e, hrun2 fuel (by omega)]
      simp only [Option.some.injEq, PixelRun.mk.injEq, true_and, and_true, Dbl.fin.injEq,
        List.append_assoc, List.append_cancel_left_eq]
      refine ⟨by push_cast; ring, ?_⟩
      rw [List.range_add, List.map_append, List.map_map]
      congr 1
      apply List.map_congr_left
      intro j _
      simp only [Function.comp, spike_t.mk.injEq, true_and, Dbl.fin.injEq]
      push_cast
      ring
    · have hq0 : q ≤ 0 := not_lt.mp hq
      have ht1le : t1 ≤ ts := by
        cases hL1 : s.last_firing_period with
        | fin l0 =>
          rw [hL1] at hL ht1
          have hl0 : 0 < l0 := by simpa using hL
          rw [Dbl.fin_sub, Dbl.fin_mul, Dbl.fin_div _ _ (ne_of_gt hl0), Dbl.fin_add] at ht1
          simp only [Dbl.fin.injEq] at ht1
          have h1 : (T0 - ts) * q / l0 ≤ 0 :=
            div_nonpos_of_nonpos_of_nonneg
              (mul_nonpos_of_nonneg_of_nonpos (by linarith) hq0) hl0.le
          linarith
        | pinf =>
          rw [hL1] at ht1
          have : Dbl.fin ts + (Dbl.fin T0 - Dbl.fin ts) * Dbl.fin q / Dbl.pinf
              = Dbl.fin (ts + 0) := rfl
          rw [this] at ht1
          simp only [Dbl.fin.injEq] at ht1
          linarith
        | ninf => rw [hL1] at hL; simp [Dbl.lt] at hL
        | nan => exact absurd hL1 hLn
      refine ⟨0, ?_⟩
      intro fuel _
      have hsingle : update_neuron R c sigma (Dbl.fin ts) (Dbl.fin dt) fuel idx x s = none := by
        simp only [update_neuron, hdet, Dbl.isfinite_fin, if_true, ht1f]
        exact emit_loop_diverges R c sigma ts dt x q hq0 hdet fuel t1 idx _ (by linarith)
      have hfirst : update_neuron R c sigma (Dbl.fin ts) (Dbl.fin d1) fuel idx x s = none := by
        simp only [update_neuron, hdet, Dbl.isfinite_fin, if_true, ht1f]
        exact emit_loop_diverges R c sigma ts d1 x q hq0 hdet fuel t1 idx _ (by linarith)
      refine ⟨?_, fun hpos => absurd (hpos q rfl) hq⟩
      rw [hsingle]
      simp only [contiguous_slots, run_neuron, hfirst]
  | pinf =>
    refine ⟨0, ?_⟩
    intro fuel _
    have hnf : ∀ s1 : PixelRun,
        (inp_pixel_to_period R c sigma s1.rand_gen x).1.isfinite = false := by
      intro s1; rw [hconst s1.rand_gen, hp]; rfl
    have hg : ∀ g, (inp_pixel_to_period R c sigma g x).2 = g := by
      intro g; rw [hconst g]
    refine ⟨?_, fun _ => by rw [update_neuron_not_finite R c sigma _ _ fuel idx x s (hnf s)]; rfl⟩
    simp only [contiguous_slots, run_neuron, update_neuron_not_finite R c sigma _ _ fuel idx x _
      (hnf _), hg, hT0, Dbl.fin_add, Option.some.injEq, PixelRun.mk.injEq, true_and, and_true,
      Dbl.fin.injEq]
    ring
  | ninf =>
    refine ⟨0, ?_⟩
    intro fuel _
    have hnf : ∀ s1 : PixelRun,
        (inp_pixel_to_period R c sigma s1.rand_gen x).1.isfinite = false := by
      intro s1; rw [hconst s1.rand_gen, hp]; rfl
    have hg : ∀ g, (inp_pixel_to_period R c sigma g x).2 = g := by
      intro g; rw [hconst g]
    refine ⟨?_, fun _ => by rw [update_neuron_not_finite R c sigma _ _ fuel idx x s (hnf s)]; rfl⟩
    simp only [contiguous_slots, run_neuron, update_neuron_not_finite R c sigma _ _ fuel idx x _
      (hnf _), hg, hT0, Dbl.fin_add, Option.some.injEq, PixelRun.mk.injEq, true_and, and_true,
      Dbl.fin.injEq]
    ring
  | nan =>
    refine ⟨0, ?_⟩
    intro fuel _
    have hnf : ∀ s1 : PixelRun,
        (inp_pixel_to_period R c sigma s1.rand_gen x).1.isfinite = false := by
      intro s1; rw [hconst s1.rand_gen, hp]; rfl
    have hg : ∀ g, (inp_pixel_to_period R c sigma g x).2 = g := by
      intro g; rw [hconst g]
    refine ⟨?_, fun _ => by rw [update_neuron_not_finite R c sigma _ _ fuel idx x s (hnf s)]; rfl⟩
    simp only [contiguous_slots, run_neuron, update_neuron_not_finite R c sigma _ _ fuel idx x _
      (hnf _), hg, hT0, Dbl.fin_add, Option.some.injEq, PixelRun.mk.injEq, true_and, and_true,
      Dbl.fin.injEq]
    ring

/-! ## The phase stays between 0 and 1 -/

/-- The rate model never moves the generator backwards. -/
theorem inp_pixel_to_period_rand_gen_ge (R : RandSrc) (c : Config) (sigma : Dbl) (g : Nat)
    (x : Dbl) : g ≤ (inp_pixel_to_period R c sigma g x).2 := by
  unfold inp_pixel_to_period
  simp only
  split_ifs <;> simp <;> omega

/-- From a state whose predicted spike lies between the slot start and the slot start plus the
(positive) period cell, the first candidate for a positive finite period `l1` lies between
the slot start and the slot start plus `l1`. -/
theorem first_spk_time_in_phase (e T1 l1 : ℚ) (L : Dbl) (hl1 : 0 < l1)
    (hpos : Dbl.lt (Dbl.fin 0) L = true) (h0 : e ≤ T1)
    (hle : Dbl.le (Dbl.fin (T1 - e)) L = true) :
    ∃ t1 : ℚ, first_spk_time (Dbl.fin e) (Dbl.fin T1) (Dbl.fin l1) L = Dbl.fin t1 ∧
      e ≤ t1 ∧ t1 ≤ e + l1 := by
  cases L with
  | fin l0 =>
    have hl0 : 0 < l0 := by simpa using hpos
    have hle2 : T1 - e ≤ l0 := by simpa using hle
    refine ⟨e + (T1 - e) * l1 / l0, by simp [first_spk_time, Dbl.fin_div _ _ (ne_of_gt hl0)],
      ?_, ?_⟩
    · have : 0 ≤ (T1 - e) * l1 / l0 :=
        div_nonneg (mul_nonneg (by linarith) hl1.le) hl0.le
      linarith
    · have : (T1 - e) * l1 / l0 ≤ l1 := by
        rw [div_le_iff₀ hl0]
        nlinarith
      linarith
  | pinf => exact ⟨e + 0, rfl, by linarith, by linarith⟩
  | ninf => simp [Dbl.lt] at hpos
  | nan => simp [Dbl.lt] at hpos

/-- The emission loop, entered with a positive finite period and a candidate not further
beyond the slot end than that period, and drawing positive periods only, leaves a positive
finite period and a predicted time between the slot end and the slot end plus that period. -/
theorem emit_loop_keeps_phase (R : RandSrc) (c : Config) (sigma : Dbl) (ts dt : ℚ) (px : Dbl)
    (idx : Nat) :
    ∀ (fuel : Nat) (x q : ℚ) (S : List spike_t) (g : Nat) (log : List InternalError)
      (r : PixelRun),
      (∀ g1, g ≤ g1 → Dbl.lt (Dbl.fin 0) (inp_pixel_to_period R c sigma g1 px).1 = true) →
      0 < q → x - (ts + dt) ≤ q →
      emit_loop R c sigma (Dbl.fin ts) (Dbl.fin dt) px fuel { neuron := idx, time := Dbl.fin x }
          { last_firing_period := Dbl.fin q, next_spk_time := Dbl.fin x, slot_spks := S,
            rand_gen := g, cout := log } = some r →
      ∃ T1 q1 : ℚ, r.next_spk_time = Dbl.fin T1 ∧ r.last_firing_period = Dbl.fin q1 ∧
        0 < q1 ∧ ts + dt ≤ T1 ∧ T1 - (ts + dt) ≤ q1 := by
  intro fuel
  induction fuel with
  | zero => intro x q S g log r _ _ _ h; simp [emit_loop] at h
  | succ f ih =>
    intro x q S g log r hper hq hx h
    unfold emit_loop at h
    by_cases hc : x < ts + dt
    · simp only [Dbl.fin_add, Dbl.lt_fin, hc, decide_True, if_true] at h
      have hp0 := hper g (le_refl g)
      cases hp : (inp_pixel_to_period R c sigma g px).1 with
      | fin q1 =>
        rw [hp] at hp0
        have hq1 : 0 < q1 := by simpa using hp0
        simp only [hp, Dbl.isfinite_fin, if_true, Dbl.fin_add] at h
        exact ih _ _ _ _ _ _
          (fun g1 hg1 => hper g1
            (le_trans (inp_pixel_to_period_rand_gen_ge R c sigma g px) hg1))
          hq1 (by linarith) h
      | pinf =>
        simp only [hp, Dbl.isfinite, Bool.false_eq_true, if_false, Option.some.injEq] at h
        subst h
        have hne : Dbl.fin q ≠ Dbl.fin 0 := fun he => (ne_of_gt hq) (by simpa using he)
        exact ⟨ts + dt, q, rfl, by simp only [hne, if_false], hq, le_refl _, by linarith⟩
      | ninf => rw [hp] at hp0; simp [Dbl.lt] at hp0
      | nan => rw [hp] at hp0; simp [Dbl.lt] at hp0
    · simp only [Dbl.fin_add, Dbl.lt_fin, hc, decide_False, Bool.false_eq_true, if_false,
        Option.some.injEq] at h
      subst h
      exact ⟨x, q, rfl, rfl, hq, not_lt.mp hc, hx⟩

/-- Exact arithmetic:
the loop body of update() keeps the documented pre/postcondition as an invariant of
the state of a neuron: if before the call at slot [ts, ts+dt) last_firing_period > 0,
next_spk_time is finite and 0 <= next_spk_time - ts <= last_firing_period, and every period
that the rate model returns in the call is positive, then after the call next_spk_time is
finite, 0 <= next_spk_time - (ts+dt) <= last_firing_period and last_firing_period > 0; so
for any positive finite period of the next contiguous slot the first candidate spike lies
between the start of that slot and that start plus the period. -/
theorem update_neuron_keeps_phase (R : RandSrc) (c : Config) (sigma : Dbl) (ts dt T0 : ℚ)
    (fuel idx : Nat) (x : Dbl) (s r : PixelRun) (hdt : 0 ≤ dt)
    (hL : Dbl.lt (Dbl.fin 0) s.last_firing_period = true)
    (hT0 : s.next_spk_time = Dbl.fin T0) (h0 : ts ≤ T0)
    (h1 : Dbl.le (Dbl.fin (T0 - ts)) s.last_firing_period = true)
    (hper : ∀ g, s.rand_gen ≤ g →
      Dbl.lt (Dbl.fin 0) (inp_pixel_to_period R c sigma g x).1 = true)
    (h : update_neuron R c sigma (Dbl.fin ts) (Dbl.fin dt) fuel idx x s = some r) :
    ∃ T1 : ℚ, r.next_spk_time = Dbl.fin T1 ∧ ts + dt ≤ T1 ∧
      Dbl.le (Dbl.fin (T1 - (ts + dt))) r.last_firing_period = true ∧
      Dbl.lt (Dbl.fin 0) r.last_firing_period = true ∧
      ∀ l1 : ℚ, 0 < l1 →
        ∃ t1 : ℚ, first_spk_time (Dbl.fin (ts + dt)) r.next_spk_time (Dbl.fin l1)
            r.last_firing_period = Dbl.fin t1 ∧
          ts + dt ≤ t1 ∧ t1 ≤ ts + dt + l1 := by
  have key : ∃ T1 : ℚ, r.next_spk_time = Dbl.fin T1 ∧ ts + dt ≤ T1 ∧
      Dbl.le (Dbl.fin (T1 - (ts + dt))) r.last_firing_period = true ∧
      Dbl.lt (Dbl.fin 0) r.last_firing_period = true := by
    have hp0 := hper s.rand_gen (le_refl _)
    cases hp : (inp_pixel_to_period R c sigma s.rand_gen x).1 with
    | fin q =>
      rw [hp] at hp0
      have hq : 0 < q := by simpa using hp0
      obtain ⟨t1, ht1, hlo, hhi⟩ :=
        first_spk_time_in_phase ts T0 q s.last_firing_period hq hL h0 h1
      simp only [update_neuron, hp, Dbl.isfinite_fin, if_true, hT0, ht1] at h
      obtain ⟨T1, q1, e1, e2, hq1, hge, hle⟩ := emit_loop_keeps_phase R c sigma ts dt x idx fuel
        t1 q _ _ _ r
        (fun g1 hg1 => hper g1
          (le_trans (inp_pixel_to_period_rand_gen_ge R c sigma s.rand_gen x) hg1))
        hq (by linarith) h
      refine ⟨T1, e1, hge, ?_, ?_⟩
      · rw [e2]; simpa using hle
      · rw [e2]; simpa using hq1
    | pinf =>
      have hnf : (inp_pixel_to_period R c sigma s.rand_gen x).1.isfinite = false := by
        rw [hp]; rfl
      rw [update_neuron_not_finite R c sigma _ _ fuel idx x s hnf] at h
      simp only [Option.some.injEq] at h
      subst h
      refine ⟨T0 + dt, by simp [hT0], by linarith, ?_, hL⟩
      have e : T0 + dt - (ts + dt) = T0 - ts := by ring
      simp only [e]
      exact h1
    | ninf => rw [hp] at hp0; simp [Dbl.lt] at hp0
    | nan => rw [hp] at hp0; simp [Dbl.lt] at hp0
  obtain ⟨T1, e1, hge, hle, hpos⟩ := key
  refine ⟨T1, e1, hge, hle, hpos, ?_⟩
  intro l1 hl1
  rw [e1]
  exact first_spk_time_in_phase (ts + dt) T1 l1 r.last_firing_period hl1 hpos hge hle

/-! ## Refractory period as minimum inter-spike interval -/

/-- Arithmetic of the phase rule, first spike of a slot: when the pacing inequality holds at
the slot start `ts`, the first candidate for a period `q0 >= m` is at least `m` after the last
spike. -/
theorem pace_first (m l t ts tu q0 : ℚ) (hl : 0 < l) (hb : ts ≤ t) (hq : m ≤ q0)
    (hinv : m * l ≤ (ts - tu) * l + (t - ts) * m) :
    tu + m ≤ ts + (t - ts) * q0 / l := by
  have hy : (t - ts) * q0 / l * l = (t - ts) * q0 := by field_simp
  have h1 : 0 ≤ (t - ts) * (q0 - m) := mul_nonneg (by linarith) (by linarith)
  have h2 : 0 ≤ (ts + (t - ts) * q0 / l - tu - m) * l := by nlinarith
  by_contra hneg
  push_neg at hneg
  have h3 : ts + (t - ts) * q0 / l - tu - m < 0 := by linarith
  nlinarith

/-- Arithmetic of the phase rule, slot without spike: when the pacing inequality holds at the
slot start `ts` and the first candidate for a period `q0 >= m` is not before the slot end,
then `q0` is positive and the pacing inequality holds at the slot end for the new state. -/
theorem pace_no_spike (m l t ts tu q0 dt : ℚ) (hl : 0 < l) (hb : ts ≤ t)
    (hq : m ≤ q0) (hdt : 0 < dt)
    (hinv : m * l ≤ (ts - tu) * l + (t - ts) * m)
    (hx : ts + dt ≤ ts + (t - ts) * q0 / l) :
    0 < q0 ∧
      m * q0 ≤ (ts + dt - tu) * q0 + (ts + (t - ts) * q0 / l - (ts + dt)) * m := by
  have hy : (t - ts) * q0 / l * l = (t - ts) * q0 := by field_simp
  have hypos : 0 < (t - ts) * q0 / l := by linarith
  have hprod : 0 < (t - ts) * q0 := by
    have := mul_pos hypos hl
    rw [hy] at this
    exact this
  have hq0 : 0 < q0 := by
    by_contra hneg
    push_neg at hneg
    have : (t - ts) * q0 ≤ 0 := mul_nonpos_of_nonneg_of_nonpos (by linarith) hneg
    linarith
  refine ⟨hq0, ?_⟩
  have h1 : 0 ≤ q0 * ((ts - tu) * l + (t - ts) * m - m * l) :=
    mul_nonneg hq0.le (by linarith)
  have h2 : 0 ≤ dt * l * (q0 - m) := mul_nonneg (mul_nonneg hdt.le hl.le) (by linarith)
  have h3 : 0 ≤ ((ts + dt - tu) * q0 + (ts + (t - ts) * q0 / l - (ts + dt)) * m - m * q0) * l := by
    have e : ((ts + dt - tu) * q0 + (ts + (t - ts) * q0 / l - (ts + dt)) * m - m * q0) * l
        = q0 * ((ts - tu) * l + (t - ts) * m - m * l) + dt * l * (q0 - m)
          + ((t - ts) * q0 / l * l - (t - ts) * q0) * m := by ring
    rw [e, hy]
    linarith
  by_contra hneg
  push_neg at hneg
  have h4 : (ts + dt - tu) * q0 + (ts + (t - ts) * q0 / l - (ts + dt)) * m - m * q0 < 0 := by
    linarith
  nlinarith

/-- With a hard limit a finite period returned by the rate model is at least
Min_period/1000, with or without spike jitter. -/
theorem period_ge_hard_limit (R : RandSrc) (c : Config) (sigma : Dbl) (m : ℚ)
    (hstd : c.Min_period_std_dev = Dbl.fin 0) (hmin : c.Min_period = Dbl.fin m)
    (g : Nat) (x : Dbl) (q : ℚ) (h : (inp_pixel_to_period R c sigma g x).1 = Dbl.fin q) :
    m / 1000 ≤ q := by
  have hlim : c.Min_period / Dbl.fin 1000 = Dbl.fin (m / 1000) := by
    rw [hmin]; exact Dbl.fin_div _ _ (by norm_num)
  have h1 : Dbl.lt (inp_pixel_to_period R c sigma g x).1 (Dbl.fin (m / 1000)) = false := by
    simp only [inp_pixel_to_period, hstd, Dbl.gt, Dbl.lt_fin, lt_self_iff_false, decide_False,
      Bool.false_eq_true, if_false, hlim]
    exact Dbl.clamp_not_lt _ _
  rw [h] at h1
  simpa using h1

/-- With a hard limit and finite Gamma samples, whether the rate model returns a finite
period does not depend on the state of the generator. -/
theorem period_finite_indep (R : RandSrc) (c : Config) (sigma : Dbl) (m : ℚ)
    (hstd : c.Min_period_std_dev = Dbl.fin 0) (hmin : c.Min_period = Dbl.fin m)
    (hgam : ∀ g k th, (R.gam_dist g k th).isfinite = true) (g g1 : Nat) (x : Dbl) :
    (inp_pixel_to_period R c sigma g x).1.isfinite
      = (inp_pixel_to_period R c sigma g1 x).1.isfinite := by
  have hlim : c.Min_period / Dbl.fin 1000 = Dbl.fin (m / 1000) := by
    rw [hmin]; exact Dbl.fin_div _ _ (by norm_num)
  have hclamp : ∀ a : Dbl, a.isfinite = true →
      (if Dbl.lt a (Dbl.fin (m / 1000)) then Dbl.fin (m / 1000) else a).isfinite = true := by
    intro a ha
    split_ifs
    · rfl
    · exact ha
  simp only [inp_pixel_to_period, hstd, Dbl.gt, Dbl.lt_fin, lt_self_iff_false, decide_False,
    Bool.false_eq_true, if_false, hlim]
  generalize (if Dbl.lt x c.Input_threshold then Dbl.pinf
    else Dbl.fin 1 / ((x - c.Input_threshold) * c.Spk_freq_per_inp
      + Dbl.fin 1 / (c.Longest_sustained_period / Dbl.fin 1000))) = fp
  by_cases hC : c.Spike_std_dev ≠ Dbl.fin 0 ∧ fp.isfinite = true
  · simp only [hC, if_true, ne_eq, not_false_eq_true, and_self]
    rw [hclamp _ (hgam _ _ _), hclamp _ (hgam _ _ _)]
  · simp only [hC, if_false]

/-- Once the candidate time is minus infinity the emission loop never leaves, as long as the
rate model keeps returning finite periods. -/
theorem emit_loop_diverges_ninf (R : RandSrc) (c : Config) (sigma : Dbl) (ts dt : ℚ) (px : Dbl)
    (hfin : ∀ g, (inp_pixel_to_period R c sigma g px).1.isfinite = true) :
    ∀ (fuel : Nat) (idx : Nat) (s : PixelRun),
      emit_loop R c sigma (Dbl.fin ts) (Dbl.fin dt) px fuel { neuron := idx, time := Dbl.ninf } s
        = none := by
  intro fuel
  induction fuel with
  | zero => intro idx s; rfl
  | succ f ih =>
    intro idx s
    obtain ⟨q, hq⟩ := (Dbl.isfinite_iff _).mp (hfin s.rand_gen)
    have e : Dbl.ninf + Dbl.fin q = Dbl.ninf := rfl
    simp only [emit_loop, Dbl.fin_add, Dbl.lt, if_true, hq, Dbl.isfinite_fin, e]
    exact ih idx _

/-- The emission loop under a hard limit `m`, entered with a finite candidate `x` that is at
least `m` after the last spike so far: it returns with the pacing invariant at the slot end. -/
theorem emit_loop_paced (R : RandSrc) (c : Config) (sigma : Dbl) (ts dt m : ℚ) (px : Dbl)
    (idx : Nat) (hfin : ∀ g, (inp_pixel_to_period R c sigma g px).1.isfinite = true)
    (hge : ∀ g q, (inp_pixel_to_period R c sigma g px).1 = Dbl.fin q → m ≤ q) :
    ∀ (fuel : Nat) (x q : ℚ) (S : List spike_t) (g : Nat) (log : List InternalError)
      (r : PixelRun),
      List.Chain' (min_gap m) S →
      (∀ u ∈ S.getLast?, ∃ tu : ℚ, u.time = Dbl.fin tu ∧ tu < ts + dt ∧ tu + m ≤ x ∧
        (ts + dt ≤ x → 0 < q ∧ m * q ≤ (ts + dt - tu) * q + (x - (ts + dt)) * m)) →
      emit_loop R c sigma (Dbl.fin ts) (Dbl.fin dt) px fuel { neuron := idx, time := Dbl.fin x }
          { last_firing_period := Dbl.fin q, next_spk_time := Dbl.fin x, slot_spks := S,
            rand_gen := g, cout := log } = some r →
      Paced m (ts + dt) r.slot_spks r.last_firing_period r.next_spk_time := by
  intro fuel
  induction fuel with
  | zero => intro x q S g log r _ _ h; simp [emit_loop] at h
  | succ f ih =>
    intro x q S g log r hch hlast h
    unfold emit_loop at h
    by_cases hc : x < ts + dt
    · simp only [Dbl.fin_add, Dbl.lt_fin, hc, decide_True, if_true] at h
      obtain ⟨q1, hq1⟩ := (Dbl.isfinite_iff _).mp (hfin g)
      have hm1 : m ≤ q1 := hge g q1 hq1
      simp only [hq1, Dbl.isfinite_fin, if_true, Dbl.fin_add] at h
      refine ih _ _ _ _ _ _ ?_ ?_ h
      · rw [List.chain'_append]
        refine ⟨hch, List.chain'_singleton _, ?_⟩
        intro u hu y hy
        obtain ⟨tu, e1, _, e3, _⟩ := hlast u hu
        simp only [List.head?_cons, Option.mem_def, Option.some.injEq] at hy
        subst hy
        exact ⟨tu, x, e1, rfl, e3⟩
      · intro u hu
        have hl : (S ++ [({ neuron := idx, time := Dbl.fin x } : spike_t)]).getLast?
            = some { neuron := idx, time := Dbl.fin x } := by simp
        rw [hl] at hu
        simp only [Option.mem_def, Option.some.injEq] at hu
        subst hu
        refine ⟨x, rfl, hc, by linarith, ?_⟩
        intro hex
        have hq1pos : 0 < q1 := by linarith
        refine ⟨hq1pos, ?_⟩
        have : 0 ≤ (ts + dt - x) * (q1 - m) := mul_nonneg (by linarith) (by linarith)
        nlinarith
    · simp only [Dbl.fin_add, Dbl.lt_fin, hc, decide_False, Bool.false_eq_true, if_false,
        Option.some.injEq] at h
      subst h
      refine ⟨hch, ?_⟩
      intro u hu
      obtain ⟨tu, e1, e2, _, e4⟩ := hlast u hu
      obtain ⟨hq, hineq⟩ := e4 (not_lt.mp hc)
      exact ⟨tu, q, x, e1, rfl, rfl, e2, hq, not_lt.mp hc, hineq⟩

/-- The loop body keeps the pacing invariant from the start of a slot of positive length to
its end, for a pixel whose periods are at least `m` when finite and are finite or not
independently of the generator. -/
theorem update_neuron_paced (R : RandSrc) (c : Config) (sigma : Dbl) (m : ℚ) (px : Dbl)
    (hge : ∀ g q, (inp_pixel_to_period R c sigma g px).1 = Dbl.fin q → m ≤ q)
    (hind : ∀ g g1, (inp_pixel_to_period R c sigma g px).1.isfinite
      = (inp_pixel_to_period R c sigma g1 px).1.isfinite)
    (ts dt : ℚ) (hdt : 0 < dt) (fuel idx : Nat) (s r : PixelRun)
    (hP : Paced m ts s.slot_spks s.last_firing_period s.next_spk_time)
    (h : update_neuron R c sigma (Dbl.fin ts) (Dbl.fin dt) fuel idx px s = some r) :
    Paced m (ts + dt) r.slot_spks r.last_firing_period r.next_spk_time := by
  by_cases hf : (inp_pixel_to_period R c sigma s.rand_gen px).1.isfinite = true
  · have hfin : ∀ g, (inp_pixel_to_period R c sigma g px).1.isfinite = true :=
      fun g => (hind g s.rand_gen).trans hf
    obtain ⟨q0, hq0⟩ := (Dbl.isfinite_iff _).mp hf
    have hm0 : m ≤ q0 := hge _ _ hq0
    simp only [update_neuron, hq0, Dbl.isfinite_fin, if_true] at h
    cases hS : s.slot_spks.getLast? with
    | none =>
      have hlast : ∀ (x q : ℚ), ∀ u ∈ s.slot_spks.getLast?, ∃ tu : ℚ, u.time = Dbl.fin tu ∧
          tu < ts + dt ∧ tu + m ≤ x ∧
          (ts + dt ≤ x → 0 < q ∧ m * q ≤ (ts + dt - tu) * q + (x - (ts + dt)) * m) := by
        intro x q u hu
        rw [hS] at hu
        exact absurd hu (by simp)
      cases hX : first_spk_time (Dbl.fin ts) s.next_spk_time (Dbl.fin q0)
          s.last_firing_period with
      | fin x =>
        rw [hX] at h
        exact emit_loop_paced R c sigma ts dt m px idx hfin hge fuel x q0 _ _ _ r hP.1
          (hlast x q0) h
      | pinf =>
        rw [hX] at h
        cases fuel with
        | zero => simp [emit_loop] at h
        | succ f =>
          simp only [emit_loop, Dbl.fin_add, Dbl.lt, Bool.false_eq_true, if_false,
            Option.some.injEq] at h
          subst h
          refine ⟨hP.1, ?_⟩
          intro u hu
          rw [hS] at hu
          exact absurd hu (by simp)
      | nan =>
        rw [hX] at h
        cases fuel with
        | zero => simp [emit_loop] at h
        | succ f =>
          simp only [emit_loop, Dbl.fin_add, Dbl.lt, Bool.false_eq_true, if_false,
            Option.some.injEq] at h
          subst h
          refine ⟨hP.1, ?_⟩
          intro u hu
          rw [hS] at hu
          exact absurd hu (by simp)
      | ninf =>
        rw [hX] at h
        rw [emit_loop_diverges_ninf R c sigma ts dt px hfin fuel idx _] at h
        exact absurd h (by simp)
    | some u =>
      obtain ⟨tu, l, t, e1, e2, e3, htu, hl, hb, hinv⟩ := hP.2 u (by rw [hS]; rfl)
      have hX : first_spk_time (Dbl.fin ts) s.next_spk_time (Dbl.fin q0) s.last_firing_period
          = Dbl.fin (ts + (t - ts) * q0 / l) := by
        rw [e2, e3]
        simp [first_spk_time, Dbl.fin_div _ _ (ne_of_gt hl)]
      rw [hX] at h
      refine emit_loop_paced R c sigma ts dt m px idx hfin hge fuel _ q0 _ _ _ r hP.1 ?_ h
      intro u1 hu1
      rw [hS] at hu1
      simp only [Option.mem_def, Option.some.injEq] at hu1
      subst hu1
      refine ⟨tu, e1, by linarith, pace_first m l t ts tu q0 hl hb hm0 hinv, ?_⟩
      intro hx
      exact pace_no_spike m l t ts tu q0 dt hl hb hm0 hdt hinv hx
  · have hnf : (inp_pixel_to_period R c sigma s.rand_gen px).1.isfinite = false := by
      simpa using hf
    rw [update_neuron_not_finite R c sigma _ _ fuel idx px s hnf] at h
    simp only [Option.some.injEq] at h
    subst h
    refine ⟨hP.1, ?_⟩
    intro u hu
    obtain ⟨tu, l, t, e1, e2, e3, htu, hl, hb, hinv⟩ := hP.2 u hu
    refine ⟨tu, l, t + dt, e1, e2, by simp [e3], by linarith, hl, by linarith, ?_⟩
    have : 0 ≤ dt * l := mul_nonneg hdt.le hl.le
    nlinarith

/-- The pacing invariant holds along any sequence of contiguous slots of positive length. -/
theorem run_neuron_paced (R : RandSrc) (c : Config) (sigma : Dbl) (m : ℚ)
    (hge : ∀ px g q, (inp_pixel_to_period R c sigma g px).1 = Dbl.fin q → m ≤ q)
    (hind : ∀ px g g1, (inp_pixel_to_period R c sigma g px).1.isfinite
      = (inp_pixel_to_period R c sigma g1 px).1.isfinite)
    (fuel idx : Nat) :
    ∀ (sl : List (ℚ × Dbl)) (ts : ℚ) (s r : PixelRun), (∀ p ∈ sl, 0 < p.1) →
      Paced m ts s.slot_spks s.last_firing_period s.next_spk_time →
      run_neuron R c sigma fuel idx (contiguous_slots ts sl) s = some r →
      Paced m (ts + (sl.map Prod.fst).sum) r.slot_spks r.last_firing_period
        r.next_spk_time := by
  intro sl
  induction sl with
  | nil =>
    intro ts s r _ hP h
    simp only [contiguous_slots, run_neuron, Option.some.injEq] at h
    subst h
    simpa using hP
  | cons p rest ih =>
    intro ts s r hpos hP h
    obtain ⟨dt, px⟩ := p
    simp only [contiguous_slots, run_neuron] at h
    cases hu : update_neuron R c sigma (Dbl.fin ts) (Dbl.fin dt) fuel idx px s with
    | none => rw [hu] at h; exact absurd h (by simp)
    | some s1 =>
      rw [hu] at h
      simp only at h
      have hdt : 0 < dt := hpos (dt, px) (List.mem_cons_self _ _)
      have hP1 := update_neuron_paced R c sigma m px (hge px) (hind px) ts dt hdt fuel idx s s1
        hP hu
      have := ih (ts + dt) s1 r (fun q hq => hpos q (List.mem_cons_of_mem _ hq)) hP1 h
      simp only [List.map_cons, List.sum_cons]
      have e : ts + (dt + (List.map Prod.fst rest).sum)
          = ts + dt + (List.map Prod.fst rest).sum := by ring
      rw [e]
      exact this

/-- Exact arithmetic:
with a hard limit (Min_period_std_dev = 0) and Min_period = m, for any sequence of
pixel values presented in contiguous slots of positive length (spike jitter on or off, with
finite Gamma samples; silent slots in between), from any state of the neuron, any two
consecutive spikes that the loop body of update() emits for the neuron over the whole run,
spikes of different slots included, have finite times at least m/1000 seconds apart. -/
theorem refractory_min_isi (R : RandSrc) (c : Config) (sigma : Dbl) (m : ℚ)
    (hstd : c.Min_period_std_dev = Dbl.fin 0) (hmin : c.Min_period = Dbl.fin m)
    (hgam : ∀ g k th, (R.gam_dist g k th).isfinite = true)
    (fuel idx : Nat) (ts0 : ℚ) (sl : List (ℚ × Dbl)) (hdt : ∀ p ∈ sl, 0 < p.1)
    (s r : PixelRun) (hS : s.slot_spks = [])
    (h : run_neuron R c sigma fuel idx (contiguous_slots ts0 sl) s = some r) :
    List.Chain' (min_gap (m / 1000)) r.slot_spks := by
  have hP : Paced (m / 1000) ts0 s.slot_spks s.last_firing_period s.next_spk_time := by
    rw [hS]
    exact ⟨List.chain'_nil, fun u hu => absurd hu (by simp)⟩
  exact (run_neuron_paced R c sigma (m / 1000)
    (fun px g q hq => period_ge_hard_limit R c sigma m hstd hmin g px q hq)
    (fun px g g1 => period_finite_indep R c sigma m hstd hmin hgam g g1 px)
    fuel idx sl ts0 s r hdt hP h).1

/-! ## Parameters of the Gamma distribution -/

/-- The rate model in terms of its locals: the limit, the deterministic period, the Gamma
draw with shape `gam_k` and scale `gam_theta` when spike jitter applies, the saturation. -/
theorem inp_pixel_to_period_parts (R : RandSrc) (c : Config) (sigma : Dbl) (g : Nat) (x : Dbl) :
    inp_pixel_to_period R c sigma g x =
      (if Dbl.lt
            (if c.Spike_std_dev ≠ Dbl.fin 0 ∧ (firing_period_sec c x).isfinite = true then
              R.gam_dist (cur_min_period_sec R c sigma g).2 (gam_k c (firing_period_sec c x))
                (gam_theta c (firing_period_sec c x))
            else firing_period_sec c x)
            (cur_min_period_sec R c sigma g).1
        then (cur_min_period_sec R c sigma g).1
        else
          (if c.Spike_std_dev ≠ Dbl.fin 0 ∧ (firing_period_sec c x).isfinite = true then
            R.gam_dist (cur_min_period_sec R c sigma g).2 (gam_k c (firing_period_sec c x))
              (gam_theta c (firing_period_sec c x))
          else firing_period_sec c x),
       if c.Spike_std_dev ≠ Dbl.fin 0 ∧ (firing_period_sec c x).isfinite = true then
         (cur_min_period_sec R c sigma g).2 + 1
       else (cur_min_period_sec R c sigma g).2) := by
  by_cases hC : c.Spike_std_dev ≠ Dbl.fin 0 ∧ (firing_period_sec c x).isfinite = true
  · have hC2 := hC
    unfold firing_period_sec at hC2
    simp only [hC, if_true, ne_eq, not_false_eq_true, and_self]
    simp only [inp_pixel_to_period, hC2, if_true, ne_eq, not_false_eq_true, and_self]
    rfl
  · have hC2 := hC
    unfold firing_period_sec at hC2
    simp only [hC, if_false]
    simp only [inp_pixel_to_period, hC2, if_false]
    rfl

/-- Moments of Gamma(k, theta) for `k = p*p/v` and `theta = v/p` in exact arithmetic. -/
theorem gamma_moments (p v : ℚ) (hp : p ≠ 0) (hv : v ≠ 0) :
    p * p / v * (v / p) = p ∧ p * p / v * (v / p) * (v / p) = v := by
  constructor <;> field_simp

/-- Exact arithmetic:
when spike jitter applies (Spike_std_dev != 0) to a pixel whose deterministic period
is a finite p != 0, inp_pixel_to_period draws from the Gamma distribution with shape
gam_k = p*p/v and scale gam_theta = v/p, where the variance v is (Spike_std_dev/1000)^2 for
Spike_std_dev > 0 and p for Spike_std_dev < 0; whenever v is a finite number != 0 these satisfy
gam_k * gam_theta = p and gam_k * gam_theta * gam_theta = v exactly; for Spike_std_dev < 0
they are gam_k = p and gam_theta = 1. -/
theorem gamma_params_moments (R : RandSrc) (c : Config) (sigma : Dbl) (g : Nat) (x : Dbl)
    (p : ℚ) (hs : c.Spike_std_dev ≠ Dbl.fin 0) (hfp : firing_period_sec c x = Dbl.fin p)
    (hp : p ≠ 0) :
    inp_pixel_to_period R c sigma g x =
      (if Dbl.lt (R.gam_dist (cur_min_period_sec R c sigma g).2 (gam_k c (Dbl.fin p))
            (gam_theta c (Dbl.fin p))) (cur_min_period_sec R c sigma g).1
        then (cur_min_period_sec R c sigma g).1
        else R.gam_dist (cur_min_period_sec R c sigma g).2 (gam_k c (Dbl.fin p))
            (gam_theta c (Dbl.fin p)),
       (cur_min_period_sec R c sigma g).2 + 1) ∧
    (∀ s : ℚ, c.Spike_std_dev = Dbl.fin s → 0 < s →
      spk_variance_sec c (Dbl.fin p) = Dbl.fin ((s / 1000) * (s / 1000)) ∧
      (s / 1000) * (s / 1000) ≠ 0) ∧
    (Dbl.lt c.Spike_std_dev (Dbl.fin 0) = true →
      spk_variance_sec c (Dbl.fin p) = Dbl.fin p ∧
      gam_k c (Dbl.fin p) = Dbl.fin p ∧ gam_theta c (Dbl.fin p) = Dbl.fin 1) ∧
    (∀ v : ℚ, spk_variance_sec c (Dbl.fin p) = Dbl.fin v → v ≠ 0 →
      gam_k c (Dbl.fin p) = Dbl.fin (p * p / v) ∧
      gam_theta c (Dbl.fin p) = Dbl.fin (v / p) ∧
      gam_k c (Dbl.fin p) * gam_theta c (Dbl.fin p) = Dbl.fin p ∧
      gam_k c (Dbl.fin p) * gam_theta c (Dbl.fin p) * gam_theta c (Dbl.fin p) = Dbl.fin v) := by
  have hgen : ∀ v : ℚ, spk_variance_sec c (Dbl.fin p) = Dbl.fin v → v ≠ 0 →
      gam_k c (Dbl.fin p) = Dbl.fin (p * p / v) ∧
      gam_theta c (Dbl.fin p) = Dbl.fin (v / p) := by
    intro v hv hv0
    unfold gam_k gam_theta
    rw [hv, Dbl.fin_mul, Dbl.fin_div _ _ hv0, Dbl.fin_div _ _ hp]
    exact ⟨rfl, rfl⟩
  refine ⟨?_, ?_, ?_, ?_⟩
  · rw [inp_pixel_to_period_parts, hfp]
    simp only [hs, ne_eq, not_false_eq_true, Dbl.isfinite_fin, and_self, if_true]
  · intro s hs1 hpos
    have hs0 : s / 1000 ≠ 0 := by positivity
    refine ⟨?_, mul_ne_zero hs0 hs0⟩
    unfold spk_variance_sec
    rw [hs1]
    simp [Dbl.gt, hpos, Dbl.fin_div]
  · intro hneg
    have hngt : Dbl.gt c.Spike_std_dev (Dbl.fin 0) = false := by
      unfold Dbl.gt
      cases hc : c.Spike_std_dev <;> rw [hc] at hneg <;> simp_all [Dbl.lt]
      exact le_of_lt hneg
    have hv : spk_variance_sec c (Dbl.fin p) = Dbl.fin p := by
      unfold spk_variance_sec
      simp [hngt]
    obtain ⟨e1, e2⟩ := hgen p hv hp
    refine ⟨hv, ?_, ?_⟩
    · rw [e1]; congr 1; field_simp
    · rw [e2]; congr 1; field_simp
  · intro v hv hv0
    obtain ⟨e1, e2⟩ := hgen v hv hv0
    obtain ⟨m1, m2⟩ := gamma_moments p v hp hv0
    refine ⟨e1, e2, ?_, ?_⟩
    · rw [e1, e2, Dbl.fin_mul, m1]
    · rw [e1, e2, Dbl.fin_mul, Dbl.fin_mul, m2]

/-! ## Determinism without jitter -/

/-- Without jitter the rate model returns the same period for any two random sources and
generator states, and leaves the generator where it was. -/
theorem inp_pixel_to_period_seed_indep (R R1 : RandSrc) (c : Config) (sigma : Dbl)
    (hs : c.Spike_std_dev = Dbl.fin 0) (hm : c.Min_period_std_dev = Dbl.fin 0)
    (g g1 : Nat) (x : Dbl) :
    inp_pixel_to_period R c sigma g x = ((inp_pixel_to_period R1 c sigma g1 x).1, g) := by
  rw [inp_pixel_to_period_no_draw R c sigma g x hs hm,
    inp_pixel_to_period_no_draw R1 c sigma g1 x hs hm]

/-- Without jitter the emission loop run with another random source and generator state does
the same, generator state apart. -/
theorem emit_loop_seed_indep (R R1 : RandSrc) (c : Config) (sigma : Dbl)
    (hs : c.Spike_std_dev = Dbl.fin 0) (hm : c.Min_period_std_dev = Dbl.fin 0)
    (ts dt px : Dbl) (g1 : Nat) :
    ∀ (fuel : Nat) (new_spk : spike_t) (s : PixelRun),
      emit_loop R1 c sigma ts dt px fuel new_spk { s with rand_gen := g1 } =
        (emit_loop R c sigma ts dt px fuel new_spk s).map (fun r => { r with rand_gen := g1 }) := by
  intro fuel
  induction fuel with
  | zero => intro new_spk s; rfl
  | succ f ih =>
    intro new_spk s
    have e := inp_pixel_to_period_seed_indep R1 R c sigma hs hm g1 s.rand_gen px
    have e0 := inp_pixel_to_period_seed_indep R R c sigma hs hm s.rand_gen s.rand_gen px
    unfold emit_loop
    by_cases hc : Dbl.lt new_spk.time (ts + dt) = true
    · simp only [hc, if_true]
      rw [e]
      by_cases hfin : (inp_pixel_to_period R c sigma s.rand_gen px).1.isfinite = true
      · simp only [hfin, if_true]
        rw [← ih]
      · simp only [hfin]
        rw [e0]
        rfl
    · simp only [hc]
      rfl

/-- Without jitter the loop body run with another random source and generator state does the
same, generator state apart. -/
theorem update_neuron_seed_indep (R R1 : RandSrc) (c : Config) (sigma : Dbl)
    (hs : c.Spike_std_dev = Dbl.fin 0) (hm : c.Min_period_std_dev = Dbl.fin 0)
    (ts dt px : Dbl) (g1 : Nat) (fuel idx : Nat) (s : PixelRun) :
    update_neuron R1 c sigma ts dt fuel idx px { s with rand_gen := g1 } =
      (update_neuron R c sigma ts dt fuel idx px s).map (fun r => { r with rand_gen := g1 }) := by
  have e := inp_pixel_to_period_seed_indep R1 R c sigma hs hm g1 s.rand_gen px
  have e0 := inp_pixel_to_period_seed_indep R R c sigma hs hm s.rand_gen s.rand_gen px
  unfold update_neuron
  simp only []
  rw [e]
  by_cases hfin : (inp_pixel_to_period R c sigma s.rand_gen px).1.isfinite = true
  · simp only [hfin, if_true]
    rw [← emit_loop_seed_indep R R1 c sigma hs hm ts dt px g1, e0]
  · simp only [hfin]
    rw [e0]
    rfl

/-- Without jitter a pass of the pixel loop run with another random source and generator
state does the same, generator state apart. -/
theorem update_pixel_seed_indep (R R1 : RandSrc) (c : Config) (sigma : Dbl)
    (hs : c.Spike_std_dev = Dbl.fin 0) (hm : c.Min_period_std_dev = Dbl.fin 0)
    (img : List Dbl) (simTime step : Dbl) (g1 : Nat) (fuel it idx : Nat) (s : SlotRun) :
    update_pixel R1 c sigma img simTime step fuel it idx { s with rand_gen := g1 } =
      (update_pixel R c sigma img simTime step fuel it idx s).map
        (fun r => { r with rand_gen := g1 }) := by
  unfold update_pixel
  cases h1 : img[it]? with
  | none => rfl
  | some pixel =>
    cases h2 : s.last_firing_period[it]? with
    | none => rfl
    | some old_per =>
      cases h3 : s.next_spk_time[it]? with
      | none => rfl
      | some told =>
        simp only []
        have e := update_neuron_seed_indep R R1 c sigma hs hm (simTime / Dbl.fin 1000)
          (step / Dbl.fin 1000) pixel g1 fuel idx
          { last_firing_period := old_per, next_spk_time := told, slot_spks := s.slot_spks,
            rand_gen := s.rand_gen, cout := s.cout }
        simp only [] at e
        rw [e]
        cases update_neuron R c sigma (simTime / Dbl.fin 1000) (step / Dbl.fin 1000) fuel idx
          pixel { last_firing_period := old_per, next_spk_time := told,
                  slot_spks := s.slot_spks, rand_gen := s.rand_gen, cout := s.cout } with
        | none => rfl
        | some r => rfl

/-- Without jitter the pixel loop run with another random source and generator state does the
same, generator state apart. -/
theorem pixel_loop_seed_indep (R R1 : RandSrc) (c : Config) (sigma : Dbl)
    (hs : c.Spike_std_dev = Dbl.fin 0) (hm : c.Min_period_std_dev = Dbl.fin 0)
    (img : List Dbl) (simTime step : Dbl) (g1 : Nat) (fuel : Nat) :
    ∀ (remaining it idx : Nat) (s : SlotRun),
      pixel_loop R1 c sigma img simTime step fuel remaining it idx { s with rand_gen := g1 } =
        (pixel_loop R c sigma img simTime step fuel remaining it idx s).map
          (fun r => { r with rand_gen := g1 }) := by
  intro remaining
  induction remaining with
  | zero => intro it idx s; rfl
  | succ n ih =>
    intro it idx s
    unfold pixel_loop
    by_cases hit : it < img.length
    · simp only [hit, if_true]
      rw [update_pixel_seed_indep R R1 c sigma hs hm img simTime step g1 fuel it idx s]
      cases update_pixel R c sigma img simTime step fuel it idx s with
      | none => rfl
      | some s1 =>
        simp only [Option.map_some']
        exact ih _ _ s1
    · simp only [hit, if_false]
      rfl

/-- Without jitter `update()` run with another random source and generator state does the
same, generator state apart. -/
theorem update_seed_indep (R R1 : RandSrc) (fuel : Nat) (o : SpikingOutput) (g1 : Nat)
    (hs : o.Spike_std_dev = Dbl.fin 0) (hm : o.Min_period_std_dev = Dbl.fin 0) :
    update R1 fuel { o with rand_gen := g1 } =
      (update R fuel o).map (fun o1 => { o1 with rand_gen := g1 }) := by
  have e := pixel_loop_seed_indep R R1 o.toConfig o.norm_dist_sigma hs hm o.inputImage
    o.simTime o.step g1 fuel o.Total_inputs o.First_inp_ind 0
    { last_firing_period := o.last_firing_period, next_spk_time := o.next_spk_time,
      slot_spks := [], rand_gen := o.rand_gen, cout := o.cout }
  simp only [] at e
  unfold update update_slot
  simp only []
  rw [e]
  cases pixel_loop R o.toConfig o.norm_dist_sigma o.inputImage o.simTime o.step fuel
    o.Total_inputs o.First_inp_ind 0
    { last_firing_period := o.last_firing_period, next_spk_time := o.next_spk_time,
      slot_spks := [], rand_gen := o.rand_gen, cout := o.cout } with
  | none => rfl
  | some s => rfl

/-- The method `update()` leaves the parameters as they are. -/
theorem update_toConfig (R : RandSrc) (fuel : Nat) (o o1 : SpikingOutput)
    (h : update R fuel o = some o1) : o1.toConfig = o.toConfig := by
  unfold update at h
  cases hs : update_slot R fuel o with
  | none => rw [hs] at h; exact absurd h (by simp)
  | some s =>
    rw [hs] at h
    simp only [Option.some.injEq] at h
    subst h
    rfl

/-- The method `feedInput` leaves the parameters and the generator as they are. -/
theorem feedInput_toConfig (o : SpikingOutput) (t : Dbl) (img : List Dbl) (b : Bool) (p : Int) :
    (feedInput o t img b p).toConfig = o.toConfig ∧
    (feedInput o t img b p).rand_gen = o.rand_gen := by
  unfold feedInput
  split <;> exact ⟨rfl, rfl⟩

/-- The method `feedInput` does not look at the generator. -/
theorem feedInput_seed_indep (o : SpikingOutput) (g1 : Nat) (t : Dbl) (img : List Dbl)
    (b : Bool) (p : Int) :
    feedInput { o with rand_gen := g1 } t img b p
      = { feedInput o t img b p with rand_gen := g1 } := by
  unfold feedInput
  simp only []
  split <;> rfl

/-- Without jitter a whole run with another random source and generator state does the same,
generator state apart, and the run leaves the generator where it was. -/
theorem run_seed_indep (R R1 : RandSrc) (fuel : Nat) (g1 : Nat) :
    ∀ (frames : List (Dbl × List Dbl)) (o : SpikingOutput),
      o.Spike_std_dev = Dbl.fin 0 → o.Min_period_std_dev = Dbl.fin 0 →
      run R1 fuel { o with rand_gen := g1 } frames =
        (run R fuel o frames).map (fun o1 => { o1 with rand_gen := g1 }) := by
  intro frames
  induction frames with
  | nil => intro o _ _; rfl
  | cons fr rest ih =>
    intro o hs hm
    obtain ⟨t, img⟩ := fr
    unfold run
    have hc := (feedInput_toConfig o t img true 0).1
    have hs1 : (feedInput o t img true 0).Spike_std_dev = Dbl.fin 0 := by
      show (feedInput o t img true 0).toConfig.Spike_std_dev = _
      rw [hc]; exact hs
    have hm1 : (feedInput o t img true 0).Min_period_std_dev = Dbl.fin 0 := by
      show (feedInput o t img true 0).toConfig.Min_period_std_dev = _
      rw [hc]; exact hm
    rw [feedInput_seed_indep, update_seed_indep R R1 fuel _ g1 hs1 hm1]
    cases hu : update R fuel (feedInput o t img true 0) with
    | none => rfl
    | some o2 =>
      have hc2 := update_toConfig R fuel _ o2 hu
      simp only [Option.map_some']
      refine ih o2 ?_ ?_
      · show o2.toConfig.Spike_std_dev = _
        rw [hc2]; exact hs1
      · show o2.toConfig.Min_period_std_dev = _
        rw [hc2]; exact hm1

/-- Without jitter a run that returns leaves the generator where it was. -/
theorem run_keeps_rand_gen (R : RandSrc) (fuel : Nat) (frames : List (Dbl × List Dbl))
    (o o1 : SpikingOutput) (hs : o.Spike_std_dev = Dbl.fin 0)
    (hm : o.Min_period_std_dev = Dbl.fin 0) (h : run R fuel o frames = some o1) :
    o1.rand_gen = o.rand_gen := by
  have e := run_seed_indep R R fuel o.rand_gen frames o hs hm
  have e1 : ({ o with rand_gen := o.rand_gen } : SpikingOutput) = o := rfl
  rw [e1, h] at e
  simp only [Option.map_some', Option.some.injEq] at e
  exact (congrArg SpikingOutput.rand_gen e).trans rfl

/-- C22: with Spike_std_dev = 0 and Min_period_std_dev = 0, inp_pixel_to_period returns a
period that does not depend on the random source or the generator state and leaves the
generator untouched; a call of update() and a whole run of feedInput/update calls started with
another random source and another generator state (same parameters, same neuron state, same
frames, same fuel) return exactly when the original ones do, with the same object up to the
generator state: identical event list, identical last_firing_period and next_spk_time; and the
generator state after the run is the one before it (no draw is consumed). -/
theorem no_jitter_seed_independent (R R1 : RandSrc) (fuel : Nat) (o : SpikingOutput) (g1 : Nat)
    (frames : List (Dbl × List Dbl)) (hs : o.Spike_std_dev = Dbl.fin 0)
    (hm : o.Min_period_std_dev = Dbl.fin 0) :
    (∀ g x, inp_pixel_to_period R o.toConfig o.norm_dist_sigma g x =
      ((inp_pixel_to_period R1 o.toConfig o.norm_dist_sigma g1 x).1, g)) ∧
    update R1 fuel { o with rand_gen := g1 } =
      (update R fuel o).map (fun o1 => { o1 with rand_gen := g1 }) ∧
    run R1 fuel { o with rand_gen := g1 } frames =
      (run R fuel o frames).map (fun o1 => { o1 with rand_gen := g1 }) ∧
    (∀ o1, run R fuel o frames = some o1 →
      o1.rand_gen = o.rand_gen ∧
      ∃ o2, run R1 fuel { o with rand_gen := g1 } frames = some o2 ∧
        o2.rand_gen = g1 ∧
        o2.out_spks = o1.out_spks ∧
        o2.last_firing_period = o1.last_firing_period ∧
        o2.next_spk_time = o1.next_spk_time ∧
        o2.cout = o1.cout) := by
  refine ⟨fun g x => inp_pixel_to_period_seed_indep R R1 o.toConfig o.norm_dist_sigma hs hm g g1 x,
    update_seed_indep R R1 fuel o g1 hs hm, run_seed_indep R R1 fuel g1 frames o hs hm, ?_⟩
  intro o1 h
  refine ⟨run_keeps_rand_gen R fuel frames o o1 hs hm h, { o1 with rand_gen := g1 }, ?_,
    rfl, rfl, rfl, rfl, rfl⟩
  rw [run_seed_indep R R1 fuel g1 frames o hs hm, h]
  rfl

/-! ## Randomised initial phase -/

/-- The loop of `randomize_state` over `n` cells: cell `k` gets `(1 - Random_init * u) * 1`
for the draw `u` made in generator state `g + k`, and the generator advances by `n`. -/
theorem randomize_cells_spec (R : RandSrc) (ri : Dbl) :
    ∀ (n g : Nat),
      (randomize_cells R ri n g).1 =
        (List.range n).map (fun k : Nat => (Dbl.fin 1 - ri * R.unif_dist (g + k)) * Dbl.fin 1) ∧
      (randomize_cells R ri n g).2 = g + n := by
  intro n
  induction n with
  | zero => intro g; exact ⟨rfl, rfl⟩
  | succ n ih =>
    intro g
    obtain ⟨e1, e2⟩ := ih (g + 1)
    refine ⟨?_, ?_⟩
    · rw [List.range_succ_eq_map, List.map_cons, List.map_map]
      simp only [randomize_cells, e1, Nat.add_zero]
      congr 1
      apply List.map_congr_left
      intro k _
      simp only [Function.comp, Nat.succ_eq_add_one]
      rw [show g + 1 + k = g + (k + 1) by omega]
    · simp only [randomize_cells, e2]
      omega

/-- With Random_init != 0, `allocateValues()` leaves every period cell at 1 and the cell `k`
of next_spk_time at `(1 - Random_init * u) * 1` for the `k`-th uniform draw `u`. -/
theorem allocateValues_randomized (R : RandSrc) (o : SpikingOutput)
    (h : o.Random_init ≠ Dbl.fin 0) :
    (allocateValues R o).last_firing_period = List.replicate (o.sizeY * o.sizeX) (Dbl.fin 1) ∧
    (allocateValues R o).next_spk_time =
      (List.range (o.sizeY * o.sizeX)).map
        (fun k : Nat => (Dbl.fin 1 - o.Random_init * R.unif_dist (o.rand_gen + k)) * Dbl.fin 1) ∧
    (allocateValues R o).rand_gen = o.rand_gen + o.sizeY * o.sizeX := by
  obtain ⟨e1, e2⟩ := randomize_cells_spec R o.Random_init (o.sizeY * o.sizeX) o.rand_gen
  simp only [allocateValues, h, ne_eq, not_false_eq_true, if_true, randomize_state,
    List.length_replicate]
  exact ⟨trivial, e1, e2⟩

/-- For a factor 0 < Random_init <= 1 and uniform draws in [0, 1), every neuron starts with
0 < next_spk_time <= 1, that is, with a phase offset 1 - next_spk_time in [0, 1). -/
theorem randomized_phase_in_range (R : RandSrc) (o : SpikingOutput) (r : ℚ)
    (hr : o.Random_init = Dbl.fin r) (h0 : 0 < r) (h1 : r ≤ 1)
    (hu : ∀ g, ∃ u : ℚ, R.unif_dist g = Dbl.fin u ∧ 0 ≤ u ∧ u < 1) :
    ∀ T ∈ (allocateValues R o).next_spk_time,
      ∃ t : ℚ, T = Dbl.fin t ∧ 0 ≤ t ∧ 0 ≤ 1 - t ∧ 1 - t < 1 := by
  have hne : o.Random_init ≠ Dbl.fin 0 := by
    rw [hr]
    intro hh
    injection hh with hh
    exact absurd hh (ne_of_gt h0)
  intro T hT
  rw [(allocateValues_randomized R o hne).2.1, List.mem_map] at hT
  obtain ⟨k, _, rfl⟩ := hT
  obtain ⟨u, e, hu0, hu1⟩ := hu (o.rand_gen + k)
  refine ⟨(1 - r * u) * 1, by rw [hr, e]; simp, ?_, ?_, ?_⟩
  · nlinarith
  · nlinarith
  · nlinarith

/-! ## Termination and number of spikes under a hard limit -/

/-- The emission loop when every finite period is at least `mu > 0`: entered with a finite
candidate `q` that is within `k` minimum periods of the slot end, it returns for every fuel
above `k` and pushes at most `k` spikes. -/
theorem emit_loop_bounded (R : RandSrc) (c : Config) (sigma : Dbl) (ts dt mu : ℚ) (px : Dbl)
    (hge : ∀ g q, (inp_pixel_to_period R c sigma g px).1 = Dbl.fin q → mu ≤ q) :
    ∀ (k fuel : Nat) (q : ℚ) (idx : Nat) (s : PixelRun),
      ts + dt ≤ q + k * mu → k + 1 ≤ fuel →
      ∃ (r : PixelRun) (added : List spike_t),
        emit_loop R c sigma (Dbl.fin ts) (Dbl.fin dt) px fuel { neuron := idx, time := Dbl.fin q } s
          = some r ∧
        r.slot_spks = s.slot_spks ++ added ∧ added.length ≤ k ∧
        ∀ a ∈ added, a.neuron = idx := by
  intro k
  induction k with
  | zero =>
    intro fuel q idx s hq hfuel
    obtain ⟨f, rfl⟩ : ∃ f, fuel = f + 1 := ⟨fuel - 1, by omega⟩
    have hc : ¬ q < ts + dt := by
      simp only [Nat.cast_zero, zero_mul, add_zero] at hq
      exact not_lt.mpr hq
    refine ⟨s, [], ?_, by simp, by simp, by simp⟩
    simp [emit_loop, hc]
  | succ k ih =>
    intro fuel q idx s hq hfuel
    obtain ⟨f, rfl⟩ : ∃ f, fuel = f + 1 := ⟨fuel - 1, by omega⟩
    by_cases hc : q < ts + dt
    · by_cases hfin : (inp_pixel_to_period R c sigma s.rand_gen px).1.isfinite = true
      · obtain ⟨pq, hp⟩ := (Dbl.isfinite_iff _).mp hfin
        have hmu : mu ≤ pq := hge _ _ hp
        have hq1 : ts + dt ≤ q + pq + k * mu := by
          push_cast at hq
          linarith
        obtain ⟨r, added, h1, h2, h3, h4⟩ := ih f (q + pq) idx
          { last_firing_period := Dbl.fin pq
            next_spk_time := Dbl.fin (q + pq)
            slot_spks := s.slot_spks ++ [{ neuron := idx, time := Dbl.fin q }]
            rand_gen := (inp_pixel_to_period R c sigma s.rand_gen px).2
            cout := s.cout } hq1 (by omega)
        refine ⟨r, { neuron := idx, time := Dbl.fin q } :: added, ?_, ?_, ?_, ?_⟩
        · simp only [emit_loop, Dbl.fin_add, Dbl.lt_fin, hc, decide_True, if_true, hp,
            Dbl.isfinite_fin]
          exact h1
        · rw [h2]; simp
        · simp only [List.length_cons]; omega
        · intro a ha
          rcases List.mem_cons.mp ha with rfl | ha2
          · rfl
          · exact h4 a ha2
      · refine ⟨{ last_firing_period :=
                    if s.last_firing_period = Dbl.fin 0 then
                      (Dbl.fin ts + Dbl.fin dt) - Dbl.fin q
                    else s.last_firing_period
                  next_spk_time := Dbl.fin ts + Dbl.fin dt
                  slot_spks := s.slot_spks ++ [{ neuron := idx, time := Dbl.fin q }]
                  rand_gen := (inp_pixel_to_period R c sigma s.rand_gen px).2
                  cout := s.cout },
          [{ neuron := idx, time := Dbl.fin q }], ?_, rfl, by simp, by simp⟩
        simp only [emit_loop, Dbl.fin_add, Dbl.lt_fin, hc, decide_True, if_true, hfin,
          Bool.false_eq_true, if_false]
    · refine ⟨s, [], ?_, by simp, by simp, by simp⟩
      simp [emit_loop, hc]

/-- The first candidate of a slot is not before the slot start and not minus infinity, when
the predicted time is not before the slot start and both periods are positive. -/
theorem first_spk_time_not_before (ts pq : ℚ) (T0 L : Dbl) (hpq : 0 < pq)
    (hT : Dbl.ge T0 (Dbl.fin ts) = true) (hL : Dbl.gt L (Dbl.fin 0) = true) :
    first_spk_time (Dbl.fin ts) T0 (Dbl.fin pq) L = Dbl.pinf ∨
    first_spk_time (Dbl.fin ts) T0 (Dbl.fin pq) L = Dbl.nan ∨
    ∃ q : ℚ, first_spk_time (Dbl.fin ts) T0 (Dbl.fin pq) L = Dbl.fin q ∧ ts ≤ q := by
  cases T0 with
  | fin t =>
    have ht : ts ≤ t := by simpa [Dbl.ge, Dbl.le] using hT
    cases L with
    | fin l =>
      have hl : 0 < l := by simpa [Dbl.gt, Dbl.lt] using hL
      refine Or.inr (Or.inr ⟨ts + (t - ts) * pq / l, ?_, ?_⟩)
      · simp [first_spk_time, Dbl.fin_div _ _ (ne_of_gt hl)]
      · have : 0 ≤ (t - ts) * pq / l :=
          div_nonneg (mul_nonneg (by linarith) hpq.le) hl.le
        linarith
    | pinf =>
      refine Or.inr (Or.inr ⟨ts, ?_, le_refl _⟩)
      simp only [first_spk_time, Dbl.fin_sub, Dbl.fin_mul]
      show Dbl.fin ts + Dbl.fin 0 = _
      simp
    | ninf => simp [Dbl.gt, Dbl.lt] at hL
    | nan => simp [Dbl.gt, Dbl.lt] at hL
  | pinf =>
    cases L with
    | fin l =>
      have hl : 0 < l := by simpa [Dbl.gt, Dbl.lt] using hL
      left
      have e1 : Dbl.pinf - Dbl.fin ts = Dbl.pinf := rfl
      have e2 : Dbl.pinf * Dbl.fin pq = Dbl.pinf := by
        show Dbl.mul Dbl.pinf (Dbl.fin pq) = _
        simp [Dbl.mul, ne_of_gt hpq, hpq]
      have e3 : Dbl.pinf / Dbl.fin l = Dbl.pinf := by
        show Dbl.div Dbl.pinf (Dbl.fin l) = _
        simp [Dbl.div, hl.le]
      simp only [first_spk_time, e1, e2, e3]
      rfl
    | pinf =>
      right; left
      have e1 : Dbl.pinf - Dbl.fin ts = Dbl.pinf := rfl
      have e2 : Dbl.pinf * Dbl.fin pq = Dbl.pinf := by
        show Dbl.mul Dbl.pinf (Dbl.fin pq) = _
        simp [Dbl.mul, ne_of_gt hpq, hpq]
      simp only [first_spk_time, e1, e2]
      rfl
    | ninf => simp [Dbl.gt, Dbl.lt] at hL
    | nan => simp [Dbl.gt, Dbl.lt] at hL
  | ninf => simp [Dbl.ge, Dbl.le] at hT
  | nan => simp [Dbl.ge, Dbl.le] at hT

/-- The emission loop entered with a candidate that is not below the slot end returns at
once, leaving everything as it is. -/
theorem emit_loop_skip (R : RandSrc) (c : Config) (sigma : Dbl) (ts dt px : Dbl) (f : Nat)
    (new_spk : spike_t) (s : PixelRun) (h : Dbl.lt new_spk.time (ts + dt) = false) :
    emit_loop R c sigma ts dt px (f + 1) new_spk s = some s := by
  simp [emit_loop, h]

/-- The loop body for one pixel when every finite period is at least `mu > 0`, from a state
with next_spk_time not before the slot start and a positive period: it returns for every fuel
above `ceil(dt / mu)` and pushes at most `ceil(dt / mu)` spikes, all with the index of the
neuron. -/
theorem update_neuron_bounded (R : RandSrc) (c : Config) (sigma : Dbl) (ts dt mu : ℚ) (px : Dbl)
    (hmu : 0 < mu)
    (hge : ∀ g q, (inp_pixel_to_period R c sigma g px).1 = Dbl.fin q → mu ≤ q)
    (fuel idx : Nat) (s : PixelRun)
    (hT : Dbl.ge s.next_spk_time (Dbl.fin ts) = true)
    (hL : Dbl.gt s.last_firing_period (Dbl.fin 0) = true)
    (hfuel : ⌈dt / mu⌉₊ + 1 ≤ fuel) :
    ∃ (r : PixelRun) (added : List spike_t),
      update_neuron R c sigma (Dbl.fin ts) (Dbl.fin dt) fuel idx px s = some r ∧
      r.slot_spks = s.slot_spks ++ added ∧ added.length ≤ ⌈dt / mu⌉₊ ∧
      ∀ a ∈ added, a.neuron = idx := by
  by_cases hfin : (inp_pixel_to_period R c sigma s.rand_gen px).1.isfinite = true
  · obtain ⟨pq, hp⟩ := (Dbl.isfinite_iff _).mp hfin
    have hpq : 0 < pq := lt_of_lt_of_le hmu (hge _ _ hp)
    obtain ⟨f, rfl⟩ : ∃ f, fuel = f + 1 := ⟨fuel - 1, by omega⟩
    have hK : dt ≤ (⌈dt / mu⌉₊ : ℚ) * mu := by
      have := Nat.le_ceil (dt / mu)
      rwa [div_le_iff₀ hmu] at this
    simp only [update_neuron, hp, Dbl.isfinite_fin, if_true]
    rcases first_spk_time_not_before ts pq s.next_spk_time s.last_firing_period hpq hT hL with
      hX | hX | ⟨q, hX, hq⟩
    · rw [hX, emit_loop_skip R c sigma (Dbl.fin ts) (Dbl.fin dt) px f
        { neuron := idx, time := Dbl.pinf } _ rfl]
      exact ⟨_, [], rfl, by simp, by simp, by simp⟩
    · rw [hX, emit_loop_skip R c sigma (Dbl.fin ts) (Dbl.fin dt) px f
        { neuron := idx, time := Dbl.nan } _ rfl]
      exact ⟨_, [], rfl, by simp, by simp, by simp⟩
    · rw [hX]
      exact emit_loop_bounded R c sigma ts dt mu px hge ⌈dt / mu⌉₊ (f + 1) q idx _
        (by linarith) hfuel
  · have hnf : (inp_pixel_to_period R c sigma s.rand_gen px).1.isfinite = false := by
      simpa using hfin
    rw [update_neuron_not_finite R c sigma _ _ fuel idx px s hnf]
    exact ⟨_, [], rfl, by simp, by simp, by simp⟩

/-- One pass of the pixel loop under the same conditions: it returns, pushes at most
`ceil(dt / mu)` spikes, all with the current index, and writes only the two cells at the
offset of the iterators. -/
theorem update_pixel_bounded (R : RandSrc) (c : Config) (sigma : Dbl) (img : List Dbl)
    (st sp mu : ℚ) (hmu : 0 < mu)
    (hge : ∀ px g q, (inp_pixel_to_period R c sigma g px).1 = Dbl.fin q → mu ≤ q)
    (fuel it idx : Nat) (s : SlotRun) (hit : it < img.length)
    (hcell : ∃ L T, s.last_firing_period[it]? = some L ∧ s.next_spk_time[it]? = some T ∧
      Dbl.ge T (Dbl.fin (st / 1000)) = true ∧ Dbl.gt L (Dbl.fin 0) = true)
    (hfuel : ⌈sp / 1000 / mu⌉₊ + 1 ≤ fuel) :
    ∃ (s1 : SlotRun) (added : List spike_t),
      update_pixel R c sigma img (Dbl.fin st) (Dbl.fin sp) fuel it idx s = some s1 ∧
      s1.slot_spks = s.slot_spks ++ added ∧ added.length ≤ ⌈sp / 1000 / mu⌉₊ ∧
      (∀ a ∈ added, a.neuron = idx) ∧
      (∃ v, s1.last_firing_period = s.last_firing_period.set it v) ∧
      (∃ v, s1.next_spk_time = s.next_spk_time.set it v) := by
  obtain ⟨L, T, hL, hT, hge1, hgt1⟩ := hcell
  have hpx : img[it]? = some img[it] := List.getElem?_eq_getElem hit
  obtain ⟨r, added, h1, h2, h3, h4⟩ := update_neuron_bounded R c sigma (st / 1000) (sp / 1000) mu
    img[it] hmu (hge img[it]) fuel idx
    { last_firing_period := L, next_spk_time := T, slot_spks := s.slot_spks,
      rand_gen := s.rand_gen, cout := s.cout } hge1 hgt1 hfuel
  refine ⟨{ last_firing_period := s.last_firing_period.set it r.last_firing_period
            next_spk_time := s.next_spk_time.set it r.next_spk_time
            slot_spks := r.slot_spks
            rand_gen := r.rand_gen
            cout := r.cout }, added, ?_, h2, h3, h4, ⟨_, rfl⟩, ⟨_, rfl⟩⟩
  unfold update_pixel
  rw [hpx, hL, hT]
  simp only [Dbl.fin_div _ _ (by norm_num : (1000 : ℚ) ≠ 0)]
  rw [h1]

/-- A sequence of passes at pairwise distinct offsets with pairwise distinct indices, every
visited cell being ready at the start: the sequence returns; it pushes at most
`ceil(dt / mu)` spikes per index and per pass. -/
theorem fold_pixels_bounded (R : RandSrc) (c : Config) (sigma : Dbl) (img : List Dbl)
    (st sp mu : ℚ) (hmu : 0 < mu)
    (hge : ∀ px g q, (inp_pixel_to_period R c sigma g px).1 = Dbl.fin q → mu ≤ q)
    (fuel : Nat) (hfuel : ⌈sp / 1000 / mu⌉₊ + 1 ≤ fuel) (off idxf : Nat → Nat) :
    ∀ (ks : List Nat) (s : SlotRun), (ks.map off).Nodup → (ks.map idxf).Nodup →
      (∀ k ∈ ks, off k < img.length ∧
        ∃ L T, s.last_firing_period[off k]? = some L ∧ s.next_spk_time[off k]? = some T ∧
          Dbl.ge T (Dbl.fin (st / 1000)) = true ∧ Dbl.gt L (Dbl.fin 0) = true) →
      ∃ (r : SlotRun) (added : List spike_t),
        ks.foldlM (fun s k => update_pixel R c sigma img (Dbl.fin st) (Dbl.fin sp) fuel (off k)
          (idxf k) s) s = some r ∧
        r.slot_spks = s.slot_spks ++ added ∧
        added.length ≤ ks.length * ⌈sp / 1000 / mu⌉₊ ∧
        (∀ a ∈ added, ∃ k ∈ ks, a.neuron = idxf k) ∧
        ∀ j : Nat, added.countP (fun a => decide (a.neuron = j)) ≤ ⌈sp / 1000 / mu⌉₊ := by
  intro ks
  induction ks with
  | nil =>
    intro s _ _ _
    exact ⟨s, [], rfl, by simp, by simp, by simp, by simp⟩
  | cons k ks ih =>
    intro s hnd hni hcells
    rw [List.map_cons, List.nodup_cons] at hnd hni
    obtain ⟨hk, hcell⟩ := hcells k (List.mem_cons_self _ _)
    obtain ⟨s1, add1, h1, h2, h3, h4, ⟨v, hv⟩, ⟨w, hw⟩⟩ :=
      update_pixel_bounded R c sigma img st sp mu hmu hge fuel (off k) (idxf k) s hk hcell hfuel
    have hcells1 : ∀ k2 ∈ ks, off k2 < img.length ∧
        ∃ L T, s1.last_firing_period[off k2]? = some L ∧ s1.next_spk_time[off k2]? = some T ∧
          Dbl.ge T (Dbl.fin (st / 1000)) = true ∧ Dbl.gt L (Dbl.fin 0) = true := by
      intro k2 hk2
      obtain ⟨hlt, L, T, e1, e2, e3, e4⟩ := hcells k2 (List.mem_cons_of_mem _ hk2)
      have hne : off k ≠ off k2 := fun heq => hnd.1 (heq ▸ List.mem_map_of_mem off hk2)
      refine ⟨hlt, L, T, ?_, ?_, e3, e4⟩
      · rw [hv, List.getElem?_set_ne hne]; exact e1
      · rw [hw, List.getElem?_set_ne hne]; exact e2
    obtain ⟨r, add2, g1, g2, g3, g4, g5⟩ := ih s1 hnd.2 hni.2 hcells1
    refine ⟨r, add1 ++ add2, ?_, ?_, ?_, ?_, ?_⟩
    · rw [List.foldlM_cons, h1]
      exact g1
    · rw [g2, h2, List.append_assoc]
    · rw [List.length_append, List.length_cons, Nat.add_mul, Nat.one_mul]
      omega
    · intro a ha
      rcases List.mem_append.mp ha with h5 | h5
      · exact ⟨k, List.mem_cons_self _ _, h4 a h5⟩
      · obtain ⟨k2, hk2, e⟩ := g4 a h5
        exact ⟨k2, List.mem_cons_of_mem _ hk2, e⟩
    · intro j
      rw [List.countP_append]
      by_cases hj : j = idxf k
      · have hz : add2.countP (fun a => decide (a.neuron = j)) = 0 := by
          rw [List.countP_eq_zero]
          intro a ha
          obtain ⟨k2, hk2, e⟩ := g4 a ha
          simp only [decide_eq_true_eq]
          intro hcon
          exact hni.1 (by rw [← hj, ← hcon, e]; exact List.mem_map_of_mem idxf hk2)
        have := List.countP_le_length (fun a => decide (a.neuron = j)) (l := add1)
        omega
      · have hz : add1.countP (fun a => decide (a.neuron = j)) = 0 := by
          rw [List.countP_eq_zero]
          intro a ha
          simp only [decide_eq_true_eq]
          intro hcon
          exact hj (by rw [← hcon, h4 a ha])
        have := g5 j
        omega

/-- Exact arithmetic, unbounded iterator offsets:
for Min_period = m > 0 with a hard limit (Min_period_std_dev = 0) and
Inp_ind_inc >= 1, a slot of finite start and length dt = step/1000, and a state in which
every neuron of the image has next_spk_time >= slot start and last_firing_period > 0: every
finite period that inp_pixel_to_period returns is at least m/1000, so each iteration of the
emission loop advances the candidate time by at least m/1000; update() returns for every fuel
above ceil(dt / (m/1000)); the pixel loop makes n passes with n at most the number N of pixels
(and at most Total_inputs); the appended events carry neuron indices below n, at most
ceil(dt / (m/1000)) of them for any one neuron, hence at most n * ceil(dt / (m/1000)) in
all. -/
theorem update_terminates_bounded (R : RandSrc) (o : SpikingOutput) (m st sp : ℚ)
    (hmin : o.Min_period = Dbl.fin m) (hm : 0 < m) (hstd : o.Min_period_std_dev = Dbl.fin 0)
    (hinc : 1 ≤ o.Inp_ind_inc) (hst : o.simTime = Dbl.fin st) (hsp : o.step = Dbl.fin sp)
    (hcells : ∀ i, i < o.inputImage.length →
      ∃ L T, o.last_firing_period[i]? = some L ∧ o.next_spk_time[i]? = some T ∧
        Dbl.ge T (Dbl.fin (st / 1000)) = true ∧ Dbl.gt L (Dbl.fin 0) = true)
    (fuel : Nat) (hfuel : ⌈sp / 1000 / (m / 1000)⌉₊ + 1 ≤ fuel) :
    (∀ g x q, (inp_pixel_to_period R o.toConfig o.norm_dist_sigma g x).1 = Dbl.fin q →
      m / 1000 ≤ q) ∧
    ∃ (n : Nat) (o1 : SpikingOutput) (seg : List spike_t),
      n ≤ o.inputImage.length ∧ n ≤ o.Total_inputs ∧
      update_slot R fuel o =
        (List.range n).foldlM
          (fun s k => update_pixel R o.toConfig o.norm_dist_sigma o.inputImage o.simTime o.step
            fuel (o.First_inp_ind + k * o.Inp_ind_inc) (0 + k) s)
          { last_firing_period := o.last_firing_period
            next_spk_time := o.next_spk_time
            slot_spks := []
            rand_gen := o.rand_gen
            cout := o.cout } ∧
      update R fuel o = some o1 ∧
      o1.out_spks = o.out_spks ++ seg ∧
      (∀ a ∈ seg, a.neuron < n) ∧
      (∀ j : Nat, seg.countP (fun a => decide (a.neuron = j)) ≤ ⌈sp / 1000 / (m / 1000)⌉₊) ∧
      seg.length ≤ n * ⌈sp / 1000 / (m / 1000)⌉₊ := by
  have hge : ∀ x g q, (inp_pixel_to_period R o.toConfig o.norm_dist_sigma g x).1 = Dbl.fin q →
      m / 1000 ≤ q :=
    fun x g q h => period_ge_hard_limit R o.toConfig o.norm_dist_sigma m hstd hmin g x q h
  refine ⟨fun g x q h => hge x g q h, ?_⟩
  obtain ⟨n, hn1, hn2, _, hfold⟩ := pixel_loop_eq_fold R o.toConfig o.norm_dist_sigma
    o.inputImage o.simTime o.step fuel o.Total_inputs o.First_inp_ind 0
  have hnN : n ≤ o.inputImage.length := by
    cases n with
    | zero => exact Nat.zero_le _
    | succ j =>
      have h1 := hn2 j (Nat.lt_succ_self j)
      have h2 : j ≤ j * o.Inp_ind_inc := Nat.le_mul_of_pos_right j hinc
      show j + 1 ≤ o.inputImage.length
      omega
  have hoff : ((List.range n).map (fun k => o.First_inp_ind + k * o.Inp_ind_inc)).Nodup := by
    apply List.Nodup.map_on _ (List.nodup_range n)
    intro a _ b _ hab
    have h1 : a * o.Inp_ind_inc = b * o.Inp_ind_inc := by omega
    exact Nat.eq_of_mul_eq_mul_right (by omega) h1
  have hidx : ((List.range n).map (fun k => 0 + k)).Nodup := by
    apply List.Nodup.map_on _ (List.nodup_range n)
    intro a _ b _ hab
    omega
  have hmu : (0 : ℚ) < m / 1000 := by positivity
  obtain ⟨r, added, g1, g2, g3, g4, g5⟩ := fold_pixels_bounded R o.toConfig o.norm_dist_sigma
    o.inputImage st sp (m / 1000) hmu hge fuel hfuel
    (fun k => o.First_inp_ind + k * o.Inp_ind_inc) (fun k => 0 + k) (List.range n)
    { last_firing_period := o.last_firing_period, next_spk_time := o.next_spk_time,
      slot_spks := [], rand_gen := o.rand_gen, cout := o.cout } hoff hidx
    (fun k hk => ⟨hn2 k (List.mem_range.mp hk), hcells _ (hn2 k (List.mem_range.mp hk))⟩)
  rw [← hst, ← hsp] at g1
  have hslot : update_slot R fuel o = some r := by
    unfold update_slot
    rw [hfold]
    exact g1
  have hperm := std_sort_perm spk_time_comp r.slot_spks
  have hadd : r.slot_spks = added := by rw [g2]; rfl
  refine ⟨n, { o with
      last_firing_period := r.last_firing_period
      next_spk_time := r.next_spk_time
      rand_gen := r.rand_gen
      cout := r.cout
      out_spks := o.out_spks ++ std_sort spk_time_comp r.slot_spks },
    std_sort spk_time_comp r.slot_spks, hnN, hn1, hfold _, ?_, rfl, ?_, ?_, ?_⟩
  · unfold update
    rw [hslot]
  · intro a ha
    obtain ⟨k, hk, e⟩ := g4 a (hadd ▸ hperm.subset ha)
    rw [e]
    have := List.mem_range.mp hk
    omega
  · intro j
    rw [hperm.countP_eq, hadd]
    exact g5 j
  · rw [hperm.length_eq, hadd]
    simpa using g3

/-! ## Finiteness of the period does not depend on the draws -/

/-- Where the control-flow function says that the `else` branch is reached, `emit_loop`
returns with the predicted time at the slot end. -/
theorem emit_loop_goes_silent_result (R : RandSrc) (c : Config) (sigma : Dbl) (ts dt px : Dbl) :
    ∀ (fuel : Nat) (new_spk : spike_t) (s : PixelRun),
      emit_loop_goes_silent R c sigma ts dt px fuel new_spk s = true →
      ∃ r, emit_loop R c sigma ts dt px fuel new_spk s = some r ∧ r.next_spk_time = ts + dt := by
  intro fuel
  induction fuel with
  | zero => intro new_spk s h; simp [emit_loop_goes_silent] at h
  | succ f ih =>
    intro new_spk s h
    unfold emit_loop_goes_silent at h
    unfold emit_loop
    by_cases hc : Dbl.lt new_spk.time (ts + dt) = true
    · simp only [hc, if_true] at h ⊢
      by_cases hfin : (inp_pixel_to_period R c sigma s.rand_gen px).1.isfinite = true
      · simp only [hfin, if_true] at h ⊢
        exact ih _ _ h
      · simp only [hfin]
        exact ⟨_, rfl, rfl⟩
    · simp only [hc] at h
      simp at h

/-- The powers of two of the rounding function are the powers of the field. -/
theorem Dbl.pow2_eq_zpow (k : Int) : Dbl.pow2 k = (2 : ℚ) ^ k := by
  unfold Dbl.pow2
  split
  · rename_i h
    obtain ⟨n, rfl⟩ := Int.eq_ofNat_of_zero_le h
    simp
  · rename_i h
    have h1 : 0 ≤ -k := by omega
    obtain ⟨n, hn⟩ := Int.eq_ofNat_of_zero_le h1
    have hk : k = -(n : Int) := by omega
    subst hk
    simp

/-- Powers of two are positive. -/
theorem Dbl.pow2_pos (k : Int) : 0 < Dbl.pow2 k := by
  rw [Dbl.pow2_eq_zpow]
  positivity

/-- Powers of two multiply as the exponents add. -/
theorem Dbl.pow2_add (a b : Int) : Dbl.pow2 (a + b) = Dbl.pow2 a * Dbl.pow2 b := by
  simp only [Dbl.pow2_eq_zpow]
  exact zpow_add₀ (by norm_num) a b

/-- Powers of two are monotone in the exponent. -/
theorem Dbl.pow2_mono {a b : Int} (h : a ≤ b) : Dbl.pow2 a ≤ Dbl.pow2 b := by
  simp only [Dbl.pow2_eq_zpow]
  exact zpow_le_zpow_right₀ (by norm_num) h

/-- Powers of two compare as their exponents. -/
theorem Dbl.pow2_lt {a b : Int} (h : Dbl.pow2 a < Dbl.pow2 b) : a < b := by
  by_contra hc
  exact absurd (Dbl.pow2_mono (not_lt.mp hc)) (not_le.mpr h)

/-- The bisection never returns a binade above the value. -/
theorem Dbl.ilog2_search_le (a : ℚ) :
    ∀ (fuel : Nat) (lo hi : Int), Dbl.pow2 lo ≤ a → Dbl.pow2 (Dbl.ilog2_search a fuel lo hi) ≤ a := by
  intro fuel
  induction fuel with
  | zero => intro lo hi h; exact h
  | succ n ih =>
    intro lo hi h
    unfold Dbl.ilog2_search
    split
    · rename_i hm
      exact ih _ _ hm
    · exact ih _ _ h

/-- The bisection returns a binade at or above its lower end. -/
theorem Dbl.ilog2_search_ge (a : ℚ) :
    ∀ (fuel : Nat) (lo hi : Int), lo ≤ hi → lo ≤ Dbl.ilog2_search a fuel lo hi := by
  intro fuel
  induction fuel with
  | zero => intro lo hi _; exact le_refl _
  | succ n ih =>
    intro lo hi h
    unfold Dbl.ilog2_search
    split
    · exact le_trans (by omega) (ih _ _ (by omega))
    · exact ih _ _ (by omega)

/-- With an interval of width `2^fuel` around the value, the bisection ends on the binade of
the value. -/
theorem Dbl.ilog2_search_lt (a : ℚ) :
    ∀ (fuel : Nat) (lo hi : Int), hi - lo = 2 ^ fuel → a < Dbl.pow2 hi →
      a < Dbl.pow2 (Dbl.ilog2_search a fuel lo hi + 1) := by
  intro fuel
  induction fuel with
  | zero =>
    intro lo hi hw h
    have : hi = lo + 1 := by simpa using (by omega : hi = lo + 2 ^ 0)
    rw [Dbl.ilog2_search, ← this]
    exact h
  | succ n ih =>
    intro lo hi hw h
    have h2 : (2 : Int) ^ (n + 1) = 2 * 2 ^ n := by ring
    have hmid : (lo + hi) / 2 = lo + 2 ^ n := by omega
    unfold Dbl.ilog2_search
    split
    · exact ih _ _ (by omega) h
    · rename_i hm
      exact ih _ _ (by omega) (not_le.mp hm)

/-- Rounding to the nearest integer moves a value by at most one half. -/
theorem Dbl.rne_err (x : ℚ) : |(Dbl.rne x : ℚ) - x| ≤ 1 / 2 := by
  have hfl : Rat.floor x = ⌊x⌋ := rfl
  have h1 : ((Rat.floor x : Int) : ℚ) ≤ x := by rw [hfl]; exact Int.floor_le x
  have h2 : x < ((Rat.floor x : Int) : ℚ) + 1 := by rw [hfl]; exact Int.lt_floor_add_one x
  unfold Dbl.rne
  rw [abs_le]
  split
  · constructor <;> linarith
  · split
    · push_cast
      constructor <;> linarith
    · rename_i h3 h4
      split
      · constructor <;> linarith
      · push_cast
        constructor <;> linarith

/-- Rounding to the nearest integer keeps the sign of a non-negative value. -/
theorem Dbl.rne_nonneg (x : ℚ) (hx : 0 ≤ x) : 0 ≤ Dbl.rne x := by
  have hfl : Rat.floor x = ⌊x⌋ := rfl
  have h0 : 0 ≤ Rat.floor x := by rw [hfl]; exact Int.floor_nonneg.mpr hx
  unfold Dbl.rne
  split_ifs <;> omega

/-- The spacing is positive. -/
theorem Dbl.ulp_pos (q : ℚ) : 0 < Dbl.ulp q := Dbl.pow2_pos _

/-- In the normal range the spacing is at most `2^(-52)` times the magnitude. -/
theorem Dbl.ulp_le (q : ℚ) (h : Dbl.pow2 (-1022) ≤ |q|) : Dbl.ulp q ≤ |q| * Dbl.pow2 (-52) := by
  unfold Dbl.ulp
  split
  · rw [show ((-1022 : Int) - 52) = -1022 + -52 by norm_num, Dbl.pow2_add]
    exact mul_le_mul_of_nonneg_right h (le_of_lt (Dbl.pow2_pos _))
  · rw [sub_eq_add_neg, Dbl.pow2_add]
    apply mul_le_mul_of_nonneg_right _ (le_of_lt (Dbl.pow2_pos _))
    unfold Dbl.ilog2
    exact Dbl.ilog2_search_le _ _ _ _ (le_trans (Dbl.pow2_mono (by norm_num)) h)

/-- The spacing is never below `2^(-1074)`. -/
theorem Dbl.ulp_ge (q : ℚ) : Dbl.pow2 (-1074) ≤ Dbl.ulp q := by
  unfold Dbl.ulp
  apply Dbl.pow2_mono
  split <;> omega

/-- A value below the interval of the bisection gives the lower end. -/
theorem Dbl.ilog2_search_below (a : ℚ) :
    ∀ (fuel : Nat) (lo hi : Int), lo ≤ hi → a < Dbl.pow2 lo →
      Dbl.ilog2_search a fuel lo hi = lo := by
  intro fuel
  induction fuel with
  | zero => intro lo hi _ _; rfl
  | succ n ih =>
    intro lo hi h ha
    unfold Dbl.ilog2_search
    have hm : ¬ Dbl.pow2 ((lo + hi) / 2) ≤ a :=
      not_le.mpr (lt_of_lt_of_le ha (Dbl.pow2_mono (by omega)))
    rw [if_neg hm]
    exact ih _ _ (by omega) ha

/-- Below the normal range the spacing is `2^(-1074)`. -/
theorem Dbl.ulp_subnormal (q : ℚ) (h : |q| < Dbl.pow2 (-1022)) : Dbl.ulp q = Dbl.pow2 (-1074) := by
  unfold Dbl.ulp
  have hlt : Dbl.ilog2 |q| < -1022 := by
    by_contra hc
    have h1 : Dbl.pow2 (-1022) ≤ Dbl.pow2 (Dbl.ilog2 |q|) := Dbl.pow2_mono (not_lt.mp hc)
    by_cases hq : Dbl.pow2 (-2048) ≤ |q|
    · have h2 := Dbl.ilog2_search_le |q| 12 (-2048) 2048 hq
      unfold Dbl.ilog2 at h1
      linarith
    · unfold Dbl.ilog2 at hc
      rw [Dbl.ilog2_search_below _ _ _ _ (by norm_num) (not_le.mp hq)] at hc
      exact hc (by norm_num)
  rw [if_pos hlt]
  rfl

/-- Rounding error of binary64: a rational whose rounding is the finite `r` lies within half a
spacing of `r`. -/
theorem Dbl.round64_err (q r : ℚ) (h : Dbl.round64 q = Dbl.fin r) : |r - q| ≤ Dbl.ulp q / 2 := by
  unfold Dbl.round64 at h
  have hu := Dbl.ulp_pos q
  have he := Dbl.rne_err (|q| / Dbl.ulp q)
  have hm : abs ((Dbl.rne (|q| / Dbl.ulp q) : ℚ) * Dbl.ulp q - abs q) ≤ Dbl.ulp q / 2 := by
    have e : (Dbl.rne (|q| / Dbl.ulp q) : ℚ) * Dbl.ulp q - |q|
        = ((Dbl.rne (|q| / Dbl.ulp q) : ℚ) - |q| / Dbl.ulp q) * Dbl.ulp q := by
      field_simp
    rw [e, abs_mul, abs_of_pos hu]
    calc abs ((Dbl.rne (|q| / Dbl.ulp q) : ℚ) - abs q / Dbl.ulp q) * Dbl.ulp q
        ≤ 1 / 2 * Dbl.ulp q := mul_le_mul_of_nonneg_right he (le_of_lt hu)
      _ = Dbl.ulp q / 2 := by ring
  split at h
  · rename_i h0
    simp only [Dbl.fin.injEq] at h
    subst h
    subst h0
    simp only [sub_zero, abs_zero]
    positivity
  · split at h
    · split at h <;> exact absurd h (by simp)
    · simp only [Dbl.fin.injEq] at h
      subst h
      split
      · rename_i hpos
        rw [abs_of_pos hpos] at hm ⊢
        exact hm
      · rename_i h0 _ hpos
        have hneg : q < 0 := lt_of_le_of_ne (not_lt.mp hpos) h0
        rw [abs_of_neg hneg] at hm ⊢
        rw [show -((Dbl.rne (-q / Dbl.ulp q) : ℚ) * Dbl.ulp q) - q
            = -((Dbl.rne (-q / Dbl.ulp q) : ℚ) * Dbl.ulp q - -q) by ring, abs_neg]
        exact hm

/-- Relative rounding error of binary64 in the normal range: at most `2^(-53)`. -/
theorem Dbl.round64_rel_err (q r : ℚ) (hq : Dbl.pow2 (-1022) ≤ |q|)
    (h : Dbl.round64 q = Dbl.fin r) : |r - q| ≤ |q| * Dbl.pow2 (-53) := by
  have h1 := Dbl.round64_err q r h
  have h2 := Dbl.ulp_le q hq
  have e : Dbl.pow2 (-52) = 2 * Dbl.pow2 (-53) := by
    rw [show (-52 : Int) = 1 + -53 by norm_num, Dbl.pow2_add]
    rfl
  rw [e] at h2
  linarith

/-- Rounding error of binary64 at any magnitude: at most `2^(-53)` of the magnitude or
`2^(-1075)`, whichever is larger. -/
theorem Dbl.round64_abs_err (q r : ℚ) (h : Dbl.round64 q = Dbl.fin r) :
    |r - q| ≤ |q| * Dbl.pow2 (-53) + Dbl.pow2 (-1075) := by
  by_cases hq : Dbl.pow2 (-1022) ≤ |q|
  · have := Dbl.round64_rel_err q r hq h
    have := Dbl.pow2_pos (-1075)
    linarith
  · have h1 := Dbl.round64_err q r h
    rw [Dbl.ulp_subnormal q (not_le.mp hq)] at h1
    have e : Dbl.pow2 (-1074) = 2 * Dbl.pow2 (-1075) := by
      rw [show (-1074 : Int) = 1 + -1075 by norm_num, Dbl.pow2_add]
      rfl
    rw [e] at h1
    have := mul_nonneg (abs_nonneg q) (le_of_lt (Dbl.pow2_pos (-53)))
    linarith

/-- One rounded addition of a period `l` to a time `t`: the result is within
`2^(-53) |t + l| + 2^(-1075)` of `t + l`. -/
theorem B64.next_sum_error (l t q : ℚ) (h : B64.next_sum (Dbl.fin l) (Dbl.fin t) = Dbl.fin q) :
    |q - (t + l)| ≤ |t + l| * Dbl.pow2 (-53) + Dbl.pow2 (-1075) :=
  Dbl.round64_abs_err (t + l) q h

/-- Running sums against the arithmetic progression: as long as the exact sums `s_j + l` of
the first `k` steps are finite with magnitude at most `B`, the `k`-th running sum is within
`k (2^(-53) B + 2^(-1075))` of `t1 + k l`. -/
theorem B64.running_sum_error (l t1 B : ℚ) :
    ∀ (k : Nat) (q : ℚ),
      (∀ j : Nat, j < k → ∃ qj : ℚ,
        Nat.iterate (B64.next_sum (Dbl.fin l)) j (Dbl.fin t1) = Dbl.fin qj ∧ |qj + l| ≤ B) →
      Nat.iterate (B64.next_sum (Dbl.fin l)) k (Dbl.fin t1) = Dbl.fin q →
      |q - (t1 + k * l)| ≤ k * (B * Dbl.pow2 (-53) + Dbl.pow2 (-1075)) := by
  intro k
  induction k with
  | zero =>
    intro q _ h
    simp only [Function.iterate_zero, id_eq, Dbl.fin.injEq] at h
    subst h
    simp
  | succ k ih =>
    intro q hj h
    obtain ⟨qk, hqk, hB⟩ := hj k (Nat.lt_succ_self k)
    rw [Function.iterate_succ_apply', hqk] at h
    have h1 := B64.next_sum_error l qk q h
    have h2 := ih qk (fun j hjk => hj j (Nat.lt_succ_of_lt hjk)) hqk
    have h3 : |qk + l| * Dbl.pow2 (-53) ≤ B * Dbl.pow2 (-53) :=
      mul_le_mul_of_nonneg_right hB (le_of_lt (Dbl.pow2_pos _))
    have e : q - (t1 + ((k + 1 : Nat) : ℚ) * l) = (q - (qk + l)) + (qk - (t1 + k * l)) := by
      push_cast
      ring
    rw [e]
    calc |(q - (qk + l)) + (qk - (t1 + k * l))|
        ≤ |q - (qk + l)| + |qk - (t1 + k * l)| := abs_add _ _
      _ ≤ (B * Dbl.pow2 (-53) + Dbl.pow2 (-1075))
            + k * (B * Dbl.pow2 (-53) + Dbl.pow2 (-1075)) := by linarith
      _ = ((k + 1 : Nat) : ℚ) * (B * Dbl.pow2 (-53) + Dbl.pow2 (-1075)) := by
          push_cast
          ring

/-! ## Binary64: one neuron, one slot, no jitter -/

/-- Without jitter the binary64 rate model draws nothing and its value does not depend on the
random source or the generator. -/
theorem B64.inp_pixel_to_period_const_b64 (R : RandSrc) (c : Config) (sigma : Dbl) (x : Dbl)
    (hs : c.Spike_std_dev = Dbl.fin 0) (hm : c.Min_period_std_dev = Dbl.fin 0) (g g1 : Nat) :
    B64.inp_pixel_to_period R c sigma g x = ((B64.inp_pixel_to_period R c sigma g1 x).1, g) := by
  simp [B64.inp_pixel_to_period, hs, hm, Dbl.gt]

/-- The binary64 emission loop for a constant finite period `L`: entered with a candidate
whose running sums stay below the rounded slot end for exactly `n` steps, it pushes those `n`
running sums and leaves the `n`-th as the predicted time. -/
theorem B64.emit_loop_running_sums (R : RandSrc) (c : Config) (sigma : Dbl) (ts dt x L : Dbl)
    (idx : Nat) (hL : L.isfinite = true)
    (hdet : ∀ g, B64.inp_pixel_to_period R c sigma g x = (L, g)) :
    ∀ (n fuel : Nat) (t : Dbl) (s : PixelRun), n < fuel →
      (∀ k : Nat, k < n → Dbl.lt (Nat.iterate (B64.next_sum L) k t) (Dbl.r64 (ts + dt)) = true) →
      Dbl.lt (Nat.iterate (B64.next_sum L) n t) (Dbl.r64 (ts + dt)) = false →
      s.last_firing_period = L → s.next_spk_time = t →
      B64.emit_loop R c sigma ts dt x fuel { neuron := idx, time := t } s =
        some { last_firing_period := L
               next_spk_time := Nat.iterate (B64.next_sum L) n t
               slot_spks := s.slot_spks ++ (List.range n).map
                 (fun k : Nat => (spike_t.mk idx
            (Nat.iterate (B64.next_sum L) k t)))
               rand_gen := s.rand_gen
               cout := s.cout } := by
  intro n
  induction n with
  | zero =>
    intro fuel t s hf _ hge hsL hsT
    obtain ⟨f, rfl⟩ : ∃ f, fuel = f + 1 := ⟨fuel - 1, by omega⟩
    simp only [Function.iterate_zero, id_eq] at hge
    simp only [B64.emit_loop, hge, Bool.false_eq_true, if_false, List.range_zero, List.map_nil,
      List.append_nil, Function.iterate_zero, id_eq, Option.some.injEq]
    cases s
    simp_all
  | succ n ih =>
    intro fuel t s hf hlt hge hsL hsT
    obtain ⟨f, rfl⟩ : ∃ f, fuel = f + 1 := ⟨fuel - 1, by omega⟩
    have h0 : Dbl.lt t (Dbl.r64 (ts + dt)) = true := by
      simpa using hlt 0 (Nat.succ_pos n)
    have hstep := ih f (B64.next_sum L t)
      { last_firing_period := L
        next_spk_time := B64.next_sum L t
        slot_spks := s.slot_spks ++ [{ neuron := idx, time := t }]
        rand_gen := s.rand_gen
        cout := s.cout } (by omega)
      (fun k hk => by
        have := hlt (k + 1) (by omega)
        rwa [Function.iterate_succ_apply] at this)
      (by rwa [Function.iterate_succ_apply] at hge) rfl rfl
    simp only [B64.emit_loop, h0, if_true, hdet, hL]
    have e : Dbl.r64 (t + L) = B64.next_sum L t := rfl
    rw [e, hstep]
    simp only [Option.some.injEq, PixelRun.mk.injEq, true_and, and_true]
    refine ⟨by rw [Function.iterate_succ_apply], ?_⟩
    rw [List.range_succ_eq_map, List.map_cons, List.map_map, List.append_assoc]
    simp only [List.singleton_append, Function.iterate_zero, id_eq, List.cons.injEq, true_and,
      List.append_cancel_left_eq]
    apply List.map_congr_left
    intro k _
    simp only [Function.comp, Nat.succ_eq_add_one, Function.iterate_succ_apply]

/-- The binary64 emission loop for a constant finite period whose running sums never reach the
rounded slot end does not return, whatever the fuel. -/
theorem B64.emit_loop_never_returns (R : RandSrc) (c : Config) (sigma : Dbl) (ts dt x L : Dbl)
    (idx : Nat) (hL : L.isfinite = true)
    (hdet : ∀ g, B64.inp_pixel_to_period R c sigma g x = (L, g)) :
    ∀ (fuel : Nat) (t : Dbl) (s : PixelRun),
      (∀ k : Nat, Dbl.lt (Nat.iterate (B64.next_sum L) k t) (Dbl.r64 (ts + dt)) = true) →
      B64.emit_loop R c sigma ts dt x fuel { neuron := idx, time := t } s = none := by
  intro fuel
  induction fuel with
  | zero => intro t s _; rfl
  | succ f ih =>
    intro t s hlt
    have h0 : Dbl.lt t (Dbl.r64 (ts + dt)) = true := by simpa using hlt 0
    simp only [B64.emit_loop, h0, if_true, hdet, hL]
    exact ih _ _ (fun k => by
      have := hlt (k + 1)
      rwa [Function.iterate_succ_apply] at this)

/-- The binary64 loop body for a constant finite period `L`, in terms of the running sums from
the first candidate of the slot. -/
theorem B64.update_neuron_const_b64 (R : RandSrc) (c : Config) (sigma : Dbl) (ts dt x L : Dbl)
    (idx : Nat) (s : PixelRun) (hL : L.isfinite = true)
    (hdet : ∀ g, B64.inp_pixel_to_period R c sigma g x = (L, g)) :
    (∀ (n fuel : Nat), n < fuel →
      (∀ k : Nat, k < n →
        Dbl.lt (Nat.iterate (B64.next_sum L) k
          (B64.first_spk_time ts s.next_spk_time L s.last_firing_period))
          (Dbl.r64 (ts + dt)) = true) →
      Dbl.lt (Nat.iterate (B64.next_sum L) n
        (B64.first_spk_time ts s.next_spk_time L s.last_firing_period))
        (Dbl.r64 (ts + dt)) = false →
      ∃ r, B64.update_neuron R c sigma ts dt fuel idx x s = some r ∧
        r.slot_spks = s.slot_spks ++ (List.range n).map
          (fun k : Nat => (spike_t.mk idx
            (Nat.iterate (B64.next_sum L) k
            (B64.first_spk_time ts s.next_spk_time L s.last_firing_period)))) ∧
        r.last_firing_period = L ∧
        r.next_spk_time = Nat.iterate (B64.next_sum L) n
          (B64.first_spk_time ts s.next_spk_time L s.last_firing_period) ∧
        r.rand_gen = s.rand_gen) ∧
    ((∀ k : Nat,
        Dbl.lt (Nat.iterate (B64.next_sum L) k
          (B64.first_spk_time ts s.next_spk_time L s.last_firing_period))
          (Dbl.r64 (ts + dt)) = true) →
      ∀ fuel, B64.update_neuron R c sigma ts dt fuel idx x s = none) := by
  refine ⟨?_, ?_⟩
  · intro n fuel hf hlt hge
    simp only [B64.update_neuron, hdet, hL, if_true]
    rw [B64.emit_loop_running_sums R c sigma ts dt x L idx hL hdet n fuel _ _ hf hlt hge rfl rfl]
    exact ⟨_, rfl, rfl, rfl, rfl, rfl⟩
  · intro hlt fuel
    simp only [B64.update_neuron, hdet, hL, if_true]
    exact B64.emit_loop_never_returns R c sigma ts dt x L idx hL hdet fuel _ _ hlt

/-- C2 (amended): for one admitted neuron with prior state (L0, T0), a slot with start ts and
length dt, and a pixel whose jitter-free period L1 is finite, the loop body of update() in
binary64 emits the running sums s_0 = T1, s_(k+1) = fl(s_k + L1) that are below the rounded
slot end fl(ts + dt), in that order, where T1 = fl(ts + fl(fl(fl(T0 - ts) * L1) / L0)); when
s_n is the first running sum not below fl(ts + dt), it returns for every fuel above n with
exactly the n spikes s_0 .. s_(n-1), last_firing_period = L1 and next_spk_time = s_n; when no
running sum reaches fl(ts + dt), it does not return.  As long as the exact sums s_j + L1 of
the first k steps are finite with magnitude at most B, the running sum s_k is within
k (2^(-53) B + 2^(-1075)) of the term T1 + k L1 of the progression. -/
theorem update_neuron_emits_running_sums (R : RandSrc) (c : Config) (sigma : Dbl)
    (ts dt x : Dbl) (idx : Nat) (s : PixelRun)
    (hs : c.Spike_std_dev = Dbl.fin 0) (hm : c.Min_period_std_dev = Dbl.fin 0)
    (hfin : (B64.inp_pixel_to_period R c sigma s.rand_gen x).1.isfinite = true) :
    (∀ (n fuel : Nat), n < fuel →
      (∀ k : Nat, k < n →
        Dbl.lt (Nat.iterate (B64.next_sum (B64.inp_pixel_to_period R c sigma s.rand_gen x).1) k
          (B64.first_spk_time ts s.next_spk_time
            (B64.inp_pixel_to_period R c sigma s.rand_gen x).1 s.last_firing_period))
          (Dbl.r64 (ts + dt)) = true) →
      Dbl.lt (Nat.iterate (B64.next_sum (B64.inp_pixel_to_period R c sigma s.rand_gen x).1) n
        (B64.first_spk_time ts s.next_spk_time
          (B64.inp_pixel_to_period R c sigma s.rand_gen x).1 s.last_firing_period))
        (Dbl.r64 (ts + dt)) = false →
      ∃ r, B64.update_neuron R c sigma ts dt fuel idx x s = some r ∧
        r.slot_spks = s.slot_spks ++ (List.range n).map
          (fun k : Nat => (spike_t.mk idx
            (Nat.iterate (B64.next_sum (B64.inp_pixel_to_period R c sigma s.rand_gen x).1) k
              (B64.first_spk_time ts s.next_spk_time
                (B64.inp_pixel_to_period R c sigma s.rand_gen x).1 s.last_firing_period)))) ∧
        r.last_firing_period = (B64.inp_pixel_to_period R c sigma s.rand_gen x).1 ∧
        r.next_spk_time =
          Nat.iterate (B64.next_sum (B64.inp_pixel_to_period R c sigma s.rand_gen x).1) n
            (B64.first_spk_time ts s.next_spk_time
              (B64.inp_pixel_to_period R c sigma s.rand_gen x).1 s.last_firing_period) ∧
        r.rand_gen = s.rand_gen) ∧
    ((∀ k : Nat,
        Dbl.lt (Nat.iterate (B64.next_sum (B64.inp_pixel_to_period R c sigma s.rand_gen x).1) k
          (B64.first_spk_time ts s.next_spk_time
            (B64.inp_pixel_to_period R c sigma s.rand_gen x).1 s.last_firing_period))
          (Dbl.r64 (ts + dt)) = true) →
      ∀ fuel, B64.update_neuron R c sigma ts dt fuel idx x s = none) ∧
    (∀ (l t1 B : ℚ) (k : Nat) (q : ℚ),
      (B64.inp_pixel_to_period R c sigma s.rand_gen x).1 = Dbl.fin l →
      B64.first_spk_time ts s.next_spk_time
        (B64.inp_pixel_to_period R c sigma s.rand_gen x).1 s.last_firing_period = Dbl.fin t1 →
      (∀ j : Nat, j < k → ∃ qj : ℚ,
        Nat.iterate (B64.next_sum (Dbl.fin l)) j (Dbl.fin t1) = Dbl.fin qj ∧ |qj + l| ≤ B) →
      Nat.iterate (B64.next_sum (Dbl.fin l)) k (Dbl.fin t1) = Dbl.fin q →
      |q - (t1 + k * l)| ≤ k * (B * Dbl.pow2 (-53) + Dbl.pow2 (-1075))) :=
  ⟨(B64.update_neuron_const_b64 R c sigma ts dt x _ idx s hfin
      (fun g => B64.inp_pixel_to_period_const_b64 R c sigma x hs hm g s.rand_gen)).1,
    (B64.update_neuron_const_b64 R c sigma ts dt x _ idx s hfin
      (fun g => B64.inp_pixel_to_period_const_b64 R c sigma x hs hm g s.rand_gen)).2,
    fun l t1 B k q _ _ hj hq => B64.running_sum_error l t1 B k q hj hq⟩

/-! ## Binary64: silent slots -/

/-- One pass of the pixel loop writes only the two state cells at the offset of the
iterators. -/
theorem B64.update_pixel_effect_b64 (R : RandSrc) (c : Config) (sigma : Dbl) (img : List Dbl)
    (simTime step : Dbl) (fuel it idx : Nat) (s s1 : SlotRun)
    (h : B64.update_pixel R c sigma img simTime step fuel it idx s = some s1) :
    (∃ v, s1.last_firing_period = s.last_firing_period.set it v) ∧
    (∃ v, s1.next_spk_time = s.next_spk_time.set it v) := by
  unfold B64.update_pixel at h
  split at h
  · split at h
    · simp only [Option.some.injEq] at h
      subst h
      exact ⟨⟨_, rfl⟩, ⟨_, rfl⟩⟩
    · exact absurd h (by simp)
  · exact absurd h (by simp)

/-- A sequence of passes of the pixel loop leaves the state cells at every offset that is not
visited as they were. -/
theorem B64.fold_pixels_frame (R : RandSrc) (c : Config) (sigma : Dbl) (img : List Dbl)
    (simTime step : Dbl) (fuel : Nat) (off idxf : Nat → Nat) (p : Nat) :
    ∀ (ks : List Nat) (s r : SlotRun),
      ks.foldlM (fun s k => B64.update_pixel R c sigma img simTime step fuel (off k) (idxf k) s)
        s = some r →
      (∀ k ∈ ks, p ≠ off k) →
      r.last_firing_period[p]? = s.last_firing_period[p]? ∧
      r.next_spk_time[p]? = s.next_spk_time[p]? := by
  intro ks
  induction ks with
  | nil =>
    intro s r h _
    simp only [List.foldlM_nil, pure, Option.some.injEq] at h
    subst h
    exact ⟨rfl, rfl⟩
  | cons k ks ih =>
    intro s r h hne
    rw [List.foldlM_cons] at h
    obtain ⟨s1, h1, h2⟩ := Option.bind_eq_some.mp h
    obtain ⟨⟨v1, hv1⟩, ⟨w1, hw1⟩⟩ :=
      B64.update_pixel_effect_b64 R c sigma img simTime step fuel (off k) (idxf k) s s1 h1
    have hk : p ≠ off k := hne k (List.mem_cons_self _ _)
    obtain ⟨e1, e2⟩ := ih s1 r h2 (fun k2 hk2 => hne k2 (List.mem_cons_of_mem _ hk2))
    rw [e1, e2, hv1, hw1]
    exact ⟨List.getElem?_set_ne (Ne.symm hk), List.getElem?_set_ne (Ne.symm hk)⟩

/-- While no iterator leaves the address space (`base + N + Inp_ind_inc <= 2^61` and the
current iterator below `2^61`, in doubles), the pixel loop with 64-bit iterators is the
sequence of the passes at the offsets `it + k * Inp_ind_inc`, `k` below the number `m` of
admitted pixels. -/
theorem B64.pixel_loop_eq_fold_b64 (R : RandSrc) (c : Config) (sigma : Dbl) (img : List Dbl)
    (simTime step : Dbl) (fuel base : Nat) (hb : base + img.length + c.Inp_ind_inc ≤ 2 ^ 61) :
    ∀ (remaining it idx : Nat), base + it < 2 ^ 61 →
      ∃ m : Nat, m ≤ remaining ∧
        (∀ k : Nat, k < m → it + k * c.Inp_ind_inc < img.length) ∧
        (m < remaining → img.length ≤ it + m * c.Inp_ind_inc) ∧
        ∀ s : SlotRun,
          B64.pixel_loop R c sigma img simTime step fuel base remaining it idx s =
            (List.range m).foldlM
              (fun s k => B64.update_pixel R c sigma img simTime step fuel
                (it + k * c.Inp_ind_inc) (idx + k) s) s := by
  intro remaining
  induction remaining with
  | zero =>
    intro it idx _
    exact ⟨0, le_refl _, by simp, by simp, fun s => by simp [B64.pixel_loop, pure]⟩
  | succ n ih =>
    intro it idx hit0
    by_cases hit : it < img.length
    · have hmod : (it + c.Inp_ind_inc) % 2 ^ 61 = it + c.Inp_ind_inc :=
        Nat.mod_eq_of_lt (by omega)
      obtain ⟨m, hm1, hm2, hm3, hm4⟩ := ih (it + c.Inp_ind_inc) (idx + 1) (by omega)
      refine ⟨m + 1, by omega, ?_, ?_, ?_⟩
      · intro k hk
        cases k with
        | zero => simpa using hit
        | succ j =>
          have := hm2 j (by omega)
          rw [Nat.add_mul, Nat.one_mul]
          omega
      · intro hlt
        have := hm3 (by omega)
        rw [Nat.add_mul, Nat.one_mul]
        omega
      · intro s
        rw [List.range_succ_eq_map, List.foldlM_cons]
        simp only [B64.pixel_loop, hit, if_true, Nat.zero_mul, Nat.add_zero, hmod]
        cases hup : B64.update_pixel R c sigma img simTime step fuel it idx s with
        | none => rfl
        | some s1 =>
          show B64.pixel_loop R c sigma img simTime step fuel base n (it + c.Inp_ind_inc)
            (idx + 1) s1 = List.foldlM _ s1 (List.map Nat.succ (List.range m))
          rw [List.foldlM_map, hm4 s1]
          congr 1
          funext s2 k
          have e1 : it + c.Inp_ind_inc + k * c.Inp_ind_inc = it + (k + 1) * c.Inp_ind_inc := by
            rw [Nat.add_mul, Nat.one_mul]; omega
          have e2 : idx + 1 + k = idx + (k + 1) := by omega
          rw [e1, e2]
    · refine ⟨0, by omega, by simp, ?_, ?_⟩
      · intro _
        simp only [Nat.zero_mul, Nat.add_zero]
        omega
      · intro s
        have h2 : base + it < 2305843009213693952 := by simpa using hit0
        simp [B64.pixel_loop, hit, h2, pure]

/-- C9 (amended): for a grid of N pixels whose input image starts at the address `base` (in
doubles), Inp_ind_inc >= 1, and First_inp_ind and Inp_ind_inc small enough that no iterator
leaves the 64-bit address space (base + First_inp_ind < 2^61 and
base + N + Inp_ind_inc <= 2^61), a call of update() that returns is the sequence of the loop
passes at the pixel offsets First_inp_ind + k*Inp_ind_inc for k = 0..m-1, where m is at most
Total_inputs, every such offset is below N and the sequence stops short of Total_inputs only
at the end of the image; these offsets are pairwise distinct, so each admitted pixel is
processed exactly once; and the state cells at every other offset are the same after the
call as before it. -/
theorem update_visits_admitted_pixels_once (R : RandSrc) (fuel base : Nat)
    (o o1 : SpikingOutput) (hinc : 1 ≤ o.Inp_ind_inc)
    (hfirst : base + o.First_inp_ind < 2 ^ 61)
    (hb : base + o.inputImage.length + o.Inp_ind_inc ≤ 2 ^ 61)
    (h : B64.update R fuel base o = some o1) :
    ∃ m : Nat, m ≤ o.Total_inputs ∧
      (∀ k : Nat, k < m → o.First_inp_ind + k * o.Inp_ind_inc < o.inputImage.length) ∧
      (m < o.Total_inputs → o.inputImage.length ≤ o.First_inp_ind + m * o.Inp_ind_inc) ∧
      B64.update_slot R fuel base o =
        (List.range m).foldlM
          (fun s k => B64.update_pixel R o.toConfig o.norm_dist_sigma o.inputImage o.simTime
            o.step fuel (o.First_inp_ind + k * o.Inp_ind_inc) (0 + k) s)
          { last_firing_period := o.last_firing_period
            next_spk_time := o.next_spk_time
            slot_spks := []
            rand_gen := o.rand_gen
            cout := o.cout } ∧
      ((List.range m).map (fun k => o.First_inp_ind + k * o.Inp_ind_inc)).Nodup ∧
      ∀ p : Nat, (∀ k : Nat, k < m → p ≠ o.First_inp_ind + k * o.Inp_ind_inc) →
        o1.last_firing_period[p]? = o.last_firing_period[p]? ∧
        o1.next_spk_time[p]? = o.next_spk_time[p]? := by
  have hmod : o.First_inp_ind % 2 ^ 61 = o.First_inp_ind := Nat.mod_eq_of_lt (by omega)
  obtain ⟨m, hm1, hm2, hm3, hfold⟩ := B64.pixel_loop_eq_fold_b64 R o.toConfig o.norm_dist_sigma
    o.inputImage o.simTime o.step fuel base hb o.Total_inputs o.First_inp_ind 0 hfirst
  have hslot : ∀ s, B64.update_slot R fuel base o = some s →
      (List.range m).foldlM
          (fun s k => B64.update_pixel R o.toConfig o.norm_dist_sigma o.inputImage o.simTime
            o.step fuel (o.First_inp_ind + k * o.Inp_ind_inc) (0 + k) s)
          { last_firing_period := o.last_firing_period
            next_spk_time := o.next_spk_time
            slot_spks := []
            rand_gen := o.rand_gen
            cout := o.cout } = some s := by
    intro s hs
    unfold B64.update_slot at hs
    rw [hmod, hfold] at hs
    exact hs
  refine ⟨m, hm1, hm2, hm3, ?_, ?_, ?_⟩
  · unfold B64.update_slot
    rw [hmod, hfold]
  · apply List.Nodup.map_on _ (List.nodup_range m)
    intro a _ b _ hab
    have h1 : a * o.Inp_ind_inc = b * o.Inp_ind_inc := by omega
    exact Nat.eq_of_mul_eq_mul_right (by omega) h1
  · intro p hp
    unfold B64.update at h
    cases hs : B64.update_slot R fuel base o with
    | none => rw [hs] at h; exact absurd h (by simp)
    | some s =>
      rw [hs] at h
      simp only [Option.some.injEq] at h
      subst h
      exact B64.fold_pixels_frame R o.toConfig o.norm_dist_sigma o.inputImage o.simTime o.step
        fuel _ _ p _ _ _ (hslot s hs) (fun k hk => hp k (List.mem_range.mp hk))

/-! ## Binary64: parameters of the Gamma distribution -/

/-- The rate model in binary64 in terms of its locals. -/
theorem B64.inp_pixel_to_period_parts_b64 (R : RandSrc) (c : Config) (sigma : Dbl) (g : Nat)
    (x : Dbl) :
    B64.inp_pixel_to_period R c sigma g x =
      (if Dbl.lt
            (if c.Spike_std_dev ≠ Dbl.fin 0 ∧ (B64.firing_period_sec c x).isfinite = true then
              R.gam_dist (B64.cur_min_period_sec R c sigma g).2
                (B64.gam_k c (B64.firing_period_sec c x))
                (B64.gam_theta c (B64.firing_period_sec c x))
            else B64.firing_period_sec c x)
            (B64.cur_min_period_sec R c sigma g).1
        then (B64.cur_min_period_sec R c sigma g).1
        else
          (if c.Spike_std_dev ≠ Dbl.fin 0 ∧ (B64.firing_period_sec c x).isfinite = true then
            R.gam_dist (B64.cur_min_period_sec R c sigma g).2
              (B64.gam_k c (B64.firing_period_sec c x))
              (B64.gam_theta c (B64.firing_period_sec c x))
          else B64.firing_period_sec c x),
       if c.Spike_std_dev ≠ Dbl.fin 0 ∧ (B64.firing_period_sec c x).isfinite = true then
         (B64.cur_min_period_sec R c sigma g).2 + 1
       else (B64.cur_min_period_sec R c sigma g).2) := by
  by_cases hC : c.Spike_std_dev ≠ Dbl.fin 0 ∧ (B64.firing_period_sec c x).isfinite = true
  · have hC2 := hC
    unfold B64.firing_period_sec at hC2
    simp only [hC, if_true, ne_eq, not_false_eq_true, and_self]
    simp only [B64.inp_pixel_to_period, hC2, if_true, ne_eq, not_false_eq_true, and_self]
    rfl
  · have hC2 := hC
    unfold B64.firing_period_sec at hC2
    simp only [hC, if_false]
    simp only [B64.inp_pixel_to_period, hC2, if_false]
    rfl

/-- Two relative perturbations compose: `(1 + a) (1 + b) = 1 + c` with `|c| <= s + t + s t`. -/
theorem Dbl.rel_comp (a b s t : ℚ) (ha : |a| ≤ s) (hb : |b| ≤ t) :
    |(1 + a) * (1 + b) - 1| ≤ s + t + s * t := by
  have e : (1 + a) * (1 + b) - 1 = a + b + a * b := by ring
  have h1 : |a * b| ≤ s * t := by
    rw [abs_mul]
    exact mul_le_mul ha hb (abs_nonneg _) (le_trans (abs_nonneg _) ha)
  rw [e]
  calc |a + b + a * b| ≤ |a + b| + |a * b| := abs_add _ _
    _ ≤ |a| + |b| + |a * b| := by linarith [abs_add a b]
    _ ≤ s + t + s * t := by linarith

/-- A rounded value in the normal range is the exact one times `1 + e` with
`|e| <= 2^(-53)`. -/
theorem Dbl.round64_rel (q r : ℚ) (hq : Dbl.pow2 (-1022) ≤ |q|)
    (h : Dbl.round64 q = Dbl.fin r) : ∃ e : ℚ, |e| ≤ Dbl.pow2 (-53) ∧ r = q * (1 + e) := by
  have hq0 : q ≠ 0 := by
    intro h0
    rw [h0, abs_zero] at hq
    exact absurd hq (not_le.mpr (Dbl.pow2_pos _))
  refine ⟨(r - q) / q, ?_, by field_simp⟩
  rw [abs_div, div_le_iff₀ (abs_pos.mpr hq0), mul_comm]
  exact Dbl.round64_rel_err q r hq h

/-- Moments of Gamma(k, theta) for `k = fl(fl(p*p)/v)` and `theta = fl(v/p)`: within
`2^(-51)` of `p` and `2^(-50)` of `v`, relatively, when no operation leaves the normal
range. -/
theorem Dbl.gamma_moments_rounded (p v pp k θ : ℚ) (hp : p ≠ 0) (hv : v ≠ 0)
    (hpp : Dbl.round64 (p * p) = Dbl.fin pp) (hk : Dbl.round64 (pp / v) = Dbl.fin k)
    (hθ : Dbl.round64 (v / p) = Dbl.fin θ)
    (n1 : Dbl.pow2 (-1022) ≤ |p * p|) (n2 : Dbl.pow2 (-1022) ≤ |pp / v|)
    (n3 : Dbl.pow2 (-1022) ≤ |v / p|) :
    |k * θ - p| ≤ |p| * Dbl.pow2 (-51) ∧ |k * θ * θ - v| ≤ |v| * Dbl.pow2 (-50) := by
  obtain ⟨e1, he1, rfl⟩ := Dbl.round64_rel _ _ n1 hpp
  obtain ⟨e2, he2, rfl⟩ := Dbl.round64_rel _ _ n2 hk
  obtain ⟨e3, he3, rfl⟩ := Dbl.round64_rel _ _ n3 hθ
  have hu : Dbl.pow2 (-53) = 1 / 9007199254740992 := by decide!
  have h51 : Dbl.pow2 (-51) = 1 / 2251799813685248 := by decide!
  have h50 : Dbl.pow2 (-50) = 1 / 1125899906842624 := by decide!
  rw [hu] at he1 he2 he3
  have c12 := Dbl.rel_comp e1 e2 _ _ he1 he2
  have c123 := Dbl.rel_comp ((1 + e1) * (1 + e2) - 1) e3 _ _ c12 he3
  have c1233 := Dbl.rel_comp ((1 + ((1 + e1) * (1 + e2) - 1)) * (1 + e3) - 1) e3 _ _ c123 he3
  have ea : p * p * (1 + e1) / v * (1 + e2) * (v / p * (1 + e3)) - p
      = p * ((1 + ((1 + e1) * (1 + e2) - 1)) * (1 + e3) - 1) := by
    field_simp
    ring
  have eb : p * p * (1 + e1) / v * (1 + e2) * (v / p * (1 + e3)) * (v / p * (1 + e3)) - v
      = v * ((1 + ((1 + ((1 + e1) * (1 + e2) - 1)) * (1 + e3) - 1)) * (1 + e3) - 1) := by
    field_simp
    ring
  rw [ea, eb, abs_mul, abs_mul, h51, h50]
  constructor
  · apply mul_le_mul_of_nonneg_left _ (abs_nonneg _)
    refine le_trans c123 ?_
    norm_num
  · apply mul_le_mul_of_nonneg_left _ (abs_nonneg _)
    refine le_trans c1233 ?_
    norm_num

/-- C21 (amended): when spike jitter applies (Spike_std_dev != 0) to a pixel whose
deterministic period is a finite double p != 0, inp_pixel_to_period draws from the Gamma
distribution with the shape gam_k = fl(fl(p*p)/v) and the scale gam_theta = fl(v/p), where
fl rounds to binary64 and the variance v is fl(fl(Spike_std_dev/1000)^2) for
Spike_std_dev > 0 and p for Spike_std_dev < 0.  Whenever v is a finite number != 0, the shape
and the scale are finite and none of p*p, fl(p*p)/v and v/p is below 2^(-1022) in magnitude,
the moments of that distribution are the requested ones up to rounding:
|gam_k*gam_theta - p| <= 2^(-51) |p| and |gam_k*gam_theta^2 - v| <= 2^(-50) |v|.  For
Spike_std_dev < 0 the scale is exactly 1. -/
theorem gamma_params_moments_rounded (R : RandSrc) (c : Config) (sigma : Dbl) (g : Nat)
    (x : Dbl) (p : ℚ) (hs : c.Spike_std_dev ≠ Dbl.fin 0)
    (hfp : B64.firing_period_sec c x = Dbl.fin p) (hp : p ≠ 0) :
    B64.inp_pixel_to_period R c sigma g x =
      (if Dbl.lt (R.gam_dist (B64.cur_min_period_sec R c sigma g).2 (B64.gam_k c (Dbl.fin p))
            (B64.gam_theta c (Dbl.fin p))) (B64.cur_min_period_sec R c sigma g).1
        then (B64.cur_min_period_sec R c sigma g).1
        else R.gam_dist (B64.cur_min_period_sec R c sigma g).2 (B64.gam_k c (Dbl.fin p))
            (B64.gam_theta c (Dbl.fin p)),
       (B64.cur_min_period_sec R c sigma g).2 + 1) ∧
    (Dbl.gt c.Spike_std_dev (Dbl.fin 0) = true →
      B64.spk_variance_sec c (Dbl.fin p) =
        Dbl.r64 (Dbl.r64 (c.Spike_std_dev / Dbl.fin 1000)
          * Dbl.r64 (c.Spike_std_dev / Dbl.fin 1000))) ∧
    (Dbl.lt c.Spike_std_dev (Dbl.fin 0) = true →
      B64.spk_variance_sec c (Dbl.fin p) = Dbl.fin p ∧
      B64.gam_theta c (Dbl.fin p) = Dbl.fin 1) ∧
    (∀ v k θ : ℚ, B64.spk_variance_sec c (Dbl.fin p) = Dbl.fin v → v ≠ 0 →
      B64.gam_k c (Dbl.fin p) = Dbl.fin k → B64.gam_theta c (Dbl.fin p) = Dbl.fin θ →
      Dbl.pow2 (-1022) ≤ |p * p| →
      (∀ pp : ℚ, Dbl.round64 (p * p) = Dbl.fin pp → Dbl.pow2 (-1022) ≤ |pp / v|) →
      Dbl.pow2 (-1022) ≤ |v / p| →
      B64.gam_k c (Dbl.fin p) = Dbl.r64 (Dbl.r64 (Dbl.fin (p * p)) / Dbl.fin v) ∧
      B64.gam_theta c (Dbl.fin p) = Dbl.r64 (Dbl.fin (v / p)) ∧
      |k * θ - p| ≤ |p| * Dbl.pow2 (-51) ∧ |k * θ * θ - v| ≤ |v| * Dbl.pow2 (-50)) := by
  refine ⟨?_, ?_, ?_, ?_⟩
  · rw [B64.inp_pixel_to_period_parts_b64, hfp]
    simp only [hs, ne_eq, not_false_eq_true, Dbl.isfinite_fin, and_self, if_true]
  · intro hpos
    unfold B64.spk_variance_sec
    rw [if_pos hpos]
  · intro hneg
    have hngt : Dbl.gt c.Spike_std_dev (Dbl.fin 0) = false := by
      unfold Dbl.gt
      cases hc : c.Spike_std_dev <;> rw [hc] at hneg <;> simp_all [Dbl.lt]
      exact le_of_lt hneg
    have hv : B64.spk_variance_sec c (Dbl.fin p) = Dbl.fin p := by
      unfold B64.spk_variance_sec
      simp [hngt]
    refine ⟨hv, ?_⟩
    unfold B64.gam_theta
    rw [hv, Dbl.fin_div _ _ hp, div_self hp]
    decide!
  · intro v k θ hv hv0 hk hθ n1 n2 n3
    have ek : B64.gam_k c (Dbl.fin p) = Dbl.r64 (Dbl.r64 (Dbl.fin (p * p)) / Dbl.fin v) := by
      unfold B64.gam_k
      rw [hv, Dbl.fin_mul]
    have eθ : B64.gam_theta c (Dbl.fin p) = Dbl.r64 (Dbl.fin (v / p)) := by
      unfold B64.gam_theta
      rw [hv, Dbl.fin_div _ _ hp]
    refine ⟨ek, eθ, ?_⟩
    rw [ek] at hk
    rw [eθ] at hθ
    cases hpp : Dbl.round64 (p * p) with
    | fin pp =>
      have hk2 : Dbl.round64 (pp / v) = Dbl.fin k := by
        have : Dbl.r64 (Dbl.fin (p * p)) = Dbl.fin pp := hpp
        rw [this, Dbl.fin_div _ _ hv0] at hk
        exact hk
      exact Dbl.gamma_moments_rounded p v pp k θ hp hv0 hpp hk2 hθ n1 (n2 pp hpp) n3
    | pinf =>
      have : Dbl.r64 (Dbl.fin (p * p)) = Dbl.pinf := hpp
      rw [this] at hk
      exfalso
      revert hk
      show Dbl.r64 (Dbl.div Dbl.pinf (Dbl.fin v)) = Dbl.fin k → False
      simp only [Dbl.div]
      split_ifs <;> simp [Dbl.r64]
    | ninf =>
      have : Dbl.r64 (Dbl.fin (p * p)) = Dbl.ninf := hpp
      rw [this] at hk
      exfalso
      revert hk
      show Dbl.r64 (Dbl.div Dbl.ninf (Dbl.fin v)) = Dbl.fin k → False
      simp only [Dbl.div]
      split_ifs <;> simp [Dbl.r64]
    | nan =>
      have : Dbl.r64 (Dbl.fin (p * p)) = Dbl.nan := hpp
      rw [this] at hk
      exact absurd hk (by simp [Dbl.r64, HDiv.hDiv, Div.div, Dbl.div])

/-! ## Binary64: rounding is monotone and keeps the doubles -/

/-- The bisection returns a binade at or below its upper end. -/
theorem Dbl.ilog2_search_le_hi (a : ℚ) :
    ∀ (fuel : Nat) (lo hi : Int), lo ≤ hi → Dbl.ilog2_search a fuel lo hi ≤ hi := by
  intro fuel
  induction fuel with
  | zero => intro lo hi h; exact h
  | succ n ih =>
    intro lo hi h
    unfold Dbl.ilog2_search
    split
    · exact ih _ _ (by omega)
    · exact le_trans (ih _ _ (by omega)) (by omega)

/-- The bisection is monotone in the value. -/
theorem Dbl.ilog2_search_mono (x y : ℚ) (hxy : x ≤ y) :
    ∀ (fuel : Nat) (lo hi : Int), lo ≤ hi →
      Dbl.ilog2_search x fuel lo hi ≤ Dbl.ilog2_search y fuel lo hi := by
  intro fuel
  induction fuel with
  | zero => intro lo hi _; exact le_refl _
  | succ n ih =>
    intro lo hi h
    unfold Dbl.ilog2_search
    by_cases hx : Dbl.pow2 ((lo + hi) / 2) ≤ x
    · rw [if_pos hx, if_pos (le_trans hx hxy)]
      exact ih _ _ (by omega)
    · rw [if_neg hx]
      by_cases hy : Dbl.pow2 ((lo + hi) / 2) ≤ y
      · rw [if_pos hy]
        exact le_trans (Dbl.ilog2_search_le_hi x n _ _ (by omega))
          (Dbl.ilog2_search_ge y n _ _ (by omega))
      · rw [if_neg hy]
        exact ih _ _ (by omega)

/-- The binade is monotone in the value. -/
theorem Dbl.ilog2_mono (x y : ℚ) (hxy : x ≤ y) : Dbl.ilog2 x ≤ Dbl.ilog2 y :=
  Dbl.ilog2_search_mono x y hxy 12 (-2048) 2048 (by norm_num)

/-- A value at or above the interval of the bisection gives the last binade of the
interval. -/
theorem Dbl.ilog2_search_above (a : ℚ) :
    ∀ (fuel : Nat) (lo hi : Int), hi - lo = 2 ^ fuel → Dbl.pow2 hi ≤ a →
      Dbl.ilog2_search a fuel lo hi = hi - 1 := by
  intro fuel
  induction fuel with
  | zero =>
    intro lo hi hw _
    have : hi = lo + 1 := by simpa using (by omega : hi = lo + 2 ^ 0)
    rw [Dbl.ilog2_search, this]
    omega
  | succ n ih =>
    intro lo hi hw h
    have h2 : (2 : Int) ^ (n + 1) = 2 * 2 ^ n := by ring
    have hpos : (0 : Int) < 2 ^ n := by positivity
    have hmid : (lo + hi) / 2 = lo + 2 ^ n := by omega
    unfold Dbl.ilog2_search
    have hm : Dbl.pow2 ((lo + hi) / 2) ≤ a := le_trans (Dbl.pow2_mono (by omega)) h
    rw [if_pos hm]
    exact ih _ _ (by omega) h

/-- The binade of a value between `2^(-2048)` and `2^2048` contains the value. -/
theorem Dbl.ilog2_spec (a : ℚ) (h1 : Dbl.pow2 (-2048) ≤ a) (h2 : a < Dbl.pow2 2048) :
    Dbl.pow2 (Dbl.ilog2 a) ≤ a ∧ a < Dbl.pow2 (Dbl.ilog2 a + 1) :=
  ⟨Dbl.ilog2_search_le a 12 (-2048) 2048 h1,
    Dbl.ilog2_search_lt a 12 (-2048) 2048 (by norm_num) h2⟩

/-- Powers of two are strictly increasing. -/
theorem Dbl.pow2_strict {a b : Int} (h : a < b) : Dbl.pow2 a < Dbl.pow2 b := by
  simp only [Dbl.pow2_eq_zpow]
  exact zpow_lt_zpow_right₀ (by norm_num) h

/-- The binade that contains a value is the one that the bisection finds. -/
theorem Dbl.ilog2_unique (a : ℚ) (e : Int) (h1 : Dbl.pow2 e ≤ a) (h2 : a < Dbl.pow2 (e + 1))
    (he1 : -2048 ≤ e) (he2 : e < 2048) : Dbl.ilog2 a = e := by
  have ha1 : Dbl.pow2 (-2048) ≤ a := le_trans (Dbl.pow2_mono he1) h1
  have ha2 : a < Dbl.pow2 2048 := lt_of_lt_of_le h2 (Dbl.pow2_mono (by omega))
  obtain ⟨s1, s2⟩ := Dbl.ilog2_spec a ha1 ha2
  have k1 : Dbl.ilog2 a < e + 1 := Dbl.pow2_lt (lt_of_le_of_lt s1 h2)
  have k2 : e < Dbl.ilog2 a + 1 := Dbl.pow2_lt (lt_of_le_of_lt h1 s2)
  omega

/-- Rounding to the nearest integer keeps the integers. -/
theorem Dbl.rne_int (n : Int) : Dbl.rne (n : ℚ) = n := by
  have hfl : Rat.floor (n : ℚ) = n := by
    show ⌊(n : ℚ)⌋ = n
    exact Int.floor_intCast n
  unfold Dbl.rne
  rw [hfl]
  simp

/-- Rounding to the nearest integer is monotone. -/
theorem Dbl.rne_mono (s t : ℚ) (h : s ≤ t) : Dbl.rne s ≤ Dbl.rne t := by
  have fs : Rat.floor s = ⌊s⌋ := rfl
  have ft : Rat.floor t = ⌊t⌋ := rfl
  have s1 : ((Rat.floor s : Int) : ℚ) ≤ s := by rw [fs]; exact Int.floor_le s
  have s2 : s < ((Rat.floor s : Int) : ℚ) + 1 := by rw [fs]; exact Int.lt_floor_add_one s
  have t1 : ((Rat.floor t : Int) : ℚ) ≤ t := by rw [ft]; exact Int.floor_le t
  have t2 : t < ((Rat.floor t : Int) : ℚ) + 1 := by rw [ft]; exact Int.lt_floor_add_one t
  have hf : Rat.floor s ≤ Rat.floor t := by rw [fs, ft]; exact Int.floor_le_floor h
  have hs_le : Dbl.rne s ≤ Rat.floor s + 1 := by
    unfold Dbl.rne
    split_ifs <;> omega
  have ht_ge : Rat.floor t ≤ Dbl.rne t := by
    unfold Dbl.rne
    split_ifs <;> omega
  rcases lt_or_eq_of_le hf with hlt | heq
  · omega
  · have hq : ((Rat.floor s : Int) : ℚ) = ((Rat.floor t : Int) : ℚ) := by rw [heq]
    unfold Dbl.rne
    rw [← heq]
    split_ifs <;> first | omega | (exfalso; linarith)

/-- The exponent of the spacing: the binade of the magnitude, or -1022 below the normal
range. -/
theorem Dbl.ulp_eq (q : ℚ) :
    Dbl.ulp q = Dbl.pow2 ((if Dbl.ilog2 |q| < -1022 then -1022 else Dbl.ilog2 |q|) - 52) := rfl

/-- A positive value below the top of its binade rounds to at most that top: the rounded
significand has at most 53 bits. -/
theorem Dbl.mag_le_top (x : ℚ) (e : Int) (h : x < Dbl.pow2 (e + 1)) :
    (Dbl.rne (x / Dbl.pow2 (e - 52)) : ℚ) * Dbl.pow2 (e - 52) ≤ Dbl.pow2 (e + 1) := by
  have hU := Dbl.pow2_pos (e - 52)
  have e53 : Dbl.pow2 (e + 1) = ((2 ^ 53 : Int) : ℚ) * Dbl.pow2 (e - 52) := by
    rw [show e + 1 = 53 + (e - 52) by omega, Dbl.pow2_add]
    congr 1
  rw [e53]
  apply mul_le_mul_of_nonneg_right _ (le_of_lt hU)
  have h1 : x / Dbl.pow2 (e - 52) ≤ ((2 ^ 53 : Int) : ℚ) := by
    rw [div_le_iff₀ hU, ← e53]
    exact le_of_lt h
  have := Dbl.rne_mono _ _ h1
  rw [Dbl.rne_int] at this
  exact_mod_cast this

/-- A value at or above the bottom of a binade rounds to at least that bottom. -/
theorem Dbl.mag_ge_bottom (y : ℚ) (e : Int) (h : Dbl.pow2 e ≤ y) :
    Dbl.pow2 e ≤ (Dbl.rne (y / Dbl.pow2 (e - 52)) : ℚ) * Dbl.pow2 (e - 52) := by
  have hU := Dbl.pow2_pos (e - 52)
  have e52 : Dbl.pow2 e = ((2 ^ 52 : Int) : ℚ) * Dbl.pow2 (e - 52) := by
    have e0 : Dbl.pow2 e = Dbl.pow2 (52 + (e - 52)) := by
      congr 1
      omega
    rw [e0, Dbl.pow2_add]
    congr 1
  rw [e52]
  apply mul_le_mul_of_nonneg_right _ (le_of_lt hU)
  have h1 : ((2 ^ 52 : Int) : ℚ) ≤ y / Dbl.pow2 (e - 52) := by
    rw [le_div_iff₀ hU, ← e52]
    exact h
  have := Dbl.rne_mono _ _ h1
  rw [Dbl.rne_int] at this
  exact_mod_cast this

/-- The exponent of the spacing is monotone in the magnitude. -/
theorem Dbl.exp_mono (x y : ℚ) (hxy : x ≤ y) :
    (if Dbl.ilog2 x < -1022 then -1022 else Dbl.ilog2 x)
      ≤ (if Dbl.ilog2 y < -1022 then -1022 else Dbl.ilog2 y) := by
  have := Dbl.ilog2_mono x y hxy
  split_ifs <;> omega

/-- A value is below the top of the binade that gives its spacing, unless it is `2^2048` or
more. -/
theorem Dbl.lt_top (x : ℚ) (h : x < Dbl.pow2 2048) :
    x < Dbl.pow2 ((if Dbl.ilog2 x < -1022 then -1022 else Dbl.ilog2 x) + 1) := by
  have h1 : x < Dbl.pow2 (Dbl.ilog2 x + 1) :=
    Dbl.ilog2_search_lt x 12 (-2048) 2048 (by norm_num) h
  refine lt_of_lt_of_le h1 (Dbl.pow2_mono ?_)
  split_ifs <;> omega

/-- Rounded magnitudes of positive values are ordered as the values. -/
theorem Dbl.mag_mono (x y : ℚ) (hx : 0 ≤ x) (hxy : x ≤ y) :
    (Dbl.rne (|x| / Dbl.ulp x) : ℚ) * Dbl.ulp x ≤ (Dbl.rne (|y| / Dbl.ulp y) : ℚ) * Dbl.ulp y := by
  have hy : 0 ≤ y := le_trans hx hxy
  rw [abs_of_nonneg hx, abs_of_nonneg hy, Dbl.ulp_eq, Dbl.ulp_eq, abs_of_nonneg hx,
    abs_of_nonneg hy]
  have hexy := Dbl.exp_mono x y hxy
  rcases eq_or_lt_of_le hexy with heq | hlt
  · rw [heq]
    have hU := Dbl.pow2_pos ((if Dbl.ilog2 y < -1022 then -1022 else Dbl.ilog2 y) - 52)
    apply mul_le_mul_of_nonneg_right _ (le_of_lt hU)
    have := Dbl.rne_mono _ _ (div_le_div_of_nonneg_right hxy (le_of_lt hU))
    exact_mod_cast this
  · have hx2 : x < Dbl.pow2 2048 := by
      by_contra hc
      have hx3 : Dbl.pow2 2048 ≤ x := not_lt.mp hc
      have e1 : Dbl.ilog2 x = 2047 := Dbl.ilog2_search_above x 12 (-2048) 2048 (by norm_num) hx3
      have e2 : Dbl.ilog2 y = 2047 :=
        Dbl.ilog2_search_above y 12 (-2048) 2048 (by norm_num) (le_trans hx3 hxy)
      rw [e1, e2] at hlt
      exact absurd hlt (lt_irrefl _)
    have hyn : ¬ Dbl.ilog2 y < -1022 := by
      intro hc
      rw [if_pos hc] at hlt
      split_ifs at hlt <;> omega
    have hy2 : Dbl.pow2 (Dbl.ilog2 y) ≤ y := by
      by_cases hc : Dbl.pow2 (-2048) ≤ y
      · exact Dbl.ilog2_search_le y 12 (-2048) 2048 hc
      · exfalso
        apply hyn
        unfold Dbl.ilog2
        rw [Dbl.ilog2_search_below y 12 (-2048) 2048 (by norm_num) (not_le.mp hc)]
        norm_num
    rw [if_neg hyn] at hlt ⊢
    calc (Dbl.rne (x / Dbl.pow2 ((if Dbl.ilog2 x < -1022 then -1022 else Dbl.ilog2 x) - 52)) : ℚ)
          * Dbl.pow2 ((if Dbl.ilog2 x < -1022 then -1022 else Dbl.ilog2 x) - 52)
        ≤ Dbl.pow2 ((if Dbl.ilog2 x < -1022 then -1022 else Dbl.ilog2 x) + 1) :=
          Dbl.mag_le_top x _ (Dbl.lt_top x hx2)
      _ ≤ Dbl.pow2 (Dbl.ilog2 y) := Dbl.pow2_mono (by omega)
      _ ≤ _ := Dbl.mag_ge_bottom y _ hy2

/-- The rounded magnitude of a value is not negative. -/
theorem Dbl.mag_nonneg (x : ℚ) : 0 ≤ (Dbl.rne (|x| / Dbl.ulp x) : ℚ) * Dbl.ulp x := by
  apply mul_nonneg _ (le_of_lt (Dbl.ulp_pos x))
  have := Dbl.rne_nonneg (|x| / Dbl.ulp x) (div_nonneg (abs_nonneg x) (le_of_lt (Dbl.ulp_pos x)))
  exact_mod_cast this

/-- Spacing of the opposite value. -/
theorem Dbl.ulp_neg (q : ℚ) : Dbl.ulp (-q) = Dbl.ulp q := by
  unfold Dbl.ulp
  rw [abs_neg]

/-- Rounding commutes with the change of sign. -/
theorem Dbl.round64_neg (q : ℚ) : Dbl.round64 (-q) = Dbl.neg (Dbl.round64 q) := by
  unfold Dbl.round64
  rw [Dbl.ulp_neg, abs_neg]
  by_cases h0 : q = 0
  · subst h0
    simp [Dbl.neg]
  · have h0n : -q ≠ 0 := neg_ne_zero.mpr h0
    rw [if_neg h0, if_neg h0n]
    rcases lt_or_gt_of_ne h0 with hneg | hpos
    · have h1 : ¬ 0 < q := not_lt.mpr (le_of_lt hneg)
      have h2 : 0 < -q := neg_pos.mpr hneg
      simp only [h1, h2, if_true, if_false]
      split_ifs <;> simp [Dbl.neg]
    · have h1 : 0 < q := hpos
      have h2 : ¬ 0 < -q := not_lt.mpr (by linarith)
      simp only [h1, h2, if_true, if_false]
      split_ifs <;> simp [Dbl.neg]

/-- Rounding is monotone: the results of `x <= y` compare `<=` as doubles. -/
theorem Dbl.round64_mono (x y : ℚ) (hxy : x ≤ y) :
    Dbl.le (Dbl.round64 x) (Dbl.round64 y) = true := by
  have key : ∀ a b : ℚ, 0 ≤ a → a ≤ b → Dbl.le (Dbl.round64 a) (Dbl.round64 b) = true := by
    intro a b ha hab
    have hm := Dbl.mag_mono a b ha hab
    have hb : 0 ≤ b := le_trans ha hab
    unfold Dbl.round64
    by_cases a0 : a = 0
    · rw [if_pos a0]
      by_cases b0 : b = 0
      · rw [if_pos b0]; simp [Dbl.le]
      · have hbp : 0 < b := lt_of_le_of_ne hb (Ne.symm b0)
        rw [if_neg b0]
        simp only [hbp, if_true]
        split_ifs
        · rfl
        · simpa [Dbl.le] using Dbl.mag_nonneg b
    · have hap : 0 < a := lt_of_le_of_ne ha (Ne.symm a0)
      have hbp : 0 < b := lt_of_lt_of_le hap hab
      rw [if_neg a0, if_neg (ne_of_gt hbp)]
      simp only [hap, hbp, if_true]
      split_ifs with c1 c2
      · rfl
      · exact absurd (le_trans c1 hm) c2
      · rfl
      · simpa [Dbl.le] using hm
  have hneg : ∀ a b : Dbl, Dbl.le a b = true → Dbl.le (Dbl.neg b) (Dbl.neg a) = true := by
    intro a b h
    cases a <;> cases b <;> simp_all [Dbl.le, Dbl.neg]
  by_cases hx : 0 ≤ x
  · exact key x y hx hxy
  · have hx' : x < 0 := not_le.mp hx
    by_cases hy : 0 ≤ y
    · have h1 := key 0 (-x) (le_refl _) (by linarith)
      have h2 := key 0 y (le_refl _) hy
      rw [Dbl.round64_neg] at h1
      have h3 := hneg _ _ h1
      have e0 : Dbl.round64 0 = Dbl.fin 0 := by simp [Dbl.round64]
      rw [e0] at h1 h2 h3
      revert h2 h3
      cases Dbl.round64 x <;> cases Dbl.round64 y <;> simp [Dbl.le, Dbl.neg]
      intro h2 h3
      linarith
    · have hy' : y < 0 := not_le.mp hy
      have h1 := key (-y) (-x) (by linarith) (by linarith)
      rw [Dbl.round64_neg, Dbl.round64_neg] at h1
      have h3 := hneg _ _ h1
      revert h3
      cases Dbl.round64 x <;> cases Dbl.round64 y <;> simp [Dbl.le, Dbl.neg]

/-- A positive multiple `n * 2^(e-52)` of a spacing with at most 53 bits (and at least 53
unless `e = -1022`) is its own rounded magnitude. -/
theorem Dbl.mag_fixed (n e : Int) (hn0 : 0 < n) (hn : n ≤ 2 ^ 53) (he1 : -1022 ≤ e)
    (he2 : e < 1024) (hnorm : 2 ^ 52 ≤ n ∨ e = -1022) :
    (Dbl.rne (|(n : ℚ) * Dbl.pow2 (e - 52)| / Dbl.ulp ((n : ℚ) * Dbl.pow2 (e - 52))) : ℚ)
        * Dbl.ulp ((n : ℚ) * Dbl.pow2 (e - 52))
      = (n : ℚ) * Dbl.pow2 (e - 52) := by
  have hU := Dbl.pow2_pos (e - 52)
  have hnq : (0 : ℚ) < (n : ℚ) := by exact_mod_cast hn0
  have hr : 0 < (n : ℚ) * Dbl.pow2 (e - 52) := mul_pos hnq hU
  have e52 : Dbl.pow2 e = ((2 ^ 52 : Int) : ℚ) * Dbl.pow2 (e - 52) := by
    have e0 : Dbl.pow2 e = Dbl.pow2 (52 + (e - 52)) := by
      congr 1
      omega
    rw [e0, Dbl.pow2_add]
    congr 1
  have e53 : Dbl.pow2 (e + 1) = ((2 ^ 53 : Int) : ℚ) * Dbl.pow2 (e - 52) := by
    rw [show e + 1 = 53 + (e - 52) by omega, Dbl.pow2_add]
    congr 1
  rw [abs_of_pos hr]
  by_cases h53 : n = 2 ^ 53
  · -- the value is the power of two that opens the next binade
    have hrv : (n : ℚ) * Dbl.pow2 (e - 52) = Dbl.pow2 (e + 1) := by rw [e53, h53]
    have hil : Dbl.ilog2 |(n : ℚ) * Dbl.pow2 (e - 52)| = e + 1 := by
      rw [abs_of_pos hr, hrv]
      exact Dbl.ilog2_unique _ _ (le_refl _) (Dbl.pow2_strict (by omega)) (by omega) (by omega)
    have hulp : Dbl.ulp ((n : ℚ) * Dbl.pow2 (e - 52)) = Dbl.pow2 (e + 1 - 52) := by
      rw [Dbl.ulp_eq, hil, if_neg (by omega)]
    rw [hulp, hrv]
    have hU2 := Dbl.pow2_pos (e + 1 - 52)
    have e52b : Dbl.pow2 (e + 1) = ((2 ^ 52 : Int) : ℚ) * Dbl.pow2 (e + 1 - 52) := by
      have e0 : Dbl.pow2 (e + 1) = Dbl.pow2 (52 + (e + 1 - 52)) := by
        congr 1
        omega
      rw [e0, Dbl.pow2_add]
      congr 1
    have hq : Dbl.pow2 (e + 1) / Dbl.pow2 (e + 1 - 52) = ((2 ^ 52 : Int) : ℚ) := by
      rw [div_eq_iff (ne_of_gt hU2)]
      exact e52b
    rw [hq, Dbl.rne_int]
    exact e52b.symm
  · have hlt : n < 2 ^ 53 := lt_of_le_of_ne hn h53
    have hulp : Dbl.ulp ((n : ℚ) * Dbl.pow2 (e - 52)) = Dbl.pow2 (e - 52) := by
      by_cases h52 : 2 ^ 52 ≤ n
      · have hil : Dbl.ilog2 |(n : ℚ) * Dbl.pow2 (e - 52)| = e := by
          rw [abs_of_pos hr]
          apply Dbl.ilog2_unique _ _ _ _ (by omega) (by omega)
          · rw [e52]
            exact mul_le_mul_of_nonneg_right (by exact_mod_cast h52) (le_of_lt hU)
          · rw [e53]
            exact mul_lt_mul_of_pos_right (by exact_mod_cast hlt) hU
        rw [Dbl.ulp_eq, hil, if_neg (by omega)]
      · have he : e = -1022 := by
          rcases hnorm with h | h
          · exact absurd h h52
          · exact h
        subst he
        apply Dbl.ulp_subnormal
        rw [abs_of_pos hr, e52]
        exact mul_lt_mul_of_pos_right (by exact_mod_cast (not_le.mp h52)) hU
    rw [hulp]
    have hq : (n : ℚ) * Dbl.pow2 (e - 52) / Dbl.pow2 (e - 52) = (n : ℚ) := by
      field_simp
    rw [hq, Dbl.rne_int]

/-- A finite result of the rounding is a double: rounding it again gives it back. -/
theorem Dbl.round64_idem (q r : ℚ) (h : Dbl.round64 q = Dbl.fin r) :
    Dbl.round64 r = Dbl.fin r := by
  have key : ∀ a s : ℚ, 0 < a → Dbl.round64 a = Dbl.fin s → Dbl.round64 s = Dbl.fin s := by
    intro a s ha hs
    have hs0 := hs
    unfold Dbl.round64 at hs
    rw [if_neg (ne_of_gt ha)] at hs
    simp only [ha, if_true] at hs
    split at hs
    · exact absurd hs (by simp)
    · rename_i hov
      simp only [Dbl.fin.injEq] at hs
      have hov2 : (Dbl.rne (|a| / Dbl.ulp a) : ℚ) * Dbl.ulp a < Dbl.pow2 1024 := not_le.mp hov
      rw [hs] at hov2
      have hU := Dbl.ulp_pos a
      have hn0 : 0 ≤ Dbl.rne (|a| / Dbl.ulp a) :=
        Dbl.rne_nonneg _ (div_nonneg (abs_nonneg a) (le_of_lt hU))
      rcases eq_or_lt_of_le hn0 with hz | hpos
      · rw [← hz] at hs
        have : s = 0 := by rw [← hs]; simp
        subst this
        simp [Dbl.round64]
      · -- the exponent of the spacing of `a`
        have hae : |a| = a := abs_of_pos ha
        have ha2 : a < Dbl.pow2 2048 := by
          by_contra hc
          have hx3 : Dbl.pow2 2048 ≤ a := not_lt.mp hc
          have e1 : Dbl.ilog2 a = 2047 :=
            Dbl.ilog2_search_above a 12 (-2048) 2048 (by norm_num) hx3
          have hb := Dbl.mag_ge_bottom a 2047
            (le_trans (Dbl.pow2_mono (by norm_num)) hx3)
          have hu : Dbl.ulp a = Dbl.pow2 (2047 - 52) := by
            rw [Dbl.ulp_eq, hae, e1, if_neg (by norm_num)]
          rw [← hs, hae, hu] at hov2
          have := Dbl.pow2_mono (show (1024 : Int) ≤ 2047 by norm_num)
          linarith
        have hsU : s = (Dbl.rne (a / Dbl.pow2
            ((if Dbl.ilog2 a < -1022 then -1022 else Dbl.ilog2 a) - 52)) : ℚ)
            * Dbl.pow2 ((if Dbl.ilog2 a < -1022 then -1022 else Dbl.ilog2 a) - 52) := by
          rw [← hs, Dbl.ulp_eq, hae]
        have hpos2 : 0 < Dbl.rne (a / Dbl.pow2
            ((if Dbl.ilog2 a < -1022 then -1022 else Dbl.ilog2 a) - 52)) := by
          have := hpos
          rw [Dbl.ulp_eq, hae] at this
          exact this
        have hUe := Dbl.pow2_pos ((if Dbl.ilog2 a < -1022 then -1022 else Dbl.ilog2 a) - 52)
        have htop : Dbl.rne (a / Dbl.pow2
            ((if Dbl.ilog2 a < -1022 then -1022 else Dbl.ilog2 a) - 52)) ≤ 2 ^ 53 := by
          have h1 := Dbl.mag_le_top a _ (Dbl.lt_top a ha2)
          have e53 : Dbl.pow2 ((if Dbl.ilog2 a < -1022 then -1022 else Dbl.ilog2 a) + 1)
              = ((2 ^ 53 : Int) : ℚ)
                * Dbl.pow2 ((if Dbl.ilog2 a < -1022 then -1022 else Dbl.ilog2 a) - 52) := by
            have e0 : Dbl.pow2 ((if Dbl.ilog2 a < -1022 then -1022 else Dbl.ilog2 a) + 1)
                = Dbl.pow2 (53 + ((if Dbl.ilog2 a < -1022 then -1022 else Dbl.ilog2 a) - 52)) := by
              congr 1
              omega
            rw [e0, Dbl.pow2_add]
            congr 1
          rw [e53] at h1
          have := le_of_mul_le_mul_right h1 hUe
          exact_mod_cast this
        have hnorm : 2 ^ 52 ≤ Dbl.rne (a / Dbl.pow2
              ((if Dbl.ilog2 a < -1022 then -1022 else Dbl.ilog2 a) - 52))
            ∨ (if Dbl.ilog2 a < -1022 then -1022 else Dbl.ilog2 a) = -1022 := by
          by_cases hc : Dbl.ilog2 a < -1022
          · right
            rw [if_pos hc]
          · left
            rw [if_neg hc]
            have hy2 : Dbl.pow2 (Dbl.ilog2 a) ≤ a := by
              by_cases hd : Dbl.pow2 (-2048) ≤ a
              · exact Dbl.ilog2_search_le a 12 (-2048) 2048 hd
              · exfalso
                apply hc
                unfold Dbl.ilog2
                rw [Dbl.ilog2_search_below a 12 (-2048) 2048 (by norm_num) (not_le.mp hd)]
                norm_num
            have h1 := Dbl.mag_ge_bottom a _ hy2
            have e52 : Dbl.pow2 (Dbl.ilog2 a)
                = ((2 ^ 52 : Int) : ℚ) * Dbl.pow2 (Dbl.ilog2 a - 52) := by
              have e0 : Dbl.pow2 (Dbl.ilog2 a) = Dbl.pow2 (52 + (Dbl.ilog2 a - 52)) := by
                congr 1
                omega
              rw [e0, Dbl.pow2_add]
              congr 1
            rw [e52] at h1
            have := le_of_mul_le_mul_right h1 (Dbl.pow2_pos (Dbl.ilog2 a - 52))
            exact_mod_cast this
        have he1 : -1022 ≤ (if Dbl.ilog2 a < -1022 then -1022 else Dbl.ilog2 a) := by
          split_ifs <;> omega
        have he2 : (if Dbl.ilog2 a < -1022 then -1022 else Dbl.ilog2 a) < 1024 := by
          rcases hnorm with hN | hN
          · by_contra hc
            have hge : (1024 : Int) ≤ (if Dbl.ilog2 a < -1022 then -1022 else Dbl.ilog2 a) :=
              not_lt.mp hc
            have e52 : Dbl.pow2 (if Dbl.ilog2 a < -1022 then -1022 else Dbl.ilog2 a)
                = ((2 ^ 52 : Int) : ℚ)
                  * Dbl.pow2 ((if Dbl.ilog2 a < -1022 then -1022 else Dbl.ilog2 a) - 52) := by
              have e0 : Dbl.pow2 (if Dbl.ilog2 a < -1022 then -1022 else Dbl.ilog2 a)
                  = Dbl.pow2 (52 + ((if Dbl.ilog2 a < -1022 then -1022 else Dbl.ilog2 a) - 52)) := by
                congr 1
                omega
              rw [e0, Dbl.pow2_add]
              congr 1
            have h1 : Dbl.pow2 (if Dbl.ilog2 a < -1022 then -1022 else Dbl.ilog2 a) ≤ s := by
              rw [e52, hsU]
              exact mul_le_mul_of_nonneg_right (by exact_mod_cast hN) (le_of_lt hUe)
            have := Dbl.pow2_mono hge
            linarith
          · rw [hN]
            norm_num
        have hfix := Dbl.mag_fixed _ _ hpos2 htop he1 he2 hnorm
        rw [← hsU] at hfix
        have hspos : 0 < s := by
          rw [hsU]
          exact mul_pos (by exact_mod_cast hpos2) hUe
        unfold Dbl.round64
        rw [if_neg (ne_of_gt hspos), hfix, if_neg (not_le.mpr hov2)]
        simp [hspos]
  rcases lt_trichotomy q 0 with hneg | h0 | hpos
  · have h1 : Dbl.round64 (-q) = Dbl.fin (-r) := by
      rw [Dbl.round64_neg, h]
      rfl
    have h2 := key (-q) (-r) (by linarith) h1
    rw [Dbl.round64_neg] at h2
    revert h2
    cases Dbl.round64 r <;> simp [Dbl.neg]
  · subst h0
    have : r = 0 := by
      simp [Dbl.round64] at h
      exact h.symm
    subst this
    simp [Dbl.round64]
  · exact key q r hpos h

/-! ## Binary64: termination and number of spikes under a hard limit -/

/-- Rounding zero gives zero. -/
theorem Dbl.round64_zero : Dbl.round64 0 = Dbl.fin 0 := by
  simp [Dbl.round64]

/-- The rounding of a rational is never NaN. -/
theorem Dbl.round64_ne_nan (q : ℚ) : Dbl.round64 q ≠ Dbl.nan := by
  unfold Dbl.round64
  split_ifs <;> simp

/-- The rounding of a value that is not negative is `+inf` or a double that is not
negative. -/
theorem Dbl.round64_nonneg (x : ℚ) (hx : 0 ≤ x) :
    Dbl.round64 x = Dbl.pinf ∨ ∃ z : ℚ, Dbl.round64 x = Dbl.fin z ∧ 0 ≤ z := by
  have h := Dbl.round64_mono 0 x hx
  rw [Dbl.round64_zero] at h
  cases hr : Dbl.round64 x with
  | fin z =>
    rw [hr] at h
    exact Or.inr ⟨z, rfl, by simpa [Dbl.le] using h⟩
  | pinf => exact Or.inl rfl
  | ninf => rw [hr] at h; simp [Dbl.le] at h
  | nan => exact absurd hr (Dbl.round64_ne_nan x)

/-- Adding a value that is not negative to a double and rounding gives `+inf` or a double
that is not below the first. -/
theorem Dbl.round64_add_ge (t z : ℚ) (ht : Dbl.round64 t = Dbl.fin t) (hz : 0 ≤ z) :
    Dbl.round64 (t + z) = Dbl.pinf ∨
    ∃ q : ℚ, Dbl.round64 (t + z) = Dbl.fin q ∧ t ≤ q ∧ Dbl.round64 q = Dbl.fin q := by
  have h := Dbl.round64_mono t (t + z) (by linarith)
  rw [ht] at h
  cases hr : Dbl.round64 (t + z) with
  | fin q =>
    rw [hr] at h
    exact Or.inr ⟨q, rfl, by simpa [Dbl.le] using h, Dbl.round64_idem _ _ hr⟩
  | pinf => exact Or.inl rfl
  | ninf => rw [hr] at h; simp [Dbl.le] at h
  | nan => exact absurd hr (Dbl.round64_ne_nan _)

/-- One step of the running sum of spike times: from a double `q` of magnitude at most `B`
and a period of at least `mu`, the rounded sum is `+inf` or a double at least `delta` later,
for every `delta` with `delta + 2^(-53) B + 2^(-1075) <= (1 - 2^(-53)) mu`. -/
theorem Dbl.round64_add_advances (q pq mu B δ : ℚ) (hq : Dbl.round64 q = Dbl.fin q)
    (hB : |q| ≤ B) (hpq : mu ≤ pq) (hmu : 0 ≤ mu)
    (hδ : δ + B * Dbl.pow2 (-53) + Dbl.pow2 (-1075) ≤ mu * (1 - Dbl.pow2 (-53))) :
    Dbl.round64 (q + pq) = Dbl.pinf ∨
    ∃ q1 : ℚ, Dbl.round64 (q + pq) = Dbl.fin q1 ∧ q + δ ≤ q1 ∧
      Dbl.round64 q1 = Dbl.fin q1 := by
  have hpq0 : 0 ≤ pq := le_trans hmu hpq
  rcases Dbl.round64_add_ge q pq hq hpq0 with h | ⟨q1, h1, _, h3⟩
  · exact Or.inl h
  · refine Or.inr ⟨q1, h1, ?_, h3⟩
    have herr := Dbl.round64_abs_err (q + pq) q1 h1
    have hu : Dbl.pow2 (-53) = 1 / 9007199254740992 := by decide!
    have hu0 : 0 ≤ Dbl.pow2 (-53) := le_of_lt (Dbl.pow2_pos _)
    have hu1 : 0 ≤ 1 - Dbl.pow2 (-53) := by rw [hu]; norm_num
    have habs : |q + pq| ≤ B + pq := by
      calc |q + pq| ≤ |q| + |pq| := abs_add _ _
        _ ≤ B + pq := by rw [abs_of_nonneg hpq0]; linarith
    have h4 : q + pq - q1 ≤ (B + pq) * Dbl.pow2 (-53) + Dbl.pow2 (-1075) := by
      have := (abs_le.mp herr).1
      have := mul_le_mul_of_nonneg_right habs hu0
      linarith
    have h5 : mu * (1 - Dbl.pow2 (-53)) ≤ pq * (1 - Dbl.pow2 (-53)) :=
      mul_le_mul_of_nonneg_right hpq hu1
    nlinarith

/-- With a hard limit a finite period returned by the binary64 rate model is at least the
double `fl(Min_period/1000)`, with or without spike jitter. -/
theorem B64.period_ge_hard_limit_b64 (R : RandSrc) (c : Config) (sigma : Dbl) (m mu : ℚ)
    (hstd : c.Min_period_std_dev = Dbl.fin 0) (hmin : c.Min_period = Dbl.fin m)
    (hmu : Dbl.round64 (m / 1000) = Dbl.fin mu)
    (g : Nat) (x : Dbl) (q : ℚ) (h : (B64.inp_pixel_to_period R c sigma g x).1 = Dbl.fin q) :
    mu ≤ q := by
  have hlim : Dbl.r64 (c.Min_period / Dbl.fin 1000) = Dbl.fin mu := by
    rw [hmin, Dbl.fin_div _ _ (by norm_num)]
    exact hmu
  have h1 : Dbl.lt (B64.inp_pixel_to_period R c sigma g x).1 (Dbl.fin mu) = false := by
    simp only [B64.inp_pixel_to_period, hstd, Dbl.gt, Dbl.lt_fin, lt_self_iff_false,
      decide_False, Bool.false_eq_true, if_false, hlim]
    exact Dbl.clamp_not_lt _ _
  rw [h] at h1
  simpa using h1

/-- The binary64 emission loop entered with a candidate that is not below the rounded slot
end returns at once, leaving everything as it is. -/
theorem B64.emit_loop_skip_b64 (R : RandSrc) (c : Config) (sigma : Dbl) (ts dt px : Dbl) (f : Nat)
    (new_spk : spike_t) (s : PixelRun)
    (h : Dbl.lt new_spk.time (Dbl.r64 (ts + dt)) = false) :
    B64.emit_loop R c sigma ts dt px (f + 1) new_spk s = some s := by
  simp [B64.emit_loop, h]

/-- The binary64 emission loop when every finite period is at least `mu` and the slot end is
the double `E`: entered with a candidate double `q >= -B` that is within `k` steps of
`delta` of the slot end, it returns for every fuel above `k` and pushes at most `k`
spikes. -/
theorem B64.emit_loop_bounded_b64 (R : RandSrc) (c : Config) (sigma : Dbl) (ts dt px : Dbl)
    (E mu B δ : ℚ) (hE : Dbl.r64 (ts + dt) = Dbl.fin E) (hEB : E ≤ B) (hmu : 0 ≤ mu)
    (hδ : δ + B * Dbl.pow2 (-53) + Dbl.pow2 (-1075) ≤ mu * (1 - Dbl.pow2 (-53)))
    (hδ0 : 0 ≤ δ)
    (hge : ∀ g q, (B64.inp_pixel_to_period R c sigma g px).1 = Dbl.fin q → mu ≤ q) :
    ∀ (k fuel : Nat) (q : ℚ) (idx : Nat) (s : PixelRun),
      Dbl.round64 q = Dbl.fin q → -B ≤ q → E ≤ q + k * δ → k + 1 ≤ fuel →
      ∃ (r : PixelRun) (added : List spike_t),
        B64.emit_loop R c sigma ts dt px fuel { neuron := idx, time := Dbl.fin q } s = some r ∧
        r.slot_spks = s.slot_spks ++ added ∧ added.length ≤ k ∧
        ∀ a ∈ added, a.neuron = idx := by
  intro k
  induction k with
  | zero =>
    intro fuel q idx s _ _ hq hfuel
    obtain ⟨f, rfl⟩ : ∃ f, fuel = f + 1 := ⟨fuel - 1, by omega⟩
    have hc : ¬ q < E := by
      simp only [Nat.cast_zero, zero_mul, add_zero] at hq
      exact not_lt.mpr hq
    refine ⟨s, [], ?_, by simp, by simp, by simp⟩
    simp [B64.emit_loop, hE, hc]
  | succ k ih =>
    intro fuel q idx s hq64 hqB hq hfuel
    obtain ⟨f, rfl⟩ : ∃ f, fuel = f + 1 := ⟨fuel - 1, by omega⟩
    by_cases hc : q < E
    · by_cases hfin : (B64.inp_pixel_to_period R c sigma s.rand_gen px).1.isfinite = true
      · obtain ⟨pq, hp⟩ := (Dbl.isfinite_iff _).mp hfin
        have hmupq : mu ≤ pq := hge _ _ hp
        have habs : |q| ≤ B := abs_le.mpr ⟨hqB, by linarith⟩
        have hnext : Dbl.r64 (Dbl.fin q + Dbl.fin pq) = Dbl.round64 (q + pq) := rfl
        rcases Dbl.round64_add_advances q pq mu B δ hq64 habs hmupq hmu hδ with
          hinf | ⟨q1, hq1, hadv, hq164⟩
        · obtain ⟨f2, rfl⟩ : ∃ f2, f = f2 + 1 := ⟨f - 1, by omega⟩
          refine ⟨{ last_firing_period := Dbl.fin pq
                    next_spk_time := Dbl.pinf
                    slot_spks := s.slot_spks ++ [{ neuron := idx, time := Dbl.fin q }]
                    rand_gen := (B64.inp_pixel_to_period R c sigma s.rand_gen px).2
                    cout := s.cout },
            [{ neuron := idx, time := Dbl.fin q }], ?_, rfl, by simp, by simp⟩
          simp only [B64.emit_loop, hE, Dbl.lt_fin, hc, decide_True, if_true, hp,
            Dbl.isfinite_fin, hnext, hinf, Dbl.lt, Bool.false_eq_true, if_false]
        · have hq1' : E ≤ q1 + k * δ := by
            push_cast at hq
            linarith
          obtain ⟨r, added, h1, h2, h3, h4⟩ := ih f q1 idx
            { last_firing_period := Dbl.fin pq
              next_spk_time := Dbl.fin q1
              slot_spks := s.slot_spks ++ [{ neuron := idx, time := Dbl.fin q }]
              rand_gen := (B64.inp_pixel_to_period R c sigma s.rand_gen px).2
              cout := s.cout } hq164 (by linarith) hq1' (by omega)
          refine ⟨r, { neuron := idx, time := Dbl.fin q } :: added, ?_, ?_, ?_, ?_⟩
          · simp only [B64.emit_loop, hE, Dbl.lt_fin, hc, decide_True, if_true, hp,
              Dbl.isfinite_fin, hnext, hq1]
            exact h1
          · rw [h2]; simp
          · simp only [List.length_cons]; omega
          · intro a ha
            rcases List.mem_cons.mp ha with rfl | ha2
            · rfl
            · exact h4 a ha2
      · refine ⟨{ last_firing_period :=
                    if s.last_firing_period = Dbl.fin 0 then
                      Dbl.r64 (Dbl.fin E - Dbl.fin q)
                    else s.last_firing_period
                  next_spk_time := Dbl.fin E
                  slot_spks := s.slot_spks ++ [{ neuron := idx, time := Dbl.fin q }]
                  rand_gen := (B64.inp_pixel_to_period R c sigma s.rand_gen px).2
                  cout := s.cout },
          [{ neuron := idx, time := Dbl.fin q }], ?_, rfl, by simp, by simp⟩
        simp only [B64.emit_loop, hE, Dbl.lt_fin, hc, decide_True, if_true, hfin,
          Bool.false_eq_true, if_false]
    · refine ⟨s, [], ?_, by simp, by simp, by simp⟩
      simp [B64.emit_loop, hE, hc]

/-- The rounded quotient-of-product of the phase rule, `fl(fl(fl(T0 - ts) * p) / L)`, is
`+inf`, NaN or a double that is not negative, when the predicted time is not before the slot
start and both periods are positive. -/
theorem B64.phase_term_nonneg (ts pq : ℚ) (T0 L : Dbl) (hpq : 0 < pq)
    (hT : Dbl.ge T0 (Dbl.fin ts) = true) (hL : Dbl.gt L (Dbl.fin 0) = true) :
    Dbl.r64 (Dbl.r64 (Dbl.r64 (T0 - Dbl.fin ts) * Dbl.fin pq) / L) = Dbl.pinf ∨
    Dbl.r64 (Dbl.r64 (Dbl.r64 (T0 - Dbl.fin ts) * Dbl.fin pq) / L) = Dbl.nan ∨
    ∃ z : ℚ, Dbl.r64 (Dbl.r64 (Dbl.r64 (T0 - Dbl.fin ts) * Dbl.fin pq) / L) = Dbl.fin z ∧
      0 ≤ z := by
  have mulinf : Dbl.pinf * Dbl.fin pq = Dbl.pinf := by
    show Dbl.mul Dbl.pinf (Dbl.fin pq) = _
    simp [Dbl.mul, ne_of_gt hpq, hpq]
  -- the rounded difference
  have h1 : Dbl.r64 (T0 - Dbl.fin ts) = Dbl.pinf ∨
      ∃ a : ℚ, Dbl.r64 (T0 - Dbl.fin ts) = Dbl.fin a ∧ 0 ≤ a := by
    cases T0 with
    | fin t =>
      have ht : ts ≤ t := by simpa [Dbl.ge, Dbl.le] using hT
      rw [Dbl.fin_sub]
      exact Dbl.round64_nonneg _ (by linarith)
    | pinf => exact Or.inl rfl
    | ninf => simp [Dbl.ge, Dbl.le] at hT
    | nan => simp [Dbl.ge, Dbl.le] at hT
  -- the rounded product
  have h2 : Dbl.r64 (Dbl.r64 (T0 - Dbl.fin ts) * Dbl.fin pq) = Dbl.pinf ∨
      ∃ b : ℚ, Dbl.r64 (Dbl.r64 (T0 - Dbl.fin ts) * Dbl.fin pq) = Dbl.fin b ∧ 0 ≤ b := by
    rcases h1 with e | ⟨a, e, ha⟩
    · rw [e, mulinf]
      exact Or.inl rfl
    · rw [e, Dbl.fin_mul]
      exact Dbl.round64_nonneg _ (mul_nonneg ha hpq.le)
  cases L with
  | fin l =>
    have hl : 0 < l := by simpa [Dbl.gt, Dbl.lt] using hL
    rcases h2 with e | ⟨b, e, hb⟩
    · rw [e]
      left
      show Dbl.r64 (Dbl.div Dbl.pinf (Dbl.fin l)) = _
      simp [Dbl.div, hl.le, Dbl.r64]
    · rw [e, Dbl.fin_div _ _ (ne_of_gt hl)]
      rcases Dbl.round64_nonneg (b / l) (div_nonneg hb hl.le) with e2 | ⟨z, e2, hz⟩
      · exact Or.inl e2
      · exact Or.inr (Or.inr ⟨z, e2, hz⟩)
  | pinf =>
    rcases h2 with e | ⟨b, e, hb⟩
    · rw [e]
      right; left
      rfl
    · rw [e]
      right; right
      exact ⟨0, Dbl.round64_zero, le_refl _⟩
  | ninf => simp [Dbl.gt, Dbl.lt] at hL
  | nan => simp [Dbl.gt, Dbl.lt] at hL

/-- In binary64 the first candidate of a slot whose start is a double is `+inf`, NaN or a
double that is not before the slot start, when the predicted time is not before the slot
start and both periods are positive. -/
theorem B64.first_spk_time_not_before_b64 (ts pq : ℚ) (T0 L : Dbl) (hpq : 0 < pq)
    (hts : Dbl.round64 ts = Dbl.fin ts)
    (hT : Dbl.ge T0 (Dbl.fin ts) = true) (hL : Dbl.gt L (Dbl.fin 0) = true) :
    B64.first_spk_time (Dbl.fin ts) T0 (Dbl.fin pq) L = Dbl.pinf ∨
    B64.first_spk_time (Dbl.fin ts) T0 (Dbl.fin pq) L = Dbl.nan ∨
    ∃ q : ℚ, B64.first_spk_time (Dbl.fin ts) T0 (Dbl.fin pq) L = Dbl.fin q ∧ ts ≤ q ∧
      Dbl.round64 q = Dbl.fin q := by
  unfold B64.first_spk_time
  rcases B64.phase_term_nonneg ts pq T0 L hpq hT hL with e | e | ⟨z, e, hz⟩
  · rw [e]
    exact Or.inl rfl
  · rw [e]
    exact Or.inr (Or.inl rfl)
  · rw [e, Dbl.fin_add]
    rcases Dbl.round64_add_ge ts z hts hz with e2 | ⟨q, e2, h1, h2⟩
    · exact Or.inl e2
    · exact Or.inr (Or.inr ⟨q, e2, h1, h2⟩)

/-- When the binary64 rate model returns no finite period the loop body only postpones the
predicted time. -/
theorem B64.update_neuron_not_finite_b64 (R : RandSrc) (c : Config) (sigma : Dbl) (ts dt : Dbl)
    (fuel idx : Nat) (x : Dbl) (s : PixelRun)
    (h : (B64.inp_pixel_to_period R c sigma s.rand_gen x).1.isfinite = false) :
    B64.update_neuron R c sigma ts dt fuel idx x s =
      some { s with next_spk_time := Dbl.r64 (s.next_spk_time + dt),
                    rand_gen := (B64.inp_pixel_to_period R c sigma s.rand_gen x).2 } := by
  simp [B64.update_neuron, h]

/-- The binary64 loop body for one pixel when every finite period is at least `mu`, from a
state with next_spk_time not before the slot start `ts` (a double) and a positive period, the
slot end being the double `E`: it returns for every fuel above `ceil((E - ts) / delta)` and
pushes at most that many spikes, all with the index of the neuron. -/
theorem B64.update_neuron_bounded_b64 (R : RandSrc) (c : Config) (sigma : Dbl) (dt px : Dbl)
    (ts E mu B δ : ℚ) (hts : Dbl.round64 ts = Dbl.fin ts)
    (hE : Dbl.r64 (Dbl.fin ts + dt) = Dbl.fin E) (htB : |ts| ≤ B) (hEB : |E| ≤ B)
    (hδ : δ + B * Dbl.pow2 (-53) + Dbl.pow2 (-1075) ≤ mu * (1 - Dbl.pow2 (-53)))
    (hδ0 : 0 < δ)
    (hge : ∀ g q, (B64.inp_pixel_to_period R c sigma g px).1 = Dbl.fin q → mu ≤ q)
    (fuel idx : Nat) (s : PixelRun)
    (hT : Dbl.ge s.next_spk_time (Dbl.fin ts) = true)
    (hL : Dbl.gt s.last_firing_period (Dbl.fin 0) = true)
    (hfuel : ⌈(E - ts) / δ⌉₊ + 1 ≤ fuel) :
    ∃ (r : PixelRun) (added : List spike_t),
      B64.update_neuron R c sigma (Dbl.fin ts) dt fuel idx px s = some r ∧
      r.slot_spks = s.slot_spks ++ added ∧ added.length ≤ ⌈(E - ts) / δ⌉₊ ∧
      ∀ a ∈ added, a.neuron = idx := by
  have hu : Dbl.pow2 (-53) = 1 / 9007199254740992 := by decide!
  have hη := Dbl.pow2_pos (-1075)
  have hB0 : 0 ≤ B := le_trans (abs_nonneg _) htB
  have hmu : 0 < mu := by
    have h1 : 0 < mu * (1 - Dbl.pow2 (-53)) := by
      have := mul_nonneg hB0 (le_of_lt (Dbl.pow2_pos (-53)))
      linarith
    rw [hu] at h1
    by_contra hc
    have : mu ≤ 0 := not_lt.mp hc
    nlinarith
  by_cases hfin : (B64.inp_pixel_to_period R c sigma s.rand_gen px).1.isfinite = true
  · obtain ⟨pq, hp⟩ := (Dbl.isfinite_iff _).mp hfin
    have hpq : 0 < pq := lt_of_lt_of_le hmu (hge _ _ hp)
    obtain ⟨f, rfl⟩ : ∃ f, fuel = f + 1 := ⟨fuel - 1, by omega⟩
    have hK : E - ts ≤ (⌈(E - ts) / δ⌉₊ : ℚ) * δ := by
      have := Nat.le_ceil ((E - ts) / δ)
      rwa [div_le_iff₀ hδ0] at this
    simp only [B64.update_neuron, hp, Dbl.isfinite_fin, if_true]
    rcases B64.first_spk_time_not_before_b64 ts pq s.next_spk_time s.last_firing_period hpq hts hT
      hL with hX | hX | ⟨q, hX, hq, hq64⟩
    · rw [hX, B64.emit_loop_skip_b64 R c sigma (Dbl.fin ts) dt px f
        { neuron := idx, time := Dbl.pinf } _ (by rw [hE]; rfl)]
      exact ⟨_, [], rfl, by simp, by simp, by simp⟩
    · rw [hX, B64.emit_loop_skip_b64 R c sigma (Dbl.fin ts) dt px f
        { neuron := idx, time := Dbl.nan } _ (by rw [hE]; rfl)]
      exact ⟨_, [], rfl, by simp, by simp, by simp⟩
    · rw [hX]
      exact B64.emit_loop_bounded_b64 R c sigma (Dbl.fin ts) dt px E mu B δ hE
        (le_trans (le_abs_self _) hEB) hmu.le hδ hδ0.le hge ⌈(E - ts) / δ⌉₊ (f + 1) q idx _
        hq64 (by linarith [(abs_le.mp htB).1]) (by linarith) hfuel
  · have hnf : (B64.inp_pixel_to_period R c sigma s.rand_gen px).1.isfinite = false := by
      simpa using hfin
    rw [B64.update_neuron_not_finite_b64 R c sigma _ _ fuel idx px s hnf]
    exact ⟨_, [], rfl, by simp, by simp, by simp⟩

/-- One pass of the binary64 pixel loop under the same conditions: it returns, pushes at most
`ceil((E - ts) / delta)` spikes, all with the current index, and writes only the two cells at
the offset of the iterators. -/
theorem B64.update_pixel_bounded_b64 (R : RandSrc) (c : Config) (sigma : Dbl) (img : List Dbl)
    (simTime step : Dbl) (ts E mu B δ : ℚ)
    (htsv : Dbl.r64 (simTime / Dbl.fin 1000) = Dbl.fin ts)
    (hts : Dbl.round64 ts = Dbl.fin ts)
    (hE : Dbl.r64 (Dbl.fin ts + Dbl.r64 (step / Dbl.fin 1000)) = Dbl.fin E)
    (htB : |ts| ≤ B) (hEB : |E| ≤ B)
    (hδ : δ + B * Dbl.pow2 (-53) + Dbl.pow2 (-1075) ≤ mu * (1 - Dbl.pow2 (-53)))
    (hδ0 : 0 < δ)
    (hge : ∀ px g q, (B64.inp_pixel_to_period R c sigma g px).1 = Dbl.fin q → mu ≤ q)
    (fuel it idx : Nat) (s : SlotRun) (hit : it < img.length)
    (hcell : ∃ L T, s.last_firing_period[it]? = some L ∧ s.next_spk_time[it]? = some T ∧
      Dbl.ge T (Dbl.fin ts) = true ∧ Dbl.gt L (Dbl.fin 0) = true)
    (hfuel : ⌈(E - ts) / δ⌉₊ + 1 ≤ fuel) :
    ∃ (s1 : SlotRun) (added : List spike_t),
      B64.update_pixel R c sigma img simTime step fuel it idx s = some s1 ∧
      s1.slot_spks = s.slot_spks ++ added ∧ added.length ≤ ⌈(E - ts) / δ⌉₊ ∧
      (∀ a ∈ added, a.neuron = idx) ∧
      (∃ v, s1.last_firing_period = s.last_firing_period.set it v) ∧
      (∃ v, s1.next_spk_time = s.next_spk_time.set it v) := by
  obtain ⟨L, T, hL, hT, hge1, hgt1⟩ := hcell
  have hpx : img[it]? = some img[it] := List.getElem?_eq_getElem hit
  obtain ⟨r, added, h1, h2, h3, h4⟩ := B64.update_neuron_bounded_b64 R c sigma
    (Dbl.r64 (step / Dbl.fin 1000)) img[it] ts E mu B δ hts hE htB hEB hδ hδ0 (hge img[it])
    fuel idx
    { last_firing_period := L, next_spk_time := T, slot_spks := s.slot_spks,
      rand_gen := s.rand_gen, cout := s.cout } hge1 hgt1 hfuel
  refine ⟨{ last_firing_period := s.last_firing_period.set it r.last_firing_period
            next_spk_time := s.next_spk_time.set it r.next_spk_time
            slot_spks := r.slot_spks
            rand_gen := r.rand_gen
            cout := r.cout }, added, ?_, h2, h3, h4, ⟨_, rfl⟩, ⟨_, rfl⟩⟩
  unfold B64.update_pixel
  rw [hpx, hL, hT]
  simp only [htsv]
  rw [h1]

/-- A sequence of passes of the binary64 pixel loop at pairwise distinct offsets with
pairwise distinct indices, every visited cell being ready at the start: the sequence returns;
it pushes at most `ceil((E - ts) / delta)` spikes per index and per pass. -/
theorem B64.fold_pixels_bounded_b64 (R : RandSrc) (c : Config) (sigma : Dbl) (img : List Dbl)
    (simTime step : Dbl) (ts E mu B δ : ℚ)
    (htsv : Dbl.r64 (simTime / Dbl.fin 1000) = Dbl.fin ts)
    (hts : Dbl.round64 ts = Dbl.fin ts)
    (hE : Dbl.r64 (Dbl.fin ts + Dbl.r64 (step / Dbl.fin 1000)) = Dbl.fin E)
    (htB : |ts| ≤ B) (hEB : |E| ≤ B)
    (hδ : δ + B * Dbl.pow2 (-53) + Dbl.pow2 (-1075) ≤ mu * (1 - Dbl.pow2 (-53)))
    (hδ0 : 0 < δ)
    (hge : ∀ px g q, (B64.inp_pixel_to_period R c sigma g px).1 = Dbl.fin q → mu ≤ q)
    (fuel : Nat) (hfuel : ⌈(E - ts) / δ⌉₊ + 1 ≤ fuel) (off idxf : Nat → Nat) :
    ∀ (ks : List Nat) (s : SlotRun), (ks.map off).Nodup → (ks.map idxf).Nodup →
      (∀ k ∈ ks, off k < img.length ∧
        ∃ L T, s.last_firing_period[off k]? = some L ∧ s.next_spk_time[off k]? = some T ∧
          Dbl.ge T (Dbl.fin ts) = true ∧ Dbl.gt L (Dbl.fin 0) = true) →
      ∃ (r : SlotRun) (added : List spike_t),
        ks.foldlM (fun s k => B64.update_pixel R c sigma img simTime step fuel (off k)
          (idxf k) s) s = some r ∧
        r.slot_spks = s.slot_spks ++ added ∧
        added.length ≤ ks.length * ⌈(E - ts) / δ⌉₊ ∧
        (∀ a ∈ added, ∃ k ∈ ks, a.neuron = idxf k) ∧
        ∀ j : Nat, added.countP (fun a => decide (a.neuron = j)) ≤ ⌈(E - ts) / δ⌉₊ := by
  intro ks
  induction ks with
  | nil =>
    intro s _ _ _
    exact ⟨s, [], rfl, by simp, by simp, by simp, by simp⟩
  | cons k ks ih =>
    intro s hnd hni hcells
    rw [List.map_cons, List.nodup_cons] at hnd hni
    obtain ⟨hk, hcell⟩ := hcells k (List.mem_cons_self _ _)
    obtain ⟨s1, add1, h1, h2, h3, h4, ⟨v, hv⟩, ⟨w, hw⟩⟩ :=
      B64.update_pixel_bounded_b64 R c sigma img simTime step ts E mu B δ htsv hts hE htB hEB hδ hδ0
        hge fuel (off k) (idxf k) s hk hcell hfuel
    have hcells1 : ∀ k2 ∈ ks, off k2 < img.length ∧
        ∃ L T, s1.last_firing_period[off k2]? = some L ∧ s1.next_spk_time[off k2]? = some T ∧
          Dbl.ge T (Dbl.fin ts) = true ∧ Dbl.gt L (Dbl.fin 0) = true := by
      intro k2 hk2
      obtain ⟨hlt, L, T, e1, e2, e3, e4⟩ := hcells k2 (List.mem_cons_of_mem _ hk2)
      have hne : off k ≠ off k2 := fun heq => hnd.1 (heq ▸ List.mem_map_of_mem off hk2)
      refine ⟨hlt, L, T, ?_, ?_, e3, e4⟩
      · rw [hv, List.getElem?_set_ne hne]; exact e1
      · rw [hw, List.getElem?_set_ne hne]; exact e2
    obtain ⟨r, add2, g1, g2, g3, g4, g5⟩ := ih s1 hnd.2 hni.2 hcells1
    refine ⟨r, add1 ++ add2, ?_, ?_, ?_, ?_, ?_⟩
    · rw [List.foldlM_cons, h1]
      exact g1
    · rw [g2, h2, List.append_assoc]
    · rw [List.length_append, List.length_cons, Nat.add_mul, Nat.one_mul]
      omega
    · intro a ha
      rcases List.mem_append.mp ha with h5 | h5
      · exact ⟨k, List.mem_cons_self _ _, h4 a h5⟩
      · obtain ⟨k2, hk2, e⟩ := g4 a h5
        exact ⟨k2, List.mem_cons_of_mem _ hk2, e⟩
    · intro j
      rw [List.countP_append]
      by_cases hj : j = idxf k
      · have hz : add2.countP (fun a => decide (a.neuron = j)) = 0 := by
          rw [List.countP_eq_zero]
          intro a ha
          obtain ⟨k2, hk2, e⟩ := g4 a ha
          simp only [decide_eq_true_eq]
          intro hcon
          exact hni.1 (by rw [← hj, ← hcon, e]; exact List.mem_map_of_mem idxf hk2)
        have := List.countP_le_length (fun a => decide (a.neuron = j)) (l := add1)
        omega
      · have hz : add1.countP (fun a => decide (a.neuron = j)) = 0 := by
          rw [List.countP_eq_zero]
          intro a ha
          simp only [decide_eq_true_eq]
          intro hcon
          exact hj (by rw [← hcon, h4 a ha])
        have := g5 j
        omega

/-- C24 (amended): in binary64, for Min_period = m with a hard limit (Min_period_std_dev = 0)
and Inp_ind_inc >= 1, iterators that stay inside the 64-bit address space, a slot whose
start ts = fl(simTime/1000) and end E = fl(ts + fl(step/1000)) are finite doubles of magnitude
at most B, and a state in which every neuron of the image has next_spk_time >= ts and
last_firing_period > 0: every finite period that inp_pixel_to_period returns is at least
mu = fl(m/1000); each iteration of the emission loop advances the candidate time by at least
delta, for every delta > 0 with delta + 2^(-53) B + 2^(-1075) <= (1 - 2^(-53)) mu (the sum
either overflows to +inf, which ends the loop, or is a double at least delta later);
update() returns for every fuel above ceil((E - ts) / delta); the pixel loop makes n passes
with n at most the number N of pixels (and at most Total_inputs); the appended events carry
neuron indices below n, at most ceil((E - ts) / delta) of them for any one neuron, hence at
most n * ceil((E - ts) / delta) in all. -/
theorem update_terminates_bounded_binary64 (R : RandSrc) (o : SpikingOutput)
    (m mu ts E B δ : ℚ) (base : Nat)
    (hmin : o.Min_period = Dbl.fin m) (hmu : Dbl.round64 (m / 1000) = Dbl.fin mu)
    (hstd : o.Min_period_std_dev = Dbl.fin 0) (hinc : 1 ≤ o.Inp_ind_inc)
    (hfirst : base + o.First_inp_ind < 2 ^ 61)
    (hb : base + o.inputImage.length + o.Inp_ind_inc ≤ 2 ^ 61)
    (hts : Dbl.r64 (o.simTime / Dbl.fin 1000) = Dbl.fin ts)
    (hE : Dbl.r64 (Dbl.fin ts + Dbl.r64 (o.step / Dbl.fin 1000)) = Dbl.fin E)
    (htB : |ts| ≤ B) (hEB : |E| ≤ B) (hδ0 : 0 < δ)
    (hδ : δ + B * Dbl.pow2 (-53) + Dbl.pow2 (-1075) ≤ mu * (1 - Dbl.pow2 (-53)))
    (hcells : ∀ i, i < o.inputImage.length →
      ∃ L T, o.last_firing_period[i]? = some L ∧ o.next_spk_time[i]? = some T ∧
        Dbl.ge T (Dbl.fin ts) = true ∧ Dbl.gt L (Dbl.fin 0) = true)
    (fuel : Nat) (hfuel : ⌈(E - ts) / δ⌉₊ + 1 ≤ fuel) :
    (∀ g x q, (B64.inp_pixel_to_period R o.toConfig o.norm_dist_sigma g x).1 = Dbl.fin q →
      mu ≤ q) ∧
    (∀ q pq : ℚ, Dbl.round64 q = Dbl.fin q → |q| ≤ B → mu ≤ pq →
      Dbl.r64 (Dbl.fin q + Dbl.fin pq) = Dbl.pinf ∨
      ∃ q1 : ℚ, Dbl.r64 (Dbl.fin q + Dbl.fin pq) = Dbl.fin q1 ∧ q + δ ≤ q1) ∧
    ∃ (n : Nat) (o1 : SpikingOutput) (seg : List spike_t),
      n ≤ o.inputImage.length ∧ n ≤ o.Total_inputs ∧
      B64.update_slot R fuel base o =
        (List.range n).foldlM
          (fun s k => B64.update_pixel R o.toConfig o.norm_dist_sigma o.inputImage o.simTime
            o.step fuel (o.First_inp_ind + k * o.Inp_ind_inc) (0 + k) s)
          { last_firing_period := o.last_firing_period
            next_spk_time := o.next_spk_time
            slot_spks := []
            rand_gen := o.rand_gen
            cout := o.cout } ∧
      B64.update R fuel base o = some o1 ∧
      o1.out_spks = o.out_spks ++ seg ∧
      (∀ a ∈ seg, a.neuron < n) ∧
      (∀ j : Nat, seg.countP (fun a => decide (a.neuron = j)) ≤ ⌈(E - ts) / δ⌉₊) ∧
      seg.length ≤ n * ⌈(E - ts) / δ⌉₊ := by
  have hge : ∀ x g q,
      (B64.inp_pixel_to_period R o.toConfig o.norm_dist_sigma g x).1 = Dbl.fin q → mu ≤ q :=
    fun x g q h =>
      B64.period_ge_hard_limit_b64 R o.toConfig o.norm_dist_sigma m mu hstd hmin hmu g x q h
  have hu : Dbl.pow2 (-53) = 1 / 9007199254740992 := by decide!
  have hB0 : 0 ≤ B := le_trans (abs_nonneg _) htB
  have hmupos : 0 < mu := by
    have h1 : 0 < mu * (1 - Dbl.pow2 (-53)) := by
      have := mul_nonneg hB0 (le_of_lt (Dbl.pow2_pos (-53)))
      have := Dbl.pow2_pos (-1075)
      linarith
    rw [hu] at h1
    by_contra hc
    have : mu ≤ 0 := not_lt.mp hc
    nlinarith
  have hts64 : Dbl.round64 ts = Dbl.fin ts := by
    revert hts
    cases hd : o.simTime / Dbl.fin 1000 with
    | fin a => intro h; exact Dbl.round64_idem a ts h
    | pinf => intro h; exact absurd h (by simp [Dbl.r64])
    | ninf => intro h; exact absurd h (by simp [Dbl.r64])
    | nan => intro h; exact absurd h (by simp [Dbl.r64])
  refine ⟨fun g x q h => hge x g q h, ?_, ?_⟩
  · intro q pq hq hqB hpq
    rcases Dbl.round64_add_advances q pq mu B δ hq hqB hpq hmupos.le hδ with h | ⟨q1, h1, h2, _⟩
    · exact Or.inl h
    · exact Or.inr ⟨q1, h1, h2⟩
  have hmod : o.First_inp_ind % 2 ^ 61 = o.First_inp_ind := Nat.mod_eq_of_lt (by omega)
  obtain ⟨n, hn1, hn2, _, hfold⟩ := B64.pixel_loop_eq_fold_b64 R o.toConfig o.norm_dist_sigma
    o.inputImage o.simTime o.step fuel base hb o.Total_inputs o.First_inp_ind 0 hfirst
  have hnN : n ≤ o.inputImage.length := by
    cases n with
    | zero => exact Nat.zero_le _
    | succ j =>
      have h1 := hn2 j (Nat.lt_succ_self j)
      have h2 : j ≤ j * o.Inp_ind_inc := Nat.le_mul_of_pos_right j hinc
      show j + 1 ≤ o.inputImage.length
      omega
  have hoff : ((List.range n).map (fun k => o.First_inp_ind + k * o.Inp_ind_inc)).Nodup := by
    apply List.Nodup.map_on _ (List.nodup_range n)
    intro a _ b _ hab
    have h1 : a * o.Inp_ind_inc = b * o.Inp_ind_inc := by omega
    exact Nat.eq_of_mul_eq_mul_right (by omega) h1
  have hidx : ((List.range n).map (fun k => 0 + k)).Nodup := by
    apply List.Nodup.map_on _ (List.nodup_range n)
    intro a _ b _ hab
    omega
  obtain ⟨r, added, g1, g2, g3, g4, g5⟩ := B64.fold_pixels_bounded_b64 R o.toConfig
    o.norm_dist_sigma o.inputImage o.simTime o.step ts E mu B δ hts hts64 hE htB hEB hδ hδ0 hge
    fuel hfuel
    (fun k => o.First_inp_ind + k * o.Inp_ind_inc) (fun k => 0 + k) (List.range n)
    { last_firing_period := o.last_firing_period, next_spk_time := o.next_spk_time,
      slot_spks := [], rand_gen := o.rand_gen, cout := o.cout } hoff hidx
    (fun k hk => ⟨hn2 k (List.mem_range.mp hk), hcells _ (hn2 k (List.mem_range.mp hk))⟩)
  have hslot : B64.update_slot R fuel base o = some r := by
    unfold B64.update_slot
    rw [hmod, hfold]
    exact g1
  have hperm := std_sort_perm spk_time_comp r.slot_spks
  have hadd : r.slot_spks = added := by rw [g2]; rfl
  refine ⟨n, { o with
      last_firing_period := r.last_firing_period
      next_spk_time := r.next_spk_time
      rand_gen := r.rand_gen
      cout := r.cout
      out_spks := o.out_spks ++ std_sort spk_time_comp r.slot_spks },
    std_sort spk_time_comp r.slot_spks, hnN, hn1, ?_, ?_, rfl, ?_, ?_, ?_⟩
  · unfold B64.update_slot
    rw [hmod, hfold]
  · unfold B64.update
    rw [hslot]
  · intro a ha
    obtain ⟨k, hk, e⟩ := g4 a (hadd ▸ hperm.subset ha)
    rw [e]
    have := List.mem_range.mp hk
    omega
  · intro j
    rw [hperm.countP_eq, hadd]
    exact g5 j
  · rw [hperm.length_eq, hadd]
    simpa using g3

/-! ## Concrete runs -/

/-- Witness of C1 on the default parameters and pixel value 2: the period is 1/2 s. -/
theorem inp_pixel_to_period_deterministic_witness :
    grid1.Spike_std_dev = Dbl.fin 0 ∧ grid1.Min_period_std_dev = Dbl.fin 0 ∧
    Dbl.ge grid1.Min_period (Dbl.fin 0) = true ∧
    (inp_pixel_to_period zeroRand grid1.toConfig (Dbl.fin 0) 0 (Dbl.fin 2)).1 =
      (if Dbl.lt (Dbl.fin 2) grid1.Input_threshold then Dbl.pinf
      else Dbl.max (grid1.Min_period / Dbl.fin 1000)
        (Dbl.fin 1 / ((Dbl.fin 2 - grid1.Input_threshold) * grid1.Spk_freq_per_inp
            + Dbl.fin 1 / (grid1.Longest_sustained_period / Dbl.fin 1000)))) ∧
    (inp_pixel_to_period zeroRand grid1.toConfig (Dbl.fin 0) 0 (Dbl.fin 2)).1
      = Dbl.fin (1 / 2) :=
  ⟨by decide!, by decide!, by decide!,
    inp_pixel_to_period_deterministic zeroRand grid1.toConfig (Dbl.fin 0) 0 (Dbl.fin 2)
      (by decide!) (by decide!) (by decide!),
    by decide!⟩

/-- C5 (run that breaks the claim): one neuron, recording window from 2000 ms, constant pixel
value 1 fed at 0, 1000, 2000 and 3000 ms.  The three first frames are gated out and leave the
state untouched; the slot [3, 4) s then emits the spikes 1 s, 2 s and 3 s, two of them before
its start, and prints the "previous simulation step" diagnostic. -/
theorem gated_run_emits_before_slot_start :
    (run zeroRand 8 gated1
        [(Dbl.fin 0, [Dbl.fin 1]), (Dbl.fin 1000, [Dbl.fin 1]), (Dbl.fin 2000, [Dbl.fin 1]),
          (Dbl.fin 3000, [Dbl.fin 1])]).map (fun o => (o.out_spks, o.cout, o.simTime))
      = some ([⟨0, Dbl.fin 1⟩, ⟨0, Dbl.fin 2⟩, ⟨0, Dbl.fin 3⟩],
          [InternalError.previous_step (Dbl.fin 1)], Dbl.fin 3000) := by
  decide!

/-- C6 (failing input): one neuron, a frame of value 2 at 0 ms and a frame of value 1 at
2000 ms.  The second call computes the first candidate 2 + (1 - 2)*1/(1/2) = 0 s, before its
slot start, prints the diagnostic for a spike of a previous step and appends the spikes 0 s,
1 s, 2 s after the spike 1/2 s of the first call: the event list is not sorted by time.  No
operation of this run rounds, so binary64 and exact arithmetic give the same list. -/
theorem out_spks_not_sorted_after_skipped_slot :
    (B64.run zeroRand 8 4096 grid1 [(Dbl.fin 0, [Dbl.fin 2]), (Dbl.fin 2000, [Dbl.fin 1])]).map
        (fun o => (o.out_spks, o.cout))
      = some ([⟨0, Dbl.fin (1 / 2)⟩, ⟨0, Dbl.fin 0⟩, ⟨0, Dbl.fin 1⟩, ⟨0, Dbl.fin 2⟩],
          [InternalError.previous_step (Dbl.fin 0)]) ∧
    (run zeroRand 8 grid1 [(Dbl.fin 0, [Dbl.fin 2]), (Dbl.fin 2000, [Dbl.fin 1])]).map
        (fun o => (o.out_spks, o.cout))
      = some ([⟨0, Dbl.fin (1 / 2)⟩, ⟨0, Dbl.fin 0⟩, ⟨0, Dbl.fin 1⟩, ⟨0, Dbl.fin 2⟩],
          [InternalError.previous_step (Dbl.fin 0)]) ∧
    ¬ List.Pairwise spk_le
        [(⟨0, Dbl.fin (1 / 2)⟩ : spike_t), ⟨0, Dbl.fin 0⟩, ⟨0, Dbl.fin 1⟩, ⟨0, Dbl.fin 2⟩] := by
  refine ⟨by decide!, by decide!, by decide!⟩

/-- Witness of C7: two neurons with pixel values 2 and 3 in the slot [0, 1). -/
theorem update_appends_sorted_slot_witness :
    ∃ o1, update zeroRand 8 fed2 = some o1 ∧
      ∃ (s : SlotRun) (seg : List spike_t),
        update_slot zeroRand 8 fed2 = some s ∧
        o1.out_spks = fed2.out_spks ++ seg ∧
        seg.Perm s.slot_spks ∧
        seg.Pairwise (fun a b => spk_time_comp b a = false ∧ spk_le a b) :=
  match h : update zeroRand 8 fed2 with
  | some o1 => ⟨o1, rfl, update_appends_sorted_slot zeroRand 8 fed2 o1 h⟩
  | none =>
    absurd (congrArg Option.isSome h)
      (by decide! : ¬ (update zeroRand 8 fed2).isSome = false)

/-- C8 (run that breaks the claim): on the 20-pixel grid with First_inp_ind = 2,
Inp_ind_inc = 3, Total_inputs = 4, a frame in which only the pixel at offset 11 is active
yields one spike, recorded with neuron index 3 (the count of admitted pixels before it), not
11; and a frame with every pixel active yields the neuron indices 0, 1, 2, 3. -/
theorem subsampled_spikes_carry_counter :
    (run zeroRand 8 sub20 [(Dbl.fin 0, frame11)]).map (fun o => o.out_spks)
      = some [⟨3, Dbl.fin (1 / 2)⟩] ∧
    (run zeroRand 8 sub20 [(Dbl.fin 0, List.replicate 20 (Dbl.fin 2))]).map
        (fun o => o.out_spks.map (fun a => a.neuron))
      = some [0, 1, 2, 3] := by
  decide!

/-- C10 (calls that break the claim): the gate tests the timestamp left by the previous call.
With the window [0, 2000] ms and slots of 1000 ms, the frame fed at 2000 ms is stored although
2000 + 1000 > 2000; with the window starting at 1000 ms, the frame fed at 1000 ms is dropped
although 1000 >= 1000. -/
theorem feedInput_tests_previous_timestamp :
    (feedInput windowed1 (Dbl.fin 2000) [Dbl.fin 1] true 0).inputImage = [Dbl.fin 1] ∧
    (Dbl.ge (Dbl.fin 2000) windowed1.Start_time
      && Dbl.le (Dbl.fin 2000 + windowed1.step) windowed1.End_time) = false ∧
    (feedInput late1 (Dbl.fin 1000) [Dbl.fin 1] true 0).inputImage = [] ∧
    (Dbl.ge (Dbl.fin 1000) late1.Start_time
      && Dbl.le (Dbl.fin 1000 + late1.step) late1.End_time) = true := by
  decide!

/-- Witness of C11: with the recording window starting at 2000 ms, the frame fed at 0 ms is
gated out and update() leaves the object as it is. -/
theorem update_empty_image_witness :
    (feedInput gated1 (Dbl.fin 0) [Dbl.fin 1] true 0).inputImage = [] ∧
    update zeroRand 0 (feedInput gated1 (Dbl.fin 0) [Dbl.fin 1] true 0)
      = some (feedInput gated1 (Dbl.fin 0) [Dbl.fin 1] true 0) :=
  ⟨by decide!, update_empty_image zeroRand 0 _ (by decide!)⟩

/-- Witness of C12: the values -1 and 3 on the one-neuron object. -/
theorem validating_setters_witness :
    Dbl.lt (Dbl.fin (-1)) (Dbl.fin 0) = true ∧ Dbl.ge (Dbl.fin 3) (Dbl.fin 0) = true ∧
    (set_Min_period grid1 (Dbl.fin (-1)) = (false, grid1) ∧
      set_Min_period grid1 (Dbl.fin 3) = (true, { grid1 with Min_period := Dbl.fin 3 })) ∧
    (set_Total_inputs grid1 (Dbl.fin (-1)) = (false, grid1) ∧
      set_Total_inputs grid1 (Dbl.fin 3)
        = (true, { grid1 with Total_inputs := Dbl.to_index (Dbl.fin 3) })) ∧
    Dbl.to_index (Dbl.fin 3) = 3 :=
  ⟨by decide!, by decide!,
    (validating_setters grid1 (Dbl.fin (-1)) (Dbl.fin 3) (by decide!) (by decide!)).1,
    (validating_setters grid1 (Dbl.fin (-1)) (Dbl.fin 3) (by decide!)
      (by decide!)).2.2.2.2.2.2.2.1,
    by decide!⟩

/-- C13 (counterexample): set_Input_threshold(-1) on an object whose threshold is 0 returns
true and leaves Input_threshold = -1. -/
theorem set_Input_threshold_takes_negative :
    Dbl.lt (Dbl.fin (-1)) (Dbl.fin 0) = true ∧
    grid1.Input_threshold = Dbl.fin 0 ∧
    (set_Input_threshold grid1 (Dbl.fin (-1))).1 = true ∧
    (set_Input_threshold grid1 (Dbl.fin (-1))).2.Input_threshold = Dbl.fin (-1) := by
  decide!

/-- Witness of C14: a batch of four pairs whose third value is rejected returns false with
the first two pairs applied (Min_period = 5, First_inp_ind = 2) and the rest untouched. -/
theorem setParameters_batch_witness :
    setParameters grid1 (batch4.map Prod.snd) (batch4.map Prod.fst)
      = some (false, apply_pairs grid1
          [("Min_period", Dbl.fin 5), ("First_inp_ind", Dbl.fin (5 / 2))]) ∧
    (setParameters grid1 (batch4.map Prod.snd) (batch4.map Prod.fst)).map
        (fun r => (r.1, r.2.Min_period, r.2.First_inp_ind, r.2.End_time, r.2.Start_time))
      = some (false, Dbl.fin 5, 2, Dbl.pinf, Dbl.fin 0) :=
  ⟨(setParameters_batch grid1 batch4).2.2.1
      [("Min_period", Dbl.fin 5), ("First_inp_ind", Dbl.fin (5 / 2))] "End_time" (Dbl.fin (-1))
      [("Start_time", Dbl.fin 7)] rfl (by decide!) (by decide!),
    by decide!⟩

/-- Witness of C15: the two-neuron object with default parameters. -/
theorem allocateValues_first_spike_witness :
    (SpikingOutput.init 2 1 (Dbl.fin 1000)).Random_init = Dbl.fin 0 ∧
    (allocateValues zeroRand (SpikingOutput.init 2 1 (Dbl.fin 1000))).last_firing_period
      = List.replicate (1 * 2) (Dbl.fin 1) ∧
    (allocateValues zeroRand (SpikingOutput.init 2 1 (Dbl.fin 1000))).next_spk_time
      = List.replicate (1 * 2) (Dbl.fin 1) ∧
    first_spk_time (Dbl.fin 0) (Dbl.fin 1) (Dbl.fin (1 / 2)) (Dbl.fin 1) = Dbl.fin (1 / 2) :=
  ⟨by decide!,
    (allocateValues_first_spike zeroRand (SpikingOutput.init 2 1 (Dbl.fin 1000))
      (by decide!)).1,
    (allocateValues_first_spike zeroRand (SpikingOutput.init 2 1 (Dbl.fin 1000))
      (by decide!)).2.1,
    (allocateValues_first_spike zeroRand (SpikingOutput.init 2 1 (Dbl.fin 1000))
      (by decide!)).2.2 (Dbl.fin 1) (Dbl.fin 1) (1 / 2) (by decide!) (by decide!)⟩

/-- Witness of C17: default parameters (hard limit 0) and pixel value 2. -/
theorem period_not_below_minimum_witness :
    Dbl.gt grid1.Min_period_std_dev (Dbl.fin 0) = false ∧
    Dbl.ge grid1.Min_period (Dbl.fin 0) = true ∧
    (inp_pixel_to_period zeroRand grid1.toConfig (Dbl.fin 0) 0 (Dbl.fin 2)).1 ≠ Dbl.nan ∧
    Dbl.ge (inp_pixel_to_period zeroRand grid1.toConfig (Dbl.fin 0) 0 (Dbl.fin 2)).1
      (grid1.Min_period / Dbl.fin 1000) = true :=
  ⟨by decide!, by decide!, by decide!,
    (period_not_below_minimum zeroRand grid1.toConfig (Dbl.fin 0) 0 (Dbl.fin 2)).2
      (by decide!) (by decide!) (by decide!)⟩

/-- Witness of C22: one neuron with the default parameters and two frames of pixel value 2;
the run with every draw equal to 3/4 and the generator at 5 returns what the run with every
draw equal to 0 and the generator at 0 returns, the spikes 1/2 s, 1 s and 3/2 s. -/
theorem no_jitter_seed_independent_witness :
    grid1.Spike_std_dev = Dbl.fin 0 ∧ grid1.Min_period_std_dev = Dbl.fin 0 ∧
    run (constRand (3 / 4)) 10 { grid1 with rand_gen := 5 } frames2 =
      (run zeroRand 10 grid1 frames2).map (fun o1 => { o1 with rand_gen := 5 }) ∧
    (run zeroRand 10 grid1 frames2).map (fun o1 => (o1.out_spks, o1.rand_gen)) =
      some ([{ neuron := 0, time := Dbl.fin (1 / 2) }, { neuron := 0, time := Dbl.fin 1 },
        { neuron := 0, time := Dbl.fin (3 / 2) }], 0) ∧
    (run (constRand (3 / 4)) 10 { grid1 with rand_gen := 5 } frames2).map
        (fun o1 => (o1.out_spks, o1.rand_gen)) =
      some ([{ neuron := 0, time := Dbl.fin (1 / 2) }, { neuron := 0, time := Dbl.fin 1 },
        { neuron := 0, time := Dbl.fin (3 / 2) }], 5) :=
  ⟨by decide!, by decide!,
    (no_jitter_seed_independent zeroRand (constRand (3 / 4)) 10 grid1 5 frames2 (by decide!)
      (by decide!)).2.2.1,
    by decide!, by decide!⟩

/-- C23 (failing input): set_Random_init(2) is accepted; with a uniform draw of 3/4,
allocateValues() leaves the neuron with last_firing_period = 1 and next_spk_time = -1/2, before
the start (time 0) of the first slot, and a phase offset of 3/2, not below the period; the
first update() with pixel value 1 then prints the diagnostic for a spike of a previous step and
emits a spike at -1/2 s. -/
theorem randomized_phase_out_of_range :
    set_Random_init (SpikingOutput.init 1 1 (Dbl.fin 1000)) (Dbl.fin 2) = (true, wide1) ∧
    Dbl.ge (Dbl.fin (3 / 4)) (Dbl.fin 0) = true ∧ Dbl.lt (Dbl.fin (3 / 4)) (Dbl.fin 1) = true ∧
    (allocateValues (constRand (3 / 4)) wide1).last_firing_period = [Dbl.fin 1] ∧
    (allocateValues (constRand (3 / 4)) wide1).next_spk_time = [Dbl.fin (-1 / 2)] ∧
    Dbl.lt (Dbl.fin (-1 / 2)) (Dbl.fin 0) = true ∧
    Dbl.fin 1 - Dbl.fin (-1 / 2) = Dbl.fin (3 / 2) ∧
    Dbl.lt (Dbl.fin (3 / 2)) (Dbl.fin 1) = false ∧
    (run (constRand (3 / 4)) 10 (allocateValues (constRand (3 / 4)) wide1)
        [(Dbl.fin 0, [Dbl.fin 1])]).map (fun o1 => (o1.out_spks, o1.cout)) =
      some ([{ neuron := 0, time := Dbl.fin (-1 / 2) }, { neuron := 0, time := Dbl.fin (1 / 2) }],
        [InternalError.previous_step (Dbl.fin (-1 / 2))]) :=
  ⟨rfl, by decide!, by decide!, by decide!, by decide!, by decide!, by decide!, by decide!,
    by decide!⟩

/-- The else branch of the emission loop is reachable when a Gamma sample is not finite: with
a first sample of 1/4 s and a second one of +infinity the loop body emits one spike at 1/4 s,
takes the branch and leaves the predicted time at the slot end. -/
theorem silent_branch_needs_infinite_sample :
    update_neuron_goes_silent infGamRand jit_cfg (Dbl.fin 0) (Dbl.fin 0) (Dbl.fin 1) 20 0
      (Dbl.fin 2) fresh = true ∧
    (update_neuron infGamRand jit_cfg (Dbl.fin 0) (Dbl.fin 0) (Dbl.fin 1) 20 0 (Dbl.fin 2)
      fresh).map (fun r => (r.slot_spks, r.next_spk_time, r.last_firing_period)) =
      some ([{ neuron := 0, time := Dbl.fin (1 / 4) }], Dbl.fin 1, Dbl.fin (1 / 4)) :=
  ⟨by decide!, by decide!⟩

/-- C2 (counterexample): default parameters, pixel value 10, the slot of 1000 ms at 0 ms, from
the state (1, 1).  The period and the first candidate are the double nearest to 0.1,
l = 3602879701896397/2^55; of the progression l, 2l, 3l, .. nine terms lie below the slot end 1
(the tenth is 10*l >= 1), but the loop body emits ten spikes, the third of which is not 3l and
the tenth of which is 1 - 2^(-53), and leaves next_spk_time = 4953959590107545/2^52, not
10*l. -/
theorem progression_fails_in_binary64 :
    (B64.inp_pixel_to_period zeroRand grid1.toConfig (Dbl.fin 0) 0 (Dbl.fin 10)).1
      = Dbl.fin (3602879701896397 / 36028797018963968) ∧
    B64.first_spk_time (Dbl.r64 (Dbl.fin 0 / Dbl.fin 1000)) fresh.next_spk_time
        (Dbl.fin (3602879701896397 / 36028797018963968)) fresh.last_firing_period
      = Dbl.fin (3602879701896397 / 36028797018963968) ∧
    Dbl.r64 (Dbl.r64 (Dbl.fin 0 / Dbl.fin 1000) + Dbl.r64 (Dbl.fin 1000 / Dbl.fin 1000))
      = Dbl.fin 1 ∧
    ((3602879701896397 / 36028797018963968 : ℚ) + 8 * (3602879701896397 / 36028797018963968) < 1 ∧
      (1 : ℚ) ≤ 3602879701896397 / 36028797018963968
        + 9 * (3602879701896397 / 36028797018963968)) ∧
    (B64.update_neuron zeroRand grid1.toConfig (Dbl.fin 0) (Dbl.r64 (Dbl.fin 0 / Dbl.fin 1000))
        (Dbl.r64 (Dbl.fin 1000 / Dbl.fin 1000)) 12 0 (Dbl.fin 10) fresh).map
        (fun r => (r.slot_spks.length, r.slot_spks[2]?, r.slot_spks[9]?, r.next_spk_time))
      = some (10, some { neuron := 0, time := Dbl.fin (1351079888211149 / 4503599627370496) },
          some { neuron := 0, time := Dbl.fin (9007199254740991 / 9007199254740992) },
          Dbl.fin (4953959590107545 / 4503599627370496)) ∧
    (1351079888211149 / 4503599627370496 : ℚ)
      ≠ 3602879701896397 / 36028797018963968 + 2 * (3602879701896397 / 36028797018963968) ∧
    (4953959590107545 / 4503599627370496 : ℚ)
      ≠ 3602879701896397 / 36028797018963968 + 9 * (3602879701896397 / 36028797018963968) := by
  refine ⟨by decide!, by decide!, by decide!, by decide!, by decide!, by decide!, by decide!⟩

/-- Witness of C2 (amended) at the input of the counterexample: ten running sums lie below the
slot end and the eleventh does not; the loop body returns with fuel 11. -/
theorem update_neuron_emits_running_sums_witness :
    ∃ r, B64.update_neuron zeroRand grid1.toConfig (Dbl.fin 0) (Dbl.r64 (Dbl.fin 0 / Dbl.fin 1000))
        (Dbl.r64 (Dbl.fin 1000 / Dbl.fin 1000)) 11 0 (Dbl.fin 10) fresh = some r ∧
      r.slot_spks = fresh.slot_spks ++ (List.range 10).map
        (fun k : Nat => (spike_t.mk 0
            (Nat.iterate (B64.next_sum (B64.inp_pixel_to_period zeroRand grid1.toConfig (Dbl.fin 0)
              fresh.rand_gen (Dbl.fin 10)).1) k
            (B64.first_spk_time (Dbl.r64 (Dbl.fin 0 / Dbl.fin 1000)) fresh.next_spk_time
              (B64.inp_pixel_to_period zeroRand grid1.toConfig (Dbl.fin 0) fresh.rand_gen
                (Dbl.fin 10)).1 fresh.last_firing_period)))) ∧
      r.last_firing_period
        = (B64.inp_pixel_to_period zeroRand grid1.toConfig (Dbl.fin 0) fresh.rand_gen
            (Dbl.fin 10)).1 ∧
      r.next_spk_time =
        Nat.iterate (B64.next_sum (B64.inp_pixel_to_period zeroRand grid1.toConfig (Dbl.fin 0)
            fresh.rand_gen (Dbl.fin 10)).1) 10
          (B64.first_spk_time (Dbl.r64 (Dbl.fin 0 / Dbl.fin 1000)) fresh.next_spk_time
            (B64.inp_pixel_to_period zeroRand grid1.toConfig (Dbl.fin 0) fresh.rand_gen
              (Dbl.fin 10)).1 fresh.last_firing_period) ∧
      r.rand_gen = fresh.rand_gen :=
  (update_neuron_emits_running_sums zeroRand grid1.toConfig (Dbl.fin 0)
    (Dbl.r64 (Dbl.fin 0 / Dbl.fin 1000)) (Dbl.r64 (Dbl.fin 1000 / Dbl.fin 1000)) (Dbl.fin 10) 0
    fresh (by decide!) (by decide!) (by decide!)).1 10 11 (by decide) (by decide!) (by decide!)

/-- C18 (failing input): one neuron, slots of 100 ms, default parameters, constant pixel value
10.  Before the slot at 700 ms the state is last_firing_period = 0.1 > 0 and
next_spk_time = 0.7, equal to the slot start; the call for that slot emits the spike 0.7 and
leaves next_spk_time = 7205759403792793/2^53, which lies below the sum of the slot start and
the slot length and below the start 3602879701896397/2^52 of the next slot; the call for the
slot at 800 ms then emits a spike at that time, before its slot start, and prints the
diagnostic for a spike of a previous step. -/
theorem phase_invariant_breaks_in_binary64 :
    (B64.run zeroRand 8 4096 grid100 (frames10 7)).map
        (fun o => (o.last_firing_period, o.next_spk_time, o.cout))
      = some ([Dbl.fin (3602879701896397 / 36028797018963968)],
          [Dbl.fin (3152519739159347 / 4503599627370496)], []) ∧
    Dbl.r64 (Dbl.fin 700 / Dbl.fin 1000) = Dbl.fin (3152519739159347 / 4503599627370496) ∧
    Dbl.r64 (Dbl.fin 100 / Dbl.fin 1000) = Dbl.fin (3602879701896397 / 36028797018963968) ∧
    (B64.inp_pixel_to_period zeroRand grid100.toConfig grid100.norm_dist_sigma 0 (Dbl.fin 10)).1
      = Dbl.fin (3602879701896397 / 36028797018963968) ∧
    (B64.run zeroRand 8 4096 grid100 (frames10 8)).map
        (fun o => (o.last_firing_period, o.next_spk_time, o.out_spks[6]?, o.cout))
      = some ([Dbl.fin (3602879701896397 / 36028797018963968)],
          [Dbl.fin (7205759403792793 / 9007199254740992)],
          some { neuron := 0, time := Dbl.fin (3152519739159347 / 4503599627370496) }, []) ∧
    (7205759403792793 / 9007199254740992 : ℚ)
      < 3152519739159347 / 4503599627370496 + 3602879701896397 / 36028797018963968 ∧
    Dbl.r64 (Dbl.fin 800 / Dbl.fin 1000) = Dbl.fin (3602879701896397 / 4503599627370496) ∧
    (7205759403792793 / 9007199254740992 : ℚ) < 3602879701896397 / 4503599627370496 ∧
    (B64.run zeroRand 8 4096 grid100 (frames10 9)).map
        (fun o => (o.out_spks[7]?, o.cout))
      = some (some { neuron := 0, time := Dbl.fin (7205759403792793 / 9007199254740992) },
          [InternalError.previous_step (Dbl.fin (7205759403792793 / 9007199254740992))]) := by
  refine ⟨by decide!, by decide!, by decide!, by decide!, by decide!, by decide!, by decide!,
    by decide!, by decide!⟩

/-- C19 (failing input): one neuron, slots of 1000 ms, default parameters except a gain of 10
(accepted by set_Freq_per_inp), from the state that allocateValues() leaves.  Frames of pixel
values 1e-201, 1e-201 and 1e308: the first call leaves period and predicted time at about
1e200; in the second call the first candidate overflows, next_spk_time = +inf and the
diagnostic for an indeterminate spike time is printed; in the third call the period of the
pixel underflows to 0, the first candidate is NaN, the emission loop is not entered and
update() returns with last_firing_period = 0.  A second input, without rounding: with
set_Random_init(+inf) and set_Freq_per_inp(-1), both accepted, and a uniform draw of 3/4,
allocateValues() leaves next_spk_time = -inf; for pixel value 2 the period saturates at
Min_period/1000 = 0, the first candidate is NaN and update() returns with
last_firing_period = 0, in binary64 and in exact arithmetic alike. -/
theorem update_leaves_zero_period :
    set_Freq_per_inp (SpikingOutput.init 1 1 (Dbl.fin 1000)) (Dbl.fin 10)
      = (true, { SpikingOutput.init 1 1 (Dbl.fin 1000) with Spk_freq_per_inp := Dbl.fin 10 }) ∧
    (B64.run zeroRand 8 4096 gain10 [(Dbl.fin 0, [tiny201])]).map
        (fun o => (o.last_firing_period.map Dbl.isfinite, o.next_spk_time.map Dbl.isfinite,
          decide (o.last_firing_period = o.next_spk_time), o.cout))
      = some ([true], [true], true, []) ∧
    (B64.run zeroRand 8 4096 gain10 [(Dbl.fin 0, [tiny201]), (Dbl.fin 1000, [tiny201])]).map
        (fun o => (o.next_spk_time, o.cout))
      = some ([Dbl.pinf], [InternalError.indeterminate Dbl.pinf]) ∧
    (B64.inp_pixel_to_period zeroRand gain10.toConfig gain10.norm_dist_sigma 0 huge308).1
      = Dbl.fin 0 ∧
    (B64.run zeroRand 8 4096 gain10
        [(Dbl.fin 0, [tiny201]), (Dbl.fin 1000, [tiny201]), (Dbl.fin 2000, [huge308])]).map
        (fun o => (o.last_firing_period, o.next_spk_time, o.out_spks, o.cout))
      = some ([Dbl.fin 0], [Dbl.nan], [],
          [InternalError.indeterminate Dbl.pinf, InternalError.indeterminate Dbl.nan]) ∧
    (set_Random_init (SpikingOutput.init 1 1 (Dbl.fin 1000)) Dbl.pinf).1 = true ∧
    (set_Freq_per_inp (SpikingOutput.init 1 1 (Dbl.fin 1000)) (Dbl.fin (-1))).1 = true ∧
    (allocateValues (constRand (3 / 4)) infinit1).last_firing_period = [Dbl.fin 1] ∧
    (allocateValues (constRand (3 / 4)) infinit1).next_spk_time = [Dbl.ninf] ∧
    (B64.run (constRand (3 / 4)) 8 4096 (allocateValues (constRand (3 / 4)) infinit1)
        [(Dbl.fin 0, [Dbl.fin 2])]).map
        (fun o => (o.last_firing_period, o.next_spk_time, o.out_spks, o.cout))
      = some ([Dbl.fin 0], [Dbl.nan], [], [InternalError.indeterminate Dbl.nan]) ∧
    (run (constRand (3 / 4)) 8 (allocateValues (constRand (3 / 4)) infinit1)
        [(Dbl.fin 0, [Dbl.fin 2])]).map
        (fun o => (o.last_firing_period, o.next_spk_time, o.out_spks, o.cout))
      = some ([Dbl.fin 0], [Dbl.nan], [], [InternalError.indeterminate Dbl.nan]) := by
  refine ⟨rfl, by decide!, by decide!, by decide!, by decide!, rfl, rfl, by decide!, by decide!,
    by decide!, by decide!⟩

/-- C9 (counterexample): a grid of two pixels, Inp_ind_inc = 2^61 (accepted by
set_Inp_ind_inc), Total_inputs = 3, a frame of two pixels of value 0.  The only offset
First_inp_ind + k*Inp_ind_inc below N is 0 (k = 0), but advancing a 64-bit iterator by 2^61
doubles brings it back to where it was: update() processes the pixel at offset 0 three times
and leaves its next_spk_time at 1 + 1 + 1 + 1 = 4 s, not at 2 s. -/
theorem pixel_loop_wraps_around :
    (set_Inp_ind_inc (SpikingOutput.init 2 1 (Dbl.fin 1000)) (Dbl.fin (2 ^ 61))).1 = true ∧
    (set_Inp_ind_inc (SpikingOutput.init 2 1 (Dbl.fin 1000)) (Dbl.fin (2 ^ 61))).2.Inp_ind_inc
      = 2 ^ 61 ∧
    1 ≤ wrap2.Inp_ind_inc ∧
    wrap2.next_spk_time = [Dbl.fin 1, Dbl.fin 1] ∧
    (∀ k : Nat, k < 3 →
      (wrap2.First_inp_ind + k * wrap2.Inp_ind_inc < wrap2.inputImage.length ↔ k = 0)) ∧
    (B64.update zeroRand 4 4096 wrap2).map (fun o => (o.next_spk_time, o.last_firing_period))
      = some ([Dbl.fin 4, Dbl.fin 1], [Dbl.fin 1, Dbl.fin 1]) := by
  refine ⟨by decide!, by decide!, by decide!, by decide!, by decide!, by decide!⟩

/-- Witness of C9 (amended): the subsampled grid of 20 pixels (First_inp_ind = 2,
Inp_ind_inc = 3, Total_inputs = 4) with the image at address 4096. -/
theorem update_visits_admitted_pixels_once_witness :
    ∃ o1, B64.update zeroRand 4 4096 (feedInput sub20 (Dbl.fin 0) frame11 true 0) = some o1 ∧
      ∃ m : Nat, m ≤ 4 ∧
        ((List.range m).map (fun k => 2 + k * 3)).Nodup ∧
        ∀ p : Nat, (∀ k : Nat, k < m → p ≠ 2 + k * 3) →
          o1.last_firing_period[p]? = sub20.last_firing_period[p]? ∧
          o1.next_spk_time[p]? = sub20.next_spk_time[p]? :=
  match h : B64.update zeroRand 4 4096 (feedInput sub20 (Dbl.fin 0) frame11 true 0) with
  | some o1 =>
    match update_visits_admitted_pixels_once zeroRand 4 4096
        (feedInput sub20 (Dbl.fin 0) frame11 true 0) o1 (by decide!) (by decide!) (by decide!)
        h with
    | ⟨m, h1, _, _, _, h5, h6⟩ => ⟨o1, rfl, m, h1, h5, h6⟩
  | none =>
    absurd (congrArg Option.isSome h)
      (by decide! : ¬ (B64.update zeroRand 4 4096
          (feedInput sub20 (Dbl.fin 0) frame11 true 0)).isSome = false)

/-- C21 (counterexample): Spike_std_dev = 100 and pixel value 2 (period p = 0.5 s).  The
variance that the code computes is 0.010000000000000002, the shape 24.999999999999996 and the
scale 0.020000000000000004: their product is not p and shape times scale squared is neither
the computed variance nor 1/100.  With Spike_std_dev = -1 and pixel value 5 the period is the
double 0.2 and the shape is 0.20000000000000004, not p. -/
theorem gamma_moments_not_exact :
    B64.firing_period_sec jit_cfg (Dbl.fin 2) = Dbl.fin (1 / 2) ∧
    B64.spk_variance_sec jit_cfg (Dbl.fin (1 / 2))
      = Dbl.fin (1441151880758559 / 144115188075855872) ∧
    B64.gam_k jit_cfg (Dbl.fin (1 / 2)) = Dbl.fin (7036874417766399 / 281474976710656) ∧
    B64.gam_theta jit_cfg (Dbl.fin (1 / 2)) = Dbl.fin (1441151880758559 / 72057594037927936) ∧
    B64.gam_k jit_cfg (Dbl.fin (1 / 2)) * B64.gam_theta jit_cfg (Dbl.fin (1 / 2))
      ≠ Dbl.fin (1 / 2) ∧
    B64.gam_k jit_cfg (Dbl.fin (1 / 2)) * B64.gam_theta jit_cfg (Dbl.fin (1 / 2))
        * B64.gam_theta jit_cfg (Dbl.fin (1 / 2))
      ≠ B64.spk_variance_sec jit_cfg (Dbl.fin (1 / 2)) ∧
    B64.gam_k jit_cfg (Dbl.fin (1 / 2)) * B64.gam_theta jit_cfg (Dbl.fin (1 / 2))
        * B64.gam_theta jit_cfg (Dbl.fin (1 / 2))
      ≠ Dbl.fin (1 / 100) ∧
    B64.firing_period_sec fano_cfg (Dbl.fin 5)
      = Dbl.fin (3602879701896397 / 18014398509481984) ∧
    B64.gam_k fano_cfg (Dbl.fin (3602879701896397 / 18014398509481984))
      = Dbl.fin (7205759403792795 / 36028797018963968) ∧
    B64.gam_k fano_cfg (Dbl.fin (3602879701896397 / 18014398509481984))
      ≠ Dbl.fin (3602879701896397 / 18014398509481984) := by
  refine ⟨by decide!, by decide!, by decide!, by decide!, by decide!, by decide!, by decide!,
    by decide!, by decide!, by decide!⟩

/-- Witness of C21 (amended) for a jitter of 100 ms on pixel value 2: the product of shape
and scale is within 2^(-51) of the period 1/2 s, relatively, and shape times scale squared
within 2^(-50) of the computed variance. -/
theorem gamma_params_moments_rounded_witness :
    jit_cfg.Spike_std_dev ≠ Dbl.fin 0 ∧
    B64.firing_period_sec jit_cfg (Dbl.fin 2) = Dbl.fin (1 / 2) ∧
    B64.gam_k jit_cfg (Dbl.fin (1 / 2)) = Dbl.fin (7036874417766399 / 281474976710656) ∧
    B64.gam_theta jit_cfg (Dbl.fin (1 / 2)) = Dbl.fin (1441151880758559 / 72057594037927936) ∧
    |(7036874417766399 / 281474976710656 : ℚ) * (1441151880758559 / 72057594037927936)
        - 1 / 2| ≤ |(1 / 2 : ℚ)| * Dbl.pow2 (-51) ∧
    |(7036874417766399 / 281474976710656 : ℚ) * (1441151880758559 / 72057594037927936)
        * (1441151880758559 / 72057594037927936) - 1441151880758559 / 144115188075855872|
      ≤ |(1441151880758559 / 144115188075855872 : ℚ)| * Dbl.pow2 (-50) :=
  ⟨by decide!, by decide!, by decide!, by decide!,
    ((gamma_params_moments_rounded zeroRand jit_cfg (Dbl.fin 0) 0 (Dbl.fin 2) (1 / 2)
      (by decide!) (by decide!) (by norm_num)).2.2.2
        (1441151880758559 / 144115188075855872) (7036874417766399 / 281474976710656)
        (1441151880758559 / 72057594037927936) (by decide!) (by norm_num) (by decide!)
        (by decide!) (by decide!)
        (fun pp hpp => by
          have e : Dbl.round64 (1 / 2 * (1 / 2)) = Dbl.fin (1 / 4) := by decide!
          rw [e] at hpp
          injection hpp with hpp
          subst hpp
          decide!)
        (by decide!)).2.2⟩

/-- C24 (counterexample): one neuron from the state that allocateValues leaves
(last_firing_period = 1 s, next_spk_time = 1 s), slot [1, 2) s.  With Min_period = 200 ms and
pixel value 8 update() appends 6 spikes (1, 1.2, 1.4, 1.5999999999999999, 1.7999999999999998
and 1.9999999999999998 s), more than ceil(dt / (m/1000)) = 5.  With Min_period = 1e-13 ms
(the double nearest to it) and pixel value 1e17 the period is the double 1e-16, adding it to
the candidate time 1 gives 1 again, and update() does not return, whatever the fuel. -/
theorem spike_bound_fails_in_binary64 :
    refr200.Min_period = Dbl.fin 200 ∧ refr200.Min_period_std_dev = Dbl.fin 0 ∧
    1 ≤ refr200.Inp_ind_inc ∧ refr200.simTime = Dbl.fin 1000 ∧ refr200.step = Dbl.fin 1000 ∧
    refr200.last_firing_period = [Dbl.fin 1] ∧ refr200.next_spk_time = [Dbl.fin 1] ∧
    ⌈(1000 : ℚ) / 1000 / (200 / 1000)⌉₊ = 5 ∧
    (B64.update zeroRand 8 4096 refr200).map (fun o => o.out_spks.map (fun a => a.time))
      = some [Dbl.fin 1, Dbl.fin (5404319552844595 / 4503599627370496),
          Dbl.fin (3152519739159347 / 2251799813685248),
          Dbl.fin (7205759403792793 / 4503599627370496),
          Dbl.fin (2026619832316723 / 1125899906842624),
          Dbl.fin (9007199254740991 / 4503599627370496)] ∧
    refr_tiny.Min_period = Dbl.fin (3961408125713217 / 39614081257132168796771975168) ∧
    refr_tiny.Min_period_std_dev = Dbl.fin 0 ∧ 1 ≤ refr_tiny.Inp_ind_inc ∧
    refr_tiny.last_firing_period = [Dbl.fin 1] ∧ refr_tiny.next_spk_time = [Dbl.fin 1] ∧
    ∀ fuel : Nat, B64.update zeroRand fuel 4096 refr_tiny = none := by
  have hK : ⌈(1000 : ℚ) / 1000 / (200 / 1000)⌉₊ = 5 := by
    rw [show (1000 : ℚ) / 1000 / (200 / 1000) = ((5 : ℕ) : ℚ) by norm_num]
    exact Nat.ceil_natCast 5
  refine ⟨by decide!, by decide!, by decide!, by decide!, by decide!, by decide!, by decide!,
    hK, by decide!, by decide!, by decide!, by decide!, by decide!, by decide!, ?_⟩
  intro fuel
  have hL : B64.inp_pixel_to_period zeroRand refr_tiny.toConfig refr_tiny.norm_dist_sigma 0
      (Dbl.fin ((10 ^ 17 : Nat) : ℚ))
      = (Dbl.fin (2028240960365167 / 20282409603651670423947251286016), 0) := by decide!
  have hdet : ∀ g, B64.inp_pixel_to_period zeroRand refr_tiny.toConfig refr_tiny.norm_dist_sigma
      g (Dbl.fin ((10 ^ 17 : Nat) : ℚ))
      = (Dbl.fin (2028240960365167 / 20282409603651670423947251286016), g) := by
    intro g
    rw [B64.inp_pixel_to_period_const_b64 zeroRand _ _ _ (by decide!) (by decide!) g 0, hL]
  have hfix : ∀ k : Nat,
      Nat.iterate (B64.next_sum (Dbl.fin (2028240960365167 / 20282409603651670423947251286016)))
        k (Dbl.fin 1) = Dbl.fin 1 := by
    intro k
    induction k with
    | zero => rfl
    | succ k ih =>
      rw [Function.iterate_succ_apply,
        show B64.next_sum (Dbl.fin (2028240960365167 / 20282409603651670423947251286016))
          (Dbl.fin 1) = Dbl.fin 1 by decide!]
      exact ih
  have hfirst : B64.first_spk_time (Dbl.r64 (Dbl.fin 1000 / Dbl.fin 1000)) (Dbl.fin 1)
      (Dbl.fin (2028240960365167 / 20282409603651670423947251286016)) (Dbl.fin 1)
      = Dbl.fin 1 := by decide!
  have hnone := (B64.update_neuron_const_b64 zeroRand refr_tiny.toConfig refr_tiny.norm_dist_sigma
    (Dbl.r64 (Dbl.fin 1000 / Dbl.fin 1000)) (Dbl.r64 (Dbl.fin 1000 / Dbl.fin 1000))
    (Dbl.fin ((10 ^ 17 : Nat) : ℚ))
    (Dbl.fin (2028240960365167 / 20282409603651670423947251286016)) 0
    { last_firing_period := Dbl.fin 1, next_spk_time := Dbl.fin 1, slot_spks := [],
      rand_gen := 0, cout := [] } rfl hdet).2
    (fun k => by
      show Dbl.lt (Nat.iterate _ k (B64.first_spk_time _ (Dbl.fin 1) _ (Dbl.fin 1))) _ = true
      rw [hfirst, hfix k]
      decide!) fuel
  have e1 : refr_tiny.inputImage = [Dbl.fin ((10 ^ 17 : Nat) : ℚ)] := by decide!
  have e2 : refr_tiny.last_firing_period = [Dbl.fin 1] := by decide!
  have e3 : refr_tiny.next_spk_time = [Dbl.fin 1] := by decide!
  have e4 : refr_tiny.Total_inputs = (2 ^ 64 - 2) + 1 := by decide!
  have e5 : refr_tiny.First_inp_ind = 0 := by decide!
  have e6 : refr_tiny.simTime = Dbl.fin 1000 := by decide!
  have e7 : refr_tiny.step = Dbl.fin 1000 := by decide!
  have e8 : refr_tiny.rand_gen = 0 := by decide!
  have e9 : refr_tiny.cout = [] := by decide!
  unfold B64.update B64.update_slot
  rw [e4, e5]
  simp only [B64.pixel_loop, e1, e2, e3, e6, e7, e8, e9, List.length_singleton, Nat.zero_mod,
    Nat.lt_one_iff, if_true, B64.update_pixel, List.getElem?_cons_zero, hnone]

/-- Witness of C24 (amended): one neuron with a hard limit of 200 ms in the slot [1, 2) s and
pixel value 8 (rate 8 Hz, saturated to 5 Hz), with B = 2 and delta = 1/5 - 2^(-51):
update() returns with fuel 8 and appends 6 spikes, not more than
ceil((2 - 1) / delta) = 6. -/
theorem update_terminates_bounded_binary64_witness :
    refr200.Min_period = Dbl.fin 200 ∧ refr200.Min_period_std_dev = Dbl.fin 0 ∧
    1 ≤ refr200.Inp_ind_inc ∧
    Dbl.r64 (refr200.simTime / Dbl.fin 1000) = Dbl.fin 1 ∧
    Dbl.r64 (Dbl.fin 1 + Dbl.r64 (refr200.step / Dbl.fin 1000)) = Dbl.fin 2 ∧
    ⌈((2 : ℚ) - 1) / (1 / 5 - 1 / 2 ^ 51)⌉₊ = 6 ∧
    (∃ (n : Nat) (o1 : SpikingOutput) (seg : List spike_t),
      n ≤ refr200.inputImage.length ∧ B64.update (constRand (3 / 4)) 8 4096 refr200 = some o1 ∧
      o1.out_spks = refr200.out_spks ++ seg ∧
      (∀ j : Nat, seg.countP (fun a => decide (a.neuron = j))
        ≤ ⌈((2 : ℚ) - 1) / (1 / 5 - 1 / 2 ^ 51)⌉₊) ∧
      seg.length ≤ n * ⌈((2 : ℚ) - 1) / (1 / 5 - 1 / 2 ^ 51)⌉₊) ∧
    (B64.update (constRand (3 / 4)) 8 4096 refr200).map (fun o1 => o1.out_spks.length)
      = some 6 :=
  have hK : ⌈((2 : ℚ) - 1) / (1 / 5 - 1 / 2 ^ 51)⌉₊ = 6 := by
    rw [Nat.ceil_eq_iff (by norm_num)]
    constructor <;> norm_num
  ⟨by decide!, by decide!, by decide!, by decide!, by decide!, hK,
    match (update_terminates_bounded_binary64 (constRand (3 / 4)) refr200 200
      (3602879701896397 / 18014398509481984) 1 2 2 (1 / 5 - 1 / 2 ^ 51) 4096
      (by decide!) (by decide!) (by decide!) (by decide!) (by decide!) (by decide!)
      (by decide!) (by decide!) (by norm_num) (by norm_num) (by norm_num) (by decide!)
      (fun i hi => by
        have hi0 : i = 0 := by
          have : refr200.inputImage.length = 1 := by decide!
          omega
        subst hi0
        exact ⟨Dbl.fin 1, Dbl.fin 1, by decide!, by decide!, by decide!, by decide!⟩)
      8 (by rw [hK]; norm_num)).2.2 with
    | ⟨n, o1, seg, h1, _, _, h4, h5, _, h7, h8⟩ => ⟨n, o1, seg, h1, h4, h5, h7, h8⟩,
    by decide!⟩

/-- C16 (failing input): one neuron with a hard limit of 50 ms (Min_period_std_dev = 0), from
the state that allocateValues leaves (last_firing_period = 1 s, next_spk_time = 1 s), nine
contiguous admitted slots of 100 ms, pixel value 10 in the first eight and 2^(-46) in the
ninth.  In binary64 slot 8 ends at fl(0.7 + 0.1) = 0.7999999999999999 and leaves
next_spk_time there, below the start 0.8 of slot 9; the phase rule then places the first
spike of slot 9 at 0.721875 s, update() prints the internal error of a spike for a previous
step, and the spike is emitted 0.021875 s after the spike at 0.7 s, less than
Min_period/1000 = 0.05 s.  Rounding alone does it on a smaller scale: with a limit of 100 ms
and pixel value 20 in the slot [0, 1) the third and fourth spikes (0.30000000000000004 and
0.4 s) are less than 0.1 s apart. -/
theorem refractory_gap_violated_in_binary64 :
    refr50.Min_period = Dbl.fin 50 ∧ refr50.Min_period_std_dev = Dbl.fin 0 ∧
    refr50.last_firing_period = [Dbl.fin 1] ∧ refr50.next_spk_time = [Dbl.fin 1] ∧
    (B64.run zeroRand 8 4096 refr50 (frames10 8)).map
        (fun o => (o.last_firing_period, o.next_spk_time, o.cout))
      = some ([Dbl.fin (3602879701896397 / 36028797018963968)],
          [Dbl.fin (7205759403792793 / 9007199254740992)], []) ∧
    (7205759403792793 / 9007199254740992 : ℚ) < 800 / 1000 ∧
    (B64.run zeroRand 8 4096 refr50 frames_drop).map
        (fun o => ((o.out_spks.map (fun a => a.time)).drop 6, o.cout))
      = some ([Dbl.fin (3152519739159347 / 4503599627370496),
          Dbl.fin (3251035981008077 / 4503599627370496)],
          [InternalError.previous_step (Dbl.fin (3251035981008077 / 4503599627370496))]) ∧
    (3251035981008077 / 4503599627370496 : ℚ) - 3152519739159347 / 4503599627370496
      < 50 / 1000 ∧
    refr100.Min_period = Dbl.fin 100 ∧ refr100.Min_period_std_dev = Dbl.fin 0 ∧
    (B64.update zeroRand 12 4096 refr100).map
        (fun o => ((o.out_spks.map (fun a => a.time)).drop 2).take 2)
      = some [Dbl.fin (1351079888211149 / 4503599627370496),
          Dbl.fin (3602879701896397 / 9007199254740992)] ∧
    (3602879701896397 / 9007199254740992 : ℚ) - 1351079888211149 / 4503599627370496
      < 100 / 1000 := by
  refine ⟨by decide!, by decide!, by decide!, by decide!, by decide!, by norm_num, by decide!,
    by norm_num, by decide!, by decide!, by decide!, by norm_num⟩

/-- C20 (failing input): one neuron with the default parameters and constant pixel value 10,
in the state that seven slots of 100 ms leave (last_firing_period = 0.1 s,
next_spk_time = 0.7 s).  One call of update() over [0.7, 0.9) (step = 200 ms) appends the
spikes 0.7 and 0.7999999999999999 s and leaves next_spk_time = 0.8999999999999999 s.  Two
calls over [0.7, 0.8) and [0.8, 0.9) (step = 100 ms) append 0.7, 0.7999999999999999 and
0.8999999999999999 s, leave next_spk_time = 0.9999999999999999 s and print the internal error
of a spike for a previous step: the first call leaves next_spk_time at
fl(0.7 + 0.1) = 0.7999999999999999, below the start 0.8 of the second.  The same from the
state after four slots (next_spk_time = 0.4 s) without any message: one call over [0.4, 0.6)
appends 0.4, 0.5 and 0.6 s, two calls over [0.4, 0.5) and [0.5, 0.6) append 0.4 and
0.5 s. -/
theorem slot_split_changes_spikes_in_binary64 :
    (after10 7).last_firing_period = [Dbl.fin (3602879701896397 / 36028797018963968)] ∧
    (after10 7).next_spk_time = [Dbl.fin (3152519739159347 / 4503599627370496)] ∧
    (after10 7).out_spks.length = 6 ∧ (after10 7).cout = [] ∧
    (B64.update zeroRand 8 4096
        (B64.feedInput { after10 7 with step := Dbl.fin 200 } (Dbl.fin 700) [Dbl.fin 10]
          true 0)).map
        (fun o => ((o.out_spks.map (fun a => a.time)).drop 6, o.next_spk_time, o.cout))
      = some ([Dbl.fin (3152519739159347 / 4503599627370496),
          Dbl.fin (7205759403792793 / 9007199254740992)],
          [Dbl.fin (2026619832316723 / 2251799813685248)], []) ∧
    (B64.run zeroRand 8 4096 (after10 7)
        [(Dbl.fin 700, [Dbl.fin 10]), (Dbl.fin 800, [Dbl.fin 10])]).map
        (fun o => ((o.out_spks.map (fun a => a.time)).drop 6, o.next_spk_time, o.cout))
      = some ([Dbl.fin (3152519739159347 / 4503599627370496),
          Dbl.fin (7205759403792793 / 9007199254740992),
          Dbl.fin (2026619832316723 / 2251799813685248)],
          [Dbl.fin (9007199254740991 / 9007199254740992)],
          [InternalError.previous_step (Dbl.fin (7205759403792793 / 9007199254740992))]) ∧
    (after10 4).last_firing_period = [Dbl.fin (3602879701896397 / 36028797018963968)] ∧
    (after10 4).next_spk_time = [Dbl.fin (3602879701896397 / 9007199254740992)] ∧
    (after10 4).out_spks.length = 3 ∧
    (B64.update zeroRand 8 4096
        (B64.feedInput { after10 4 with step := Dbl.fin 200 } (Dbl.fin 400) [Dbl.fin 10]
          true 0)).map
        (fun o => ((o.out_spks.map (fun a => a.time)).drop 3, o.next_spk_time, o.cout))
      = some ([Dbl.fin (3602879701896397 / 9007199254740992), Dbl.fin (1 / 2),
          Dbl.fin (5404319552844595 / 9007199254740992)],
          [Dbl.fin (3152519739159347 / 4503599627370496)], []) ∧
    (B64.run zeroRand 8 4096 (after10 4)
        [(Dbl.fin 400, [Dbl.fin 10]), (Dbl.fin 500, [Dbl.fin 10])]).map
        (fun o => ((o.out_spks.map (fun a => a.time)).drop 3, o.next_spk_time, o.cout))
      = some ([Dbl.fin (3602879701896397 / 9007199254740992), Dbl.fin (1 / 2)],
          [Dbl.fin (5404319552844595 / 9007199254740992)], []) := by
  refine ⟨by decide!, by decide!, by decide!, by decide!, by decide!, by decide!, by decide!,
    by decide!, by decide!, by decide!, by decide!⟩

end COREM
